import Mathlib

/-!
# mipsdisasm: label table, hi/lo linker, Pass 1 and Pass 2

A shallow embedding of `src/mipsdisasm/mipsdisasm.c`.

* C `unsigned int` values are natural numbers below `2^32`; casts and
  wrap-around are written out with `% 2^32`.
* C `int` indices that can be `-1` (`labels_find`, `linked_insn`) are `Int`.
* A C string is a `String`, one character per byte.
* A growable C array (`label_buf.labels`, `asm_block.instructions`,
  `disasm_state.blocks`) is a `List`; its `count` is the list's length.
* The instruction decoder (capstone) is outside the repository: its
  instruction identifiers are the constructors of `mips_insn`, and the decode
  call is a parameter of the functions that use it.
* The loops of `disassemble_block` that decode run for a given number of
  iterations; a loop still running then ends in `halt.out_of_fuel` with its
  variables.
* The text Pass 2 writes to `out` is a list with one entry per `fprintf` or
  `fputc` call, in order. The C library's `%g` and the content of the buffer
  `previous_instruction` on entry, which the code does not set, are parameters.
-/

namespace MipsDisasm

/-! ## Data model -/

/-- One entry of a label table (`asm_label`): a name at a virtual address. -/
structure asm_label where
  name : String
  vaddr : Nat
  deriving DecidableEq, Repr

/-- A label table (`label_buf`): `labels` holds the `count` used entries,
`alloc` is the allocated capacity. -/
structure label_buf where
  labels : List asm_label
  alloc : Nat
  deriving DecidableEq, Repr

/-- The `count` field of a `label_buf`. -/
def label_buf.count (buf : label_buf) : Nat := buf.labels.length

/-- One upper-case hexadecimal digit, as `%X` prints it. -/
def hexDigit : Nat → Char
  | 0 => '0' | 1 => '1' | 2 => '2' | 3 => '3'
  | 4 => '4' | 5 => '5' | 6 => '6' | 7 => '7'
  | 8 => '8' | 9 => '9' | 10 => 'A' | 11 => 'B'
  | 12 => 'C' | 13 => 'D' | 14 => 'E' | _ => 'F'

/-- The text `sprintf` writes for `%08X` with an `unsigned int` argument
`v < 2^32`: eight upper-case hexadecimal digits, zero-padded. -/
def fmt_08X (v : Nat) : String :=
  String.mk [hexDigit (v / 0x10000000 % 16), hexDigit (v / 0x1000000 % 16),
    hexDigit (v / 0x100000 % 16), hexDigit (v / 0x10000 % 16),
    hexDigit (v / 0x1000 % 16), hexDigit (v / 0x100 % 16),
    hexDigit (v / 0x10 % 16), hexDigit (v % 16)]

/-! ## Label table -/

/-- Default label buffer allocate (`labels_alloc`). -/
def labels_alloc : label_buf := { labels := [], alloc := 128 }

/-- Append a label (`labels_add`); `name = none` is the C `NULL`. -/
def labels_add (buf : label_buf) (name : Option String) (vaddr : Nat) : label_buf :=
  let alloc := if buf.count ≥ buf.alloc then buf.alloc * 2 else buf.alloc
  let l : asm_label :=
    match name with
    | none => { name := "L" ++ fmt_08X vaddr, vaddr := vaddr }
    | some n => { name := n, vaddr := vaddr }
  { labels := buf.labels ++ [l], alloc := alloc }

/-- The C library's `strcmp` on the bytes of two strings: the sign of the
difference at the first position where they differ. -/
def strcmp : List Char → List Char → Int
  | [], [] => 0
  | [], _ :: _ => -1
  | _ :: _, [] => 1
  | a :: as, b :: bs =>
    if a = b then strcmp as bs else if a.toNat < b.toNat then -1 else 1

/-- Comparator of two labels (`label_cmp`): first by vaddr, then by name. -/
def label_cmp (ala alb : asm_label) : Int :=
  if ala.vaddr > alb.vaddr then 1
  else if alb.vaddr > ala.vaddr then -1
  else strcmp ala.name.data alb.name.data

/-- The C library's `qsort`, by its contract: the elements rearranged into
non-decreasing order of the comparator `cmp`. -/
def qsort {α : Type} (cmp : α → α → Int) (l : List α) : List α :=
  l.insertionSort (fun a b => cmp a b ≤ 0)

/-- Sort a label table (`labels_sort`). -/
def labels_sort (buf : label_buf) : label_buf :=
  { buf with labels := qsort label_cmp buf.labels }

/-- The loop of `labels_find`, entered at index `i` with `labels` the entries
from `i` on. -/
def labels_find_from (vaddr : Nat) : List asm_label → Nat → Int
  | [], _ => -1
  | l :: rest, i => if l.vaddr = vaddr then (i : Int) else labels_find_from vaddr rest (i + 1)

/-- Index of the first label at `vaddr`, `-1` when there is none
(`labels_find`). -/
def labels_find (buf : label_buf) (vaddr : Nat) : Int :=
  labels_find_from vaddr buf.labels 0

/-! ## Instructions, blocks and the session -/

/-- Instruction identifiers of the decoder (`MIPS_INS_*`): the ones the
disassembler tests by name, `MIPS_INS_BEQ` of the spec's examples, and
`MIPS_INS_OTHER n` for every other one. -/
inductive mips_insn
  | MIPS_INS_ADD | MIPS_INS_ADDIU | MIPS_INS_ADDU | MIPS_INS_BAL | MIPS_INS_BEQ | MIPS_INS_J
  | MIPS_INS_JAL | MIPS_INS_JALR | MIPS_INS_JR | MIPS_INS_LB | MIPS_INS_LBU
  | MIPS_INS_LD | MIPS_INS_LDL | MIPS_INS_LDR | MIPS_INS_LH | MIPS_INS_LHU
  | MIPS_INS_LI | MIPS_INS_LUI | MIPS_INS_LW | MIPS_INS_LWC1 | MIPS_INS_LWC2
  | MIPS_INS_LWC3 | MIPS_INS_LWU | MIPS_INS_MFC0 | MIPS_INS_MTC0 | MIPS_INS_MTC1
  | MIPS_INS_ORI | MIPS_INS_SB | MIPS_INS_SD | MIPS_INS_SH | MIPS_INS_SUB
  | MIPS_INS_SUBU | MIPS_INS_SW | MIPS_INS_SWC1 | MIPS_INS_SWC2 | MIPS_INS_SWC3
  | MIPS_INS_OTHER (n : Nat)
  deriving DecidableEq, Repr

open mips_insn

/-- Operand kinds of the decoder (`mips_op_type`). -/
inductive mips_op_type
  | MIPS_OP_INVALID | MIPS_OP_REG | MIPS_OP_IMM | MIPS_OP_MEM
  deriving DecidableEq, Repr

open mips_op_type

/-- One decoded operand (`cs_mips_op`). The C type overlays `reg`, `imm` and
`mem` in a union; here they are separate fields, so every statement proved for
all operands also covers the overlaid ones. -/
structure cs_mips_op where
  type : mips_op_type
  reg : Nat
  imm : Int
  mem_base : Nat
  mem_disp : Int
  deriving DecidableEq, Repr

instance : Inhabited cs_mips_op :=
  ⟨{ type := MIPS_OP_INVALID, reg := 0, imm := 0, mem_base := 0, mem_disp := 0 }⟩

/-- Register numbers of the decoder (`mips_reg`): `MIPS_REG_0` is 2. -/
def MIPS_REG_ZERO : Nat := 2
/-- Register `$a0` (`MIPS_REG_4`). -/
def MIPS_REG_A0 : Nat := 6
/-- Register `$t0` (`MIPS_REG_8`). -/
def MIPS_REG_T0 : Nat := 10
/-- Register `$ra` (`MIPS_REG_31`). -/
def MIPS_REG_RA : Nat := 33

/-- One instruction of a block (`disasm_data`). `linked_value` holds the 32
bits of the C union of `linked_value` and `linked_float`. -/
structure disasm_data where
  id : mips_insn
  bytes : List Nat
  op_str : String
  mnemonic : String
  operands : List cs_mips_op
  op_count : Nat
  is_jump : Bool
  linked_insn : Int
  linked_value : Nat
  newline : Bool
  deriving DecidableEq, Repr

instance : Inhabited disasm_data :=
  ⟨{ id := MIPS_INS_OTHER 0, bytes := [], op_str := "", mnemonic := "", operands := [],
     op_count := 0, is_jump := false, linked_insn := 0, linked_value := 0, newline := false }⟩

/-- The operand `d.operands[o]`. -/
def disasm_data.op (d : disasm_data) (o : Nat) : cs_mips_op := d.operands.getD o default

/-- A block (`asm_block`); `instruction_count` is the length of `instructions`. -/
structure asm_block where
  locals : label_buf
  instructions : List disasm_data
  offset : Nat
  length : Nat
  vaddr : Nat
  deriving DecidableEq, Repr

instance : Inhabited asm_block :=
  ⟨{ locals := labels_alloc, instructions := [], offset := 0, length := 0, vaddr := 0 }⟩

/-- The `instruction_count` field of a block. -/
def asm_block.instruction_count (b : asm_block) : Nat := b.instructions.length

/-- Output dialect (`asm_syntax` of `mipsdisasm.h`). -/
inductive asm_syntax
  | ASM_GAS | ASM_ARMIPS
  deriving DecidableEq, Repr

open asm_syntax

/-- The disassembler state (`disasm_state`); `block_count` is the length of
`blocks`, `merge_pseudo` is true for a non-zero C value. The field `syntax` of
the source is `syntax_` here. -/
structure disasm_state where
  globals : label_buf
  blocks : List asm_block
  syntax_ : asm_syntax
  merge_pseudo : Bool
  deriving DecidableEq, Repr

/-- The block `state->blocks[block_id]`. -/
def disasm_state.block (state : disasm_state) (block_id : Nat) : asm_block :=
  state.blocks.getD block_id default

/-- The instruction `insn[i]` of an instruction array. -/
def insn_at (insn : List disasm_data) (i : Nat) : disasm_data := insn.getD i default

/-- Conversion of a C `int64_t` to `unsigned int`. -/
def to_u32 (x : Int) : Nat := (x % 4294967296).toNat

/-! ## Hi/lo linker -/

/-- The lookback window of `link_with_lui` (`MAX_LOOKBACK`). -/
def MAX_LOOKBACK : Nat := 128

/-- The test of lines 155-161: the ids after which `link_with_lui` stops when
the instruction's first operand is the register searched for. -/
def is_lui_scan_redefinition (id : mips_insn) : Bool :=
  id = MIPS_INS_LW || id = MIPS_INS_LD || id = MIPS_INS_ADDIU || id = MIPS_INS_ADDU ||
  id = MIPS_INS_ADD || id = MIPS_INS_SUB || id = MIPS_INS_SUBU

/-- Lines 138-152: what `link_with_lui` does on `state->globals` and
`insn = block->instructions` once the LUI is found at index `search`. -/
def link_lui_pair (offset mem_imm search : Nat) (globals : label_buf)
    (insn : List disasm_data) : label_buf × List disasm_data :=
  let lui_imm := to_u32 ((insn_at insn search).op 1).imm
  let addr := ((lui_imm * 65536) % 4294967296 + mem_imm) % 4294967296
  let insn1 := insn.set search
    { insn_at insn search with linked_insn := (offset : Int), linked_value := addr }
  let insn2 := insn1.set offset
    { insn_at insn1 offset with linked_insn := (search : Int), linked_value := addr }
  -- if not ORI, create global data label if one does not exist
  if (insn_at insn2 offset).id ≠ MIPS_INS_ORI then
    if labels_find globals addr < 0 then
      (labels_add globals (some ("D_" ++ fmt_08X addr)) addr, insn2)
    else (globals, insn2)
  else (globals, insn2)

/-- The `for` loop of `link_with_lui` on `state->globals` and
`insn = block->instructions`, entered with `search = n - 1`; the `break`s
return, the fall-through goes on with `search - 1`. -/
def link_with_lui_loop (offset reg mem_imm end_search : Nat) (globals : label_buf)
    (insn : List disasm_data) : Nat → label_buf × List disasm_data
  | 0 => (globals, insn)
  | search + 1 =>
    if search < end_search then (globals, insn)
    else if (insn_at insn search).id = MIPS_INS_LUI then
      let rd := ((insn_at insn search).op 0).reg
      if reg = rd then link_lui_pair offset mem_imm search globals insn
      else link_with_lui_loop offset reg mem_imm end_search globals insn search
    else if is_lui_scan_redefinition (insn_at insn search).id then
      let rd := ((insn_at insn search).op 0).reg
      if reg = rd then (globals, insn)
      else link_with_lui_loop offset reg mem_imm end_search globals insn search
    else if (insn_at insn search).id = MIPS_INS_JR
        ∧ ((insn_at insn search).op 0).reg = MIPS_REG_RA then (globals, insn)
    else link_with_lui_loop offset reg mem_imm end_search globals insn search

/-- The body of `link_with_lui` on `state->globals` and the instructions of
the block: nothing for a zero `mem_imm`, else the backward search from
`offset - 1` down to `MAX(0, offset - MAX_LOOKBACK)`. -/
def link_with_lui_body (offset reg mem_imm : Nat) (globals : label_buf)
    (insn : List disasm_data) : label_buf × List disasm_data :=
  if mem_imm ≠ 0 then
    let end_search := offset - MAX_LOOKBACK
    link_with_lui_loop offset reg mem_imm end_search globals insn offset
  else (globals, insn)

/-- Store `insn` as the instructions of block `block_id`. -/
def disasm_state.set_instructions (state : disasm_state) (block_id : Nat)
    (insn : List disasm_data) : disasm_state :=
  { state with
    blocks := state.blocks.set block_id { state.block block_id with instructions := insn } }

/-- Try to find a matching LUI for a given register (`link_with_lui`). -/
def link_with_lui (state : disasm_state) (block_id offset reg mem_imm : Nat) : disasm_state :=
  let r := link_with_lui_body offset reg mem_imm state.globals (state.block block_id).instructions
  { state.set_instructions block_id r.2 with globals := r.1 }

/-! ## Block disassembler: the chunked decode loop -/

/-- One instruction as the decoder returns it (`cs_insn`), with the fields the
disassembler reads: `detail_op_count` and `detail_operands` are
`detail->mips.op_count` and `detail->mips.operands` (`has_detail` false for a
NULL `detail`), `grp_branch_relative` and `grp_jump` are the answers of
`cs_insn_group` for `MIPS_GRP_BRANCH_RELATIVE` and `MIPS_GRP_JUMP`. -/
structure cs_insn where
  id : mips_insn
  bytes : List Nat
  mnemonic : String
  op_str : String
  has_detail : Bool
  detail_op_count : Nat
  detail_operands : List cs_mips_op
  grp_branch_relative : Bool
  grp_jump : Bool
  deriving DecidableEq, Repr

/-- The decoder the disassembler is linked with: `cs_disasm code code_size
address` is the list of instructions one decode call returns (its length is
the call's `count`), `cs_reg_name` the register names. -/
structure capstone where
  cs_disasm : List Nat → Nat → Nat → List cs_insn
  cs_reg_name : Nat → String

/-- The memory allocator as the disassembler sees it: whether the `calloc` of
`disassemble_block` succeeds, and whether its `n`-th `realloc` does. -/
structure allocator where
  calloc_ok : Bool
  realloc_ok : Nat → Bool

/-- The copy of one decoded instruction into the block (lines 275-295). The
fields the copy does not write (`linked_insn`, `linked_value`, `newline`) are
those of zeroed memory, which is what the slots of the first allocation hold
(`calloc`, line 198); the slots that `realloc` adds (line 236) are not zeroed
in C. -/
def copy_insn (ci : cs_insn) : disasm_data :=
  { id := ci.id
    bytes := ci.bytes.take 4
    mnemonic := String.mk (ci.mnemonic.data.take 15)
    op_str := String.mk (ci.op_str.data.take 31)
    op_count := if ci.has_detail ∧ ci.detail_op_count > 0 then ci.detail_op_count else 0
    operands := if ci.has_detail ∧ ci.detail_op_count > 0 then ci.detail_operands.take 8 else []
    is_jump := ci.grp_branch_relative || ci.grp_jump ||
      decide (ci.id = MIPS_INS_JAL) || decide (ci.id = MIPS_INS_BAL)
    linked_insn := 0
    linked_value := 0
    newline := false }

/-- The record of one run of the copy loop (lines 273-296): the decode call
the batch came from (`current_offset`, `sub_chunk_size`), and the values of
`block->instruction_count`, `count` and `instruction_capacity` the loop ran
with. -/
structure batch_copy where
  current_offset : Nat
  sub_chunk_size : Nat
  instruction_count : Nat
  count : Nat
  instruction_capacity : Nat
  deriving DecidableEq, Repr

/-- The variables of the decode loops of `disassemble_block`: the block's
instructions (`instruction_count` is their number) and `instruction_capacity`;
`n_realloc` counts the `realloc` calls, `calls` records the
`(current_offset, sub_chunk_size)` of every decode call so far and `copies`
every run of the copy loop. -/
structure decode_state where
  instructions : List disasm_data
  instruction_capacity : Nat
  n_realloc : Nat
  calls : List (Nat × Nat)
  copies : List batch_copy
  deriving DecidableEq, Repr

/-- The ways a function of the model ends without returning: the process exits
(`exit(EXIT_FAILURE)`, `exit(1)`), or a loop of `disassemble_block` is still
running after the iterations the model was given, its variables being `st`. -/
inductive halt
  | exit_failure
  | out_of_fuel (st : decode_state)
  deriving DecidableEq, Repr

/-- Lines 273-300: copy `count` instructions of the batch into the block. The
batch is that of the last decode call recorded in `calls`. -/
def decode_state.copy (st : decode_state) (insn : List cs_insn) (count : Nat) : decode_state :=
  { st with
    instructions := st.instructions ++ (insn.take count).map copy_insn
    copies := st.copies ++
      [{ current_offset := (st.calls.getLast?.getD (0, 0)).1
         sub_chunk_size := (st.calls.getLast?.getD (0, 0)).2
         instruction_count := st.instructions.length
         count := count
         instruction_capacity := st.instruction_capacity }] }

/-- Lines 242-252 and 259-269: with no larger buffer, `none` when there is no
space left (`remaining = 0; break`), else the count limited to the space. -/
def limit_to_available (instruction_capacity instruction_count count : Nat) : Option Nat :=
  let available_space : Int := (instruction_capacity : Int) - (instruction_count : Int)
  if available_space ≤ 0 then none
  else if (count : Int) > available_space then some available_space.toNat
  else some count

/-- Lines 229-234: the capacity asked of `realloc`, twice the current one,
at most `0x40000`. -/
def new_capacity (instruction_capacity : Nat) : Nat :=
  if (instruction_capacity * 2) % 4294967296 > 0x40000 then 0x40000
  else (instruction_capacity * 2) % 4294967296

/-- Lines 227-271: the buffer check before a batch of `count` instructions is
copied. `none` is the `break` with `remaining = 0`; otherwise the state (with
the capacity after a successful `realloc`) and the count to copy. -/
def grow_buffer (al : allocator) (st : decode_state) (count : Nat) :
    Option (decode_state × Nat) :=
  if (st.instructions.length + count) % 4294967296 > st.instruction_capacity then
    if new_capacity st.instruction_capacity > st.instruction_capacity then
      if al.realloc_ok st.n_realloc then
        some ({ st with n_realloc := st.n_realloc + 1,
                        instruction_capacity := new_capacity st.instruction_capacity }, count)
      else
        (limit_to_available st.instruction_capacity st.instructions.length count).map
          (fun c => ({ st with n_realloc := st.n_realloc + 1 }, c))
    else
      (limit_to_available st.instruction_capacity st.instructions.length count).map
        (fun c => (st, c))
  else some (st, count)

/-- The inner loop of `disassemble_block` (lines 212-301) over one chunk, at
most `fuel` iterations. The result is the state and whether the loop was left
by the `break` that sets `remaining = 0`. -/
def decode_chunk (cs : capstone) (al : allocator) (data : List Nat) (vaddr processed
    chunk_size : Nat) : Nat → decode_state → Nat → Except halt (decode_state × Bool)
  | 0, st, _ => .error (halt.out_of_fuel st)
  | fuel + 1, st, chunk_processed =>
    if chunk_processed < chunk_size then
      let sub_chunk_size := min (chunk_size - chunk_processed) 0x400
      let current_offset := (processed + chunk_processed) % 4294967296
      let current_vaddr := (vaddr + current_offset) % 4294967296
      let insn := cs.cs_disasm (data.drop current_offset) sub_chunk_size current_vaddr
      let st := { st with calls := st.calls ++ [(current_offset, sub_chunk_size)] }
      let count := insn.length
      if count = 0 then
        decode_chunk cs al data vaddr processed chunk_size fuel st
          ((chunk_processed + 4) % 4294967296)
      else
        match grow_buffer al st count with
        | none => .ok (st, true)
        | some (st1, count1) =>
          decode_chunk cs al data vaddr processed chunk_size fuel (st1.copy insn count1)
            ((chunk_processed + count1 * 4) % 4294967296)
    else .ok (st, false)

/-- The outer loop of `disassemble_block` (lines 207-311), at most `fuel`
iterations, each inner loop at most `inner_fuel`. -/
def decode_chunks (cs : capstone) (al : allocator) (data : List Nat) (vaddr inner_fuel : Nat) :
    Nat → decode_state → Nat → Nat → Except halt decode_state
  | 0, st, _, _ => .error (halt.out_of_fuel st)
  | fuel + 1, st, remaining, processed =>
    if remaining > 0 then
      let chunk_size := min remaining 0x8000
      match decode_chunk cs al data vaddr processed chunk_size inner_fuel st 0 with
      | .error e => .error e
      | .ok (st1, stopped) =>
        let remaining1 := if stopped then 0 else remaining
        decode_chunks cs al data vaddr inner_fuel fuel st1
          ((remaining1 + 4294967296 - chunk_size) % 4294967296)
          ((processed + chunk_size) % 4294967296)
    else .ok st

/-! ## Reference resolver: the per-instruction loop of `disassemble_block` -/

/-- What the second loop of `disassemble_block` (lines 313-441) works on:
`state->globals`, `block->locals` and `insn = block->instructions`. -/
structure resolve_state where
  globals : label_buf
  locals : label_buf
  insn : List disasm_data
  deriving DecidableEq, Repr

/-- Lines 319-325: flag for newline two instructions after `jr ra` or `j`. -/
def flag_newline (insn : List disasm_data) (i : Nat) : List disasm_data :=
  if (((insn_at insn i).id = MIPS_INS_JR ∨ (insn_at insn i).id = MIPS_INS_JALR) ∧
      ((insn_at insn i).op 0).reg = MIPS_REG_RA) ∨ (insn_at insn i).id = MIPS_INS_J then
    if i + 2 < insn.length then
      insn.set (i + 2) { insn_at insn (i + 2) with newline := true }
    else insn
  else insn

/-- Lines 329-335: the global label of a JAL, BAL or J target. -/
def label_jal_target (globals : label_buf) (d : disasm_data) : label_buf :=
  let jal_target := to_u32 (d.op 0).imm
  -- create label if one does not exist
  if labels_find globals jal_target < 0 then
    labels_add globals (some ("func_" ++ fmt_08X jal_target)) jal_target
  else globals

/-- Lines 339-356: the body of the operand loop for operand `o`. -/
def label_branch_operand (syntax_ : asm_syntax) (d : disasm_data) (locals : label_buf)
    (o : Nat) : label_buf :=
  if (d.op o).type = MIPS_OP_IMM then
    let branch_target := to_u32 (d.op o).imm
    -- create label if one does not exist
    if labels_find locals branch_target < 0 then
      let label_name :=
        match syntax_ with
        | ASM_GAS => ".L" ++ fmt_08X branch_target
        | ASM_ARMIPS => "@L" ++ fmt_08X branch_target
      labels_add locals (some label_name) branch_target
    else locals
  else locals

/-- Lines 338-357: all branches and jumps, the loop over the operands. -/
def label_branch_targets (syntax_ : asm_syntax) (locals : label_buf) (d : disasm_data) :
    label_buf :=
  (List.range d.op_count).foldl (label_branch_operand syntax_ d) locals

/-- Lines 317-359: the part of the loop body run for an instruction that is a
jump. -/
def label_targets (syntax_ : asm_syntax) (rs : resolve_state) (i : Nat) : resolve_state :=
  let insn := flag_newline rs.insn i
  if (insn_at insn i).id = MIPS_INS_JAL ∨ (insn_at insn i).id = MIPS_INS_BAL ∨
      (insn_at insn i).id = MIPS_INS_J then
    { rs with insn := insn, globals := label_jal_target rs.globals (insn_at insn i) }
  else
    { rs with insn := insn, locals := label_branch_targets syntax_ rs.locals (insn_at insn i) }

/-- The test of lines 378-386: the ids after which the search for the LUI of a
MTC1 stops when the instruction's first operand is the register searched for. -/
def is_float_scan_redefinition (id : mips_insn) : Bool :=
  id = MIPS_INS_LW || id = MIPS_INS_LD || id = MIPS_INS_LH || id = MIPS_INS_LHU ||
  id = MIPS_INS_LB || id = MIPS_INS_LBU || id = MIPS_INS_ADDIU || id = MIPS_INS_ADD ||
  id = MIPS_INS_SUB || id = MIPS_INS_SUBU

/-- Lines 366-396: the search for the LUI of the MTC1 at `i`, entered with
`s = n - 1`. `linked_value` gets the bits of the float. -/
def float_li_loop (i rt : Nat) (insn : List disasm_data) : Nat → List disasm_data
  | 0 => insn
  | s + 1 =>
    if (insn_at insn s).id = MIPS_INS_LUI ∧ ((insn_at insn s).op 0).reg = rt then
      let lui_imm := to_u32 (((insn_at insn s).op 1).imm * 65536)
      -- link up the LUI with this instruction and the float, rewrite LUI to be LI
      insn.set s { insn_at insn s with
        linked_insn := (i : Int), linked_value := lui_imm, id := MIPS_INS_LI, mnemonic := "li" }
    else if is_float_scan_redefinition (insn_at insn s).id then
      let rd := ((insn_at insn s).op 0).reg
      if rt = rd then insn else float_li_loop i rt insn s
    else if (insn_at insn s).id = MIPS_INS_JR ∧ ((insn_at insn s).op 0).reg = MIPS_REG_RA then
      insn
    else float_li_loop i rt insn s

/-- The `case` labels of lines 399-417: the loads and stores. -/
def is_load_store (id : mips_insn) : Bool :=
  id = MIPS_INS_SD || id = MIPS_INS_SW || id = MIPS_INS_SH || id = MIPS_INS_SB ||
  id = MIPS_INS_LB || id = MIPS_INS_LBU || id = MIPS_INS_LD || id = MIPS_INS_LDL ||
  id = MIPS_INS_LDR || id = MIPS_INS_LH || id = MIPS_INS_LHU || id = MIPS_INS_LW ||
  id = MIPS_INS_LWU || id = MIPS_INS_LWC1 || id = MIPS_INS_LWC2 || id = MIPS_INS_LWC3 ||
  id = MIPS_INS_SWC1 || id = MIPS_INS_SWC2 || id = MIPS_INS_SWC3

/-- Lines 362-439: the `switch` on `insn[i].id` run when `merge_pseudo` is set. -/
def merge_pseudo_insn (cs : capstone) (rs : resolve_state) (i : Nat) : resolve_state :=
  let d := insn_at rs.insn i
  if d.id = MIPS_INS_MTC1 then
    -- find floating point LI
    { rs with insn := float_li_loop i (d.op 0).reg rs.insn i }
  else if is_load_store d.id then
    let mem_rs := (d.op 1).mem_base
    let mem_imm := to_u32 (d.op 1).mem_disp
    let r := link_with_lui_body i mem_rs mem_imm rs.globals rs.insn
    { rs with globals := r.1, insn := r.2 }
  else if d.id = MIPS_INS_ADDIU ∨ d.id = MIPS_INS_ORI then
    let rd := (d.op 0).reg
    let rs_reg := (d.op 1).reg
    let imm := (d.op 2).imm
    if rs_reg = MIPS_REG_ZERO then -- becomes LI
      { rs with insn := rs.insn.set i { d with
          id := MIPS_INS_LI, mnemonic := "li",
          op_str := "$" ++ cs.cs_reg_name rd ++ ", " ++ toString imm } }
    else if rd = rs_reg then -- only look for LUI if rd and rs are the same
      let r := link_with_lui_body i rs_reg (to_u32 imm) rs.globals rs.insn
      { rs with globals := r.1, insn := r.2 }
    else rs
  else rs

/-- Line 316: `insn[i].linked_insn = -1`. -/
def reset_link (insn : List disasm_data) (i : Nat) : List disasm_data :=
  insn.set i { insn_at insn i with linked_insn := -1 }

/-- Lines 316-440: the body of the loop over the instructions, for index `i`. -/
def disassemble_block_insn (cs : capstone) (syntax_ : asm_syntax) (merge_pseudo : Bool)
    (rs : resolve_state) (i : Nat) : resolve_state :=
  let rs1 := { rs with insn := reset_link rs.insn i }
  let rs2 := if (insn_at rs1.insn i).is_jump then label_targets syntax_ rs1 i else rs1
  if merge_pseudo then merge_pseudo_insn cs rs2 i else rs2

/-- Lines 313-445: the loop over the instructions of the block (nothing when no
instruction was decoded). -/
def resolve_block (cs : capstone) (syntax_ : asm_syntax) (merge_pseudo : Bool)
    (rs : resolve_state) : resolve_state :=
  if rs.insn.length > 0 then
    (List.range rs.insn.length).foldl (disassemble_block_insn cs syntax_ merge_pseudo) rs
  else rs

/-! ## `disassemble_block` and Pass 1 -/

/-- The initial `instruction_capacity` of `disassemble_block` (lines 190-196). -/
def initial_capacity (length : Nat) : Nat :=
  let estimated_instructions := length / 4
  let instruction_capacity := min (estimated_instructions + 256) 4096
  if instruction_capacity > 16384 then 16384 else instruction_capacity

/-- The decode part of `disassemble_block` (lines 185-311): the instructions
of the block, when the loops end within `fuel` iterations each. -/
def decode_block (cs : capstone) (al : allocator) (fuel : Nat) (data : List Nat)
    (length vaddr : Nat) : Except halt decode_state :=
  if al.calloc_ok then
    decode_chunks cs al data vaddr fuel fuel
      { instructions := [], instruction_capacity := initial_capacity length,
        n_realloc := 0, calls := [], copies := [] } length 0
  else .error halt.exit_failure

/-- Disassemble a block of code and collect JALs and local labels
(`disassemble_block`); `data` starts at the first byte of the block. -/
def disassemble_block (cs : capstone) (al : allocator) (fuel : Nat) (data : List Nat)
    (length vaddr : Nat) (state : disasm_state) (block_id : Nat) : Except halt disasm_state :=
  match decode_block cs al fuel data length vaddr with
  | .error e => .error e
  | .ok st =>
    let block := state.block block_id
    let rs := resolve_block cs state.syntax_ state.merge_pseudo
      { globals := state.globals, locals := block.locals, insn := st.instructions }
    .ok { state with
      globals := rs.globals
      blocks := state.blocks.set block_id
        { block with locals := rs.locals, instructions := rs.insn } }

/-- The session a caller starts with (`disasm_state_init`). -/
def disasm_state_init (syntax_ : asm_syntax) (merge_pseudo : Bool) : disasm_state :=
  { globals := labels_alloc, blocks := [], syntax_ := syntax_, merge_pseudo := merge_pseudo }

/-- Register a global label (`disasm_label_add`). -/
def disasm_label_add (state : disasm_state) (name : Option String) (vaddr : Nat) :
    disasm_state :=
  { state with globals := labels_add state.globals name vaddr }

/-- Pass 1 over one range (`mipsdisasm_pass1`). The new block is
`state->blocks[state->block_count]`; it counts as a block of the session from
the start, which no step in between observes. -/
def mipsdisasm_pass1 (cs : capstone) (al : allocator) (fuel : Nat) (data : List Nat)
    (offset length vaddr : Nat) (state : disasm_state) : Except halt disasm_state :=
  let block_id := state.blocks.length
  let block : asm_block :=
    { locals := labels_alloc, instructions := [], offset := offset, length := length,
      vaddr := vaddr }
  let state1 := { state with blocks := state.blocks ++ [block] }
  -- collect all branch and jump targets
  match disassemble_block cs al fuel (data.drop offset) length vaddr state1 block_id with
  | .error e => .error e
  | .ok state2 =>
    -- sort global and local labels
    let state3 := { state2 with globals := labels_sort state2.globals }
    .ok { state3 with
      blocks := state3.blocks.set block_id
        { state3.block block_id with locals := labels_sort (state3.block block_id).locals } }

/-! ## Label lookup and Pass 2 -/

/-- The name `buf->labels[i].name` for an index `i` as `labels_find` returns
it; the C code reads outside the table for `i = -1`, which has no defined
result and is the empty text here. -/
def label_name (buf : label_buf) (i : Int) : String :=
  if 0 ≤ i then (buf.labels.getD i.toNat { name := "", vaddr := 0 }).name else ""

/-- Return the name of a global label (`disasm_label_lookup`): the value
returned and the text left in the caller's buffer `name`. -/
def disasm_label_lookup (state : disasm_state) (vaddr : Nat) (name : String) : Int × String :=
  let id := labels_find state.globals vaddr
  let r : Int × String := if id ≥ 0 then (1, label_name state.globals id) else (0, name)
  (r.1, "0x" ++ fmt_08X vaddr)

/-- The text of `%02X` for a byte. -/
def fmt_02X (v : Nat) : String := String.mk [hexDigit (v / 0x10 % 16), hexDigit (v % 16)]

/-- The text of `%06X` for an `unsigned int`: at least six upper-case
hexadecimal digits. -/
def fmt_06X (v : Nat) : String :=
  String.mk ((if v / 0x10000000 % 16 = 0 then
      (if v / 0x1000000 % 16 = 0 then [] else [hexDigit (v / 0x1000000 % 16)])
    else [hexDigit (v / 0x10000000 % 16), hexDigit (v / 0x1000000 % 16)]) ++
    [hexDigit (v / 0x100000 % 16), hexDigit (v / 0x10000 % 16), hexDigit (v / 0x1000 % 16),
     hexDigit (v / 0x100 % 16), hexDigit (v / 0x10 % 16), hexDigit (v % 16)])

/-- The text of `%-5s`: the string, padded on the right to five characters. -/
def fmt_5s (s : String) : String := s ++ String.mk (List.replicate (5 - s.length) ' ')

/-- The test `strncmp(a, b, n) == 0` of the C library. -/
def strncmp_eq (a b : String) (n : Nat) : Bool := decide (a.data.take n = b.data.take n)

/-- The member `reg` of an operand as Pass 2 reads it. The C union stores `reg`
in the place of `mem.base`, so for a memory operand it is the base register. -/
def union_reg (o : cs_mips_op) : Nat :=
  if o.type = MIPS_OP_MEM then o.mem_base else o.reg

/-- The test of lines 595-631: the mnemonics written as raw bytes. -/
def is_unsupported_mnemonic (m : String) : Bool :=
  strncmp_eq m "movf" 4 || strncmp_eq m "lsa" 4 || strncmp_eq m "dlsa" 4 ||
  strncmp_eq m "movn" 4 || strncmp_eq m "ext" 4 || strncmp_eq m "movt" 4 ||
  strncmp_eq m "movz" 4 || strncmp_eq m "bbit" 4 || strncmp_eq m "pref" 4 ||
  strncmp_eq m "synci" 5 || strncmp_eq m "ld.b" 4 || strncmp_eq m "ori.b" 4 ||
  strncmp_eq m "pause" 4 || strncmp_eq m "rotr" 4 || strncmp_eq m "madd" 4 ||
  strncmp_eq m "nmsub" 5 || strncmp_eq m "mz." 3 || strncmp_eq m "bc0" 3 ||
  strncmp_eq m "dmtc" 4 || strncmp_eq m "sync" 4 || strncmp_eq m "bseli" 5 ||
  strncmp_eq m "bnz." 4 || strncmp_eq m "snei" 4 || strncmp_eq m "cle_s." 6 ||
  strncmp_eq m "bz." 3 || strncmp_eq m "msub." 5 || strncmp_eq m "shrav." 5 ||
  strncmp_eq m "din" 3 || strncmp_eq m "cins" 4 || strncmp_eq m "st." 3 ||
  strncmp_eq m "shra" 4 || strncmp_eq m "dextm" 5 || strncmp_eq m "srl." 4 ||
  strncmp_eq m "bc1" 3 || strncmp_eq m "sra." 4 || strncmp_eq m "fmul." 4 ||
  strncmp_eq m "dextu" 5

/-- The four bytes of an instruction as `0x%02X,0x%02X,0x%02X,0x%02X`. -/
def fmt_bytes (d : disasm_data) : String :=
  "0x" ++ fmt_02X (d.bytes.getD 0 0) ++ ",0x" ++ fmt_02X (d.bytes.getD 1 0) ++ ",0x" ++
  fmt_02X (d.bytes.getD 2 0) ++ ",0x" ++ fmt_02X (d.bytes.getD 3 0)

/-- Lines 634-638: the raw-byte line of an unsupported instruction. -/
def emit_byte_fallback (d : disasm_data) : String :=
  ".byte " ++ fmt_bytes d ++ " /* Because of invalid n64 opcode " ++ d.mnemonic ++ " */\n"

/-- Lines 649-655: the operand of a JAL, BAL or J. -/
def emit_jal_target (globals : label_buf) (d : disasm_data) : String :=
  let jal_target := to_u32 (d.op 0).imm
  let label := labels_find globals jal_target
  if label ≥ 0 then label_name globals label ++ "\n"
  else "0x" ++ fmt_08X jal_target ++ "\n"

/-- Lines 658-678: what the operand loop of a branch writes for operand `o`. -/
def emit_branch_operand (cs : capstone) (locals : label_buf) (d : disasm_data) (o : Nat) :
    List String :=
  (if o > 0 then [", "] else []) ++
  (match (d.op o).type with
   | MIPS_OP_REG => ["$" ++ cs.cs_reg_name (union_reg (d.op o))]
   | MIPS_OP_IMM =>
     let branch_target := to_u32 (d.op o).imm
     let label := labels_find locals branch_target
     if label ≥ 0 then [label_name locals label] else ["0x" ++ fmt_08X branch_target]
   | _ => [])

/-- Lines 644-681: a jump or branch, one entry per `fprintf`. -/
def emit_jump (cs : capstone) (globals locals : label_buf) (d : disasm_data) : List String :=
  [fmt_5s d.mnemonic ++ " "] ++
  (if d.id = MIPS_INS_JAL ∨ d.id = MIPS_INS_BAL ∨ d.id = MIPS_INS_J then
    [emit_jal_target globals d]
  else
    ((List.range d.op_count).map (emit_branch_operand cs locals d)).flatten ++ ["\n"])

/-- Lines 684-694: MTC0 and MFC0, the second register taken from the bytes. -/
def emit_cop0 (cs : capstone) (d : disasm_data) : String :=
  let rd := ((d.bytes.getD 2 0) &&& 0xF8) >>> 3
  fmt_5s d.mnemonic ++ " $" ++ cs.cs_reg_name (union_reg (d.op 0)) ++ ", $" ++ toString rd ++ "\n"

/-- The decimal text of lines 709-738 for the float with the bits `float_bits`:
`0.0` for the two zeros, `1.0` for one, else what `%g` prints, which is the
parameter `fmt_g`. -/
def float_text (fmt_g : Nat → String) (float_bits : Nat) : String :=
  if float_bits = 0 ∨ float_bits = 0x80000000 then "0.0"
  else if float_bits = 0x3F800000 then "1.0"
  else fmt_g float_bits

/-- Lines 698-741: a LUI converted to LI for a matched MTC1. -/
def emit_float_li (cs : capstone) (fmt_g : Nat → String) (syntax_ : asm_syntax)
    (d : disasm_data) : List String :=
  let float_bits := d.linked_value
  let reg := cs.cs_reg_name (union_reg (d.op 0))
  [fmt_5s d.mnemonic ++ " ",
   match syntax_ with
   | ASM_GAS => "$" ++ reg ++ ", " ++ float_text fmt_g float_bits ++ " # 0x" ++
       fmt_08X float_bits ++ "\n"
   | ASM_ARMIPS => "$" ++ reg ++ ", " ++ float_text fmt_g float_bits ++ " // 0x" ++
       fmt_08X float_bits ++ "\n"]

/-- Lines 742-785: a LUI matched with ADDIU, ORI or a load or store; `partner`
is `block->instructions[linked_insn].id`. -/
def emit_linked_lui (cs : capstone) (syntax_ : asm_syntax) (globals : label_buf)
    (partner : mips_insn) (d : disasm_data) : String :=
  let label := labels_find globals d.linked_value
  let reg := cs.cs_reg_name (union_reg (d.op 0))
  match syntax_ with
  | ASM_GAS =>
    if partner = MIPS_INS_ADDIU then
      fmt_5s d.mnemonic ++ " $" ++ reg ++ ", %hi(" ++ label_name globals label ++ ") # " ++
        d.op_str ++ "\n"
    else if partner = MIPS_INS_ORI then
      fmt_5s d.mnemonic ++ " $" ++ reg ++ ", (0x" ++ fmt_08X d.linked_value ++ " >> 16) # " ++
        d.mnemonic ++ " " ++ d.op_str ++ "\n"
    else
      fmt_5s d.mnemonic ++ " $" ++ reg ++ ", %hi(" ++ label_name globals label ++ ") # " ++
        d.op_str ++ "\n"
  | ASM_ARMIPS =>
    if partner = MIPS_INS_ADDIU then
      fmt_5s "la.u" ++ " $" ++ reg ++ ", " ++ label_name globals label ++ " // " ++
        d.mnemonic ++ " " ++ d.op_str ++ "\n"
    else if partner = MIPS_INS_ORI then
      fmt_5s "li.u" ++ " $" ++ reg ++ ", 0x" ++ fmt_08X d.linked_value ++ " // " ++
        d.mnemonic ++ " " ++ d.op_str ++ "\n"
    else
      fmt_5s d.mnemonic ++ " $" ++ reg ++ ", hi(" ++ label_name globals label ++ ") // " ++
        d.op_str ++ "\n"

/-- Lines 786-801: a linked ADDIU. -/
def emit_linked_addiu (cs : capstone) (syntax_ : asm_syntax) (globals : label_buf)
    (d : disasm_data) : String :=
  let label := labels_find globals d.linked_value
  let reg := cs.cs_reg_name (union_reg (d.op 0))
  match syntax_ with
  | ASM_GAS =>
    fmt_5s d.mnemonic ++ " $" ++ reg ++ ", %lo(" ++ label_name globals label ++ ") # " ++
      d.mnemonic ++ " " ++ d.op_str ++ "\n"
  | ASM_ARMIPS =>
    fmt_5s "la.l" ++ " $" ++ reg ++ ", " ++ label_name globals label ++ " // " ++
      d.mnemonic ++ " " ++ d.op_str ++ "\n"

/-- Lines 802-815: a linked ORI. -/
def emit_linked_ori (cs : capstone) (syntax_ : asm_syntax) (d : disasm_data) : String :=
  let reg := cs.cs_reg_name (union_reg (d.op 0))
  match syntax_ with
  | ASM_GAS =>
    fmt_5s d.mnemonic ++ " $" ++ reg ++ ", (0x" ++ fmt_08X d.linked_value ++ " & 0xFFFF) # " ++
      d.mnemonic ++ " " ++ d.op_str ++ "\n"
  | ASM_ARMIPS =>
    fmt_5s "li.l" ++ " $" ++ reg ++ ", 0x" ++ fmt_08X d.linked_value ++ " // " ++
      d.mnemonic ++ " " ++ d.op_str ++ "\n"

/-- Lines 816-823: a linked load or store. -/
def emit_linked_mem (cs : capstone) (syntax_ : asm_syntax) (globals : label_buf)
    (d : disasm_data) : String :=
  let label := labels_find globals d.linked_value
  fmt_5s d.mnemonic ++ " $" ++ cs.cs_reg_name (union_reg (d.op 0)) ++ ", " ++
    (if syntax_ = ASM_GAS then "%" else "") ++ "lo(" ++ label_name globals label ++ ")($" ++
    cs.cs_reg_name (union_reg (d.op 1)) ++ ")\n"

/-- Lines 695-827: an instruction that is no jump and no MTC0 or MFC0. -/
def emit_plain (cs : capstone) (fmt_g : Nat → String) (syntax_ : asm_syntax)
    (globals : label_buf) (insns : List disasm_data) (d : disasm_data) : List String :=
  let linked_insn := d.linked_insn
  if linked_insn ≥ 0 then
    if d.id = MIPS_INS_LI then emit_float_li cs fmt_g syntax_ d
    else if d.id = MIPS_INS_LUI then
      [emit_linked_lui cs syntax_ globals (insn_at insns linked_insn.toNat).id d]
    else if d.id = MIPS_INS_ADDIU then [emit_linked_addiu cs syntax_ globals d]
    else if d.id = MIPS_INS_ORI then [emit_linked_ori cs syntax_ d]
    else [emit_linked_mem cs syntax_ globals d]
  else [fmt_5s d.mnemonic ++ " " ++ d.op_str ++ "\n"]

/-- What lines 595-827 do for one instruction. -/
structure rendering where
  text : List String
  mnemonic : String
  indent : Bool
  deriving DecidableEq, Repr

/-- Lines 595-827: the text written for the instruction `d`, one entry per
`fprintf`, its mnemonic afterwards, and the value of `indent` afterwards.
`previous_instruction` is the buffer of that name. -/
def render_insn (cs : capstone) (fmt_g : Nat → String) (syntax_ : asm_syntax)
    (globals locals : label_buf) (insns : List disasm_data) (d : disasm_data)
    (previous_instruction : String) : rendering :=
  if is_unsupported_mnemonic d.mnemonic then
    -- These instructions aren't supported on the N64 but capstone didn't know that
    { text := [emit_byte_fallback d], mnemonic := ".byte", indent := false }
  else if strncmp_eq previous_instruction ".byte" 4 then
    { text := [], mnemonic := d.mnemonic, indent := false }
  else if d.is_jump then
    { text := emit_jump cs globals locals d, mnemonic := d.mnemonic, indent := true }
  else if d.id = MIPS_INS_MTC0 ∨ d.id = MIPS_INS_MFC0 then
    { text := [emit_cop0 cs d], mnemonic := d.mnemonic, indent := false }
  else
    { text := emit_plain cs fmt_g syntax_ globals insns d, mnemonic := d.mnemonic,
      indent := false }

/-- The loops of lines 560-567: the index of the first label from `idx` on
that is not before `vaddr`; `labels` are the entries from `idx` on. -/
def skip_labels_from (vaddr : Nat) : List asm_label → Nat → Nat
  | [], idx => idx
  | l :: rest, idx => if vaddr > l.vaddr then skip_labels_from vaddr rest (idx + 1) else idx

/-- The loops of lines 576-586: the label lines written at `vaddr` and the
index afterwards; `labels` are the entries from `idx` on. -/
def emit_labels_from (vaddr : Nat) : List asm_label → Nat → List String × Nat
  | [], idx => ([], idx)
  | l :: rest, idx =>
    if vaddr = l.vaddr then
      ((l.name ++ ":\n") :: (emit_labels_from vaddr rest (idx + 1)).1,
       (emit_labels_from vaddr rest (idx + 1)).2)
    else ([], idx)

/-- The label loop of lines 576-586 on a scope, entered with the index `idx`. -/
def emit_labels (buf : label_buf) (vaddr idx : Nat) : List String × Nat :=
  emit_labels_from vaddr (buf.labels.drop idx) idx

/-- The variables of the loop of `mipsdisasm_pass2`: `out` is the text written
so far, one entry per `fprintf` or `fputc`, `instructions` are those of the
block. -/
structure emit_state where
  out : List String
  instructions : List disasm_data
  global_idx : Nat
  local_idx : Nat
  vaddr : Nat
  offset : Nat
  indent : Bool
  previous_instruction : String
  deriving DecidableEq, Repr

/-- Line 588: the bytes of the instruction as a comment. -/
def emit_comment (offset vaddr : Nat) (d : disasm_data) : String :=
  "/* " ++ fmt_06X offset ++ " " ++ fmt_08X vaddr ++ " " ++ fmt_02X (d.bytes.getD 0 0) ++
  fmt_02X (d.bytes.getD 1 0) ++ fmt_02X (d.bytes.getD 2 0) ++ fmt_02X (d.bytes.getD 3 0) ++
  " */  "

/-- Lines 570-830: the body of the loop of `mipsdisasm_pass2` for index `i`. -/
def emit_insn (cs : capstone) (fmt_g : Nat → String) (syntax_ : asm_syntax)
    (globals locals : label_buf) (es : emit_state) (i : Nat) : emit_state :=
  let insn := insn_at es.instructions i
  -- newline between functions
  let blank := if insn.newline then ["\n"] else []
  -- insert all global labels at this address
  let g := emit_labels globals es.vaddr es.global_idx
  -- insert all local labels at this address
  let l := emit_labels locals es.vaddr es.local_idx
  -- indent the lines after a jump or branch
  let ind := if es.indent then [" "] else []
  let r := render_insn cs fmt_g syntax_ globals locals es.instructions insn
    es.previous_instruction
  { out := es.out ++ blank ++ g.1 ++ l.1 ++ [emit_comment es.offset es.vaddr insn] ++ ind ++ r.text
    instructions := es.instructions.set i { insn with mnemonic := r.mnemonic }
    global_idx := g.2
    local_idx := l.2
    vaddr := (es.vaddr + 4) % 4294967296
    offset := (es.offset + 4) % 4294967296
    indent := r.indent
    previous_instruction := r.mnemonic }

/-- The loop of lines 548-553: the index of the first block at `offset`;
`blocks` are the blocks from index `i` on. -/
def find_block_from (offset : Nat) : List asm_block → Nat → Option Nat
  | [], _ => none
  | b :: rest, i => if b.offset = offset then some i else find_block_from offset rest (i + 1)

/-- Lines 558-568: the loop variables of `mipsdisasm_pass2` before the first
instruction of the block `block`. -/
def emit_start (stack : String) (state : disasm_state) (block : asm_block) (offset : Nat) :
    emit_state :=
  let vaddr := block.vaddr
  -- skip labels before this section
  let global_idx := skip_labels_from vaddr state.globals.labels 0
  let local_idx := skip_labels_from vaddr block.locals.labels 0
  { out := [], instructions := block.instructions, global_idx := global_idx,
    local_idx := local_idx, vaddr := vaddr, offset := offset, indent := false,
    previous_instruction := stack }

/-- Lines 558-831 for the block `block`: the loop variables at the end. -/
def emit_block (cs : capstone) (fmt_g : Nat → String) (stack : String) (state : disasm_state)
    (block : asm_block) (offset : Nat) : emit_state :=
  (List.range block.instructions.length).foldl
    (emit_insn cs fmt_g state.syntax_ state.globals block.locals)
    (emit_start stack state block offset)

/-- Pass 2 over the block at `offset` (`mipsdisasm_pass2`): the text written to
`out`, one entry per `fprintf` or `fputc`, and the session afterwards. `fmt_g`
is the C library's `%g`; `stack` is what the buffer `previous_instruction`,
which the code does not initialise, holds on entry. -/
def mipsdisasm_pass2 (cs : capstone) (fmt_g : Nat → String) (stack : String)
    (state : disasm_state) (offset : Nat) : Except halt (List String × disasm_state) :=
  -- lookup block by offset
  match find_block_from offset state.blocks 0 with
  | none => .error halt.exit_failure
  | some id =>
    let block := state.block id
    let es := emit_block cs fmt_g stack state block offset
    .ok (es.out, { state with
      blocks := state.blocks.set id { block with instructions := es.instructions } })

/-! ## Sample inputs -/

/-- A register operand. -/
def op_reg (r : Nat) : cs_mips_op :=
  { type := MIPS_OP_REG, reg := r, imm := 0, mem_base := 0, mem_disp := 0 }

/-- An immediate operand. -/
def op_imm (v : Int) : cs_mips_op :=
  { type := MIPS_OP_IMM, reg := 0, imm := v, mem_base := 0, mem_disp := 0 }

/-- A memory operand `disp(base)`. -/
def op_mem (base : Nat) (disp : Int) : cs_mips_op :=
  { type := MIPS_OP_MEM, reg := 0, imm := 0, mem_base := base, mem_disp := disp }

/-- A decoded instruction that is no jump. -/
def mk_cs_insn (id : mips_insn) (mnemonic op_str : String) (ops : List cs_mips_op) : cs_insn :=
  { id := id, bytes := [0, 0, 0, 0], mnemonic := mnemonic, op_str := op_str, has_detail := true,
    detail_op_count := ops.length, detail_operands := ops, grp_branch_relative := false,
    grp_jump := false }

/-- The instruction `lui $t0, 0x1234` as decoded. -/
def cs_lui_t0 : cs_insn :=
  mk_cs_insn MIPS_INS_LUI "lui" "$t0, 0x1234" [op_reg MIPS_REG_T0, op_imm 0x1234]

/-- The instruction `addiu $t0, $t0, 0x5678` as decoded. -/
def cs_addiu_t0 : cs_insn :=
  mk_cs_insn MIPS_INS_ADDIU "addiu" "$t0, $t0, 0x5678"
    [op_reg MIPS_REG_T0, op_reg MIPS_REG_T0, op_imm 0x5678]

/-- The instruction `jal 0x80001000` as decoded. -/
def cs_jal : cs_insn :=
  { mk_cs_insn MIPS_INS_JAL "jal" "0x80001000" [op_imm 0x80001000] with grp_jump := true }

/-- The instruction `beq $t0, $zero, 0x80001050` as decoded. -/
def cs_beq : cs_insn :=
  { mk_cs_insn MIPS_INS_BEQ "beq" "$t0, $zero, 0x80001050"
      [op_reg MIPS_REG_T0, op_reg MIPS_REG_ZERO, op_imm 0x80001050] with
    grp_branch_relative := true }

/-- The instruction `lb $t0, 0($a0)` as decoded. -/
def cs_lb_t0 : cs_insn :=
  mk_cs_insn MIPS_INS_LB "lb" "$t0, 0($a0)" [op_reg MIPS_REG_T0, op_mem MIPS_REG_A0 0]

/-- The instruction `jal 0x12345678` as decoded. -/
def cs_jal_data : cs_insn :=
  { mk_cs_insn MIPS_INS_JAL "jal" "0x12345678" [op_imm 0x12345678] with grp_jump := true }

/-- A sample program: a call, a branch and a hi/lo pair. -/
def sample_prog : List cs_insn := [cs_jal, cs_beq, cs_lui_t0, cs_addiu_t0]

/-- A decoder that answers every call with the first `code_size / 4`
instructions of `prog` from the position of the call on; the position is taken
from the address, the block starting at address `base`. -/
def table_decoder (base : Nat) (prog : List cs_insn) : capstone :=
  { cs_disasm := fun _ code_size address => (prog.drop ((address - base) / 4)).take (code_size / 4)
    cs_reg_name := fun r => "r" ++ toString r }

/-- An allocator that never fails. -/
def alloc_always : allocator := { calloc_ok := true, realloc_ok := fun _ => true }

/-- A session with one block holding `lui $t0, 0x1234` and
`addiu $t0, $t0, 0x5678`, before the resolver ran. -/
def sample_lui_addiu_state : disasm_state :=
  { globals := labels_alloc
    blocks := [{ locals := labels_alloc, instructions := [copy_insn cs_lui_t0, copy_insn cs_addiu_t0],
                 offset := 0, length := 8, vaddr := 0x80000000 }]
    syntax_ := ASM_GAS
    merge_pseudo := true }

/-- An instruction of a block after Pass 1: the decoded instruction with its
link fields. -/
def sample_insn (ci : cs_insn) (linked_insn : Int) (linked_value : Nat) : disasm_data :=
  { copy_insn ci with linked_insn := linked_insn, linked_value := linked_value }

/-- The session after Pass 1 over `sample_prog` at `0x80000000`. -/
def sample_after : disasm_state :=
  { globals :=
      { labels := [{ name := "D_12345678", vaddr := 0x12345678 },
                   { name := "func_80001000", vaddr := 0x80001000 }],
        alloc := 128 }
    blocks :=
      [{ locals := { labels := [{ name := ".L80001050", vaddr := 0x80001050 }], alloc := 128 }
         instructions :=
           [sample_insn cs_jal (-1) 0, sample_insn cs_beq (-1) 0,
            sample_insn cs_lui_t0 3 0x12345678, sample_insn cs_addiu_t0 2 0x12345678]
         offset := 0, length := 16, vaddr := 0x80000000 }]
    syntax_ := ASM_GAS
    merge_pseudo := true }

/-- The decode loop's state after decoding `sample_prog`. -/
def sample_decoded : decode_state :=
  { instructions := sample_prog.map copy_insn, instruction_capacity := 260, n_realloc := 0,
    calls := [(0, 16)]
    copies := [{ current_offset := 0, sub_chunk_size := 16, instruction_count := 0, count := 4,
                 instruction_capacity := 260 }] }

/-- The decode loop's state after decoding `lui $t0, 0x1234` and
`addiu $t0, $t0, 0x5678`. -/
def sample_pair_decoded : decode_state :=
  { instructions := [copy_insn cs_lui_t0, copy_insn cs_addiu_t0], instruction_capacity := 258,
    n_realloc := 0, calls := [(0, 8)]
    copies := [{ current_offset := 0, sub_chunk_size := 8, instruction_count := 0, count := 2,
                 instruction_capacity := 258 }] }

/-- The session after Pass 1 over `lui $t0, 0x1234; addiu $t0, $t0, 0x5678` at
`0x80000000` with pseudo-op handling off. -/
def sample_pair_unfused : disasm_state :=
  { globals := { labels := [], alloc := 128 }
    blocks :=
      [{ locals := { labels := [], alloc := 128 }
         instructions := [sample_insn cs_lui_t0 (-1) 0, sample_insn cs_addiu_t0 (-1) 0]
         offset := 0, length := 8, vaddr := 0x80000000 }]
    syntax_ := ASM_GAS
    merge_pseudo := false }

/-- A session with one block holding `lui $t0, 0x1234`, `lb $t0, 0($a0)` and
`addiu $t0, $t0, 0x5678`, before the resolver ran. -/
def sample_lb_state : disasm_state :=
  { globals := labels_alloc
    blocks := [{ locals := labels_alloc,
                 instructions := [copy_insn cs_lui_t0, copy_insn cs_lb_t0, copy_insn cs_addiu_t0],
                 offset := 0, length := 12, vaddr := 0x80000000 }]
    syntax_ := ASM_GAS
    merge_pseudo := true }

/-- A scope with three labels out of order. -/
def sample_unsorted : label_buf :=
  { labels := [{ name := "b", vaddr := 7 }, { name := "a", vaddr := 7 },
               { name := "z", vaddr := 3 }], alloc := 128 }

/-! ## Predicates used in the statements -/

/-- The scope has a label at address `a`. -/
def has_label_at (buf : label_buf) (a : Nat) : Prop := ∃ l ∈ buf.labels, l.vaddr = a

/-- The idiom of lines 146-151, 331-335 and 344-355: create the label `name`
at `vaddr` if the scope has no label at `vaddr`. -/
def ensure_label (buf : label_buf) (name : String) (vaddr : Nat) : label_buf :=
  if labels_find buf vaddr < 0 then labels_add buf (some name) vaddr else buf

/-- A sequence of `ensure_label` requests `(name, vaddr)`, in order. -/
def ensure_all (reqs : List (String × Nat)) (buf : label_buf) : label_buf :=
  reqs.foldl (fun b r => ensure_label b r.1 r.2) buf

/-- The addresses of a scope are pairwise distinct. -/
def distinct_addresses (buf : label_buf) : Prop := (buf.labels.map asm_label.vaddr).Nodup

/-- The name of a new local label at `t` in the dialect (lines 346-353). -/
def local_label_name (syntax_ : asm_syntax) (t : Nat) : String :=
  match syntax_ with
  | ASM_GAS => ".L" ++ fmt_08X t
  | ASM_ARMIPS => "@L" ++ fmt_08X t

/-- The labels the operand loop of lines 338-357 asks for: one for every
immediate operand below `op_count`, in order. -/
def branch_requests (syntax_ : asm_syntax) (d : disasm_data) : List (String × Nat) :=
  (List.range d.op_count).filterMap (fun o =>
    if (d.op o).type = MIPS_OP_IMM then
      some (local_label_name syntax_ (to_u32 (d.op o).imm), to_u32 (d.op o).imm)
    else none)

/-- The names the resolver gives to new global labels. -/
def is_global_label_name (q : String × Nat) : Prop :=
  q.1 = "func_" ++ fmt_08X q.2 ∨ q.1 = "D_" ++ fmt_08X q.2

/-- The sessions a caller can reach: a fresh session, then any sequence of
`disasm_label_add` and of `mipsdisasm_pass1` calls that return. -/
inductive reachable : disasm_state → Prop
  | init (sx : asm_syntax) (mp : Bool) : reachable (disasm_state_init sx mp)
  | label_add (s : disasm_state) (name : Option String) (v : Nat) :
      reachable s → reachable (disasm_label_add s name v)
  | pass1 (s s2 : disasm_state) (cs : capstone) (al : allocator) (fuel : Nat) (data : List Nat)
      (offset length vaddr : Nat) :
      reachable s → mipsdisasm_pass1 cs al fuel data offset length vaddr s = .ok s2 →
      reachable s2

/-- The resolver loop after its first `m` iterations. -/
def resolve_upto (cs : capstone) (syntax_ : asm_syntax) (merge_pseudo : Bool)
    (rs : resolve_state) (m : Nat) : resolve_state :=
  (List.range m).foldl (disassemble_block_insn cs syntax_ merge_pseudo) rs

/-- The instruction `d` is the decoded instruction `d0` as Pass 1 may have
left it: same bytes, operands and jump flag, and the same id unless a LUI,
ADDIU or ORI was rewritten to LI. -/
def same_decoded (d0 d : disasm_data) : Prop :=
  d.bytes = d0.bytes ∧ d.operands = d0.operands ∧ d.op_count = d0.op_count ∧
  d.is_jump = d0.is_jump ∧
  (d.id = d0.id ∨ (d.id = MIPS_INS_LI ∧
    (d0.id = MIPS_INS_LUI ∨ d0.id = MIPS_INS_ADDIU ∨ d0.id = MIPS_INS_ORI)))

/-- The id is one of the call-style transfers JAL, BAL, J (lines 327-328). -/
def is_call_id (id : mips_insn) : Prop :=
  id = MIPS_INS_JAL ∨ id = MIPS_INS_BAL ∨ id = MIPS_INS_J

instance (id : mips_insn) : Decidable (is_call_id id) := by
  unfold is_call_id; infer_instance

/-- Every instruction of the list is the copy of a decoded instruction. -/
def all_copied (insn : List disasm_data) : Prop := ∀ d ∈ insn, ∃ ci, d = copy_insn ci

/-- The order of the label-ordering property: by address, then by name. -/
def label_ordered (a b : asm_label) : Prop :=
  a.vaddr < b.vaddr ∨ (a.vaddr = b.vaddr ∧ a.name ≤ b.name)

/-- The resolved address of a hi/lo pair: `(lui_imm << 16) + mem_imm` in
32-bit arithmetic, `lui_imm` being the immediate of the LUI `d`. -/
def hilo_addr (d : disasm_data) (mem_imm : Nat) : Nat :=
  (to_u32 (d.op 1).imm * 65536 + mem_imm) % 4294967296

/-- The instruction `d` ends the backward search of `link_with_lui` for the
register `reg` (lines 135-171): a LUI of `reg`, a redefinition of `reg` by one
of the ids of lines 155-161, or a `jr $ra`. -/
def lui_scan_stops (reg : Nat) (d : disasm_data) : Prop :=
  (d.id = MIPS_INS_LUI ∧ (d.op 0).reg = reg) ∨
  (is_lui_scan_redefinition d.id = true ∧ (d.op 0).reg = reg) ∨
  (d.id = MIPS_INS_JR ∧ (d.op 0).reg = MIPS_REG_RA)

/-- The instruction `d` ends the backward search for the LUI of a MTC1 with
source register `rt` (lines 367-395): a LUI of `rt`, a redefinition of `rt` by
one of the ids of lines 378-386, or a `jr $ra`. -/
def float_scan_stops (rt : Nat) (d : disasm_data) : Prop :=
  (d.id = MIPS_INS_LUI ∧ (d.op 0).reg = rt) ∨
  (is_float_scan_redefinition d.id = true ∧ (d.op 0).reg = rt) ∨
  (d.id = MIPS_INS_JR ∧ (d.op 0).reg = MIPS_REG_RA)

/-- The guard: a LUI of `r` at `k`, directly followed by an ADDIU with
destination `r`. -/
def lui_addiu_at (r k : Nat) (insn : List disasm_data) : Prop :=
  (insn_at insn k).id = MIPS_INS_LUI ∧ ((insn_at insn k).op 0).reg = r ∧
  (insn_at insn (k + 1)).id = MIPS_INS_ADDIU ∧ ((insn_at insn (k + 1)).op 0).reg = r

/-- `f` leaves the entries `k` and `k + 1` as they are. -/
def keeps_pair (k : Nat) (insn insn2 : List disasm_data) : Prop :=
  insn_at insn2 k = insn_at insn k ∧ insn_at insn2 (k + 1) = insn_at insn (k + 1)

/-- The result of Pass 1 on a session, given the instructions the decode part
produced: the resolver loop, then the two sorts. -/
def pass1_result (cs : capstone) (offset length vaddr : Nat) (state : disasm_state)
    (decoded : List disasm_data) : disasm_state :=
  let rs := resolve_block cs state.syntax_ state.merge_pseudo
    { globals := state.globals, locals := labels_alloc, insn := decoded }
  { state with
    globals := labels_sort rs.globals
    blocks := state.blocks ++
      [{ locals := labels_sort rs.locals, instructions := rs.insn, offset := offset,
         length := length, vaddr := vaddr }] }

/-! ## Sample inputs for the decode loop and Pass 2 -/

/-- The instruction `sync` as decoded; Pass 2 writes it as raw bytes. -/
def cs_sync : cs_insn := mk_cs_insn (MIPS_INS_OTHER 0) "sync" "" []

/-- The instruction `nop` as decoded. -/
def cs_nop : cs_insn := mk_cs_insn (MIPS_INS_OTHER 1) "nop" "" []

/-- The instruction `lb $t1, 2($t0)` as decoded. -/
def cs_lb_t1 : cs_insn :=
  mk_cs_insn MIPS_INS_LB "lb" "$t1, 2($t0)" [op_reg 11, op_mem MIPS_REG_T0 2]

/-- The instruction `lui $t0, 0x8000` as decoded. -/
def cs_lui_hi : cs_insn :=
  mk_cs_insn MIPS_INS_LUI "lui" "$t0, 0x8000" [op_reg MIPS_REG_T0, op_imm 0x8000]

/-- The instruction `jal 0x8000000c` as decoded. -/
def cs_jal_c : cs_insn :=
  { mk_cs_insn MIPS_INS_JAL "jal" "0x8000000c" [op_imm 0x8000000C] with grp_jump := true }

/-- A block with a data reference to the address `0x80000002`, which is inside
the block and is not the address of an instruction, and a call of the block's
last instruction. -/
def sample_stuck_prog : List cs_insn := [cs_lui_hi, cs_lb_t1, cs_jal_c, cs_nop]

/-- The session after Pass 1 over `sample_stuck_prog` at `0x80000000`. -/
def sample_stuck_after : disasm_state :=
  { globals :=
      { labels := [{ name := "D_80000002", vaddr := 0x80000002 },
                   { name := "func_8000000C", vaddr := 0x8000000C }],
        alloc := 128 }
    blocks :=
      [{ locals := labels_alloc
         instructions :=
           [sample_insn cs_lui_hi 1 0x80000002, sample_insn cs_lb_t1 0 0x80000002,
            sample_insn cs_jal_c (-1) 0, sample_insn cs_nop (-1) 0]
         offset := 0, length := 16, vaddr := 0x80000000 }]
    syntax_ := ASM_GAS
    merge_pseudo := true }

/-- The text Pass 2 writes for the block of `sample_stuck_after`. -/
def sample_stuck_text : List String :=
  ["/* 000000 80000000 00000000 */  ", "lui   $r10, %hi(D_80000002) # $t0, 0x8000\n",
   "/* 000004 80000004 00000000 */  ", "lb    $r11, %lo(D_80000002)($r10)\n",
   "/* 000008 80000008 00000000 */  ", "jal   ", "func_8000000C\n",
   "/* 00000C 8000000C 00000000 */  ", " ", "nop   \n"]

/-- A stand-in for the C library's `%g`, for inputs that print no float. -/
def fmt_g_none : Nat → String := fun _ => ""

/-- A decoder that answers every call with `code_size / 4` copies of `ci`. -/
def word_decoder (ci : cs_insn) : capstone :=
  { cs_disasm := fun _ code_size _ => List.replicate (code_size / 4) ci
    cs_reg_name := fun r => "r" ++ toString r }

/-! ## Predicates for the decode loop and Pass 2 -/

/-- The decode state with one more decode call in its record (line 218). -/
def decode_state.log (st : decode_state) (current_offset sub_chunk_size : Nat) : decode_state :=
  { st with calls := st.calls ++ [(current_offset, sub_chunk_size)] }

/-- The decoder returns one instruction for every four bytes it is handed, as
capstone does with `CS_OPT_SKIPDATA` on (line 466). -/
def decodes_every_word (cs : capstone) : Prop :=
  ∀ code size addr, (cs.cs_disasm code size addr).length = size / 4

/-- The capacities the buffer of a long block goes through: 4096 doubled up to
the ceiling `0x40000`. -/
def capacity_doubled (c : Nat) : Prop :=
  c = 4096 ∨ c = 8192 ∨ c = 16384 ∨ c = 32768 ∨ c = 65536 ∨ c = 131072 ∨ c = 262144

/-- The buffer while whole sub-chunks of 256 instructions are copied. -/
def buffer_aligned (st : decode_state) : Prop :=
  capacity_doubled st.instruction_capacity ∧
  st.instructions.length ≤ st.instruction_capacity ∧ st.instructions.length % 256 = 0

/-- The buffer is full at the ceiling of `0x40000` instructions. -/
def buffer_full (st : decode_state) : Prop :=
  st.instructions.length = 0x40000 ∧ st.instruction_capacity = 0x40000

/-- What Pass 2 leaves of the instruction `d` (line 639): the mnemonic of an
instruction written as raw bytes becomes `.byte`. -/
def pass2_insn (d : disasm_data) : disasm_data :=
  if is_unsupported_mnemonic d.mnemonic then { d with mnemonic := ".byte" } else d

/-- The loop of `mipsdisasm_pass2` after its first `m` iterations. -/
def emit_upto (cs : capstone) (fmt_g : Nat → String) (syntax_ : asm_syntax)
    (globals locals : label_buf) (es : emit_state) (m : Nat) : emit_state :=
  (List.range m).foldl (emit_insn cs fmt_g syntax_ globals locals) es

/-! ## Sample inputs for the float and call claims -/

/-- The instruction `lui $t0, 0x4049` as decoded. -/
def cs_lui_float : cs_insn :=
  mk_cs_insn MIPS_INS_LUI "lui" "$t0, 0x4049" [op_reg MIPS_REG_T0, op_imm 0x4049]

/-- The instruction `mtc1 $t0, $f0` as decoded. -/
def cs_mtc1_t0 : cs_insn :=
  mk_cs_insn MIPS_INS_MTC1 "mtc1" "$t0, $f0" [op_reg MIPS_REG_T0, op_reg 100]

/-- The session after Pass 1 over `lui $t0, 0x4049; mtc1 $t0, $f0` at
`0x80000000`. -/
def sample_float_after : disasm_state :=
  { globals := labels_alloc
    blocks :=
      [{ locals := labels_alloc
         instructions :=
           [{ sample_insn cs_lui_float 1 0x40490000 with id := MIPS_INS_LI, mnemonic := "li" },
            sample_insn cs_mtc1_t0 (-1) 0]
         offset := 0, length := 8, vaddr := 0x80000000 }]
    syntax_ := ASM_GAS
    merge_pseudo := true }

/-- The session after Pass 1 over `sync; lui $t0, 0x4049; mtc1 $t0, $f0` at
`0x80000000`. -/
def sample_sync_float_after : disasm_state :=
  { globals := labels_alloc
    blocks :=
      [{ locals := labels_alloc
         instructions :=
           [sample_insn cs_sync (-1) 0,
            { sample_insn cs_lui_float 2 0x40490000 with id := MIPS_INS_LI, mnemonic := "li" },
            sample_insn cs_mtc1_t0 (-1) 0]
         offset := 0, length := 12, vaddr := 0x80000000 }]
    syntax_ := ASM_GAS
    merge_pseudo := true }

/-- A stand-in for the C library's `%g` that prints `3.14062` for every
float. -/
def fmt_g_sample : Nat → String := fun _ => "3.14062"

/-! ## Predicates for links and calls -/

/-- Pass 2 writes a label name for the linked instruction `d` of the block
with the instructions `insns` (lines 742-823): `d` is a LUI whose partner
`insns[d.linked_insn]` is no ORI, an ADDIU, or none of LI, LUI, ADDIU and ORI
(a load or store). -/
def uses_label (insns : List disasm_data) (d : disasm_data) : Prop :=
  (d.id = MIPS_INS_LUI ∧ (insn_at insns d.linked_insn.toNat).id ≠ MIPS_INS_ORI) ∨
  d.id = MIPS_INS_ADDIU ∨
  (d.id ≠ MIPS_INS_LI ∧ d.id ≠ MIPS_INS_LUI ∧ d.id ≠ MIPS_INS_ADDIU ∧ d.id ≠ MIPS_INS_ORI)

/-- The link of `d` is in order: if `d` has one, it is an index below `m`, and
the scope `g` has a label at `d.linked_value` when Pass 2 writes one. -/
def link_ok (g : label_buf) (insns : List disasm_data) (m : Nat) (d : disasm_data) : Prop :=
  0 ≤ d.linked_insn →
    d.linked_insn.toNat < m ∧ (uses_label insns d → has_label_at g d.linked_value)

/-- The links of the first `m` instructions are in order. -/
def links_ok (g : label_buf) (insns : List disasm_data) (m : Nat) : Prop :=
  ∀ j < m, link_ok g insns m (insn_at insns j)

/-- The links of all instructions of all blocks of the session are in order. -/
def session_links_ok (state : disasm_state) : Prop :=
  ∀ b ∈ state.blocks, links_ok state.globals b.instructions b.instructions.length

/-- The comment sign of the dialect before the bits of a float (lines 710-737). -/
def float_comment (syntax_ : asm_syntax) : String :=
  match syntax_ with
  | ASM_GAS => " # 0x"
  | ASM_ARMIPS => " // 0x"

/-- The low 16 bits of `v` read as a signed 16-bit number. -/
def sign_extend16 (v : Nat) : Int :=
  if v % 65536 ≥ 32768 then ((v % 65536 : Nat) : Int) - 65536 else ((v % 65536 : Nat) : Int)

/-- The instruction `mtc0 $t0, $12` (word `0x40886000`) as decoded. -/
def cs_mtc0 : cs_insn :=
  { mk_cs_insn MIPS_INS_MTC0 "mtc0" "$t0, $zero, 0" [op_reg MIPS_REG_T0, op_reg MIPS_REG_ZERO] with
    bytes := [0x40, 0x88, 0x60, 0x00] }

/-- The instruction `lw $t1, -4($t0)` as decoded. -/
def cs_lw_neg : cs_insn :=
  mk_cs_insn MIPS_INS_LW "lw" "$t1, -4($t0)" [op_reg 11, op_mem MIPS_REG_T0 (-4)]

/-- The instruction `sync` with its bytes. -/
def cs_sync_raw : cs_insn := { cs_sync with bytes := [0x00, 0x00, 0x00, 0x0F] }

/-- The instruction `jr $ra` with its bytes. -/
def cs_jr_ra : cs_insn :=
  { mk_cs_insn MIPS_INS_JR "jr" "$ra" [op_reg MIPS_REG_RA] with
    bytes := [0x03, 0xE0, 0x00, 0x08], grp_jump := true }

/-- The session after Pass 1 over `sync; jr $ra; nop` at `0x80000000`. -/
def sample_byte_state : disasm_state :=
  { globals := labels_alloc
    blocks := [{ locals := labels_alloc
                 instructions := [sample_insn cs_sync_raw (-1) 0, sample_insn cs_jr_ra (-1) 0,
                                  sample_insn cs_nop (-1) 0]
                 offset := 0, length := 12, vaddr := 0x80000000 }]
    syntax_ := ASM_GAS
    merge_pseudo := true }

/-! ## Notions and sample inputs for the hi/lo pairs and the blank line -/

/-- The ids of the low half of a hi/lo pair (the `case` labels of lines
399-424): the loads and stores, ADDIU and ORI. -/
def is_low_half (id : mips_insn) : Bool :=
  is_load_store id || id = MIPS_INS_ADDIU || id = MIPS_INS_ORI

/-- The test of lines 317-322: the instruction is flagged as a jump and is a J,
or a JR or JALR whose first operand is `$ra`. -/
def ends_function (d : disasm_data) : Prop :=
  d.is_jump = true ∧
  (((d.id = MIPS_INS_JR ∨ d.id = MIPS_INS_JALR) ∧ (d.op 0).reg = MIPS_REG_RA) ∨
    d.id = MIPS_INS_J)

instance (d : disasm_data) : Decidable (ends_function d) := by
  unfold ends_function
  infer_instance

/-- The hi/lo links of the first `m` instructions answer each other: a LUI
with a link is linked to a later low half that is linked back to it with the
same address, and a low half with a link is linked to an earlier LUI (or the
LI a LUI became) whose own link is at or after that low half. -/
def pairs_ok (insns : List disasm_data) (m : Nat) : Prop :=
  (∀ s, s < m → (insn_at insns s).id = MIPS_INS_LUI → 0 ≤ (insn_at insns s).linked_insn →
    ∃ i : Nat, (insn_at insns s).linked_insn = (i : Int) ∧ s < i ∧ i < m ∧
      is_low_half (insn_at insns i).id = true ∧
      (insn_at insns i).linked_insn = (s : Int) ∧
      (insn_at insns i).linked_value = (insn_at insns s).linked_value) ∧
  (∀ i, i < m → is_low_half (insn_at insns i).id = true → 0 ≤ (insn_at insns i).linked_insn →
    ∃ s : Nat, (insn_at insns i).linked_insn = (s : Int) ∧ s < i ∧
      ((insn_at insns s).id = MIPS_INS_LUI ∨ (insn_at insns s).id = MIPS_INS_LI) ∧
      (i : Int) ≤ (insn_at insns s).linked_insn)

/-- The cases of the `switch` of lines 399-438 in which `link_with_lui` is not
called or returns at once: a load or store with displacement 0, an ADDIU or
ORI of a register other than `$zero` onto itself with immediate 0, and an
ADDIU or ORI whose destination differs from a source other than `$zero`. -/
def skips_lui_scan (d : disasm_data) : Prop :=
  (is_load_store d.id = true ∧ (d.op 1).mem_disp = 0) ∨
  ((d.id = MIPS_INS_ADDIU ∨ d.id = MIPS_INS_ORI) ∧ (d.op 1).reg ≠ MIPS_REG_ZERO ∧
    (((d.op 0).reg = (d.op 1).reg ∧ (d.op 2).imm = 0) ∨ (d.op 0).reg ≠ (d.op 1).reg))

/-- The instruction `lw $t2, 8($t0)` as decoded. -/
def cs_lw_t2 : cs_insn :=
  mk_cs_insn MIPS_INS_LW "lw" "$t2, 8($t0)" [op_reg 12, op_mem MIPS_REG_T0 8]

/-- The session after Pass 1 over `lui $t0, 0x8000; lb $t1, 2($t0);
lw $t2, 8($t0)` at `0x80000000`: both loads are linked to the LUI, the LUI to
the second. -/
def sample_shared_after : disasm_state :=
  { globals :=
      { labels := [{ name := "D_80000002", vaddr := 0x80000002 },
                   { name := "D_80000008", vaddr := 0x80000008 }],
        alloc := 128 }
    blocks :=
      [{ locals := labels_alloc
         instructions :=
           [sample_insn cs_lui_hi 2 0x80000008, sample_insn cs_lb_t1 0 0x80000002,
            sample_insn cs_lw_t2 0 0x80000008]
         offset := 0, length := 12, vaddr := 0x80000000 }]
    syntax_ := ASM_GAS
    merge_pseudo := true }

/-- The instruction `lw $t1, 0($t0)` as decoded. -/
def cs_lw_zero : cs_insn :=
  mk_cs_insn MIPS_INS_LW "lw" "$t1, 0($t0)" [op_reg 11, op_mem MIPS_REG_T0 0]

/-- The instruction `addiu $a0, $zero, -5` as decoded. -/
def cs_addiu_zero : cs_insn :=
  mk_cs_insn MIPS_INS_ADDIU "addiu" "$a0, $zero, -5"
    [op_reg MIPS_REG_A0, op_reg MIPS_REG_ZERO, op_imm (-5)]

/-- The session after Pass 1 over `jr $ra; nop; nop` at `0x80000000`: the
third instruction is flagged for a blank line. -/
def sample_return_after : disasm_state :=
  { globals := labels_alloc
    blocks := [{ locals := labels_alloc
                 instructions := [sample_insn cs_jr_ra (-1) 0, sample_insn cs_nop (-1) 0,
                                  { sample_insn cs_nop (-1) 0 with newline := true }]
                 offset := 0, length := 12, vaddr := 0x80000000 }]
    syntax_ := ASM_GAS
    merge_pseudo := true }

/-! ## The two backward scans side by side -/

/-- The way a backward scan for a LUI ends: at the LUI of the register at index
`s`, at a redefinition of the register at `s`, at the `jr $ra` at `s`, or by
running off the start of the block (or of the window). -/
inductive scan_stop
  | lui (s : Nat)
  | redefined (s : Nat)
  | jr_ra (s : Nat)
  | start
  deriving DecidableEq, Repr

/-- Where and why the search of lines 365-396 for the LUI of a MTC1 ends,
entered with `s = n - 1`: the branches of `float_li_loop`, without their
effect on the instructions. -/
def float_scan (rt : Nat) (insn : List disasm_data) : Nat → scan_stop
  | 0 => scan_stop.start
  | s + 1 =>
    if (insn_at insn s).id = MIPS_INS_LUI ∧ ((insn_at insn s).op 0).reg = rt then
      scan_stop.lui s
    else if is_float_scan_redefinition (insn_at insn s).id then
      let rd := ((insn_at insn s).op 0).reg
      if rt = rd then scan_stop.redefined s else float_scan rt insn s
    else if (insn_at insn s).id = MIPS_INS_JR ∧ ((insn_at insn s).op 0).reg = MIPS_REG_RA then
      scan_stop.jr_ra s
    else float_scan rt insn s

/-- Where and why the `for` loop of `link_with_lui` (lines 132-171) ends,
entered with `search = n - 1`: the branches of `link_with_lui_loop`, without
their effect on the instructions and labels. -/
def lui_scan (reg end_search : Nat) (insn : List disasm_data) : Nat → scan_stop
  | 0 => scan_stop.start
  | search + 1 =>
    if search < end_search then scan_stop.start
    else if (insn_at insn search).id = MIPS_INS_LUI then
      let rd := ((insn_at insn search).op 0).reg
      if reg = rd then scan_stop.lui search else lui_scan reg end_search insn search
    else if is_lui_scan_redefinition (insn_at insn search).id then
      let rd := ((insn_at insn search).op 0).reg
      if reg = rd then scan_stop.redefined search else lui_scan reg end_search insn search
    else if (insn_at insn search).id = MIPS_INS_JR
        ∧ ((insn_at insn search).op 0).reg = MIPS_REG_RA then scan_stop.jr_ra search
    else lui_scan reg end_search insn search

/-- The instruction `addu $t0, $t1, $t2` as decoded. -/
def cs_addu_t0 : cs_insn :=
  mk_cs_insn MIPS_INS_ADDU "addu" "$t0, $t1, $t2" [op_reg MIPS_REG_T0, op_reg 11, op_reg 12]

/-- The instruction `lb $t0, 4($a0)` as decoded. -/
def cs_lb_t0_4 : cs_insn :=
  mk_cs_insn MIPS_INS_LB "lb" "$t0, 4($a0)" [op_reg MIPS_REG_T0, op_mem MIPS_REG_A0 4]

/-- The block `lui $t0, 0x4049; addu $t0, $t1, $t2; mtc1 $t0, $f0` as decoded. -/
def sample_addu_block : List disasm_data :=
  [copy_insn cs_lui_float, copy_insn cs_addu_t0, copy_insn cs_mtc1_t0]

/-- The block `lui $t0, 0x4049; lb $t0, 4($a0); mtc1 $t0, $f0` as decoded. -/
def sample_lb_block : List disasm_data :=
  [copy_insn cs_lui_float, copy_insn cs_lb_t0_4, copy_insn cs_mtc1_t0]

/-! ## Notions for the decode loop: the buffer and the positions -/

/-- The batch of the decode call the inner loop makes at `chunk_processed`
(lines 214-219). -/
def decode_call (cs : capstone) (data : List Nat) (vaddr processed chunk_size
    chunk_processed : Nat) : List cs_insn :=
  cs.cs_disasm (data.drop ((processed + chunk_processed) % 4294967296))
    (min (chunk_size - chunk_processed) 0x400)
    ((vaddr + (processed + chunk_processed) % 4294967296) % 4294967296)

/-- The decoder returns at most one instruction for every four bytes it is
handed. -/
def decodes_at_most_words (cs : capstone) : Prop :=
  ∀ code size addr, (cs.cs_disasm code size addr).length ≤ size / 4

/-- The buffer of a block whose initial capacity is 4096: the capacity is 4096
doubled, the count is within it, and every run of the copy loop was within the
capacity it ran with. -/
def buffer_doubled (st : decode_state) : Prop :=
  capacity_doubled st.instruction_capacity ∧
  st.instructions.length ≤ st.instruction_capacity ∧
  ∀ b ∈ st.copies, b.instruction_count + b.count ≤ b.instruction_capacity ∧
    capacity_doubled b.instruction_capacity

/-- The buffer of a block of `length` bytes whose initial capacity `c0` is
below 4096, at the position `chunk_processed` of its only chunk: the capacity
is still `c0` and the count is within the words decoded so far. -/
def buffer_initial (c0 length : Nat) (st : decode_state) (chunk_processed : Nat) : Prop :=
  st.instruction_capacity = c0 ∧
  4 * st.instructions.length ≤ chunk_processed ∧ 4 * st.instructions.length ≤ length ∧
  ∀ b ∈ st.copies, b.instruction_count + b.count ≤ b.instruction_capacity ∧
    b.instruction_capacity = c0

/-- What holds of the buffer of a block of `length` bytes: the count is within
the capacity, the capacity is the initial one doubled some number of times and
at most `0x40000`, and so was the capacity of every run of the copy loop, which
stayed within it. -/
def buffer_within (length : Nat) (st : decode_state) : Prop :=
  st.instructions.length ≤ st.instruction_capacity ∧ st.instruction_capacity ≤ 0x40000 ∧
  (∃ j, st.instruction_capacity = initial_capacity length * 2 ^ j) ∧
  ∀ b ∈ st.copies, b.instruction_count + b.count ≤ b.instruction_capacity ∧
    b.instruction_capacity ≤ 0x40000 ∧
    ∃ j, b.instruction_capacity = initial_capacity length * 2 ^ j

/-- The variables of the decode loops before the first chunk, the buffer
having the capacity `c`. -/
def decode_start (c : Nat) : decode_state :=
  { instructions := [], instruction_capacity := c, n_realloc := 0, calls := [], copies := [] }

/-! ## Notions and sample inputs for the positions of the decoded instructions -/

/-- Every stored instruction has its record: instruction `k` is the copy of
element `k - instruction_count` of the batch of a recorded run of the copy
loop, and every run copied a batch decoded at the byte offset
`4 * instruction_count` of the range. -/
def positions_ok (cs : capstone) (data : List Nat) (vaddr : Nat) (st : decode_state) : Prop :=
  (∀ b ∈ st.copies, b.current_offset = 4 * b.instruction_count) ∧
  ∀ k, k < st.instructions.length → ∃ b ∈ st.copies, ∃ ci,
    b.instruction_count ≤ k ∧
    (cs.cs_disasm (data.drop b.current_offset) b.sub_chunk_size
      ((vaddr + b.current_offset) % 4294967296))[k - b.instruction_count]? = some ci ∧
    insn_at st.instructions k = copy_insn ci

/-- The decoder returns at least one instruction when it is handed four bytes
or more. -/
def decodes_some_word (cs : capstone) : Prop :=
  ∀ code size addr, 4 ≤ size → 1 ≤ (cs.cs_disasm code size addr).length

/-- The decode loop inside a chunk, while the positions are in step: the
records are in order, the capacity is positive and at most `0x40000`, and
either the count times 4 is the position `processed + chunk_processed`, or the
position has passed the end of a chunk whose size is no multiple of 4. -/
def chunk_positions (cs : capstone) (data : List Nat) (vaddr processed chunk_size : Nat)
    (st : decode_state) (chunk_processed : Nat) : Prop :=
  positions_ok cs data vaddr st ∧ 0 < st.instruction_capacity ∧
  st.instruction_capacity ≤ 0x40000 ∧
  ((4 * st.instructions.length = processed + chunk_processed ∧ chunk_processed ≤ chunk_size) ∨
    (chunk_size < chunk_processed ∧ chunk_size % 4 ≠ 0))

/-- The decode loop between two chunks, while the positions are in step. -/
def range_positions (cs : capstone) (data : List Nat) (vaddr length : Nat)
    (st : decode_state) (remaining processed : Nat) : Prop :=
  positions_ok cs data vaddr st ∧ 0 < st.instruction_capacity ∧
  st.instruction_capacity ≤ 0x40000 ∧
  (remaining = 0 ∨ (4 * st.instructions.length = processed ∧ processed + remaining = length))

/-- A decoder that returns nothing for the call at the address `base` and
answers every other call as `table_decoder` does. -/
def gap_decoder (base : Nat) (prog : List cs_insn) : capstone :=
  { cs_disasm := fun _ code_size address =>
      if address = base then [] else (prog.drop ((address - base) / 4)).take (code_size / 4)
    cs_reg_name := fun r => "r" ++ toString r }

/-- The decode loop's state after the 8 bytes `nop; jr $ra` with
`gap_decoder`: the call at offset 0 returned nothing, the `jr $ra` decoded at
offset 4 is instruction 0. -/
def sample_gap_decoded : decode_state :=
  { instructions := [copy_insn cs_jr_ra], instruction_capacity := 258, n_realloc := 0,
    calls := [(0, 8), (4, 4)]
    copies := [batch_copy.mk 4 4 0 1 258] }

/-- The session after Pass 1 over the 8 bytes `nop; jr $ra` with `gap_decoder`. -/
def sample_gap_after : disasm_state :=
  { globals := labels_alloc
    blocks := [{ locals := labels_alloc
                 instructions := [sample_insn cs_jr_ra (-1) 0]
                 offset := 0, length := 8, vaddr := 0x80000000 }]
    syntax_ := ASM_GAS
    merge_pseudo := true }

/-- The session after Pass 1 over 8 bytes with `word_decoder cs_nop`. -/
def sample_nops_after : disasm_state :=
  { globals := labels_alloc
    blocks := [{ locals := labels_alloc
                 instructions := [sample_insn cs_nop (-1) 0, sample_insn cs_nop (-1) 0]
                 offset := 0, length := 8, vaddr := 0x80000000 }]
    syntax_ := ASM_GAS
    merge_pseudo := true }

/-! ## The label table: `labels_find`, `labels_add`, `labels_sort` -/

theorem labels_find_from_spec (v : Nat) (ls : List asm_label) (k : Nat) :
    ((∀ l ∈ ls, l.vaddr ≠ v) ∧ labels_find_from v ls k = -1) ∨
    (∃ i l, labels_find_from v ls k = ((k + i : Nat) : Int) ∧ ls[i]? = some l ∧ l.vaddr = v ∧
      ∀ j < i, ∀ l2, ls[j]? = some l2 → l2.vaddr ≠ v) := by
  induction ls generalizing k with
  | nil => left; simp [labels_find_from]
  | cons a rest ih =>
    by_cases h : a.vaddr = v
    · right
      refine ⟨0, a, ?_, by simp, h, ?_⟩
      · simp [labels_find_from, h]
      · intro j hj; omega
    · rcases ih (k + 1) with ⟨hno, hm⟩ | ⟨i, l, hi, hl, hv, hfirst⟩
      · left
        refine ⟨?_, ?_⟩
        · intro l hl
          rcases List.mem_cons.mp hl with rfl | hl
          · exact h
          · exact hno l hl
        · simp [labels_find_from, h, hm]
      · right
        refine ⟨i + 1, l, ?_, ?_, hv, ?_⟩
        · simp only [labels_find_from, h, if_false, hi]
          congr 1; omega
        · simpa using hl
        · intro j hj l2 hl2
          cases j with
          | zero => simp at hl2; subst hl2; exact h
          | succ j => exact hfirst j (by omega) l2 (by simpa using hl2)

theorem labels_find_neg_iff (buf : label_buf) (v : Nat) :
    labels_find buf v < 0 ↔ ∀ l ∈ buf.labels, l.vaddr ≠ v := by
  unfold labels_find
  rcases labels_find_from_spec v buf.labels 0 with ⟨hno, hm⟩ | ⟨i, l, hi, hl, hv, _⟩
  · simp [hm, hno]
    exact hno
  · constructor
    · intro h; rw [hi] at h; omega
    · intro h
      exact absurd hv (h l (List.getElem?_mem hl))

theorem labels_add_labels (buf : label_buf) (name : Option String) (v : Nat) :
    (labels_add buf name v).labels
      = buf.labels ++ [{ name := name.getD ("L" ++ fmt_08X v), vaddr := v }] := by
  cases name <;> rfl

theorem char_lt_iff (a b : Char) : a < b ↔ a.toNat < b.toNat := by
  rfl

theorem strcmp_le_iff (a b : List Char) : strcmp a b ≤ 0 ↔ a ≤ b := by
  induction a generalizing b with
  | nil =>
    cases b with
    | nil => simp [strcmp]
    | cons b bs => simp [strcmp]
  | cons a as ih =>
    cases b with
    | nil =>
      simp only [strcmp]
      constructor
      · intro h; omega
      · intro h; exact absurd (List.nil_lt_cons a as) (not_lt.mpr h)
    | cons b bs =>
      by_cases hab : a = b
      · subst hab
        simp only [strcmp, if_true]
        rw [ih bs, ← not_lt, ← not_lt]
        exact not_congr List.Lex.cons_iff.symm
      · simp only [strcmp, hab, if_false]
        by_cases hlt : a.toNat < b.toNat
        · simp only [hlt, if_true]
          have : a :: as < b :: bs := List.Lex.rel ((char_lt_iff a b).mpr hlt)
          simp [le_of_lt this]
        · simp only [hlt, if_false]
          have hne : a.toNat ≠ b.toNat := fun h => hab (Char.ext (by
            exact UInt32.ext (by simpa [Char.toNat] using h)))
          have hba : b < a := (char_lt_iff b a).mpr (by omega)
          have : b :: bs < a :: as := List.Lex.rel hba
          simp [not_le_of_lt this]

theorem label_cmp_le_iff (a b : asm_label) :
    label_cmp a b ≤ 0 ↔ a.vaddr < b.vaddr ∨ (a.vaddr = b.vaddr ∧ a.name ≤ b.name) := by
  unfold label_cmp
  by_cases h1 : a.vaddr > b.vaddr
  · rw [if_pos h1]; constructor
    · intro h; omega
    · rintro (h | ⟨h, _⟩) <;> omega
  · by_cases h2 : b.vaddr > a.vaddr
    · rw [if_neg h1, if_pos h2]
      constructor
      · intro _; left; exact h2
      · intro _; omega
    · rw [if_neg h1, if_neg h2]
      have heq : a.vaddr = b.vaddr := by omega
      rw [strcmp_le_iff, String.le_iff_toList_le]
      constructor
      · intro h; right; exact ⟨heq, h⟩
      · rintro (h | ⟨_, h⟩)
        · omega
        · exact h

instance label_cmp_total : IsTotal asm_label (fun a b => label_cmp a b ≤ 0) :=
  ⟨fun a b => by
    simp only [label_cmp_le_iff]
    rcases lt_trichotomy a.vaddr b.vaddr with h | h | h
    · left; left; exact h
    · rcases le_total a.name b.name with hn | hn
      · left; right; exact ⟨h, hn⟩
      · right; right; exact ⟨h.symm, hn⟩
    · right; left; exact h⟩

instance label_cmp_trans : IsTrans asm_label (fun a b => label_cmp a b ≤ 0) :=
  ⟨fun a b c => by
    simp only [label_cmp_le_iff]
    rintro (h1 | ⟨h1, n1⟩) (h2 | ⟨h2, n2⟩)
    · left; omega
    · left; omega
    · left; omega
    · right; exact ⟨h1.trans h2, le_trans n1 n2⟩⟩

theorem qsort_label_cmp_perm (l : List asm_label) : (qsort label_cmp l).Perm l :=
  List.perm_insertionSort _ l

theorem qsort_label_cmp_sorted (l : List asm_label) :
    (qsort label_cmp l).Pairwise label_ordered := by
  have h := List.sorted_insertionSort (fun a b => label_cmp a b ≤ 0) l
  exact List.Pairwise.imp (fun {a b} hab => (label_cmp_le_iff a b).mp hab) h

theorem label_ordered_antisymm (a b : asm_label) (h1 : label_ordered a b)
    (h2 : label_ordered b a) : a = b := by
  rcases h1 with h1 | ⟨h1, n1⟩ <;> rcases h2 with h2 | ⟨h2, n2⟩
  · omega
  · omega
  · omega
  · cases a; cases b
    simp only at h1 n1 n2
    subst h1
    rw [le_antisymm n1 n2]

theorem qsort_label_cmp_of_sorted (l : List asm_label) (h : l.Pairwise label_ordered) :
    qsort label_cmp l = l :=
  List.Sorted.insertionSort_eq
    (List.Pairwise.imp (fun {a b} hab => (label_cmp_le_iff a b).mpr hab) h)

theorem block_append_getD (blocks : List asm_block) (b : asm_block) :
    (blocks ++ [b]).getD blocks.length default = b := by
  simp [List.getD]

theorem block_append_set (blocks : List asm_block) (b c : asm_block) :
    (blocks ++ [b]).set blocks.length c = blocks ++ [c] := by
  induction blocks with
  | nil => rfl
  | cons a rest ih => simp [ih]

theorem mipsdisasm_pass1_ok (cs : capstone) (al : allocator) (fuel : Nat) (data : List Nat)
    (offset length vaddr : Nat) (state state2 : disasm_state)
    (h : mipsdisasm_pass1 cs al fuel data offset length vaddr state = .ok state2) :
    ∃ st, decode_block cs al fuel (data.drop offset) length vaddr = .ok st ∧
      state2 = pass1_result cs offset length vaddr state st.instructions := by
  unfold mipsdisasm_pass1 disassemble_block at h
  cases hd : decode_block cs al fuel (List.drop offset data) length vaddr with
  | error e => simp [hd] at h
  | ok st =>
    refine ⟨st, rfl, ?_⟩
    simp only [hd, disasm_state.block, block_append_getD, block_append_set,
      Except.ok.injEq] at h
    rw [← h]
    simp [pass1_result, block_append_getD, block_append_set]

/-- Pass 1 over the sample program, evaluated. -/
theorem sample_pass1 :
    mipsdisasm_pass1 (table_decoder 0x80000000 sample_prog) alloc_always 4 (List.replicate 16 0)
      0 16 0x80000000 (disasm_state_init ASM_GAS true) = .ok sample_after := by
  rfl

/-- C9: `labels_find` returns the first match or absence. The result is `-1`
exactly when no entry of the scope has address `v`; when some entry has, the
result is the smallest index `i < count` with `labels[i].vaddr = v`. The
function only reads the scope: its result is the index alone. -/
theorem labels_find_first_match (buf : label_buf) (v : Nat) :
    (labels_find buf v = -1 ↔ ∀ l ∈ buf.labels, l.vaddr ≠ v) ∧
    ((∃ l ∈ buf.labels, l.vaddr = v) →
      ∃ (i : Nat) (l : asm_label), labels_find buf v = (i : Int) ∧ i < buf.count ∧
        buf.labels[i]? = some l ∧
        l.vaddr = v ∧ ∀ j < i, ∀ l2, buf.labels[j]? = some l2 → l2.vaddr ≠ v) := by
  unfold labels_find
  rcases labels_find_from_spec v buf.labels 0 with ⟨hno, hm⟩ | ⟨i, l, hi, hl, hv, hfirst⟩
  · refine ⟨⟨fun _ => hno, fun _ => hm⟩, ?_⟩
    rintro ⟨l, hl, hv⟩
    exact absurd hv (hno l hl)
  · rw [Nat.zero_add] at hi
    refine ⟨⟨fun h => ?_, fun h => ?_⟩, fun _ => ⟨i, l, hi, ?_, hl, hv, hfirst⟩⟩
    · rw [hi] at h; omega
    · exact absurd hv (h l (List.getElem?_mem hl))
    · exact (List.getElem?_eq_some.mp hl).1

theorem labels_sort_perm (buf : label_buf) : (labels_sort buf).labels.Perm buf.labels :=
  qsort_label_cmp_perm buf.labels

theorem labels_sort_pairwise (buf : label_buf) :
    (labels_sort buf).labels.Pairwise label_ordered :=
  qsort_label_cmp_sorted buf.labels

/-- C8: label ordering after sort. `labels_sort` leaves a permutation of the
entries in which every adjacent pair `(a, b)` has `a.address < b.address`, or
equal addresses and `a.name <= b.name`; so when `mipsdisasm_pass1` returns,
the global scope and the local scope of the new block are in that order. -/
theorem labels_sort_ordered (buf : label_buf) (cs : capstone) (al : allocator) (fuel : Nat)
    (data : List Nat) (offset length vaddr : Nat) (state state2 : disasm_state)
    (h : mipsdisasm_pass1 cs al fuel data offset length vaddr state = .ok state2) :
    ((labels_sort buf).labels.Perm buf.labels ∧
      List.Chain' label_ordered (labels_sort buf).labels) ∧
    List.Chain' label_ordered state2.globals.labels ∧
    List.Chain' label_ordered (state2.block state.blocks.length).locals.labels := by
  obtain ⟨st, _, rfl⟩ := mipsdisasm_pass1_ok cs al fuel data offset length vaddr state state2 h
  refine ⟨⟨labels_sort_perm buf, (labels_sort_pairwise buf).chain'⟩, ?_, ?_⟩
  · exact (labels_sort_pairwise _).chain'
  · simp only [pass1_result, disasm_state.block, block_append_getD]
    exact (labels_sort_pairwise _).chain'

/-! ## `ensure_label`: create a label if one does not exist -/

theorem labels_find_neg_iff_not_has (buf : label_buf) (a : Nat) :
    labels_find buf a < 0 ↔ ¬ has_label_at buf a := by
  rw [labels_find_neg_iff]
  unfold has_label_at
  push_neg
  rfl

theorem ensure_label_of_has (buf : label_buf) (name : String) (a : Nat)
    (h : has_label_at buf a) : ensure_label buf name a = buf := by
  unfold ensure_label
  rw [if_neg ((labels_find_neg_iff_not_has buf a).not.mpr (not_not.mpr h))]

theorem ensure_label_of_not_has (buf : label_buf) (name : String) (a : Nat)
    (h : ¬ has_label_at buf a) :
    (ensure_label buf name a).labels = buf.labels ++ [{ name := name, vaddr := a }] := by
  unfold ensure_label
  rw [if_pos ((labels_find_neg_iff_not_has buf a).mpr h), labels_add_labels]
  rfl

theorem ensure_label_has (buf : label_buf) (name : String) (a : Nat) :
    has_label_at (ensure_label buf name a) a := by
  by_cases h : has_label_at buf a
  · rw [ensure_label_of_has buf name a h]; exact h
  · unfold has_label_at
    rw [ensure_label_of_not_has buf name a h]
    exact ⟨asm_label.mk name a, List.mem_append_right _ (List.mem_singleton_self _), rfl⟩

theorem ensure_label_mem (buf : label_buf) (name : String) (a : Nat) (l : asm_label)
    (h : l ∈ buf.labels) : l ∈ (ensure_label buf name a).labels := by
  by_cases hh : has_label_at buf a
  · rw [ensure_label_of_has buf name a hh]; exact h
  · rw [ensure_label_of_not_has buf name a hh]
    exact List.mem_append_left _ h

theorem ensure_label_mem_inv (buf : label_buf) (name : String) (a : Nat) (l : asm_label)
    (h : l ∈ (ensure_label buf name a).labels) :
    l ∈ buf.labels ∨ (l = { name := name, vaddr := a } ∧ ¬ has_label_at buf a) := by
  by_cases hh : has_label_at buf a
  · rw [ensure_label_of_has buf name a hh] at h; exact Or.inl h
  · rw [ensure_label_of_not_has buf name a hh] at h
    rcases List.mem_append.mp h with h | h
    · exact Or.inl h
    · exact Or.inr ⟨List.mem_singleton.mp h, hh⟩

theorem ensure_label_distinct (buf : label_buf) (name : String) (a : Nat)
    (h : distinct_addresses buf) : distinct_addresses (ensure_label buf name a) := by
  by_cases hh : has_label_at buf a
  · rw [ensure_label_of_has buf name a hh]; exact h
  · unfold distinct_addresses at *
    rw [ensure_label_of_not_has buf name a hh, List.map_append, List.nodup_append]
    refine ⟨h, by simp, ?_⟩
    intro x hx hx2
    simp only [List.map_cons, List.map_nil, List.mem_singleton] at hx2
    obtain ⟨l, hl, hlv⟩ := List.mem_map.mp hx
    exact hh ⟨l, hl, hlv.trans hx2⟩

theorem has_label_at_of_perm (b1 b2 : label_buf) (h : b1.labels.Perm b2.labels) (a : Nat) :
    has_label_at b1 a ↔ has_label_at b2 a := by
  unfold has_label_at
  constructor
  · rintro ⟨l, hl, hv⟩; exact ⟨l, h.mem_iff.mp hl, hv⟩
  · rintro ⟨l, hl, hv⟩; exact ⟨l, h.mem_iff.mpr hl, hv⟩

theorem ensure_all_nil (buf : label_buf) : ensure_all [] buf = buf := rfl

theorem ensure_all_cons (r : String × Nat) (reqs : List (String × Nat)) (buf : label_buf) :
    ensure_all (r :: reqs) buf = ensure_all reqs (ensure_label buf r.1 r.2) := rfl

theorem ensure_all_append (r1 r2 : List (String × Nat)) (buf : label_buf) :
    ensure_all (r1 ++ r2) buf = ensure_all r2 (ensure_all r1 buf) := by
  unfold ensure_all; rw [List.foldl_append]

theorem ensure_all_mem (reqs : List (String × Nat)) (buf : label_buf) (l : asm_label)
    (h : l ∈ buf.labels) : l ∈ (ensure_all reqs buf).labels := by
  induction reqs generalizing buf with
  | nil => exact h
  | cons r rest ih => rw [ensure_all_cons]; exact ih _ (ensure_label_mem _ _ _ _ h)

theorem ensure_all_has_of_has (reqs : List (String × Nat)) (buf : label_buf) (a : Nat)
    (h : has_label_at buf a) : has_label_at (ensure_all reqs buf) a := by
  obtain ⟨l, hl, hv⟩ := h
  exact ⟨l, ensure_all_mem reqs buf l hl, hv⟩

theorem ensure_all_has (reqs : List (String × Nat)) (buf : label_buf) (r : String × Nat)
    (h : r ∈ reqs) : has_label_at (ensure_all reqs buf) r.2 := by
  induction reqs generalizing buf with
  | nil => cases h
  | cons r0 rest ih =>
    rw [ensure_all_cons]
    rcases List.mem_cons.mp h with rfl | h
    · exact ensure_all_has_of_has _ _ _ (ensure_label_has _ _ _)
    · exact ih _ h

theorem ensure_all_distinct (reqs : List (String × Nat)) (buf : label_buf)
    (h : distinct_addresses buf) : distinct_addresses (ensure_all reqs buf) := by
  induction reqs generalizing buf with
  | nil => exact h
  | cons r rest ih => rw [ensure_all_cons]; exact ih _ (ensure_label_distinct _ _ _ h)

theorem ensure_all_of_has (reqs : List (String × Nat)) (buf : label_buf)
    (h : ∀ r ∈ reqs, has_label_at buf r.2) : ensure_all reqs buf = buf := by
  induction reqs generalizing buf with
  | nil => rfl
  | cons r rest ih =>
    rw [ensure_all_cons, ensure_label_of_has _ _ _ (h r (List.mem_cons_self _ _))]
    exact ih _ (fun r2 h2 => h r2 (List.mem_cons_of_mem _ h2))

/-- Every label of the scope after the requests is an old one, or was created
by one of the requests at an address that had no label. -/
theorem ensure_all_mem_inv (reqs : List (String × Nat)) (buf : label_buf) (l : asm_label)
    (h : l ∈ (ensure_all reqs buf).labels) :
    l ∈ buf.labels ∨ ((l.name, l.vaddr) ∈ reqs ∧ ¬ has_label_at buf l.vaddr) := by
  induction reqs generalizing buf with
  | nil => exact Or.inl h
  | cons r rest ih =>
    rw [ensure_all_cons] at h
    rcases ih _ h with h1 | ⟨h1, h2⟩
    · rcases ensure_label_mem_inv _ _ _ _ h1 with h3 | ⟨h3, h4⟩
      · exact Or.inl h3
      · right
        subst h3
        exact ⟨List.mem_cons_self _ _, h4⟩
    · right
      refine ⟨List.mem_cons_of_mem _ h1, fun hh => h2 ?_⟩
      obtain ⟨x, hx, hv⟩ := hh
      exact ⟨x, ensure_label_mem _ _ _ _ hx, hv⟩

/-! ## The hi/lo linker `link_with_lui` -/

theorem insn_at_set_self (insn : List disasm_data) (i : Nat) (x : disasm_data)
    (h : i < insn.length) : insn_at (insn.set i x) i = x := by
  simp [insn_at, List.getElem?_set_self h]

theorem insn_at_set_ne (insn : List disasm_data) (i j : Nat) (x : disasm_data) (h : i ≠ j) :
    insn_at (insn.set i x) j = insn_at insn j := by
  simp [insn_at, List.getElem?_set_ne h]

theorem insn_at_of_getElem? (insn : List disasm_data) (i : Nat) (d : disasm_data)
    (h : insn[i]? = some d) : insn_at insn i = d := by
  simp [insn_at, h]

theorem getElem?_of_lt (insn : List disasm_data) (i : Nat) (h : i < insn.length) :
    insn[i]? = some (insn_at insn i) := by
  simp [insn_at, List.getElem?_eq_getElem h]

/-- The loop of `link_with_lui` either leaves everything as it is, or links at
the first index below `n` at which the search stops, which is a LUI of `reg`
inside the window. -/
theorem link_with_lui_loop_cases (offset reg mem_imm end_search : Nat) (globals : label_buf)
    (insn : List disasm_data) (n : Nat) :
    link_with_lui_loop offset reg mem_imm end_search globals insn n = (globals, insn) ∨
    ∃ s, s < n ∧ end_search ≤ s ∧ (insn_at insn s).id = MIPS_INS_LUI ∧
      ((insn_at insn s).op 0).reg = reg ∧
      (∀ j, s < j → j < n → ¬ lui_scan_stops reg (insn_at insn j)) ∧
      link_with_lui_loop offset reg mem_imm end_search globals insn n
        = link_lui_pair offset mem_imm s globals insn := by
  induction n with
  | zero => left; rfl
  | succ search ih =>
    unfold link_with_lui_loop
    by_cases h0 : search < end_search
    · left; simp [h0]
    · simp only [h0, if_false]
      by_cases h1 : (insn_at insn search).id = MIPS_INS_LUI
      · simp only [h1, if_true]
        by_cases h2 : reg = ((insn_at insn search).op 0).reg
        · right
          refine ⟨search, by omega, by omega, h1, h2.symm, ?_, ?_⟩
          · intro j hj hj2; omega
          · simp [h2]
        · simp only [h2, if_false]
          rcases ih with ih | ⟨s, hs, he, hid, hrd, hno, heq⟩
          · left; exact ih
          · right
            refine ⟨s, by omega, he, hid, hrd, ?_, heq⟩
            intro j hj hj2
            by_cases hjs : j = search
            · subst hjs
              rintro (⟨_, h⟩ | ⟨h, _⟩ | ⟨h, _⟩)
              · exact h2 h.symm
              · rw [h1] at h; simp [is_lui_scan_redefinition] at h
              · rw [h1] at h; cases h
            · exact hno j hj (by omega)
      · simp only [h1, if_false]
        by_cases h3 : is_lui_scan_redefinition (insn_at insn search).id = true
        · simp only [h3, if_true]
          by_cases h2 : reg = ((insn_at insn search).op 0).reg
          · left; simp [h2]
          · simp only [h2, if_false]
            rcases ih with ih | ⟨s, hs, he, hid, hrd, hno, heq⟩
            · left; exact ih
            · right
              refine ⟨s, by omega, he, hid, hrd, ?_, heq⟩
              intro j hj hj2
              by_cases hjs : j = search
              · subst hjs
                rintro (⟨h, _⟩ | ⟨_, h⟩ | ⟨h, _⟩)
                · exact h1 h
                · exact h2 h.symm
                · rw [h] at h3; simp [is_lui_scan_redefinition] at h3
              · exact hno j hj (by omega)
        · simp only [h3]
          by_cases h4 : (insn_at insn search).id = MIPS_INS_JR ∧
              ((insn_at insn search).op 0).reg = MIPS_REG_RA
          · left; simp [h4]
          · simp only [h4, if_false]
            rcases ih with ih | ⟨s, hs, he, hid, hrd, hno, heq⟩
            · left; simpa using ih
            · right
              refine ⟨s, by omega, he, hid, hrd, ?_, by simpa using heq⟩
              intro j hj hj2
              by_cases hjs : j = search
              · subst hjs
                rintro (⟨h, _⟩ | ⟨h, _⟩ | h)
                · exact h1 h
                · exact h3 h
                · exact h4 h
              · exact hno j hj (by omega)

/-- When the search reaches a LUI of `reg` at `s` without stopping before, the
loop links there. -/
theorem link_with_lui_loop_hit (offset reg mem_imm end_search : Nat) (globals : label_buf)
    (insn : List disasm_data) (n s : Nat) (hs : s < n) (he : end_search ≤ s)
    (hid : (insn_at insn s).id = MIPS_INS_LUI) (hrd : ((insn_at insn s).op 0).reg = reg)
    (hno : ∀ j, s < j → j < n → ¬ lui_scan_stops reg (insn_at insn j)) :
    link_with_lui_loop offset reg mem_imm end_search globals insn n
      = link_lui_pair offset mem_imm s globals insn := by
  induction n with
  | zero => omega
  | succ search ih =>
    unfold link_with_lui_loop
    have h0 : ¬ search < end_search := by omega
    simp only [h0, if_false]
    by_cases hss : s = search
    · subst hss
      simp [hid, hrd]
    · have hstop := hno search (by omega) (by omega)
      have ih2 := ih (by omega) (fun j hj hj2 => hno j hj (by omega))
      simp only [lui_scan_stops, not_or, not_and] at hstop
      obtain ⟨hs1, hs2, hs3⟩ := hstop
      by_cases h1 : (insn_at insn search).id = MIPS_INS_LUI
      · have h2 : ¬ reg = ((insn_at insn search).op 0).reg := fun h => hs1 h1 h.symm
        simp [h1, h2, ih2]
      · by_cases h3 : is_lui_scan_redefinition (insn_at insn search).id = true
        · have h2 : ¬ reg = ((insn_at insn search).op 0).reg := fun h => hs2 h3 h.symm
          simp [h1, h3, h2, ih2]
        · have h4 : ¬ ((insn_at insn search).id = MIPS_INS_JR ∧
              ((insn_at insn search).op 0).reg = MIPS_REG_RA) := fun h => hs3 h.1 h.2
          simp [h1, h3, h4, ih2]
theorem hilo_addr_eq (d : disasm_data) (m : Nat) :
    ((to_u32 (d.op 1).imm * 65536) % 4294967296 + m) % 4294967296 = hilo_addr d m := by
  unfold hilo_addr
  omega

/-- The instructions after `link_lui_pair`: entry `search` and entry `offset`
get the link fields, nothing else changes. -/
theorem link_lui_pair_insn (offset mem_imm search : Nat) (globals : label_buf)
    (insn : List disasm_data) :
    (link_lui_pair offset mem_imm search globals insn).2
      = (insn.set search { insn_at insn search with
            linked_insn := (offset : Int),
            linked_value := hilo_addr (insn_at insn search) mem_imm }).set offset
          { insn_at (insn.set search { insn_at insn search with
                linked_insn := (offset : Int),
                linked_value := hilo_addr (insn_at insn search) mem_imm }) offset with
            linked_insn := (search : Int),
            linked_value := hilo_addr (insn_at insn search) mem_imm } := by
  unfold link_lui_pair
  simp only [hilo_addr_eq]
  split_ifs <;> rfl

theorem link_lui_pair_length (offset mem_imm search : Nat) (globals : label_buf)
    (insn : List disasm_data) :
    (link_lui_pair offset mem_imm search globals insn).2.length = insn.length := by
  rw [link_lui_pair_insn]; simp

theorem link_lui_pair_at_offset (offset mem_imm search : Nat) (globals : label_buf)
    (insn : List disasm_data) (ho : offset < insn.length) (hne : search ≠ offset) :
    insn_at (link_lui_pair offset mem_imm search globals insn).2 offset
      = { insn_at insn offset with
          linked_insn := (search : Int),
          linked_value := hilo_addr (insn_at insn search) mem_imm } := by
  rw [link_lui_pair_insn, insn_at_set_self _ _ _ (by simpa using ho), insn_at_set_ne _ _ _ _ hne]

theorem link_lui_pair_at_search (offset mem_imm search : Nat) (globals : label_buf)
    (insn : List disasm_data) (hs : search < insn.length) (hne : search ≠ offset) :
    insn_at (link_lui_pair offset mem_imm search globals insn).2 search
      = { insn_at insn search with
          linked_insn := (offset : Int),
          linked_value := hilo_addr (insn_at insn search) mem_imm } := by
  rw [link_lui_pair_insn, insn_at_set_ne _ _ _ _ (Ne.symm hne), insn_at_set_self _ _ _ hs]

theorem link_lui_pair_at_other (offset mem_imm search : Nat) (globals : label_buf)
    (insn : List disasm_data) (j : Nat) (h1 : j ≠ search) (h2 : j ≠ offset) :
    (link_lui_pair offset mem_imm search globals insn).2[j]? = insn[j]? := by
  rw [link_lui_pair_insn, List.getElem?_set_ne (Ne.symm h2), List.getElem?_set_ne (Ne.symm h1)]

/-- The global scope after `link_lui_pair`. -/
theorem link_lui_pair_globals (offset mem_imm search : Nat) (globals : label_buf)
    (insn : List disasm_data) (ho : offset < insn.length) (hne : search ≠ offset) :
    (link_lui_pair offset mem_imm search globals insn).1
      = if (insn_at insn offset).id ≠ MIPS_INS_ORI ∧
            labels_find globals (hilo_addr (insn_at insn search) mem_imm) < 0 then
          labels_add globals
            (some ("D_" ++ fmt_08X (hilo_addr (insn_at insn search) mem_imm)))
            (hilo_addr (insn_at insn search) mem_imm)
        else globals := by
  have hid : (insn_at ((insn.set search { insn_at insn search with
        linked_insn := (offset : Int),
        linked_value := hilo_addr (insn_at insn search) mem_imm }).set offset
      { insn_at (insn.set search { insn_at insn search with
            linked_insn := (offset : Int),
            linked_value := hilo_addr (insn_at insn search) mem_imm }) offset with
        linked_insn := (search : Int),
        linked_value := hilo_addr (insn_at insn search) mem_imm }) offset).id
      = (insn_at insn offset).id := by
    rw [insn_at_set_self _ _ _ (by simpa using ho), insn_at_set_ne _ _ _ _ hne]
  unfold link_lui_pair
  simp only [hilo_addr_eq, hid]
  split_ifs <;> simp_all

theorem state_block_set_instructions (state : disasm_state) (block_id : Nat)
    (insn : List disasm_data) (hb : block_id < state.blocks.length) (g : label_buf) :
    (({ state.set_instructions block_id insn with globals := g } : disasm_state).block
      block_id).instructions = insn := by
  simp [disasm_state.block, disasm_state.set_instructions, List.getElem?_set_self hb]

theorem link_with_lui_eq_pair (state : disasm_state) (block_id i s r m : Nat)
    (hm : m ≠ 0) (hsi : s < i) (hwin : i - s ≤ MAX_LOOKBACK)
    (hlui : (insn_at (state.block block_id).instructions s).id = MIPS_INS_LUI)
    (hrd : ((insn_at (state.block block_id).instructions s).op 0).reg = r)
    (hno : ∀ j, s < j → j < i →
      ¬ lui_scan_stops r (insn_at (state.block block_id).instructions j)) :
    link_with_lui_body i r m state.globals (state.block block_id).instructions
      = link_lui_pair i m s state.globals (state.block block_id).instructions := by
  unfold link_with_lui_body
  simp only [hm, ne_eq, not_false_eq_true, if_true]
  exact link_with_lui_loop_hit i r m _ _ _ i s hsi (by omega) hlui hrd hno

/-- C1: postcondition of `link_with_lui` when it links. If the backward search
from `i` for register `r` (non-zero immediate `m`) reaches, inside the window
and without stopping before, a LUI of `r` at index `s`, then afterwards `s` and
`i` point at each other, both carry `((lui_imm << 16) + m) mod 2^32`, and when
instruction `i` is not ORI the global scope has a label at that address (the
one appended when there was none is named `D_` and the 8 hex digits); when it
is ORI the global scope is unchanged. -/
theorem link_with_lui_links (state : disasm_state) (block_id i s r m : Nat)
    (hb : block_id < state.blocks.length)
    (hi : i < (state.block block_id).instructions.length)
    (hm : m ≠ 0) (hsi : s < i) (hwin : i - s ≤ MAX_LOOKBACK)
    (hlui : (insn_at (state.block block_id).instructions s).id = MIPS_INS_LUI)
    (hrd : ((insn_at (state.block block_id).instructions s).op 0).reg = r)
    (hno : ∀ j, s < j → j < i →
      ¬ lui_scan_stops r (insn_at (state.block block_id).instructions j)) :
    (insn_at ((link_with_lui state block_id i r m).block block_id).instructions s).linked_insn
      = (i : Int) ∧
    (insn_at ((link_with_lui state block_id i r m).block block_id).instructions i).linked_insn
      = (s : Int) ∧
    (insn_at ((link_with_lui state block_id i r m).block block_id).instructions s).linked_value
      = hilo_addr (insn_at (state.block block_id).instructions s) m ∧
    (insn_at ((link_with_lui state block_id i r m).block block_id).instructions i).linked_value
      = hilo_addr (insn_at (state.block block_id).instructions s) m ∧
    ((insn_at (state.block block_id).instructions i).id ≠ MIPS_INS_ORI →
      (∃ l ∈ (link_with_lui state block_id i r m).globals.labels,
        l.vaddr = hilo_addr (insn_at (state.block block_id).instructions s) m) ∧
      (labels_find state.globals (hilo_addr (insn_at (state.block block_id).instructions s) m) < 0 →
        (link_with_lui state block_id i r m).globals.labels = state.globals.labels ++
          [{ name := "D_" ++ fmt_08X (hilo_addr (insn_at (state.block block_id).instructions s) m),
             vaddr := hilo_addr (insn_at (state.block block_id).instructions s) m }]) ∧
      (0 ≤ labels_find state.globals (hilo_addr (insn_at (state.block block_id).instructions s) m) →
        (link_with_lui state block_id i r m).globals = state.globals)) ∧
    ((insn_at (state.block block_id).instructions i).id = MIPS_INS_ORI →
      (link_with_lui state block_id i r m).globals = state.globals) := by
  have hne : s ≠ i := by omega
  have hs : s < (state.block block_id).instructions.length := by omega
  have hbody := link_with_lui_eq_pair state block_id i s r m hm hsi hwin hlui hrd hno
  unfold link_with_lui
  simp only [state_block_set_instructions _ _ _ hb, hbody]
  refine ⟨?_, ?_, ?_, ?_, ?_, ?_⟩
  · rw [link_lui_pair_at_search _ _ _ _ _ hs hne]
  · rw [link_lui_pair_at_offset _ _ _ _ _ hi hne]
  · rw [link_lui_pair_at_search _ _ _ _ _ hs hne]
  · rw [link_lui_pair_at_offset _ _ _ _ _ hi hne]
  · intro hori
    rw [link_lui_pair_globals _ _ _ _ _ hi hne]
    by_cases hf : labels_find state.globals
        (hilo_addr (insn_at (state.block block_id).instructions s) m) < 0
    · rw [if_pos ⟨hori, hf⟩]
      refine ⟨?_, fun _ => ?_, fun h => absurd h (by omega)⟩
      · rw [labels_add_labels]
        exact ⟨asm_label.mk _ _, List.mem_append_right _ (List.mem_singleton_self _), rfl⟩
      · rw [labels_add_labels]; rfl
    · rw [if_neg (fun h => hf h.2)]
      refine ⟨?_, fun h => absurd h hf, fun _ => rfl⟩
      have := (labels_find_neg_iff state.globals _).not.mp hf
      push_neg at this
      exact this
  · intro hori
    rw [link_lui_pair_globals _ _ _ _ _ hi hne]
    simp [hori]

/-- C1 at `lui $t0, 0x1234; addiu $t0, $t0, 0x5678`: the ADDIU at 1 links to
the LUI at 0. -/
theorem link_with_lui_links_witness :
    (insn_at ((link_with_lui sample_lui_addiu_state 0 1 MIPS_REG_T0 0x5678).block 0).instructions
      0).linked_insn = 1 ∧
    (insn_at ((link_with_lui sample_lui_addiu_state 0 1 MIPS_REG_T0 0x5678).block 0).instructions
      1).linked_insn = 0 ∧
    (insn_at ((link_with_lui sample_lui_addiu_state 0 1 MIPS_REG_T0 0x5678).block 0).instructions
      0).linked_value = 0x12345678 ∧
    (insn_at ((link_with_lui sample_lui_addiu_state 0 1 MIPS_REG_T0 0x5678).block 0).instructions
      1).linked_value = 0x12345678 ∧
    (link_with_lui sample_lui_addiu_state 0 1 MIPS_REG_T0 0x5678).globals.labels
      = [{ name := "D_12345678", vaddr := 0x12345678 }] := by
  have h := link_with_lui_links sample_lui_addiu_state 0 1 0 MIPS_REG_T0 0x5678
    (by decide) (by decide) (by decide) (by decide) (by decide) (by decide) (by decide)
    (fun j h1 h2 => by omega)
  obtain ⟨h1, h2, h3, h4, h5, _⟩ := h
  refine ⟨h1, h2, h3, h4, ?_⟩
  exact (h5 (by decide)).2.1 (by decide)


theorem list_set_getD_self {α : Type} (l : List α) (i : Nat) (d : α) :
    l.set i (l.getD i d) = l := by
  induction l generalizing i with
  | nil => rfl
  | cons a rest ih =>
    cases i with
    | zero => rfl
    | succ i => simp only [List.set_cons_succ, List.getD_cons_succ, ih]

theorem set_instructions_self (state : disasm_state) (block_id : Nat) :
    ({ state.set_instructions block_id (state.block block_id).instructions with
        globals := state.globals } : disasm_state) = state := by
  unfold disasm_state.set_instructions disasm_state.block
  have : ({ List.getD state.blocks block_id default with
      instructions := (List.getD state.blocks block_id default).instructions } : asm_block)
      = List.getD state.blocks block_id default := rfl
  rw [this, list_set_getD_self]

/-- The id `link_lui_pair` tests against ORI is the id of instruction `offset`. -/
theorem insn_at_set_self_id (insn : List disasm_data) (i : Nat) (y : disasm_data)
    (h : y.id = (insn_at insn i).id) : (insn_at (insn.set i y) i).id = (insn_at insn i).id := by
  by_cases hi : i < insn.length
  · rw [insn_at_set_self _ _ _ hi, h]
  · have : insn.set i y = insn := List.set_eq_of_length_le (by omega)
    rw [this]

theorem link_lui_pair_globals_gen (offset mem_imm search : Nat) (globals : label_buf)
    (insn : List disasm_data) (hne : search ≠ offset) :
    (link_lui_pair offset mem_imm search globals insn).1
      = if (insn_at insn offset).id ≠ MIPS_INS_ORI ∧
            labels_find globals (hilo_addr (insn_at insn search) mem_imm) < 0 then
          labels_add globals
            (some ("D_" ++ fmt_08X (hilo_addr (insn_at insn search) mem_imm)))
            (hilo_addr (insn_at insn search) mem_imm)
        else globals := by
  have hid : (insn_at ((insn.set search { insn_at insn search with
        linked_insn := (offset : Int),
        linked_value := hilo_addr (insn_at insn search) mem_imm }).set offset
      { insn_at (insn.set search { insn_at insn search with
            linked_insn := (offset : Int),
            linked_value := hilo_addr (insn_at insn search) mem_imm }) offset with
        linked_insn := (search : Int),
        linked_value := hilo_addr (insn_at insn search) mem_imm }) offset).id
      = (insn_at insn offset).id := by
    by_cases ho : offset < insn.length
    · rw [insn_at_set_self _ _ _ (by simpa using ho), insn_at_set_ne _ _ _ _ hne]
    · rw [List.set_eq_of_length_le (by simp; omega), insn_at_set_ne _ _ _ _ hne]
  unfold link_lui_pair
  simp only [hilo_addr_eq, hid]
  split_ifs <;> simp_all

/-- Two instruction arrays that agree at `search` and at `offset` are linked
alike by `link_lui_pair`. -/
theorem link_lui_pair_congr (offset mem_imm search : Nat) (globals : label_buf)
    (insn insn2 : List disasm_data) (hne : search ≠ offset)
    (hs : insn2[search]? = insn[search]?) (ho : insn2[offset]? = insn[offset]?) :
    (link_lui_pair offset mem_imm search globals insn2).1
      = (link_lui_pair offset mem_imm search globals insn).1 ∧
    (link_lui_pair offset mem_imm search globals insn2).2[search]?
      = (link_lui_pair offset mem_imm search globals insn).2[search]? ∧
    (link_lui_pair offset mem_imm search globals insn2).2[offset]?
      = (link_lui_pair offset mem_imm search globals insn).2[offset]? := by
  have es : insn_at insn2 search = insn_at insn search := by simp [insn_at, hs]
  have eo : insn_at insn2 offset = insn_at insn offset := by simp [insn_at, ho]
  refine ⟨?_, ?_, ?_⟩
  · rw [link_lui_pair_globals_gen _ _ _ _ _ hne, link_lui_pair_globals_gen _ _ _ _ _ hne, es, eo]
  · rw [link_lui_pair_insn, link_lui_pair_insn, List.getElem?_set_ne (Ne.symm hne),
      List.getElem?_set_ne (Ne.symm hne), List.getElem?_set_self', List.getElem?_set_self', es, hs]
  · rw [link_lui_pair_insn, link_lui_pair_insn, List.getElem?_set_self',
      List.getElem?_set_self', List.getElem?_set_ne hne, List.getElem?_set_ne hne,
      insn_at_set_ne _ _ _ _ hne, insn_at_set_ne _ _ _ _ hne, es, eo, ho]

theorem lui_scan_stops_congr (r : Nat) (d d2 : disasm_data) (h : d2 = d) :
    lui_scan_stops r d2 ↔ lui_scan_stops r d := by rw [h]

/-- What the two results of `link_lui_pair` at `s` have in common when the
arrays agree on the window and at `i`. -/
theorem link_lui_pair_window (i m s : Nat) (w : Nat) (g : label_buf)
    (insn insn2 : List disasm_data) (hs : s < i) (hw : w ≤ s)
    (hag : ∀ j, w ≤ j → j ≤ i → insn2[j]? = insn[j]?) :
    (link_lui_pair i m s g insn2).1 = (link_lui_pair i m s g insn).1 ∧
    ∀ j, ((w ≤ j ∧ j ≤ i) →
        (link_lui_pair i m s g insn2).2[j]? = (link_lui_pair i m s g insn).2[j]?) ∧
      (¬ (w ≤ j ∧ j ≤ i) →
        (link_lui_pair i m s g insn2).2[j]? = insn2[j]? ∧
        (link_lui_pair i m s g insn).2[j]? = insn[j]?) := by
  have hne : s ≠ i := by omega
  obtain ⟨h1, h2, h3⟩ := link_lui_pair_congr i m s g insn insn2 hne
    (hag s hw (by omega)) (hag i (by omega) (le_refl i))
  refine ⟨h1, fun j => ⟨fun hj => ?_, fun hj => ?_⟩⟩
  · by_cases hjs : j = s
    · rw [hjs]; exact h2
    · by_cases hji : j = i
      · rw [hji]; exact h3
      · rw [link_lui_pair_at_other _ _ _ _ _ _ hjs hji, link_lui_pair_at_other _ _ _ _ _ _ hjs hji]
        exact hag j hj.1 hj.2
  · have hjs : j ≠ s := fun h => hj ⟨by omega, by omega⟩
    have hji : j ≠ i := fun h => hj ⟨by omega, by omega⟩
    exact ⟨link_lui_pair_at_other _ _ _ _ _ _ hjs hji, link_lui_pair_at_other _ _ _ _ _ _ hjs hji⟩

/-- The search of `link_with_lui` depends only on the instructions of the
lookback window and on instruction `i` itself. -/
theorem link_with_lui_body_window (i r m : Nat) (g : label_buf) (insn insn2 : List disasm_data)
    (hag : ∀ j, i - MAX_LOOKBACK ≤ j → j ≤ i → insn2[j]? = insn[j]?) :
    (link_with_lui_body i r m g insn2).1 = (link_with_lui_body i r m g insn).1 ∧
    ∀ j, ((i - MAX_LOOKBACK ≤ j ∧ j ≤ i) →
        (link_with_lui_body i r m g insn2).2[j]? = (link_with_lui_body i r m g insn).2[j]?) ∧
      (¬ (i - MAX_LOOKBACK ≤ j ∧ j ≤ i) →
        (link_with_lui_body i r m g insn2).2[j]? = insn2[j]? ∧
        (link_with_lui_body i r m g insn).2[j]? = insn[j]?) := by
  have hat : ∀ j, i - MAX_LOOKBACK ≤ j → j ≤ i → insn_at insn2 j = insn_at insn j := by
    intro j h1 h2; simp [insn_at, hag j h1 h2]
  unfold link_with_lui_body
  by_cases hm : m = 0
  · have hm2 : ¬ (m ≠ 0) := by simpa using hm
    rw [if_neg hm2, if_neg hm2]
    exact ⟨rfl, fun j => ⟨fun hj => hag j hj.1 hj.2, fun _ => ⟨rfl, rfl⟩⟩⟩
  · simp only [hm, ne_eq, not_false_eq_true, if_true]
    have key : ∀ s, s < i → i - MAX_LOOKBACK ≤ s →
        link_with_lui_loop i r m (i - MAX_LOOKBACK) g insn i = link_lui_pair i m s g insn →
        link_with_lui_loop i r m (i - MAX_LOOKBACK) g insn2 i = link_lui_pair i m s g insn2 →
        (link_with_lui_loop i r m (i - MAX_LOOKBACK) g insn2 i).1
          = (link_with_lui_loop i r m (i - MAX_LOOKBACK) g insn i).1 ∧
        ∀ j, ((i - MAX_LOOKBACK ≤ j ∧ j ≤ i) →
            (link_with_lui_loop i r m (i - MAX_LOOKBACK) g insn2 i).2[j]?
              = (link_with_lui_loop i r m (i - MAX_LOOKBACK) g insn i).2[j]?) ∧
          (¬ (i - MAX_LOOKBACK ≤ j ∧ j ≤ i) →
            (link_with_lui_loop i r m (i - MAX_LOOKBACK) g insn2 i).2[j]? = insn2[j]? ∧
            (link_with_lui_loop i r m (i - MAX_LOOKBACK) g insn i).2[j]? = insn[j]?) := by
      intro s hs hw e1 e2
      rw [e1, e2]
      exact link_lui_pair_window i m s _ g insn insn2 hs hw hag
    rcases link_with_lui_loop_cases i r m (i - MAX_LOOKBACK) g insn i with
      h1 | ⟨s, hs, he, hid, hrd, hno, heq⟩
    · rcases link_with_lui_loop_cases i r m (i - MAX_LOOKBACK) g insn2 i with
        h2 | ⟨s, hs, he, hid, hrd, hno, heq⟩
      · rw [h1, h2]
        exact ⟨rfl, fun j => ⟨fun hj => hag j hj.1 hj.2, fun _ => ⟨rfl, rfl⟩⟩⟩
      · refine key s hs he ?_ heq
        refine link_with_lui_loop_hit i r m _ g insn i s hs he ?_ ?_ ?_
        · rw [← hat s he (by omega)]; exact hid
        · rw [← hat s he (by omega)]; exact hrd
        · intro j hj hj2
          rw [← hat j (by omega) (by omega)]; exact hno j hj hj2
    · refine key s hs he heq ?_
      refine link_with_lui_loop_hit i r m _ g insn2 i s hs he ?_ ?_ ?_
      · rw [hat s he (by omega)]; exact hid
      · rw [hat s he (by omega)]; exact hrd
      · intro j hj hj2
        rw [hat j (by omega) (by omega)]; exact hno j hj hj2

/-- C3: lookback bound of the hi/lo linker. (a) The outcome of `link_with_lui`
for `i` is fixed by the instructions at the indices `max(0, i-128) .. i-1` of
the window and by instruction `i` itself, which gets the link: on two arrays
that agree there, the global scope and those entries come out the same and
every other entry is left as it was. (b) Either nothing changes, or `i` is
linked to some `s` with `1 <= i - s <= 128`, and no instruction strictly
between `s` and `i` is a `jr $ra`. -/
theorem link_with_lui_lookback (state : disasm_state) (block_id i r m : Nat)
    (hb : block_id < state.blocks.length)
    (hi : i < (state.block block_id).instructions.length) :
    (∀ (g : label_buf) (insn insn2 : List disasm_data),
      (∀ j, i - MAX_LOOKBACK ≤ j → j ≤ i → insn2[j]? = insn[j]?) →
      (link_with_lui_body i r m g insn2).1 = (link_with_lui_body i r m g insn).1 ∧
      ∀ j, ((i - MAX_LOOKBACK ≤ j ∧ j ≤ i) →
          (link_with_lui_body i r m g insn2).2[j]? = (link_with_lui_body i r m g insn).2[j]?) ∧
        (¬ (i - MAX_LOOKBACK ≤ j ∧ j ≤ i) →
          (link_with_lui_body i r m g insn2).2[j]? = insn2[j]? ∧
          (link_with_lui_body i r m g insn).2[j]? = insn[j]?)) ∧
    (link_with_lui state block_id i r m = state ∨
      ∃ s, s < i ∧ 1 ≤ i - s ∧ i - s ≤ 128 ∧
        (insn_at ((link_with_lui state block_id i r m).block block_id).instructions
          i).linked_insn = (s : Int) ∧
        (insn_at ((link_with_lui state block_id i r m).block block_id).instructions
          s).linked_insn = (i : Int) ∧
        ∀ j, s < j → j < i →
          ¬ ((insn_at (state.block block_id).instructions j).id = MIPS_INS_JR ∧
             ((insn_at (state.block block_id).instructions j).op 0).reg = MIPS_REG_RA)) := by
  refine ⟨fun g insn insn2 hag => link_with_lui_body_window i r m g insn insn2 hag, ?_⟩
  unfold link_with_lui link_with_lui_body
  by_cases hm : m = 0
  · left
    simp only [hm, ne_eq, not_true_eq_false, if_false]
    exact set_instructions_self state block_id
  · simp only [hm, ne_eq, not_false_eq_true, if_true]
    rcases link_with_lui_loop_cases i r m (i - MAX_LOOKBACK) state.globals
        (state.block block_id).instructions i with h1 | ⟨s, hs, he, hid, hrd, hno, heq⟩
    · left
      rw [h1]
      exact set_instructions_self state block_id
    · right
      have hne : s ≠ i := by omega
      have hw : i - s ≤ 128 := by unfold MAX_LOOKBACK at he; omega
      refine ⟨s, hs, by omega, hw, ?_, ?_, ?_⟩
      · rw [heq, state_block_set_instructions _ _ _ hb, link_lui_pair_at_offset _ _ _ _ _ hi hne]
      · rw [heq, state_block_set_instructions _ _ _ hb,
          link_lui_pair_at_search _ _ _ _ _ (by omega) hne]
      · intro j hj hj2 hjr
        exact hno j hj hj2 (Or.inr (Or.inr hjr))

/-- C3 at `lui $t0, 0x1234; addiu $t0, $t0, 0x5678`, for the ADDIU at 1. -/
theorem link_with_lui_lookback_witness :
    (link_with_lui sample_lui_addiu_state 0 1 MIPS_REG_T0 0x5678 = sample_lui_addiu_state ∨
      ∃ s : Nat, s < 1 ∧ 1 ≤ 1 - s ∧ 1 - s ≤ 128 ∧
        (insn_at ((link_with_lui sample_lui_addiu_state 0 1 MIPS_REG_T0 0x5678).block
          0).instructions 1).linked_insn = (s : Int) ∧
        (insn_at ((link_with_lui sample_lui_addiu_state 0 1 MIPS_REG_T0 0x5678).block
          0).instructions s).linked_insn = ((1 : Nat) : Int) ∧
        ∀ j : Nat, s < j → j < 1 →
          ¬ ((insn_at (sample_lui_addiu_state.block 0).instructions j).id = MIPS_INS_JR ∧
             ((insn_at (sample_lui_addiu_state.block 0).instructions j).op 0).reg
               = MIPS_REG_RA)) :=
  (link_with_lui_lookback sample_lui_addiu_state 0 1 MIPS_REG_T0 0x5678
    (by decide) (by decide)).2


/-! ## The resolver loop as a sequence of label requests -/

theorem label_jal_target_eq (g : label_buf) (d : disasm_data) :
    label_jal_target g d
      = ensure_label g ("func_" ++ fmt_08X (to_u32 (d.op 0).imm)) (to_u32 (d.op 0).imm) := rfl

theorem label_branch_operand_eq (sx : asm_syntax) (d : disasm_data) (l : label_buf) (o : Nat) :
    label_branch_operand sx d l o
      = if (d.op o).type = MIPS_OP_IMM then
          ensure_label l (local_label_name sx (to_u32 (d.op o).imm)) (to_u32 (d.op o).imm)
        else l := by
  unfold label_branch_operand ensure_label local_label_name
  cases sx <;> rfl

theorem label_branch_fold_eq (sx : asm_syntax) (d : disasm_data) (os : List Nat) (l : label_buf) :
    os.foldl (label_branch_operand sx d) l
      = ensure_all (os.filterMap (fun o =>
          if (d.op o).type = MIPS_OP_IMM then
            some (local_label_name sx (to_u32 (d.op o).imm), to_u32 (d.op o).imm)
          else none)) l := by
  induction os generalizing l with
  | nil => rfl
  | cons o rest ih =>
    rw [List.foldl_cons, ih, label_branch_operand_eq]
    by_cases h : (d.op o).type = MIPS_OP_IMM
    · rw [if_pos h, List.filterMap_cons_some (by rw [if_pos h]), ensure_all_cons]
    · rw [if_neg h, List.filterMap_cons_none (by rw [if_neg h])]

theorem label_branch_targets_eq (sx : asm_syntax) (l : label_buf) (d : disasm_data) :
    label_branch_targets sx l d = ensure_all (branch_requests sx d) l :=
  label_branch_fold_eq sx d _ l

/-- The search of `link_with_lui` goes the same way whatever the global scope
holds: it changes nothing, or it links at the same index `s`. -/
theorem link_with_lui_loop_uniform (offset reg mem_imm end_search : Nat)
    (insn : List disasm_data) (n : Nat) :
    (∀ g, link_with_lui_loop offset reg mem_imm end_search g insn n = (g, insn)) ∨
    ∃ s, s < n ∧ end_search ≤ s ∧ (insn_at insn s).id = MIPS_INS_LUI ∧
      ((insn_at insn s).op 0).reg = reg ∧
      (∀ j, s < j → j < n → ¬ lui_scan_stops reg (insn_at insn j)) ∧
      ∀ g, link_with_lui_loop offset reg mem_imm end_search g insn n
        = link_lui_pair offset mem_imm s g insn := by
  by_cases h : ∃ s, s < n ∧ end_search ≤ s ∧ (insn_at insn s).id = MIPS_INS_LUI ∧
      ((insn_at insn s).op 0).reg = reg ∧
      (∀ j, s < j → j < n → ¬ lui_scan_stops reg (insn_at insn j))
  · obtain ⟨s, hs, he, hid, hrd, hno⟩ := h
    exact Or.inr ⟨s, hs, he, hid, hrd, hno, fun g =>
      link_with_lui_loop_hit offset reg mem_imm end_search g insn n s hs he hid hrd hno⟩
  · left
    intro g
    rcases link_with_lui_loop_cases offset reg mem_imm end_search g insn n with
      h1 | ⟨s, hs, he, hid, hrd, hno, _⟩
    · exact h1
    · exact absurd ⟨s, hs, he, hid, hrd, hno⟩ h

theorem link_lui_pair_globals_ensure (offset mem_imm search : Nat) (g : label_buf)
    (insn : List disasm_data) (hne : search ≠ offset) :
    (link_lui_pair offset mem_imm search g insn).1
      = if (insn_at insn offset).id ≠ MIPS_INS_ORI then
          ensure_label g ("D_" ++ fmt_08X (hilo_addr (insn_at insn search) mem_imm))
            (hilo_addr (insn_at insn search) mem_imm)
        else g := by
  rw [link_lui_pair_globals_gen _ _ _ _ _ hne]
  unfold ensure_label
  by_cases h1 : (insn_at insn offset).id ≠ MIPS_INS_ORI <;>
    by_cases h2 : labels_find g (hilo_addr (insn_at insn search) mem_imm) < 0 <;>
    simp [h1, h2]

/-- `link_with_lui` as requests: whatever the global scope, the instructions
come out the same, and the global scope gets at most one `D_` request. -/
theorem link_with_lui_body_form (i r m : Nat) (insn : List disasm_data) :
    ∃ (reqs : List (String × Nat)) (insn2 : List disasm_data),
      insn2.length = insn.length ∧
      (∀ q ∈ reqs, q.1 = "D_" ++ fmt_08X q.2) ∧
      ∀ g, link_with_lui_body i r m g insn = (ensure_all reqs g, insn2) := by
  unfold link_with_lui_body
  by_cases hm : m = 0
  · refine ⟨[], insn, rfl, by simp, fun g => ?_⟩
    simp [hm, ensure_all_nil]
  · simp only [hm, ne_eq, not_false_eq_true, if_true]
    rcases link_with_lui_loop_uniform i r m (i - MAX_LOOKBACK) insn i with
      h | ⟨s, hs, _, _, _, _, h⟩
    · exact ⟨[], insn, rfl, by simp, fun g => by rw [h g]; rfl⟩
    · have hne : s ≠ i := by omega
      by_cases hori : (insn_at insn i).id ≠ MIPS_INS_ORI
      · refine ⟨[("D_" ++ fmt_08X (hilo_addr (insn_at insn s) m), hilo_addr (insn_at insn s) m)],
          (link_lui_pair i m s labels_alloc insn).2, link_lui_pair_length _ _ _ _ _, ?_, fun g => ?_⟩
        · intro q hq; rw [List.mem_singleton.mp hq]
        · rw [h g]
          refine Prod.ext ?_ ?_
          · rw [link_lui_pair_globals_ensure _ _ _ _ _ hne, if_pos hori]; rfl
          · rw [link_lui_pair_insn, link_lui_pair_insn]
      · refine ⟨[], (link_lui_pair i m s labels_alloc insn).2, link_lui_pair_length _ _ _ _ _,
          by simp, fun g => ?_⟩
        rw [h g]
        refine Prod.ext ?_ ?_
        · rw [link_lui_pair_globals_ensure _ _ _ _ _ hne, if_neg hori]; rfl
        · rw [link_lui_pair_insn, link_lui_pair_insn]

theorem float_li_loop_length (i rt : Nat) (insn : List disasm_data) (n : Nat) :
    (float_li_loop i rt insn n).length = insn.length := by
  induction n with
  | zero => rfl
  | succ s ih =>
    unfold float_li_loop
    by_cases h1 : (insn_at insn s).id = MIPS_INS_LUI ∧ ((insn_at insn s).op 0).reg = rt
    · rw [if_pos h1]; simp
    · rw [if_neg h1]
      by_cases h2 : is_float_scan_redefinition (insn_at insn s).id = true
      · rw [if_pos h2]
        by_cases h3 : rt = ((insn_at insn s).op 0).reg
        · simp [h3]
        · simp [h3, ih]
      · rw [if_neg h2]
        by_cases h4 : (insn_at insn s).id = MIPS_INS_JR ∧
            ((insn_at insn s).op 0).reg = MIPS_REG_RA
        · rw [if_pos h4]
        · rw [if_neg h4]; exact ih

theorem flag_newline_length (insn : List disasm_data) (i : Nat) :
    (flag_newline insn i).length = insn.length := by
  unfold flag_newline
  split_ifs <;> simp

theorem merge_pseudo_insn_form (cs : capstone) (insn : List disasm_data) (i : Nat) :
    ∃ (reqs : List (String × Nat)) (insn2 : List disasm_data),
      insn2.length = insn.length ∧
      (∀ q ∈ reqs, q.1 = "D_" ++ fmt_08X q.2) ∧
      ∀ g l, merge_pseudo_insn cs { globals := g, locals := l, insn := insn } i
        = { globals := ensure_all reqs g, locals := l, insn := insn2 } := by
  unfold merge_pseudo_insn
  by_cases h1 : (insn_at insn i).id = MIPS_INS_MTC1
  · refine ⟨[], float_li_loop i ((insn_at insn i).op 0).reg insn i,
      float_li_loop_length _ _ _ _, by simp, fun g l => ?_⟩
    simp only [h1, if_true, ensure_all_nil]
  · by_cases h2 : is_load_store (insn_at insn i).id = true
    · obtain ⟨reqs, insn2, hl, hn, hf⟩ := link_with_lui_body_form i
        ((insn_at insn i).op 1).mem_base (to_u32 ((insn_at insn i).op 1).mem_disp) insn
      refine ⟨reqs, insn2, hl, hn, fun g l => ?_⟩
      simp only [h1, h2, if_true, if_false, Bool.false_eq_true, hf g]
    · by_cases h3 : (insn_at insn i).id = MIPS_INS_ADDIU ∨ (insn_at insn i).id = MIPS_INS_ORI
      · by_cases h4 : ((insn_at insn i).op 1).reg = MIPS_REG_ZERO
        · refine ⟨[], insn.set i { insn_at insn i with
              id := MIPS_INS_LI, mnemonic := "li",
              op_str := "$" ++ cs.cs_reg_name ((insn_at insn i).op 0).reg ++ ", " ++
                toString ((insn_at insn i).op 2).imm }, by simp, by simp, fun g l => ?_⟩
          simp only [h1, h2, h3, h4, if_true, if_false, Bool.false_eq_true, ensure_all_nil]
        · by_cases h5 : ((insn_at insn i).op 0).reg = ((insn_at insn i).op 1).reg
          · obtain ⟨reqs, insn2, hl, hn, hf⟩ := link_with_lui_body_form i
              ((insn_at insn i).op 1).reg (to_u32 ((insn_at insn i).op 2).imm) insn
            refine ⟨reqs, insn2, hl, hn, fun g l => ?_⟩
            simp only [h1, h2, h3, h4, h5, if_true, if_false, Bool.false_eq_true, hf g]
          · refine ⟨[], insn, rfl, by simp, fun g l => ?_⟩
            simp only [h1, h2, h3, h4, h5, if_true, if_false, Bool.false_eq_true, ensure_all_nil]
      · refine ⟨[], insn, rfl, by simp, fun g l => ?_⟩
        simp only [h1, h2, h3, if_false, Bool.false_eq_true, ensure_all_nil]

theorem label_targets_form (sx : asm_syntax) (insn : List disasm_data) (i : Nat) :
    ∃ (greqs lreqs : List (String × Nat)),
      (∀ q ∈ greqs, q.1 = "func_" ++ fmt_08X q.2) ∧
      (∀ q ∈ lreqs, q.1 = local_label_name sx q.2) ∧
      ∀ g l, label_targets sx { globals := g, locals := l, insn := insn } i
        = { globals := ensure_all greqs g, locals := ensure_all lreqs l,
            insn := flag_newline insn i } := by
  unfold label_targets
  by_cases h : (insn_at (flag_newline insn i) i).id = MIPS_INS_JAL ∨
      (insn_at (flag_newline insn i) i).id = MIPS_INS_BAL ∨
      (insn_at (flag_newline insn i) i).id = MIPS_INS_J
  · refine ⟨[("func_" ++ fmt_08X (to_u32 ((insn_at (flag_newline insn i) i).op 0).imm),
        to_u32 ((insn_at (flag_newline insn i) i).op 0).imm)], [], ?_, by simp, fun g l => ?_⟩
    · intro q hq; rw [List.mem_singleton.mp hq]
    · simp only [h, if_true, label_jal_target_eq]
      rfl
  · refine ⟨[], branch_requests sx (insn_at (flag_newline insn i) i), by simp, ?_, fun g l => ?_⟩
    · intro q hq
      unfold branch_requests at hq
      obtain ⟨o, _, ho⟩ := List.mem_filterMap.mp hq
      by_cases ht : ((insn_at (flag_newline insn i) i).op o).type = MIPS_OP_IMM
      · rw [if_pos ht] at ho
        rw [← Option.some.inj ho]
      · rw [if_neg ht] at ho; cases ho
    · simp only [h, if_false, label_branch_targets_eq]
      rfl

theorem disassemble_block_insn_eq (cs : capstone) (sx : asm_syntax) (mp : Bool)
    (g l : label_buf) (insn : List disasm_data) (i : Nat) :
    disassemble_block_insn cs sx mp { globals := g, locals := l, insn := insn } i
      = if mp = true then
          merge_pseudo_insn cs
            (if (insn_at (reset_link insn i) i).is_jump = true then
              label_targets sx { globals := g, locals := l, insn := reset_link insn i } i
            else { globals := g, locals := l, insn := reset_link insn i }) i
        else
          (if (insn_at (reset_link insn i) i).is_jump = true then
            label_targets sx { globals := g, locals := l, insn := reset_link insn i } i
          else { globals := g, locals := l, insn := reset_link insn i }) := rfl

theorem reset_link_length (insn : List disasm_data) (i : Nat) :
    (reset_link insn i).length = insn.length := by
  unfold reset_link; simp

/-- One step of the resolver loop as requests: whatever the two scopes hold,
the instructions come out the same, and each scope gets a fixed sequence of
create-if-absent requests. -/
theorem disassemble_block_insn_form (cs : capstone) (sx : asm_syntax) (mp : Bool)
    (insn : List disasm_data) (i : Nat) :
    ∃ (greqs lreqs : List (String × Nat)) (insn2 : List disasm_data),
      insn2.length = insn.length ∧
      (∀ q ∈ greqs, is_global_label_name q) ∧
      (∀ q ∈ lreqs, q.1 = local_label_name sx q.2) ∧
      ∀ g l, disassemble_block_insn cs sx mp { globals := g, locals := l, insn := insn } i
        = { globals := ensure_all greqs g, locals := ensure_all lreqs l, insn := insn2 } := by
  obtain ⟨g1, l1, hg1, hl1, hf1⟩ := label_targets_form sx (reset_link insn i) i
  by_cases hj : (insn_at (reset_link insn i) i).is_jump = true
  · by_cases hmp : mp = true
    · obtain ⟨g2, insn2, hlen, hg2, hf2⟩ := merge_pseudo_insn_form cs
        (flag_newline (reset_link insn i) i) i
      refine ⟨g1 ++ g2, l1, insn2, ?_, ?_, hl1, fun g l => ?_⟩
      · rw [hlen, flag_newline_length, reset_link_length]
      · intro q hq
        rcases List.mem_append.mp hq with h | h
        · exact Or.inl (hg1 q h)
        · exact Or.inr (hg2 q h)
      · rw [disassemble_block_insn_eq, if_pos hmp, if_pos hj, hf1, hf2, ensure_all_append]
    · refine ⟨g1, l1, flag_newline (reset_link insn i) i,
        ?_, fun q hq => Or.inl (hg1 q hq), hl1, fun g l => ?_⟩
      · rw [flag_newline_length, reset_link_length]
      · rw [disassemble_block_insn_eq, if_neg hmp, if_pos hj, hf1]
  · by_cases hmp : mp = true
    · obtain ⟨g2, insn2, hlen, hg2, hf2⟩ := merge_pseudo_insn_form cs (reset_link insn i) i
      refine ⟨g2, [], insn2, ?_, fun q hq => Or.inr (hg2 q hq), by simp, fun g l => ?_⟩
      · rw [hlen, reset_link_length]
      · rw [disassemble_block_insn_eq, if_pos hmp, if_neg hj, hf2]; rfl
    · refine ⟨[], [], reset_link insn i, reset_link_length insn i, by simp,
        by simp, fun g l => ?_⟩
      rw [disassemble_block_insn_eq, if_neg hmp, if_neg hj]; rfl

theorem resolve_fold_form (cs : capstone) (sx : asm_syntax) (mp : Bool) (is : List Nat)
    (insn : List disasm_data) :
    ∃ (greqs lreqs : List (String × Nat)) (insn2 : List disasm_data),
      insn2.length = insn.length ∧
      (∀ q ∈ greqs, is_global_label_name q) ∧
      (∀ q ∈ lreqs, q.1 = local_label_name sx q.2) ∧
      ∀ g l, is.foldl (disassemble_block_insn cs sx mp) { globals := g, locals := l, insn := insn }
        = { globals := ensure_all greqs g, locals := ensure_all lreqs l, insn := insn2 } := by
  induction is generalizing insn with
  | nil => exact ⟨[], [], insn, rfl, by simp, by simp, fun g l => rfl⟩
  | cons i rest ih =>
    obtain ⟨g1, l1, insn1, hlen1, hg1, hl1, hf1⟩ := disassemble_block_insn_form cs sx mp insn i
    obtain ⟨g2, l2, insn2, hlen2, hg2, hl2, hf2⟩ := ih insn1
    refine ⟨g1 ++ g2, l1 ++ l2, insn2, hlen2.trans hlen1, ?_, ?_, fun g l => ?_⟩
    · intro q hq
      rcases List.mem_append.mp hq with h | h
      · exact hg1 q h
      · exact hg2 q h
    · intro q hq
      rcases List.mem_append.mp hq with h | h
      · exact hl1 q h
      · exact hl2 q h
    · rw [List.foldl_cons, hf1, hf2, ensure_all_append, ensure_all_append]

/-- The resolver loop over a block as requests. -/
theorem resolve_block_form (cs : capstone) (sx : asm_syntax) (mp : Bool)
    (insn : List disasm_data) :
    ∃ (greqs lreqs : List (String × Nat)) (insn2 : List disasm_data),
      insn2.length = insn.length ∧
      (∀ q ∈ greqs, is_global_label_name q) ∧
      (∀ q ∈ lreqs, q.1 = local_label_name sx q.2) ∧
      ∀ g l, resolve_block cs sx mp { globals := g, locals := l, insn := insn }
        = { globals := ensure_all greqs g, locals := ensure_all lreqs l, insn := insn2 } := by
  unfold resolve_block
  by_cases h : insn.length > 0
  · obtain ⟨g1, l1, insn1, hlen, hg, hl, hf⟩ := resolve_fold_form cs sx mp (List.range insn.length) insn
    exact ⟨g1, l1, insn1, hlen, hg, hl, fun g l => by simp only [h, if_true, hf]⟩
  · exact ⟨[], [], insn, rfl, by simp, by simp, fun g l => by simp only [h, if_false]; rfl⟩


/-! ## Pass 1 and the label scopes -/

theorem mipsdisasm_pass1_of_decode (cs : capstone) (al : allocator) (fuel : Nat) (data : List Nat)
    (offset length vaddr : Nat) (state : disasm_state) (st : decode_state)
    (h : decode_block cs al fuel (data.drop offset) length vaddr = .ok st) :
    mipsdisasm_pass1 cs al fuel data offset length vaddr state
      = .ok (pass1_result cs offset length vaddr state st.instructions) := by
  unfold mipsdisasm_pass1 disassemble_block
  simp only [h, disasm_state.block, block_append_getD, block_append_set]
  simp [pass1_result, block_append_getD, block_append_set]

theorem labels_sort_distinct (buf : label_buf) :
    distinct_addresses (labels_sort buf) ↔ distinct_addresses buf := by
  unfold distinct_addresses
  exact ((labels_sort_perm buf).map _).nodup_iff

theorem labels_sort_has (buf : label_buf) (a : Nat) :
    has_label_at (labels_sort buf) a ↔ has_label_at buf a :=
  has_label_at_of_perm _ _ (labels_sort_perm buf) a

theorem labels_sort_idem (buf : label_buf) : labels_sort (labels_sort buf) = labels_sort buf := by
  unfold labels_sort
  simp only [qsort_label_cmp_of_sorted _ (qsort_label_cmp_sorted buf.labels)]

theorem labels_alloc_distinct : distinct_addresses labels_alloc := by
  simp [distinct_addresses, labels_alloc]

/-- The two scopes after Pass 1, as requests applied to the scopes before. -/
theorem pass1_result_scopes (cs : capstone) (offset length vaddr : Nat) (sx : asm_syntax)
    (mp : Bool) (decoded : List disasm_data) :
    ∃ (greqs lreqs : List (String × Nat)),
      (∀ q ∈ greqs, is_global_label_name q) ∧
      (∀ q ∈ lreqs, q.1 = local_label_name sx q.2) ∧
      ∀ state : disasm_state, state.syntax_ = sx → state.merge_pseudo = mp →
        (pass1_result cs offset length vaddr state decoded).globals
          = labels_sort (ensure_all greqs state.globals) ∧
        ((pass1_result cs offset length vaddr state decoded).block state.blocks.length).locals
          = labels_sort (ensure_all lreqs labels_alloc) ∧
        (pass1_result cs offset length vaddr state decoded).blocks.take state.blocks.length
          = state.blocks ∧
        (pass1_result cs offset length vaddr state decoded).blocks.length
          = state.blocks.length + 1 ∧
        (pass1_result cs offset length vaddr state decoded).syntax_ = sx ∧
        (pass1_result cs offset length vaddr state decoded).merge_pseudo = mp := by
  obtain ⟨greqs, lreqs, insn2, _, hg, hl, hf⟩ := resolve_block_form cs sx mp decoded
  refine ⟨greqs, lreqs, hg, hl, fun state hsx hmp => ?_⟩
  unfold pass1_result
  simp [hsx, hmp, hf, disasm_state.block, block_append_getD]

theorem reachable_locals_distinct (s : disasm_state) (h : reachable s) :
    ∀ b ∈ s.blocks, distinct_addresses b.locals := by
  induction h with
  | init sx mp => intro b hb; simp [disasm_state_init] at hb
  | label_add s name v _ ih => exact ih
  | pass1 s s2 cs al fuel data offset length vaddr _ hp ih =>
    obtain ⟨st, _, rfl⟩ := mipsdisasm_pass1_ok cs al fuel data offset length vaddr s s2 hp
    obtain ⟨greqs, lreqs, insn2, _, _, _, hf⟩ :=
      resolve_block_form cs s.syntax_ s.merge_pseudo st.instructions
    intro b hb
    simp only [pass1_result, hf, List.mem_append, List.mem_singleton] at hb
    rcases hb with hb | rfl
    · exact ih b hb
    · exact (labels_sort_distinct _).mpr (ensure_all_distinct _ _ labels_alloc_distinct)

/-- C7: labeling is idempotent and never duplicates an address. For a Pass 1
call that returns: (i) pairwise distinct addresses in the global scope before
stay pairwise distinct after; (ii) the local scope of the new block, and of
every block of every reachable session, has pairwise distinct addresses;
(iii) Pass 1 run a second time over the same bytes, address and configuration
returns and leaves the global scope as the first run left it. -/
theorem pass1_labels_idempotent (cs : capstone) (al : allocator) (fuel : Nat) (data : List Nat)
    (offset length vaddr : Nat) (state state2 : disasm_state)
    (h : mipsdisasm_pass1 cs al fuel data offset length vaddr state = .ok state2) :
    (distinct_addresses state.globals → distinct_addresses state2.globals) ∧
    distinct_addresses (state2.block state.blocks.length).locals ∧
    (∀ s, reachable s → ∀ b ∈ s.blocks, distinct_addresses b.locals) ∧
    ∃ state3, mipsdisasm_pass1 cs al fuel data offset length vaddr state2 = .ok state3 ∧
      state3.globals = state2.globals := by
  obtain ⟨st, hd, rfl⟩ := mipsdisasm_pass1_ok cs al fuel data offset length vaddr state state2 h
  obtain ⟨greqs, lreqs, _, _, hf⟩ := pass1_result_scopes cs offset length vaddr
    state.syntax_ state.merge_pseudo st.instructions
  obtain ⟨hg, hl, _, _, hsx, hmp⟩ := hf state rfl rfl
  refine ⟨fun hdist => ?_, ?_, reachable_locals_distinct, ?_⟩
  · rw [hg]
    exact (labels_sort_distinct _).mpr (ensure_all_distinct _ _ hdist)
  · rw [hl]
    exact (labels_sort_distinct _).mpr (ensure_all_distinct _ _ labels_alloc_distinct)
  · refine ⟨_, mipsdisasm_pass1_of_decode cs al fuel data offset length vaddr _ st hd, ?_⟩
    obtain ⟨hg2, _⟩ := hf (pass1_result cs offset length vaddr state st.instructions) hsx hmp
    rw [hg2]
    have hall : ∀ q ∈ greqs,
        has_label_at (pass1_result cs offset length vaddr state st.instructions).globals q.2 := by
      intro q hq
      rw [hg]
      exact (labels_sort_has _ _).mpr (ensure_all_has greqs state.globals q hq)
    rw [ensure_all_of_has greqs _ hall, hg, labels_sort_idem]

/-- C7 at Pass 1 over the sample program. -/
theorem pass1_labels_idempotent_witness :
    (distinct_addresses (disasm_state_init ASM_GAS true).globals →
      distinct_addresses sample_after.globals) ∧
    distinct_addresses (sample_after.block 0).locals ∧
    (∀ s, reachable s → ∀ b ∈ s.blocks, distinct_addresses b.locals) ∧
    ∃ state3, mipsdisasm_pass1 (table_decoder 0x80000000 sample_prog) alloc_always 4
        (List.replicate 16 0) 0 16 0x80000000 sample_after = .ok state3 ∧
      state3.globals = sample_after.globals :=
  pass1_labels_idempotent (table_decoder 0x80000000 sample_prog) alloc_always 4
    (List.replicate 16 0) 0 16 0x80000000 (disasm_state_init ASM_GAS true) sample_after
    sample_pass1


/-! ## What the resolver loop keeps of the decoded instructions -/

theorem same_decoded_refl (d : disasm_data) : same_decoded d d :=
  ⟨rfl, rfl, rfl, rfl, Or.inl rfl⟩

theorem same_decoded_trans (a b c : disasm_data) (h1 : same_decoded a b)
    (h2 : same_decoded b c) : same_decoded a c := by
  obtain ⟨b1, o1, c1, j1, i1⟩ := h1
  obtain ⟨b2, o2, c2, j2, i2⟩ := h2
  refine ⟨b2.trans b1, o2.trans o1, c2.trans c1, j2.trans j1, ?_⟩
  rcases i2 with i2 | ⟨i2, i3⟩
  · rcases i1 with i1 | ⟨i1, i4⟩
    · exact Or.inl (i2.trans i1)
    · exact Or.inr ⟨i2.trans i1, i4⟩
  · rcases i1 with i1 | ⟨i1, _⟩
    · exact Or.inr ⟨i2, by rw [← i1]; exact i3⟩
    · rw [i1] at i3
      rcases i3 with h | h | h <;> cases h

theorem same_decoded_set (insn : List disasm_data) (k : Nat) (x : disasm_data)
    (h : same_decoded (insn_at insn k) x) (j : Nat) :
    same_decoded (insn_at insn j) (insn_at (insn.set k x) j) := by
  by_cases hjk : k = j
  · subst hjk
    by_cases hk : k < insn.length
    · rw [insn_at_set_self _ _ _ hk]; exact h
    · rw [List.set_eq_of_length_le (by omega)]; exact same_decoded_refl _
  · rw [insn_at_set_ne _ _ _ _ hjk]; exact same_decoded_refl _

theorem reset_link_same (insn : List disasm_data) (i j : Nat) :
    same_decoded (insn_at insn j) (insn_at (reset_link insn i) j) := by
  unfold reset_link
  apply same_decoded_set
  exact ⟨rfl, rfl, rfl, rfl, Or.inl rfl⟩

theorem flag_newline_same (insn : List disasm_data) (i j : Nat) :
    same_decoded (insn_at insn j) (insn_at (flag_newline insn i) j) := by
  unfold flag_newline
  split_ifs
  · apply same_decoded_set
    exact ⟨rfl, rfl, rfl, rfl, Or.inl rfl⟩
  · exact same_decoded_refl _
  · exact same_decoded_refl _

theorem link_lui_pair_same (offset mem_imm search : Nat) (g : label_buf)
    (insn : List disasm_data) (j : Nat) :
    same_decoded (insn_at insn j) (insn_at (link_lui_pair offset mem_imm search g insn).2 j) := by
  rw [link_lui_pair_insn]
  refine same_decoded_trans _ (insn_at (insn.set search { insn_at insn search with
      linked_insn := (offset : Int),
      linked_value := hilo_addr (insn_at insn search) mem_imm }) j) _ ?_ ?_
  · apply same_decoded_set
    exact ⟨rfl, rfl, rfl, rfl, Or.inl rfl⟩
  · apply same_decoded_set
    exact ⟨rfl, rfl, rfl, rfl, Or.inl rfl⟩

theorem link_with_lui_body_same (i r m : Nat) (g : label_buf) (insn : List disasm_data)
    (j : Nat) :
    same_decoded (insn_at insn j) (insn_at (link_with_lui_body i r m g insn).2 j) := by
  unfold link_with_lui_body
  by_cases hm : m ≠ 0
  · rw [if_pos hm]
    rcases link_with_lui_loop_cases i r m (i - MAX_LOOKBACK) g insn i with
      h | ⟨s, _, _, _, _, _, h⟩
    · rw [h]; exact same_decoded_refl _
    · rw [h]; exact link_lui_pair_same _ _ _ _ _ _
  · rw [if_neg hm]; exact same_decoded_refl _

theorem float_li_loop_same (i rt : Nat) (insn : List disasm_data) (n j : Nat) :
    same_decoded (insn_at insn j) (insn_at (float_li_loop i rt insn n) j) := by
  induction n with
  | zero => exact same_decoded_refl _
  | succ s ih =>
    unfold float_li_loop
    by_cases h1 : (insn_at insn s).id = MIPS_INS_LUI ∧ ((insn_at insn s).op 0).reg = rt
    · rw [if_pos h1]
      apply same_decoded_set
      exact ⟨rfl, rfl, rfl, rfl, Or.inr ⟨rfl, Or.inl h1.1⟩⟩
    · rw [if_neg h1]
      by_cases h2 : is_float_scan_redefinition (insn_at insn s).id = true
      · rw [if_pos h2]
        by_cases h3 : rt = ((insn_at insn s).op 0).reg
        · simp only [h3, if_true]; exact same_decoded_refl _
        · simp only [h3, if_false]; exact ih
      · rw [if_neg h2]
        by_cases h4 : (insn_at insn s).id = MIPS_INS_JR ∧
            ((insn_at insn s).op 0).reg = MIPS_REG_RA
        · rw [if_pos h4]; exact same_decoded_refl _
        · rw [if_neg h4]; exact ih

theorem merge_pseudo_insn_same (cs : capstone) (rs : resolve_state) (i j : Nat) :
    same_decoded (insn_at rs.insn j) (insn_at (merge_pseudo_insn cs rs i).insn j) := by
  unfold merge_pseudo_insn
  by_cases h1 : (insn_at rs.insn i).id = MIPS_INS_MTC1
  · simp only [h1, if_true]; exact float_li_loop_same _ _ _ _ _
  · by_cases h2 : is_load_store (insn_at rs.insn i).id = true
    · simp only [h1, h2, if_true, if_false]; exact link_with_lui_body_same _ _ _ _ _ _
    · by_cases h3 : (insn_at rs.insn i).id = MIPS_INS_ADDIU ∨ (insn_at rs.insn i).id = MIPS_INS_ORI
      · by_cases h4 : ((insn_at rs.insn i).op 1).reg = MIPS_REG_ZERO
        · simp only [h1, h2, h3, h4, if_true, if_false, Bool.false_eq_true]
          apply same_decoded_set
          refine ⟨rfl, rfl, rfl, rfl, Or.inr ⟨rfl, ?_⟩⟩
          rcases h3 with h | h
          · exact Or.inr (Or.inl h)
          · exact Or.inr (Or.inr h)
        · by_cases h5 : ((insn_at rs.insn i).op 0).reg = ((insn_at rs.insn i).op 1).reg
          · simp only [h1, h2, h3, h4, h5, if_true, if_false, Bool.false_eq_true]
            exact link_with_lui_body_same _ _ _ _ _ _
          · simp only [h1, h2, h3, h4, h5, if_true, if_false, Bool.false_eq_true]
            exact same_decoded_refl _
      · simp only [h1, h2, h3, if_false, Bool.false_eq_true]
        exact same_decoded_refl _

theorem label_targets_insn (sx : asm_syntax) (rs : resolve_state) (i : Nat) :
    (label_targets sx rs i).insn = flag_newline rs.insn i := by
  unfold label_targets
  simp only
  split_ifs <;> rfl

theorem disassemble_block_insn_same (cs : capstone) (sx : asm_syntax) (mp : Bool)
    (rs : resolve_state) (i j : Nat) :
    same_decoded (insn_at rs.insn j) (insn_at (disassemble_block_insn cs sx mp rs i).insn j) := by
  have h1 := reset_link_same rs.insn i j
  have h2 : same_decoded (insn_at rs.insn j)
      (insn_at (if (insn_at (reset_link rs.insn i) i).is_jump = true then
          label_targets sx { rs with insn := reset_link rs.insn i } i
        else { rs with insn := reset_link rs.insn i }).insn j) := by
    by_cases hj : (insn_at (reset_link rs.insn i) i).is_jump = true
    · rw [if_pos hj, label_targets_insn]
      exact same_decoded_trans _ _ _ h1 (flag_newline_same _ _ _)
    · rw [if_neg hj]; exact h1
  unfold disassemble_block_insn
  by_cases hmp : mp = true
  · simp only [hmp, if_true]
    exact same_decoded_trans _ _ _ h2 (merge_pseudo_insn_same _ _ _ _)
  · simp only [hmp, if_false, Bool.false_eq_true]
    exact h2

theorem resolve_upto_succ (cs : capstone) (sx : asm_syntax) (mp : Bool) (rs : resolve_state)
    (m : Nat) :
    resolve_upto cs sx mp rs (m + 1)
      = disassemble_block_insn cs sx mp (resolve_upto cs sx mp rs m) m := by
  unfold resolve_upto
  rw [List.range_succ, List.foldl_append]
  rfl

theorem resolve_block_eq_upto (cs : capstone) (sx : asm_syntax) (mp : Bool)
    (rs : resolve_state) :
    resolve_block cs sx mp rs = resolve_upto cs sx mp rs rs.insn.length := by
  unfold resolve_block resolve_upto
  by_cases h : rs.insn.length > 0
  · rw [if_pos h]
  · rw [if_neg h]
    have : rs.insn.length = 0 := by omega
    rw [this]; rfl

theorem resolve_upto_same (cs : capstone) (sx : asm_syntax) (mp : Bool) (rs : resolve_state)
    (m j : Nat) :
    same_decoded (insn_at rs.insn j) (insn_at (resolve_upto cs sx mp rs m).insn j) := by
  induction m with
  | zero => exact same_decoded_refl _
  | succ m ih =>
    rw [resolve_upto_succ]
    exact same_decoded_trans _ _ _ ih (disassemble_block_insn_same _ _ _ _ _ _)


/-! ## The decode loop stores copies of decoded instructions -/

theorem grow_buffer_instructions (al : allocator) (st st1 : decode_state) (count count1 : Nat)
    (h : grow_buffer al st count = some (st1, count1)) : st1.instructions = st.instructions := by
  unfold grow_buffer at h
  split_ifs at h <;>
    first
    | (obtain ⟨c, _, hc⟩ := Option.map_eq_some'.mp h
       cases hc; rfl)
    | (cases h; rfl)

theorem decode_chunk_copied (cs : capstone) (al : allocator) (data : List Nat)
    (vaddr processed chunk_size : Nat) (fuel : Nat) (st : decode_state) (chunk_processed : Nat)
    (r : decode_state × Bool) (hst : all_copied st.instructions)
    (h : decode_chunk cs al data vaddr processed chunk_size fuel st chunk_processed = .ok r) :
    all_copied r.1.instructions := by
  induction fuel generalizing st chunk_processed with
  | zero => simp [decode_chunk] at h
  | succ fuel ih =>
    unfold decode_chunk at h
    by_cases hc : chunk_processed < chunk_size
    · simp only [hc, if_true] at h
      split_ifs at h with h0
      · refine ih _ _ ?_ h
        exact hst
      · split at h
        · cases h; exact hst
        · rename_i st1 count1 hg
          refine ih _ _ ?_ h
          have hi := grow_buffer_instructions al _ st1 _ count1 hg
          intro d hd
          simp only [decode_state.copy, List.mem_append, List.mem_map] at hd
          rcases hd with hd | ⟨ci, _, rfl⟩
          · rw [hi] at hd; exact hst d hd
          · exact ⟨ci, rfl⟩
    · simp only [hc, if_false] at h
      cases h; exact hst

theorem decode_chunks_copied (cs : capstone) (al : allocator) (data : List Nat)
    (vaddr inner_fuel : Nat) (fuel : Nat) (st : decode_state) (remaining processed : Nat)
    (r : decode_state) (hst : all_copied st.instructions)
    (h : decode_chunks cs al data vaddr inner_fuel fuel st remaining processed = .ok r) :
    all_copied r.instructions := by
  induction fuel generalizing st remaining processed with
  | zero => simp [decode_chunks] at h
  | succ fuel ih =>
    unfold decode_chunks at h
    by_cases hr : remaining > 0
    · simp only [hr, if_true] at h
      split at h
      · cases h
      · rename_i st1 stopped hd
        exact ih _ _ _ (decode_chunk_copied cs al data vaddr processed _ inner_fuel st 0
          (st1, stopped) hst hd) h
    · simp only [hr, if_false] at h
      cases h; exact hst

theorem decode_block_copied (cs : capstone) (al : allocator) (fuel : Nat) (data : List Nat)
    (length vaddr : Nat) (st : decode_state)
    (h : decode_block cs al fuel data length vaddr = .ok st) : all_copied st.instructions := by
  unfold decode_block at h
  split_ifs at h
  exact decode_chunks_copied cs al data vaddr fuel fuel _ _ _ st (by intro d hd; cases hd) h

theorem copy_insn_is_jump (ci : cs_insn) (h : ci.id = MIPS_INS_JAL ∨ ci.id = MIPS_INS_BAL) :
    (copy_insn ci).is_jump = true := by
  rcases h with h | h <;> simp [copy_insn, h]


/-! ## Call and branch targets -/

theorem same_decoded_call_id (d0 d : disasm_data) (h : same_decoded d0 d) :
    is_call_id d.id ↔ is_call_id d0.id := by
  obtain ⟨_, _, _, _, hid⟩ := h
  rcases hid with hid | ⟨hid, h0⟩
  · rw [hid]
  · unfold is_call_id
    rw [hid]
    rcases h0 with h0 | h0 | h0 <;> rw [h0] <;> simp

theorem same_decoded_op (d0 d : disasm_data) (h : same_decoded d0 d) (o : Nat) :
    d.op o = d0.op o := by
  unfold disasm_data.op; rw [h.2.1]

theorem flag_newline_at_self (insn : List disasm_data) (i : Nat) :
    insn_at (flag_newline insn i) i = insn_at insn i := by
  unfold flag_newline
  split_ifs
  · exact insn_at_set_ne _ _ _ _ (by omega)
  · rfl
  · rfl

theorem merge_pseudo_insn_call (cs : capstone) (rs : resolve_state) (i : Nat)
    (h : is_call_id (insn_at rs.insn i).id) : merge_pseudo_insn cs rs i = rs := by
  unfold merge_pseudo_insn
  rcases h with h | h | h <;> simp [h, is_load_store]

theorem resolve_state_eta (rs : resolve_state) :
    ({ globals := rs.globals, locals := rs.locals, insn := rs.insn } : resolve_state) = rs := rfl

theorem disassemble_block_insn_has_global (cs : capstone) (sx : asm_syntax) (mp : Bool)
    (rs : resolve_state) (i a : Nat) (h : has_label_at rs.globals a) :
    has_label_at (disassemble_block_insn cs sx mp rs i).globals a := by
  obtain ⟨greqs, _, _, _, _, _, hf⟩ := disassemble_block_insn_form cs sx mp rs.insn i
  have := hf rs.globals rs.locals
  rw [resolve_state_eta] at this
  rw [this]
  exact ensure_all_has_of_has _ _ _ h

theorem disassemble_block_insn_has_local (cs : capstone) (sx : asm_syntax) (mp : Bool)
    (rs : resolve_state) (i a : Nat) (h : has_label_at rs.locals a) :
    has_label_at (disassemble_block_insn cs sx mp rs i).locals a := by
  obtain ⟨_, lreqs, _, _, _, _, hf⟩ := disassemble_block_insn_form cs sx mp rs.insn i
  have := hf rs.globals rs.locals
  rw [resolve_state_eta] at this
  rw [this]
  exact ensure_all_has_of_has _ _ _ h

theorem resolve_upto_has_global (cs : capstone) (sx : asm_syntax) (mp : Bool)
    (rs : resolve_state) (m n a : Nat) (hmn : m ≤ n)
    (h : has_label_at (resolve_upto cs sx mp rs m).globals a) :
    has_label_at (resolve_upto cs sx mp rs n).globals a := by
  induction n with
  | zero => have : m = 0 := by omega
            subst this; exact h
  | succ n ih =>
    by_cases hm : m = n + 1
    · subst hm; exact h
    · rw [resolve_upto_succ]
      exact disassemble_block_insn_has_global _ _ _ _ _ _ (ih (by omega))

theorem resolve_upto_has_local (cs : capstone) (sx : asm_syntax) (mp : Bool)
    (rs : resolve_state) (m n a : Nat) (hmn : m ≤ n)
    (h : has_label_at (resolve_upto cs sx mp rs m).locals a) :
    has_label_at (resolve_upto cs sx mp rs n).locals a := by
  induction n with
  | zero => have : m = 0 := by omega
            subst this; exact h
  | succ n ih =>
    by_cases hm : m = n + 1
    · subst hm; exact h
    · rw [resolve_upto_succ]
      exact disassemble_block_insn_has_local _ _ _ _ _ _ (ih (by omega))

theorem disassemble_block_insn_length (cs : capstone) (sx : asm_syntax) (mp : Bool)
    (rs : resolve_state) (i : Nat) :
    (disassemble_block_insn cs sx mp rs i).insn.length = rs.insn.length := by
  obtain ⟨_, _, insn2, hlen, _, _, hf⟩ := disassemble_block_insn_form cs sx mp rs.insn i
  have := hf rs.globals rs.locals
  rw [resolve_state_eta] at this
  rw [this]; exact hlen

theorem resolve_upto_length (cs : capstone) (sx : asm_syntax) (mp : Bool)
    (rs : resolve_state) (m : Nat) :
    (resolve_upto cs sx mp rs m).insn.length = rs.insn.length := by
  induction m with
  | zero => rfl
  | succ m ih => rw [resolve_upto_succ, disassemble_block_insn_length, ih]

/-- The instruction the jump part of step `i` looks at is instruction `i` as
it was, up to its link field. -/
theorem reset_link_at_same (insn : List disasm_data) (i : Nat) :
    same_decoded (insn_at insn i) (insn_at (reset_link insn i) i) :=
  reset_link_same insn i i

/-- Step `i` for a jump with a call id: the global scope gets the `func_`
request for the target, the local scope is left alone. -/
theorem disassemble_block_insn_call (cs : capstone) (sx : asm_syntax) (mp : Bool)
    (rs : resolve_state) (i : Nat) (hj : (insn_at rs.insn i).is_jump = true)
    (hid : is_call_id (insn_at rs.insn i).id) :
    (disassemble_block_insn cs sx mp rs i).globals
      = ensure_label rs.globals ("func_" ++ fmt_08X (to_u32 ((insn_at rs.insn i).op 0).imm))
          (to_u32 ((insn_at rs.insn i).op 0).imm) ∧
    (disassemble_block_insn cs sx mp rs i).locals = rs.locals := by
  have hs := reset_link_at_same rs.insn i
  have hj1 : (insn_at (reset_link rs.insn i) i).is_jump = true := by rw [hs.2.2.2.1]; exact hj
  have hid1 : is_call_id (insn_at (reset_link rs.insn i) i).id :=
    (same_decoded_call_id _ _ hs).mpr hid
  have hop : (insn_at (reset_link rs.insn i) i).op 0 = (insn_at rs.insn i).op 0 :=
    same_decoded_op _ _ hs 0
  have hlt : label_targets sx ⟨rs.globals, rs.locals, reset_link rs.insn i⟩ i
      = ⟨ensure_label rs.globals
            ("func_" ++ fmt_08X (to_u32 ((insn_at rs.insn i).op 0).imm))
            (to_u32 ((insn_at rs.insn i).op 0).imm),
          rs.locals, flag_newline (reset_link rs.insn i) i⟩ := by
    unfold label_targets
    simp only [flag_newline_at_self]
    have hid2 : (insn_at (reset_link rs.insn i) i).id = MIPS_INS_JAL ∨
        (insn_at (reset_link rs.insn i) i).id = MIPS_INS_BAL ∨
        (insn_at (reset_link rs.insn i) i).id = MIPS_INS_J := hid1
    rw [if_pos hid2, label_jal_target_eq, hop]
  have hstep := disassemble_block_insn_eq cs sx mp rs.globals rs.locals rs.insn i
  rw [resolve_state_eta] at hstep
  rw [hstep, if_pos hj1, hlt]
  have hmerge : merge_pseudo_insn cs ⟨ensure_label rs.globals
            ("func_" ++ fmt_08X (to_u32 ((insn_at rs.insn i).op 0).imm))
            (to_u32 ((insn_at rs.insn i).op 0).imm),
          rs.locals, flag_newline (reset_link rs.insn i) i⟩ i = _ :=
    merge_pseudo_insn_call cs _ i (by simpa only [flag_newline_at_self] using hid1)
  rw [hmerge]
  split_ifs <;> exact ⟨rfl, rfl⟩

theorem same_decoded_id_of_ne_li (d0 d : disasm_data) (h : same_decoded d0 d)
    (hli : d.id ≠ MIPS_INS_LI) : d0.id = d.id := by
  rcases h.2.2.2.2 with hid | ⟨hid, _⟩
  · exact hid.symm
  · exact absurd hid hli

/-- The instructions of the new block after Pass 1 are those of the resolver
loop run to the end over the decoded instructions. -/
theorem pass1_result_block (cs : capstone) (offset length vaddr : Nat) (state : disasm_state)
    (decoded : List disasm_data) :
    ((pass1_result cs offset length vaddr state decoded).block state.blocks.length).instructions
      = (resolve_upto cs state.syntax_ state.merge_pseudo
          { globals := state.globals, locals := labels_alloc, insn := decoded }
          decoded.length).insn ∧
    ((pass1_result cs offset length vaddr state decoded).block state.blocks.length).locals
      = labels_sort (resolve_upto cs state.syntax_ state.merge_pseudo
          { globals := state.globals, locals := labels_alloc, insn := decoded }
          decoded.length).locals ∧
    (pass1_result cs offset length vaddr state decoded).globals
      = labels_sort (resolve_upto cs state.syntax_ state.merge_pseudo
          { globals := state.globals, locals := labels_alloc, insn := decoded }
          decoded.length).globals := by
  unfold pass1_result
  simp [disasm_state.block, block_append_getD, resolve_block_eq_upto]

/-- C5: call targets become global labels. After a Pass 1 call that returns,
for every JAL and BAL of the new block, and every J the decoder classified as
a jump, the global scope has a label at the target. The step of the resolver
loop for such an instruction leaves the local scope alone and, when the global
scope had no label at the target, appends exactly one, named `func_` and the
target as 8 hex digits; otherwise it leaves the global scope as it is. -/
theorem pass1_call_targets_global (cs : capstone) (al : allocator) (fuel : Nat)
    (data : List Nat) (offset length vaddr : Nat) (state state2 : disasm_state)
    (h : mipsdisasm_pass1 cs al fuel data offset length vaddr state = .ok state2) :
    (∀ (i : Nat) (d : disasm_data),
      (state2.block state.blocks.length).instructions[i]? = some d →
      (d.id = MIPS_INS_JAL ∨ d.id = MIPS_INS_BAL ∨ (d.id = MIPS_INS_J ∧ d.is_jump = true)) →
      has_label_at state2.globals (to_u32 (d.op 0).imm)) ∧
    (∀ (sx : asm_syntax) (mp : Bool) (rs : resolve_state) (i : Nat),
      (insn_at rs.insn i).is_jump = true → is_call_id (insn_at rs.insn i).id →
      (disassemble_block_insn cs sx mp rs i).locals = rs.locals ∧
      (¬ has_label_at rs.globals (to_u32 ((insn_at rs.insn i).op 0).imm) →
        (disassemble_block_insn cs sx mp rs i).globals.labels = rs.globals.labels ++
          [{ name := "func_" ++ fmt_08X (to_u32 ((insn_at rs.insn i).op 0).imm),
             vaddr := to_u32 ((insn_at rs.insn i).op 0).imm }]) ∧
      (has_label_at rs.globals (to_u32 ((insn_at rs.insn i).op 0).imm) →
        (disassemble_block_insn cs sx mp rs i).globals = rs.globals)) := by
  constructor
  · obtain ⟨st, hd, rfl⟩ := mipsdisasm_pass1_ok cs al fuel data offset length vaddr state state2 h
    obtain ⟨hinsn, _, hglob⟩ := pass1_result_block cs offset length vaddr state st.instructions
    intro i d hi hid
    rw [hinsn] at hi
    rw [hglob, labels_sort_has]
    have hlen := resolve_upto_length cs state.syntax_ state.merge_pseudo
      { globals := state.globals, locals := labels_alloc, insn := st.instructions }
      st.instructions.length
    have hilt : i < st.instructions.length := by
      have := (List.getElem?_eq_some.mp hi).1
      rw [hlen] at this; exact this
    have hdat : insn_at _ i = d := insn_at_of_getElem? _ i d hi
    have hsame := resolve_upto_same cs state.syntax_ state.merge_pseudo
      { globals := state.globals, locals := labels_alloc, insn := st.instructions }
      st.instructions.length i
    rw [hdat] at hsame
    have hsame_i := resolve_upto_same cs state.syntax_ state.merge_pseudo
      { globals := state.globals, locals := labels_alloc, insn := st.instructions } i i
    obtain ⟨ci, hci⟩ := decode_block_copied cs al fuel _ length vaddr st hd
      (insn_at st.instructions i) (List.getElem?_mem (getElem?_of_lt _ i hilt))
    have hcall : is_call_id d.id := by
      rcases hid with h1 | h1 | ⟨h1, _⟩
      · exact Or.inl h1
      · exact Or.inr (Or.inl h1)
      · exact Or.inr (Or.inr h1)
    have hjump : d.is_jump = true := by
      rcases hid with h1 | h1 | ⟨_, h1⟩
      · have h0 := same_decoded_id_of_ne_li _ _ hsame (by rw [h1]; simp)
        rw [hsame.2.2.2.1, hci]
        exact copy_insn_is_jump ci (Or.inl (by rw [hci] at h0; rw [← h1]; exact h0))
      · have h0 := same_decoded_id_of_ne_li _ _ hsame (by rw [h1]; simp)
        rw [hsame.2.2.2.1, hci]
        exact copy_insn_is_jump ci (Or.inr (by rw [hci] at h0; rw [← h1]; exact h0))
      · exact h1
    have hcall0 : is_call_id (insn_at st.instructions i).id :=
      (same_decoded_call_id _ _ hsame).mp hcall
    have hstep := disassemble_block_insn_call cs state.syntax_ state.merge_pseudo
      (resolve_upto cs state.syntax_ state.merge_pseudo
        { globals := state.globals, locals := labels_alloc, insn := st.instructions } i) i
      (by rw [hsame_i.2.2.2.1, ← hsame.2.2.2.1]; exact hjump)
      ((same_decoded_call_id _ _ hsame_i).mpr hcall0)
    refine resolve_upto_has_global cs state.syntax_ state.merge_pseudo _ (i + 1) _ _
      (by omega) ?_
    rw [resolve_upto_succ, hstep.1, same_decoded_op _ _ hsame_i 0, ← same_decoded_op _ _ hsame 0]
    exact ensure_label_has _ _ _
  · intro sx mp rs i hj hid
    obtain ⟨hg, hl⟩ := disassemble_block_insn_call cs sx mp rs i hj hid
    refine ⟨hl, fun hno => ?_, fun hhas => ?_⟩
    · rw [hg, ensure_label_of_not_has _ _ _ hno]
    · rw [hg, ensure_label_of_has _ _ _ hhas]

/-- C5 at Pass 1 over the sample program: the `jal 0x80001000`. -/
theorem pass1_call_targets_global_witness :
    (∀ (i : Nat) (d : disasm_data), (sample_after.block 0).instructions[i]? = some d →
      (d.id = MIPS_INS_JAL ∨ d.id = MIPS_INS_BAL ∨ (d.id = MIPS_INS_J ∧ d.is_jump = true)) →
      has_label_at sample_after.globals (to_u32 (d.op 0).imm)) ∧
    { name := "func_80001000", vaddr := 0x80001000 } ∈ sample_after.globals.labels :=
  ⟨(pass1_call_targets_global (table_decoder 0x80000000 sample_prog) alloc_always 4
      (List.replicate 16 0) 0 16 0x80000000 (disasm_state_init ASM_GAS true) sample_after
      sample_pass1).1, by decide⟩


theorem branch_requests_same (sx : asm_syntax) (d0 d : disasm_data) (h : same_decoded d0 d) :
    branch_requests sx d = branch_requests sx d0 := by
  unfold branch_requests
  rw [h.2.2.1]
  simp only [same_decoded_op d0 d h]

theorem branch_requests_mem (sx : asm_syntax) (d : disasm_data) (o : Nat) (ho : o < d.op_count)
    (ht : (d.op o).type = MIPS_OP_IMM) :
    (local_label_name sx (to_u32 (d.op o).imm), to_u32 (d.op o).imm) ∈ branch_requests sx d := by
  unfold branch_requests
  rw [List.mem_filterMap]
  exact ⟨o, List.mem_range.mpr ho, by rw [if_pos ht]⟩

theorem branch_requests_name (sx : asm_syntax) (d : disasm_data) (q : String × Nat)
    (hq : q ∈ branch_requests sx d) : q.1 = local_label_name sx q.2 := by
  unfold branch_requests at hq
  obtain ⟨o, _, ho⟩ := List.mem_filterMap.mp hq
  by_cases ht : (d.op o).type = MIPS_OP_IMM
  · rw [if_pos ht] at ho
    rw [← Option.some.inj ho]
  · rw [if_neg ht] at ho; cases ho

theorem merge_pseudo_insn_locals (cs : capstone) (rs : resolve_state) (i : Nat) :
    (merge_pseudo_insn cs rs i).locals = rs.locals := by
  obtain ⟨_, _, _, _, hf⟩ := merge_pseudo_insn_form cs rs.insn i
  have := hf rs.globals rs.locals
  rw [resolve_state_eta] at this
  rw [this]

/-- The jump part of step `i` for a jump without a call id: the local scope
gets the requests of the operand loop, the global scope is left alone. -/
theorem label_targets_branch (sx : asm_syntax) (rs : resolve_state) (i : Nat)
    (hid : ¬ is_call_id (insn_at rs.insn i).id) :
    (label_targets sx rs i).globals = rs.globals ∧
    (label_targets sx rs i).locals
      = ensure_all (branch_requests sx (insn_at rs.insn i)) rs.locals := by
  have hid2 : ¬ ((insn_at rs.insn i).id = MIPS_INS_JAL ∨ (insn_at rs.insn i).id = MIPS_INS_BAL ∨
      (insn_at rs.insn i).id = MIPS_INS_J) := hid
  unfold label_targets
  simp only [flag_newline_at_self]
  rw [if_neg hid2, label_branch_targets_eq]
  exact ⟨rfl, rfl⟩

theorem disassemble_block_insn_branch (cs : capstone) (sx : asm_syntax) (mp : Bool)
    (rs : resolve_state) (i : Nat) (hj : (insn_at rs.insn i).is_jump = true)
    (hid : ¬ is_call_id (insn_at rs.insn i).id) :
    (disassemble_block_insn cs sx mp rs i).locals
      = ensure_all (branch_requests sx (insn_at rs.insn i)) rs.locals := by
  have hs := reset_link_at_same rs.insn i
  have hj1 : (insn_at (reset_link rs.insn i) i).is_jump = true := by rw [hs.2.2.2.1]; exact hj
  have hid1 : ¬ is_call_id (insn_at (reset_link rs.insn i) i).id :=
    fun hc => hid ((same_decoded_call_id _ _ hs).mp hc)
  have hlt := label_targets_branch sx ⟨rs.globals, rs.locals, reset_link rs.insn i⟩ i hid1
  have hstep := disassemble_block_insn_eq cs sx mp rs.globals rs.locals rs.insn i
  rw [resolve_state_eta] at hstep
  rw [hstep, if_pos hj1]
  have hreq := branch_requests_same sx _ _ hs
  by_cases hmp : mp = true
  · rw [if_pos hmp, merge_pseudo_insn_locals, hlt.2, hreq]
  · rw [if_neg hmp, hlt.2, hreq]

/-- C6: branch targets become local labels only. After a Pass 1 call that
returns, for every control-transfer instruction of the new block that is not
JAL, BAL or J and each of its immediate operands with value `t`, the local
scope of the block has a label at `t`. The branch-target part of the loop body
adds nothing to the global scope, and every label the step adds to the local
scope sits at an address that had none and is named `.L` (GAS) or `@L`
(ARMIPS) followed by the address as 8 hex digits. -/
theorem pass1_branch_targets_local (cs : capstone) (al : allocator) (fuel : Nat)
    (data : List Nat) (offset length vaddr : Nat) (state state2 : disasm_state)
    (h : mipsdisasm_pass1 cs al fuel data offset length vaddr state = .ok state2) :
    (∀ (i : Nat) (d : disasm_data) (o : Nat),
      (state2.block state.blocks.length).instructions[i]? = some d →
      d.is_jump = true → ¬ is_call_id d.id → o < d.op_count → (d.op o).type = MIPS_OP_IMM →
      has_label_at (state2.block state.blocks.length).locals (to_u32 (d.op o).imm)) ∧
    (∀ (sx : asm_syntax) (mp : Bool) (rs : resolve_state) (i : Nat),
      (insn_at rs.insn i).is_jump = true → ¬ is_call_id (insn_at rs.insn i).id →
      (label_targets sx rs i).globals = rs.globals ∧
      ∀ l ∈ (disassemble_block_insn cs sx mp rs i).locals.labels,
        l ∈ rs.locals.labels ∨
        (¬ has_label_at rs.locals l.vaddr ∧
          (sx = ASM_GAS → l.name = ".L" ++ fmt_08X l.vaddr) ∧
          (sx = ASM_ARMIPS → l.name = "@L" ++ fmt_08X l.vaddr))) := by
  constructor
  · obtain ⟨st, hd, rfl⟩ := mipsdisasm_pass1_ok cs al fuel data offset length vaddr state state2 h
    obtain ⟨hinsn, hloc, _⟩ := pass1_result_block cs offset length vaddr state st.instructions
    intro i d o hi hjump hncall ho ht
    rw [hinsn] at hi
    rw [hloc, labels_sort_has]
    have hlen := resolve_upto_length cs state.syntax_ state.merge_pseudo
      { globals := state.globals, locals := labels_alloc, insn := st.instructions }
      st.instructions.length
    have hilt : i < st.instructions.length := by
      have := (List.getElem?_eq_some.mp hi).1
      rw [hlen] at this; exact this
    have hdat : insn_at _ i = d := insn_at_of_getElem? _ i d hi
    have hsame := resolve_upto_same cs state.syntax_ state.merge_pseudo
      { globals := state.globals, locals := labels_alloc, insn := st.instructions }
      st.instructions.length i
    rw [hdat] at hsame
    have hsame_i := resolve_upto_same cs state.syntax_ state.merge_pseudo
      { globals := state.globals, locals := labels_alloc, insn := st.instructions } i i
    have hncall0 : ¬ is_call_id (insn_at st.instructions i).id :=
      fun hc => hncall ((same_decoded_call_id _ _ hsame).mpr hc)
    have hstep := disassemble_block_insn_branch cs state.syntax_ state.merge_pseudo
      (resolve_upto cs state.syntax_ state.merge_pseudo
        { globals := state.globals, locals := labels_alloc, insn := st.instructions } i) i
      (by rw [hsame_i.2.2.2.1, ← hsame.2.2.2.1]; exact hjump)
      (fun hc => hncall0 ((same_decoded_call_id _ _ hsame_i).mp hc))
    refine resolve_upto_has_local cs state.syntax_ state.merge_pseudo _ (i + 1) _ _
      (by omega) ?_
    rw [resolve_upto_succ, hstep, branch_requests_same _ _ _ hsame_i,
      ← branch_requests_same _ _ _ hsame]
    exact ensure_all_has _ _ _ (branch_requests_mem state.syntax_ d o ho ht)
  · intro sx mp rs i hj hid
    refine ⟨(label_targets_branch sx rs i hid).1, fun l hl => ?_⟩
    rw [disassemble_block_insn_branch cs sx mp rs i hj hid] at hl
    rcases ensure_all_mem_inv _ _ _ hl with h1 | ⟨h1, h2⟩
    · exact Or.inl h1
    · right
      have hn := branch_requests_name sx _ _ h1
      refine ⟨h2, fun hs => ?_, fun hs => ?_⟩
      · rw [hs] at hn; exact hn
      · rw [hs] at hn; exact hn

/-- C6 at Pass 1 over the sample program: the `beq` to `0x80001050`. -/
theorem pass1_branch_targets_local_witness :
    (∀ (i : Nat) (d : disasm_data) (o : Nat), (sample_after.block 0).instructions[i]? = some d →
      d.is_jump = true → ¬ is_call_id d.id → o < d.op_count → (d.op o).type = MIPS_OP_IMM →
      has_label_at (sample_after.block 0).locals (to_u32 (d.op o).imm)) ∧
    (sample_after.block 0).locals.labels = [{ name := ".L80001050", vaddr := 0x80001050 }] ∧
    labels_find sample_after.globals 0x80001050 = -1 :=
  ⟨(pass1_branch_targets_local (table_decoder 0x80000000 sample_prog) alloc_always 4
      (List.replicate 16 0) 0 16 0x80000000 (disasm_state_init ASM_GAS true) sample_after
      sample_pass1).1, by decide, by decide⟩


/-! ## A LUI followed by an ADDIU of the same register -/

/-- The search for the LUI of a MTC1 either changes nothing, or rewrites the
first instruction at which it stops, a LUI of `rt`. -/
theorem float_li_loop_cases (i rt : Nat) (insn : List disasm_data) (n : Nat) :
    float_li_loop i rt insn n = insn ∨
    ∃ s, s < n ∧ (insn_at insn s).id = MIPS_INS_LUI ∧ ((insn_at insn s).op 0).reg = rt ∧
      (∀ j, s < j → j < n → ¬ float_scan_stops rt (insn_at insn j)) ∧
      float_li_loop i rt insn n = insn.set s { insn_at insn s with
        linked_insn := (i : Int),
        linked_value := to_u32 (((insn_at insn s).op 1).imm * 65536),
        id := MIPS_INS_LI, mnemonic := "li" } := by
  induction n with
  | zero => left; rfl
  | succ s ih =>
    unfold float_li_loop
    by_cases h1 : (insn_at insn s).id = MIPS_INS_LUI ∧ ((insn_at insn s).op 0).reg = rt
    · right
      rw [if_pos h1]
      exact ⟨s, by omega, h1.1, h1.2, fun j hj hj2 => by omega, rfl⟩
    · rw [if_neg h1]
      have hstep : ∀ (hns : ¬ float_scan_stops rt (insn_at insn s)),
          float_li_loop i rt insn s = insn ∨
          ∃ s2, s2 < s + 1 ∧ (insn_at insn s2).id = MIPS_INS_LUI ∧
            ((insn_at insn s2).op 0).reg = rt ∧
            (∀ j, s2 < j → j < s + 1 → ¬ float_scan_stops rt (insn_at insn j)) ∧
            float_li_loop i rt insn s = insn.set s2 { insn_at insn s2 with
              linked_insn := (i : Int),
              linked_value := to_u32 (((insn_at insn s2).op 1).imm * 65536),
              id := MIPS_INS_LI, mnemonic := "li" } := by
        intro hns
        rcases ih with ih | ⟨s2, hs2, hid, hrd, hno, heq⟩
        · exact Or.inl ih
        · refine Or.inr ⟨s2, by omega, hid, hrd, ?_, heq⟩
          intro j hj hj2
          by_cases hjs : j = s
          · rw [hjs]; exact hns
          · exact hno j hj (by omega)
      by_cases h2 : is_float_scan_redefinition (insn_at insn s).id = true
      · rw [if_pos h2]
        by_cases h3 : rt = ((insn_at insn s).op 0).reg
        · left; simp only [h3, if_true]
        · simp only [h3, if_false]
          apply hstep
          rintro (h | ⟨_, h⟩ | ⟨h, _⟩)
          · exact h1 h
          · exact h3 h.symm
          · rw [h] at h2; simp [is_float_scan_redefinition] at h2
      · rw [if_neg h2]
        by_cases h4 : (insn_at insn s).id = MIPS_INS_JR ∧
            ((insn_at insn s).op 0).reg = MIPS_REG_RA
        · left; rw [if_pos h4]
        · rw [if_neg h4]
          apply hstep
          rintro (h | ⟨h, _⟩ | h)
          · exact h1 h
          · exact h2 h
          · exact h4 h

theorem keeps_pair_refl (k : Nat) (insn : List disasm_data) : keeps_pair k insn insn :=
  ⟨rfl, rfl⟩

theorem keeps_pair_trans (k : Nat) (a b c : List disasm_data) (h1 : keeps_pair k a b)
    (h2 : keeps_pair k b c) : keeps_pair k a c :=
  ⟨h2.1.trans h1.1, h2.2.trans h1.2⟩

theorem keeps_pair_guard (r k : Nat) (a b : List disasm_data) (h : keeps_pair k a b)
    (hg : lui_addiu_at r k a) : lui_addiu_at r k b := by
  unfold lui_addiu_at
  rw [h.1, h.2]; exact hg

theorem keeps_pair_set (k i : Nat) (insn : List disasm_data) (x : disasm_data)
    (h1 : i ≠ k) (h2 : i ≠ k + 1) : keeps_pair k insn (insn.set i x) :=
  ⟨insn_at_set_ne _ _ _ _ h1, insn_at_set_ne _ _ _ _ h2⟩

theorem reset_link_keeps (k i : Nat) (insn : List disasm_data) (hi : k + 1 < i) :
    keeps_pair k insn (reset_link insn i) :=
  keeps_pair_set k i insn _ (by omega) (by omega)

theorem flag_newline_keeps (k i : Nat) (insn : List disasm_data) (hi : k + 1 < i) :
    keeps_pair k insn (flag_newline insn i) := by
  unfold flag_newline
  split_ifs
  · exact keeps_pair_set k (i + 2) insn _ (by omega) (by omega)
  · exact keeps_pair_refl _ _
  · exact keeps_pair_refl _ _

theorem float_li_loop_keeps (r k i rt : Nat) (insn : List disasm_data) (hi : k + 1 < i)
    (hg : lui_addiu_at r k insn) : keeps_pair k insn (float_li_loop i rt insn i) := by
  rcases float_li_loop_cases i rt insn i with h | ⟨s, hs, hid, hrd, hno, heq⟩
  · rw [h]; exact keeps_pair_refl _ _
  · rw [heq]
    refine keeps_pair_set k s insn _ ?_ ?_
    · intro hsk
      subst hsk
      refine hno (s + 1) (by omega) hi (Or.inr (Or.inl ⟨?_, ?_⟩))
      · rw [hg.2.2.1]; rfl
      · rw [hg.2.2.2, ← hrd, hg.2.1]
    · intro hsk
      rw [hsk, hg.2.2.1] at hid
      cases hid

theorem link_with_lui_body_keeps (r k i reg m : Nat) (g : label_buf) (insn : List disasm_data)
    (hi : k + 1 < i) (hg : lui_addiu_at r k insn) :
    keeps_pair k insn (link_with_lui_body i reg m g insn).2 := by
  unfold link_with_lui_body
  by_cases hm : m ≠ 0
  · rw [if_pos hm]
    rcases link_with_lui_loop_cases i reg m (i - MAX_LOOKBACK) g insn i with
      h | ⟨s, hs, _, hid, hrd, hno, heq⟩
    · rw [h]; exact keeps_pair_refl _ _
    · rw [heq]
      have hsk : s ≠ k := by
        intro hsk
        subst hsk
        refine hno (s + 1) (by omega) hi (Or.inr (Or.inl ⟨?_, ?_⟩))
        · rw [hg.2.2.1]; rfl
        · rw [hg.2.2.2, ← hrd, hg.2.1]
      have hsk1 : s ≠ k + 1 := by
        intro hsk
        rw [hsk, hg.2.2.1] at hid
        cases hid
      constructor
      · unfold insn_at
        rw [List.getD_eq_getElem?_getD, List.getD_eq_getElem?_getD,
          link_lui_pair_at_other _ _ _ _ _ _ (Ne.symm hsk) (by omega)]
      · unfold insn_at
        rw [List.getD_eq_getElem?_getD, List.getD_eq_getElem?_getD,
          link_lui_pair_at_other _ _ _ _ _ _ (Ne.symm hsk1) (by omega)]
  · rw [if_neg hm]; exact keeps_pair_refl _ _

theorem merge_pseudo_insn_keeps (cs : capstone) (r k i : Nat) (rs : resolve_state)
    (hi : k + 1 < i) (hg : lui_addiu_at r k rs.insn) :
    keeps_pair k rs.insn (merge_pseudo_insn cs rs i).insn := by
  unfold merge_pseudo_insn
  by_cases h1 : (insn_at rs.insn i).id = MIPS_INS_MTC1
  · simp only [h1, if_true]; exact float_li_loop_keeps r k i _ _ hi hg
  · by_cases h2 : is_load_store (insn_at rs.insn i).id = true
    · simp only [h1, h2, if_true, if_false]
      exact link_with_lui_body_keeps r k i _ _ _ _ hi hg
    · by_cases h3 : (insn_at rs.insn i).id = MIPS_INS_ADDIU ∨ (insn_at rs.insn i).id = MIPS_INS_ORI
      · by_cases h4 : ((insn_at rs.insn i).op 1).reg = MIPS_REG_ZERO
        · simp only [h1, h2, h3, h4, if_true, if_false, Bool.false_eq_true]
          exact keeps_pair_set k i _ _ (by omega) (by omega)
        · by_cases h5 : ((insn_at rs.insn i).op 0).reg = ((insn_at rs.insn i).op 1).reg
          · simp only [h1, h2, h3, h4, h5, if_true, if_false, Bool.false_eq_true]
            exact link_with_lui_body_keeps r k i _ _ _ _ hi hg
          · simp only [h1, h2, h3, h4, h5, if_true, if_false, Bool.false_eq_true]
            exact keeps_pair_refl _ _
      · simp only [h1, h2, h3, if_false, Bool.false_eq_true]
        exact keeps_pair_refl _ _

/-- A step of the resolver loop for a later instruction leaves a LUI and the
ADDIU of the same register right after it as they are. -/
theorem disassemble_block_insn_keeps (cs : capstone) (sx : asm_syntax) (mp : Bool) (r k i : Nat)
    (rs : resolve_state) (hi : k + 1 < i) (hg : lui_addiu_at r k rs.insn) :
    keeps_pair k rs.insn (disassemble_block_insn cs sx mp rs i).insn := by
  have h1 := reset_link_keeps k i rs.insn hi
  have hg1 := keeps_pair_guard r k _ _ h1 hg
  have h2 : keeps_pair k rs.insn
      (if (insn_at (reset_link rs.insn i) i).is_jump = true then
          label_targets sx ⟨rs.globals, rs.locals, reset_link rs.insn i⟩ i
        else ⟨rs.globals, rs.locals, reset_link rs.insn i⟩).insn := by
    by_cases hj : (insn_at (reset_link rs.insn i) i).is_jump = true
    · rw [if_pos hj, label_targets_insn]
      exact keeps_pair_trans k _ _ _ h1 (flag_newline_keeps k i _ hi)
    · rw [if_neg hj]; exact h1
  have hstep := disassemble_block_insn_eq cs sx mp rs.globals rs.locals rs.insn i
  rw [resolve_state_eta] at hstep
  rw [hstep]
  by_cases hmp : mp = true
  · rw [if_pos hmp]
    exact keeps_pair_trans k _ _ _ h2
      (merge_pseudo_insn_keeps cs r k i _ hi (keeps_pair_guard r k _ _ h2 hg))
  · rw [if_neg hmp]; exact h2

theorem resolve_upto_keeps (cs : capstone) (sx : asm_syntax) (mp : Bool) (r k : Nat)
    (rs : resolve_state) (m n : Nat) (hm : k + 2 ≤ m) (hmn : m ≤ n)
    (hg : lui_addiu_at r k (resolve_upto cs sx mp rs m).insn) :
    keeps_pair k (resolve_upto cs sx mp rs m).insn (resolve_upto cs sx mp rs n).insn := by
  induction n with
  | zero => have : m = 0 := by omega
            subst this; exact keeps_pair_refl _ _
  | succ n ih =>
    by_cases hmn1 : m = n + 1
    · subst hmn1; exact keeps_pair_refl _ _
    · have ih2 := ih (by omega)
      rw [resolve_upto_succ]
      exact keeps_pair_trans k _ _ _ ih2
        (disassemble_block_insn_keeps cs sx mp r k n _ (by omega)
          (keeps_pair_guard r k _ _ ih2 hg))


theorem insn_at_set_id (insn : List disasm_data) (k : Nat) (x : disasm_data)
    (h : x.id = (insn_at insn k).id) (j : Nat) :
    (insn_at (insn.set k x) j).id = (insn_at insn j).id := by
  by_cases hjk : k = j
  · subst hjk
    exact insn_at_set_self_id insn k x h
  · rw [insn_at_set_ne _ _ _ _ hjk]

theorem reset_link_id (insn : List disasm_data) (i j : Nat) :
    (insn_at (reset_link insn i) j).id = (insn_at insn j).id := by
  unfold reset_link
  apply insn_at_set_id
  rfl

theorem flag_newline_id (insn : List disasm_data) (i j : Nat) :
    (insn_at (flag_newline insn i) j).id = (insn_at insn j).id := by
  unfold flag_newline
  split_ifs
  · apply insn_at_set_id; rfl
  · rfl
  · rfl

theorem link_lui_pair_id (offset mem_imm search : Nat) (g : label_buf)
    (insn : List disasm_data) (j : Nat) :
    (insn_at (link_lui_pair offset mem_imm search g insn).2 j).id = (insn_at insn j).id := by
  rw [link_lui_pair_insn]
  refine Eq.trans ?_ (insn_at_set_id insn search { insn_at insn search with
      linked_insn := (offset : Int),
      linked_value := hilo_addr (insn_at insn search) mem_imm } rfl j)
  apply insn_at_set_id
  rfl

theorem link_with_lui_body_id (i r m : Nat) (g : label_buf) (insn : List disasm_data)
    (j : Nat) :
    (insn_at (link_with_lui_body i r m g insn).2 j).id = (insn_at insn j).id := by
  unfold link_with_lui_body
  by_cases hm : m ≠ 0
  · rw [if_pos hm]
    rcases link_with_lui_loop_cases i r m (i - MAX_LOOKBACK) g insn i with
      h | ⟨s, _, _, _, _, _, h⟩
    · rw [h]
    · rw [h]; exact link_lui_pair_id _ _ _ _ _ _
  · rw [if_neg hm]

theorem float_li_loop_at_ge (i rt : Nat) (insn : List disasm_data) (n j : Nat) (h : n ≤ j) :
    insn_at (float_li_loop i rt insn n) j = insn_at insn j := by
  rcases float_li_loop_cases i rt insn n with h1 | ⟨s, hs, _, _, _, heq⟩
  · rw [h1]
  · rw [heq, insn_at_set_ne _ _ _ _ (by omega)]

theorem merge_pseudo_insn_id (cs : capstone) (rs : resolve_state) (i j : Nat) (hij : i ≤ j)
    (hi : j = i → (insn_at rs.insn i).id ≠ MIPS_INS_ADDIU ∧ (insn_at rs.insn i).id ≠ MIPS_INS_ORI) :
    (insn_at (merge_pseudo_insn cs rs i).insn j).id = (insn_at rs.insn j).id := by
  unfold merge_pseudo_insn
  by_cases h1 : (insn_at rs.insn i).id = MIPS_INS_MTC1
  · simp only [h1, if_true]; rw [float_li_loop_at_ge _ _ _ _ _ hij]
  · by_cases h2 : is_load_store (insn_at rs.insn i).id = true
    · simp only [h1, h2, if_true, if_false]
      exact link_with_lui_body_id _ _ _ _ _ _
    · by_cases h3 : (insn_at rs.insn i).id = MIPS_INS_ADDIU ∨ (insn_at rs.insn i).id = MIPS_INS_ORI
      · have hji : i ≠ j := by
          intro hji
          have := hi hji.symm
          rcases h3 with h | h
          · exact this.1 h
          · exact this.2 h
        by_cases h4 : ((insn_at rs.insn i).op 1).reg = MIPS_REG_ZERO
        · simp only [h1, h2, h3, h4, if_true, if_false, Bool.false_eq_true]
          rw [insn_at_set_ne _ _ _ _ hji]
        · by_cases h5 : ((insn_at rs.insn i).op 0).reg = ((insn_at rs.insn i).op 1).reg
          · simp only [h1, h2, h3, h4, h5, if_true, if_false, Bool.false_eq_true]
            exact link_with_lui_body_id _ _ _ _ _ _
          · simp only [h1, h2, h3, h4, h5, if_true, if_false, Bool.false_eq_true]
      · simp only [h1, h2, h3, if_false, Bool.false_eq_true]

/-- The id of an entry at or after `i` is not changed by step `i`, unless it
is entry `i` itself and an ADDIU or ORI. -/
theorem disassemble_block_insn_id (cs : capstone) (sx : asm_syntax) (mp : Bool)
    (rs : resolve_state) (i j : Nat) (hij : i ≤ j)
    (hi : j = i → (insn_at rs.insn i).id ≠ MIPS_INS_ADDIU ∧ (insn_at rs.insn i).id ≠ MIPS_INS_ORI) :
    (insn_at (disassemble_block_insn cs sx mp rs i).insn j).id = (insn_at rs.insn j).id := by
  have h2 : ∀ j2, (insn_at (if (insn_at (reset_link rs.insn i) i).is_jump = true then
          label_targets sx ⟨rs.globals, rs.locals, reset_link rs.insn i⟩ i
        else ⟨rs.globals, rs.locals, reset_link rs.insn i⟩).insn j2).id
      = (insn_at rs.insn j2).id := by
    intro j2
    by_cases hj : (insn_at (reset_link rs.insn i) i).is_jump = true
    · rw [if_pos hj, label_targets_insn, flag_newline_id, reset_link_id]
    · rw [if_neg hj, reset_link_id]
  have hstep := disassemble_block_insn_eq cs sx mp rs.globals rs.locals rs.insn i
  rw [resolve_state_eta] at hstep
  rw [hstep]
  by_cases hmp : mp = true
  · rw [if_pos hmp, merge_pseudo_insn_id cs _ i j hij (by rw [h2 i]; exact hi), h2 j]
  · rw [if_neg hmp, h2 j]

theorem resolve_upto_id (cs : capstone) (sx : asm_syntax) (mp : Bool) (rs : resolve_state)
    (m j : Nat) (hmj : m ≤ j) :
    (insn_at (resolve_upto cs sx mp rs m).insn j).id = (insn_at rs.insn j).id := by
  induction m with
  | zero => rfl
  | succ m ih =>
    rw [resolve_upto_succ, disassemble_block_insn_id cs sx mp _ m j (by omega)
      (fun h => by omega), ih (by omega)]

theorem resolve_upto_id_succ (cs : capstone) (sx : asm_syntax) (mp : Bool) (rs : resolve_state)
    (j : Nat) (h : (insn_at rs.insn j).id ≠ MIPS_INS_ADDIU ∧ (insn_at rs.insn j).id ≠ MIPS_INS_ORI) :
    (insn_at (resolve_upto cs sx mp rs (j + 1)).insn j).id = (insn_at rs.insn j).id := by
  rw [resolve_upto_succ, disassemble_block_insn_id cs sx mp _ j j (le_refl j)
    (fun _ => by rw [resolve_upto_id cs sx mp rs j j (le_refl j)]; exact h),
    resolve_upto_id cs sx mp rs j j (le_refl j)]

theorem flag_newline_at_lt (insn : List disasm_data) (i j : Nat) (h : j < i + 2) :
    insn_at (flag_newline insn i) j = insn_at insn j := by
  unfold flag_newline
  split_ifs
  · exact insn_at_set_ne _ _ _ _ (by omega)
  · rfl
  · rfl

theorem merge_pseudo_insn_addiu (cs : capstone) (rs : resolve_state) (i : Nat)
    (hid : (insn_at rs.insn i).id = MIPS_INS_ADDIU)
    (hz : ((insn_at rs.insn i).op 1).reg ≠ MIPS_REG_ZERO)
    (hrd : ((insn_at rs.insn i).op 0).reg = ((insn_at rs.insn i).op 1).reg) :
    merge_pseudo_insn cs rs i
      = { rs with
          globals := (link_with_lui_body i ((insn_at rs.insn i).op 1).reg
            (to_u32 ((insn_at rs.insn i).op 2).imm) rs.globals rs.insn).1
          insn := (link_with_lui_body i ((insn_at rs.insn i).op 1).reg
            (to_u32 ((insn_at rs.insn i).op 2).imm) rs.globals rs.insn).2 } := by
  unfold merge_pseudo_insn
  simp [hid, hz, hrd, is_load_store]

/-- The step of the resolver loop for an ADDIU of `r` right after a LUI of `r`
(pseudo-op handling on): the two instructions are linked to each other with
the resolved address, and the global scope gets the `D_` request for it. -/
theorem disassemble_block_insn_links_pair (cs : capstone) (sx : asm_syntax) (r k : Nat)
    (rs : resolve_state) (hlen : k + 1 < rs.insn.length) (hg : lui_addiu_at r k rs.insn)
    (hrs : ((insn_at rs.insn (k + 1)).op 1).reg = r) (hr : r ≠ MIPS_REG_ZERO)
    (hm : to_u32 ((insn_at rs.insn (k + 1)).op 2).imm ≠ 0) :
    (insn_at (disassemble_block_insn cs sx true rs (k + 1)).insn k).linked_insn
      = ((k + 1 : Nat) : Int) ∧
    (insn_at (disassemble_block_insn cs sx true rs (k + 1)).insn k).linked_value
      = hilo_addr (insn_at rs.insn k) (to_u32 ((insn_at rs.insn (k + 1)).op 2).imm) ∧
    (insn_at (disassemble_block_insn cs sx true rs (k + 1)).insn (k + 1)).linked_insn
      = (k : Int) ∧
    (insn_at (disassemble_block_insn cs sx true rs (k + 1)).insn (k + 1)).linked_value
      = hilo_addr (insn_at rs.insn k) (to_u32 ((insn_at rs.insn (k + 1)).op 2).imm) ∧
    lui_addiu_at r k (disassemble_block_insn cs sx true rs (k + 1)).insn ∧
    (disassemble_block_insn cs sx true rs (k + 1)).globals
      = ensure_label rs.globals
          ("D_" ++ fmt_08X (hilo_addr (insn_at rs.insn k)
            (to_u32 ((insn_at rs.insn (k + 1)).op 2).imm)))
          (hilo_addr (insn_at rs.insn k) (to_u32 ((insn_at rs.insn (k + 1)).op 2).imm)) := by
  obtain ⟨hk_id, hk_rd, hk1_id, hk1_rd⟩ := hg
  -- the state the pseudo-op part starts from
  have hmid : ∃ (l2 : label_buf) (insn2 : List disasm_data),
      (if (insn_at (reset_link rs.insn (k + 1)) (k + 1)).is_jump = true then
          label_targets sx ⟨rs.globals, rs.locals, reset_link rs.insn (k + 1)⟩ (k + 1)
        else ⟨rs.globals, rs.locals, reset_link rs.insn (k + 1)⟩)
        = ⟨rs.globals, l2, insn2⟩ ∧
      insn2.length = rs.insn.length ∧
      insn_at insn2 k = insn_at rs.insn k ∧
      insn_at insn2 (k + 1) = { insn_at rs.insn (k + 1) with linked_insn := -1 } := by
    have e1 : insn_at (reset_link rs.insn (k + 1)) k = insn_at rs.insn k :=
      insn_at_set_ne _ _ _ _ (by omega)
    have e2 : insn_at (reset_link rs.insn (k + 1)) (k + 1)
        = { insn_at rs.insn (k + 1) with linked_insn := -1 } :=
      insn_at_set_self _ _ _ hlen
    by_cases hj : (insn_at (reset_link rs.insn (k + 1)) (k + 1)).is_jump = true
    · rw [if_pos hj]
      have hnc : ¬ is_call_id (insn_at (reset_link rs.insn (k + 1)) (k + 1)).id := by
        rw [reset_link_id, hk1_id]
        unfold is_call_id; simp
      have hb := label_targets_branch sx ⟨rs.globals, rs.locals, reset_link rs.insn (k + 1)⟩
        (k + 1) hnc
      have hi := label_targets_insn sx ⟨rs.globals, rs.locals, reset_link rs.insn (k + 1)⟩ (k + 1)
      refine ⟨(label_targets sx ⟨rs.globals, rs.locals, reset_link rs.insn (k + 1)⟩ (k + 1)).locals,
        flag_newline (reset_link rs.insn (k + 1)) (k + 1), ?_, ?_, ?_, ?_⟩
      · rw [← resolve_state_eta (label_targets sx _ (k + 1)), hb.1, hi]
      · rw [flag_newline_length, reset_link_length]
      · rw [flag_newline_at_lt _ _ _ (by omega), e1]
      · rw [flag_newline_at_lt _ _ _ (by omega), e2]
    · rw [if_neg hj]
      exact ⟨rs.locals, reset_link rs.insn (k + 1), rfl, reset_link_length _ _, e1, e2⟩
  obtain ⟨l2, insn2, hmid_eq, hlen2, h2k, h2k1⟩ := hmid
  have hstep := disassemble_block_insn_eq cs sx true rs.globals rs.locals rs.insn (k + 1)
  rw [resolve_state_eta] at hstep
  rw [hstep, if_pos rfl, hmid_eq]
  have hid2 : (insn_at insn2 (k + 1)).id = MIPS_INS_ADDIU := by rw [h2k1]; exact hk1_id
  have hop2 : ∀ o, (insn_at insn2 (k + 1)).op o = (insn_at rs.insn (k + 1)).op o := by
    intro o; rw [h2k1]; rfl
  have hmerge := merge_pseudo_insn_addiu cs ⟨rs.globals, l2, insn2⟩ (k + 1) hid2
    (by rw [hop2, hrs]; exact hr) (by rw [hop2, hop2, hrs, hk1_rd])
  rw [hmerge]
  simp only [hop2, hrs]
  have hbody : link_with_lui_body (k + 1) r (to_u32 ((insn_at rs.insn (k + 1)).op 2).imm)
      rs.globals insn2
      = link_lui_pair (k + 1) (to_u32 ((insn_at rs.insn (k + 1)).op 2).imm) k rs.globals insn2 := by
    unfold link_with_lui_body
    rw [if_pos hm]
    exact link_with_lui_loop_hit _ _ _ _ _ _ (k + 1) k (by omega)
      (by unfold MAX_LOOKBACK; omega)
      (by rw [h2k]; exact hk_id) (by rw [h2k]; exact hk_rd) (fun j h1 h2 => by omega)
  rw [hbody]
  have hne : k ≠ k + 1 := by omega
  have hs := link_lui_pair_at_search (k + 1) (to_u32 ((insn_at rs.insn (k + 1)).op 2).imm) k
    rs.globals insn2 (by omega) hne
  have ho := link_lui_pair_at_offset (k + 1) (to_u32 ((insn_at rs.insn (k + 1)).op 2).imm) k
    rs.globals insn2 (by omega) hne
  refine ⟨?_, ?_, ?_, ?_, ⟨?_, ?_, ?_, ?_⟩, ?_⟩
  · rw [hs]
  · rw [hs, h2k]
  · rw [ho]
  · rw [ho, h2k]
  · rw [hs]; show (insn_at insn2 k).id = _; rw [h2k]; exact hk_id
  · rw [hs]; show ((insn_at insn2 k).op 0).reg = _; rw [h2k]; exact hk_rd
  · rw [ho]; exact hid2
  · rw [ho]; show ((insn_at insn2 (k + 1)).op 0).reg = _; rw [hop2]; exact hk1_rd
  · rw [link_lui_pair_globals_ensure _ _ _ _ _ hne, if_pos (by rw [hid2]; simp), h2k]


/-! ## Hi/lo linking in Pass 1 -/

/-- Where a label of the global scope after a step of the resolver loop comes
from: it was there before, or it is a `D_` label, or instruction `i` is a jump
with a call id and the label sits at its target. -/
theorem disassemble_block_insn_new_global (cs : capstone) (sx : asm_syntax) (mp : Bool)
    (rs : resolve_state) (i : Nat) (l : asm_label)
    (hl : l ∈ (disassemble_block_insn cs sx mp rs i).globals.labels) :
    l ∈ rs.globals.labels ∨ l.name = "D_" ++ fmt_08X l.vaddr ∨
    ((insn_at rs.insn i).is_jump = true ∧ is_call_id (insn_at rs.insn i).id ∧
      l.vaddr = to_u32 ((insn_at rs.insn i).op 0).imm) := by
  by_cases hc : (insn_at rs.insn i).is_jump = true ∧ is_call_id (insn_at rs.insn i).id
  · rw [(disassemble_block_insn_call cs sx mp rs i hc.1 hc.2).1] at hl
    rcases ensure_label_mem_inv _ _ _ _ hl with h | ⟨h, _⟩
    · exact Or.inl h
    · exact Or.inr (Or.inr ⟨hc.1, hc.2, by rw [h]⟩)
  · have hs := reset_link_at_same rs.insn i
    have hmid : ∃ (l2 : label_buf) (insn2 : List disasm_data),
        (if (insn_at (reset_link rs.insn i) i).is_jump = true then
            label_targets sx ⟨rs.globals, rs.locals, reset_link rs.insn i⟩ i
          else ⟨rs.globals, rs.locals, reset_link rs.insn i⟩)
          = ⟨rs.globals, l2, insn2⟩ := by
      by_cases hj : (insn_at (reset_link rs.insn i) i).is_jump = true
      · rw [if_pos hj]
        have hnc : ¬ is_call_id (insn_at (reset_link rs.insn i) i).id := by
          intro h
          exact hc ⟨by rw [← hs.2.2.2.1]; exact hj, (same_decoded_call_id _ _ hs).mp h⟩
        have hb := label_targets_branch sx ⟨rs.globals, rs.locals, reset_link rs.insn i⟩ i hnc
        refine ⟨(label_targets sx ⟨rs.globals, rs.locals, reset_link rs.insn i⟩ i).locals,
          (label_targets sx ⟨rs.globals, rs.locals, reset_link rs.insn i⟩ i).insn, ?_⟩
        rw [← resolve_state_eta (label_targets sx _ i), hb.1]
      · rw [if_neg hj]; exact ⟨_, _, rfl⟩
    obtain ⟨l2, insn2, hmid_eq⟩ := hmid
    have hstep := disassemble_block_insn_eq cs sx mp rs.globals rs.locals rs.insn i
    rw [resolve_state_eta] at hstep
    rw [hstep, hmid_eq] at hl
    by_cases hmp : mp = true
    · rw [if_pos hmp] at hl
      obtain ⟨reqs, insn3, _, hn, hf⟩ := merge_pseudo_insn_form cs insn2 i
      rw [hf] at hl
      rcases ensure_all_mem_inv _ _ _ hl with h | ⟨h, _⟩
      · exact Or.inl h
      · exact Or.inr (Or.inl (hn _ h))
    · rw [if_neg hmp] at hl
      exact Or.inl hl

theorem disassemble_block_insn_mem_global (cs : capstone) (sx : asm_syntax) (mp : Bool)
    (rs : resolve_state) (i : Nat) (l : asm_label) (h : l ∈ rs.globals.labels) :
    l ∈ (disassemble_block_insn cs sx mp rs i).globals.labels := by
  obtain ⟨greqs, _, _, _, _, _, hf⟩ := disassemble_block_insn_form cs sx mp rs.insn i
  have := hf rs.globals rs.locals
  rw [resolve_state_eta] at this
  rw [this]
  exact ensure_all_mem _ _ _ h

theorem resolve_upto_mem_global (cs : capstone) (sx : asm_syntax) (mp : Bool)
    (rs : resolve_state) (m n : Nat) (l : asm_label) (hmn : m ≤ n)
    (h : l ∈ (resolve_upto cs sx mp rs m).globals.labels) :
    l ∈ (resolve_upto cs sx mp rs n).globals.labels := by
  induction n with
  | zero => have : m = 0 := by omega
            subst this; exact h
  | succ n ih =>
    by_cases hm : m = n + 1
    · subst hm; exact h
    · rw [resolve_upto_succ]
      exact disassemble_block_insn_mem_global _ _ _ _ _ _ (ih (by omega))

/-- As long as no jump with a call id targets `A`, every label the loop puts at
`A` in the global scope is named `D_` and the 8 hex digits of `A`. -/
theorem resolve_upto_names_at (cs : capstone) (sx : asm_syntax) (mp : Bool)
    (rs : resolve_state) (A m : Nat) (h0 : ¬ has_label_at rs.globals A)
    (hno : ∀ j < m, ¬ ((insn_at rs.insn j).is_jump = true ∧ is_call_id (insn_at rs.insn j).id ∧
      to_u32 ((insn_at rs.insn j).op 0).imm = A)) :
    ∀ l ∈ (resolve_upto cs sx mp rs m).globals.labels, l.vaddr = A →
      l.name = "D_" ++ fmt_08X A := by
  induction m with
  | zero =>
    intro l hl hv
    exact absurd ⟨l, hl, hv⟩ h0
  | succ m ih =>
    intro l hl hv
    rw [resolve_upto_succ] at hl
    rcases disassemble_block_insn_new_global cs sx mp _ m l hl with h | h | ⟨hj, hc, ht⟩
    · exact ih (fun j hj => hno j (by omega)) l h hv
    · rw [h, hv]
    · exfalso
      have hs := resolve_upto_same cs sx mp rs m m
      refine hno m (by omega) ⟨?_, ?_, ?_⟩
      · rw [← hs.2.2.2.1]; exact hj
      · exact (same_decoded_call_id _ _ hs).mp hc
      · rw [← same_decoded_op _ _ hs 0, ← ht, hv]

/-- C4 (code bug): a byte load into `$t0` between the LUI and the ADDIU does
not stop the search of `link_with_lui`: the ADDIU is linked to the LUI across
the load, and the label `D_12345678` is created. -/
theorem link_with_lui_skips_byte_load :
    (cs_lb_t0.id = MIPS_INS_LB ∧ ((copy_insn cs_lb_t0).op 0).reg = MIPS_REG_T0) ∧
    (insn_at ((link_with_lui sample_lb_state 0 2 MIPS_REG_T0 0x5678).block 0).instructions
      2).linked_insn = 0 ∧
    (insn_at ((link_with_lui sample_lb_state 0 2 MIPS_REG_T0 0x5678).block 0).instructions
      0).linked_insn = 2 ∧
    (link_with_lui sample_lb_state 0 2 MIPS_REG_T0 0x5678).globals.labels
      = [{ name := "D_12345678", vaddr := 0x12345678 }] ∧
    is_float_scan_redefinition MIPS_INS_LB = true ∧
    is_lui_scan_redefinition MIPS_INS_LB = false := by
  decide

/-- C8 at a scope of three labels and at the session after Pass 1 over the
sample program. -/
theorem labels_sort_ordered_witness :
    ((labels_sort sample_unsorted).labels.Perm sample_unsorted.labels ∧
      List.Chain' label_ordered (labels_sort sample_unsorted).labels) ∧
    List.Chain' label_ordered sample_after.globals.labels ∧
    List.Chain' label_ordered (sample_after.block 0).locals.labels :=
  labels_sort_ordered sample_unsorted (table_decoder 0x80000000 sample_prog) alloc_always 4
    (List.replicate 16 0) 0 16 0x80000000 (disasm_state_init ASM_GAS true) sample_after
    sample_pass1

/-! ## `disasm_label_lookup` -/

theorem labels_find_nonneg_iff (buf : label_buf) (v : Nat) :
    0 ≤ labels_find buf v ↔ has_label_at buf v := by
  have h := labels_find_neg_iff_not_has buf v
  constructor
  · intro h0
    by_contra hn
    have := h.mpr hn
    omega
  · intro hh
    by_contra hn
    exact (h.mp (by omega)) hh

theorem disasm_label_lookup_spec (state : disasm_state) (v : Nat) (name : String) :
    (disasm_label_lookup state v name).2 = "0x" ++ fmt_08X v ∧
    ((disasm_label_lookup state v name).1 = 1 ↔ has_label_at state.globals v) ∧
    ((disasm_label_lookup state v name).1 = 0 ↔ ¬ has_label_at state.globals v) := by
  unfold disasm_label_lookup
  simp only
  rw [← labels_find_nonneg_iff]
  by_cases h : labels_find state.globals v ≥ 0
  · simp [h]
  · simp [h]

/-- C20 (code bug): `disasm_label_lookup` returns 1 when the global scope has a
label at `v`, but the buffer then holds `0x` and the 8 hex digits of `v`, not
the label's name: the `sprintf` of line 513 runs after the `strcpy` of line
510 in every case. In the session after Pass 1 over the sample program the
lookup of `0x80001000` returns 1 with the text `0x80001000`, the name of the
first global label there being `func_80001000`. -/
theorem disasm_label_lookup_overwrites_name :
    (∀ (state : disasm_state) (v : Nat) (name : String),
      has_label_at state.globals v →
      disasm_label_lookup state v name = (1, "0x" ++ fmt_08X v)) ∧
    disasm_label_lookup sample_after 0x80001000 "" = (1, "0x80001000") ∧
    label_name sample_after.globals (labels_find sample_after.globals 0x80001000) =
      "func_80001000" := by
  refine ⟨?_, by decide, by decide⟩
  intro state v name h
  have hs := disasm_label_lookup_spec state v name
  exact Prod.ext (hs.2.1.mpr h) hs.1

/-! ## Pass 2: block selection, label cursor and frame -/

/-- C18 (code bug): the label cursor of Pass 2 does not get past a label at
an address inside the block that is no instruction address. Pass 1 over
`lui $t0, 0x8000; lb $t1, 2($t0); jal 0x8000000c; nop` at `0x80000000` leaves
the global labels `D_80000002` and `func_8000000C`; the latter is at the
address of instruction 3, and Pass 2 writes no label line for it. -/
theorem pass2_label_cursor_stuck :
    mipsdisasm_pass1 (table_decoder 0x80000000 sample_stuck_prog) alloc_always 10 [] 0 16
      0x80000000 (disasm_state_init ASM_GAS true) = .ok sample_stuck_after ∧
    ({ name := "func_8000000C", vaddr := 0x80000000 + 4 * 3 } : asm_label) ∈
      sample_stuck_after.globals.labels ∧
    "func_8000000C:\n" ∉ sample_stuck_text ∧
    mipsdisasm_pass2 (table_decoder 0x80000000 sample_stuck_prog) fmt_g_none "" sample_stuck_after 0
      = .ok (sample_stuck_text, sample_stuck_after) := by
  refine ⟨rfl, by decide, by decide, rfl⟩

theorem find_block_from_spec (offset : Nat) (blocks : List asm_block) (k : Nat) :
    (find_block_from offset blocks k = none ∧ ∀ b ∈ blocks, b.offset ≠ offset) ∨
    (∃ i b, find_block_from offset blocks k = some (k + i) ∧ blocks[i]? = some b ∧
      b.offset = offset ∧ ∀ j < i, ∀ b2, blocks[j]? = some b2 → b2.offset ≠ offset) := by
  induction blocks generalizing k with
  | nil => left; simp [find_block_from]
  | cons a rest ih =>
    by_cases h : a.offset = offset
    · right
      refine ⟨0, a, ?_, by simp, h, ?_⟩
      · simp [find_block_from, h]
      · intro j hj; omega
    · rcases ih (k + 1) with ⟨hm, hno⟩ | ⟨i, b, hi, hb, hv, hfirst⟩
      · left
        refine ⟨?_, ?_⟩
        · simp [find_block_from, h, hm]
        · intro l hl
          rcases List.mem_cons.mp hl with rfl | hl
          · exact h
          · exact hno l hl
      · right
        refine ⟨i + 1, b, ?_, ?_, hv, ?_⟩
        · simp only [find_block_from, h, if_false, hi]
          congr 1; omega
        · simpa using hb
        · intro j hj l2 hl2
          cases j with
          | zero => simp at hl2; subst hl2; exact h
          | succ j => exact hfirst j (by omega) l2 (by simpa using hl2)

theorem block_of_getElem? (state : disasm_state) (i : Nat) (b : asm_block)
    (h : state.blocks[i]? = some b) : state.block i = b := by
  unfold disasm_state.block
  simp [List.getD, h]

/-- The block lookup of lines 548-553 on a session: no block has the offset,
or the first one that has it is found. -/
theorem find_block_first (state : disasm_state) (offset : Nat) :
    (find_block_from offset state.blocks 0 = none ∧ ∀ b ∈ state.blocks, b.offset ≠ offset) ∨
    (∃ id, find_block_from offset state.blocks 0 = some id ∧ id < state.blocks.length ∧
      (state.block id).offset = offset ∧ ∀ j < id, (state.block j).offset ≠ offset) := by
  rcases find_block_from_spec offset state.blocks 0 with ⟨hm, hno⟩ | ⟨i, b, hi, hb, hv, hfirst⟩
  · exact Or.inl ⟨hm, hno⟩
  · right
    have hlt : i < state.blocks.length := by
      by_contra hn
      rw [List.getElem?_eq_none (by omega)] at hb
      cases hb
    refine ⟨i, by simpa using hi, hlt, ?_, ?_⟩
    · rw [block_of_getElem? state i b hb]; exact hv
    · intro j hj
      have hj2 : j < state.blocks.length := by omega
      have hsome : state.blocks[j]? = some (state.blocks[j]) := List.getElem?_eq_getElem hj2
      rw [block_of_getElem? state j _ hsome]
      exact hfirst j hj _ hsome

/-- C17: `mipsdisasm_pass2` emits the first block, in the order of the Pass 1
calls, whose offset is the requested one: the text is that of the loop of
lines 558-831 over that block. When no block has the offset the run ends in
`exit(1)` and there is no text. -/
theorem pass2_block_selection (cs : capstone) (fmt_g : Nat → String) (stack : String)
    (state : disasm_state) (offset : Nat) :
    (∃ id, id < state.blocks.length ∧ (state.block id).offset = offset ∧
      (∀ j < id, (state.block j).offset ≠ offset) ∧
      mipsdisasm_pass2 cs fmt_g stack state offset =
        .ok ((emit_block cs fmt_g stack state (state.block id) offset).out,
          { state with blocks := state.blocks.set id { state.block id with
              instructions :=
                (emit_block cs fmt_g stack state (state.block id) offset).instructions } })) ∨
    ((∀ b ∈ state.blocks, b.offset ≠ offset) ∧
      mipsdisasm_pass2 cs fmt_g stack state offset = .error halt.exit_failure) := by
  rcases find_block_first state offset with ⟨hm, hno⟩ | ⟨id, hf, hlt, hoff, hfirst⟩
  · right
    refine ⟨hno, ?_⟩
    simp [mipsdisasm_pass2, hm]
  · left
    refine ⟨id, hlt, hoff, hfirst, ?_⟩
    simp [mipsdisasm_pass2, hf]

theorem pass2_insn_eta (d : disasm_data) (prev : String) (cs : capstone) (fmt_g : Nat → String)
    (sx : asm_syntax) (g l : label_buf) (insns : List disasm_data) :
    { d with mnemonic := (render_insn cs fmt_g sx g l insns d prev).mnemonic } = pass2_insn d := by
  unfold render_insn pass2_insn
  split_ifs <;> rfl

theorem emit_insn_instructions (cs : capstone) (fmt_g : Nat → String) (sx : asm_syntax)
    (g l : label_buf) (es : emit_state) (i : Nat) :
    (emit_insn cs fmt_g sx g l es i).instructions =
      es.instructions.set i (pass2_insn (insn_at es.instructions i)) := by
  unfold emit_insn
  simp only
  rw [pass2_insn_eta]

theorem emit_upto_succ (cs : capstone) (fmt_g : Nat → String) (sx : asm_syntax)
    (g l : label_buf) (es : emit_state) (m : Nat) :
    emit_upto cs fmt_g sx g l es (m + 1) =
      emit_insn cs fmt_g sx g l (emit_upto cs fmt_g sx g l es m) m := by
  simp [emit_upto, List.range_succ]

/-- More iterations do not change what the inner loop returns. -/
theorem decode_chunk_mono (cs : capstone) (al : allocator) (data : List Nat)
    (vaddr processed chunk_size : Nat) (fuel : Nat) :
    ∀ (st : decode_state) (cp : Nat) (r : decode_state × Bool) (fuel2 : Nat), fuel ≤ fuel2 →
      decode_chunk cs al data vaddr processed chunk_size fuel st cp = .ok r →
      decode_chunk cs al data vaddr processed chunk_size fuel2 st cp = .ok r := by
  induction fuel with
  | zero => intro st cp r fuel2 _ h; simp [decode_chunk] at h
  | succ fuel ih =>
    intro st cp r fuel2 hle h
    obtain ⟨f2, rfl⟩ : ∃ f2, fuel2 = f2 + 1 := ⟨fuel2 - 1, by omega⟩
    have hle2 : fuel ≤ f2 := by omega
    unfold decode_chunk at h ⊢
    simp only at h ⊢
    split_ifs at h ⊢ with h1 h2
    · exact ih _ _ _ _ hle2 h
    · split at h
      · exact h
      · exact ih _ _ _ _ hle2 h
    · exact h

/-- More iterations do not change what the outer loop returns. -/
theorem decode_chunks_mono (cs : capstone) (al : allocator) (data : List Nat)
    (vaddr inner inner2 : Nat) (hin : inner ≤ inner2) (fuel : Nat) :
    ∀ (st : decode_state) (remaining processed : Nat) (r : decode_state) (fuel2 : Nat),
      fuel ≤ fuel2 →
      decode_chunks cs al data vaddr inner fuel st remaining processed = .ok r →
      decode_chunks cs al data vaddr inner2 fuel2 st remaining processed = .ok r := by
  induction fuel with
  | zero => intro st rem proc r fuel2 _ h; simp [decode_chunks] at h
  | succ fuel ih =>
    intro st rem proc r fuel2 hle h
    obtain ⟨f2, rfl⟩ : ∃ f2, fuel2 = f2 + 1 := ⟨fuel2 - 1, by omega⟩
    have hle2 : fuel ≤ f2 := by omega
    unfold decode_chunks at h ⊢
    simp only at h ⊢
    split_ifs at h ⊢ with h1
    · cases hc : decode_chunk cs al data vaddr proc (min rem 0x8000) inner st 0 with
      | error e => rw [hc] at h; simp at h
      | ok p =>
        obtain ⟨st1, stopped⟩ := p
        rw [hc] at h
        rw [decode_chunk_mono cs al data vaddr proc _ inner st 0 _ inner2 hin hc]
        simp only at h ⊢
        exact ih _ _ _ _ _ hle2 h
    · exact h

theorem decode_chunk_done (cs : capstone) (al : allocator) (data : List Nat)
    (vaddr processed chunk_size fuel : Nat) (st : decode_state) (cp : Nat)
    (h : ¬ cp < chunk_size) :
    decode_chunk cs al data vaddr processed chunk_size (fuel + 1) st cp = .ok (st, false) := by
  rw [decode_chunk]; simp only [if_neg h]

theorem decode_chunk_skip (cs : capstone) (al : allocator) (data : List Nat)
    (vaddr processed chunk_size fuel : Nat) (st : decode_state) (cp : Nat)
    (h : cp < chunk_size)
    (hz : (cs.cs_disasm (data.drop ((processed + cp) % 4294967296))
      (min (chunk_size - cp) 0x400) ((vaddr + (processed + cp) % 4294967296) % 4294967296)).length
        = 0) :
    decode_chunk cs al data vaddr processed chunk_size (fuel + 1) st cp =
      decode_chunk cs al data vaddr processed chunk_size fuel
        (st.log ((processed + cp) % 4294967296) (min (chunk_size - cp) 0x400))
        ((cp + 4) % 4294967296) := by
  rw [decode_chunk]; simp only [if_pos h, hz, if_true]; rfl

theorem decode_chunk_stop (cs : capstone) (al : allocator) (data : List Nat)
    (vaddr processed chunk_size fuel : Nat) (st : decode_state) (cp : Nat)
    (h : cp < chunk_size)
    (hz : (cs.cs_disasm (data.drop ((processed + cp) % 4294967296))
      (min (chunk_size - cp) 0x400) ((vaddr + (processed + cp) % 4294967296) % 4294967296)).length
        ≠ 0)
    (hg : grow_buffer al (st.log ((processed + cp) % 4294967296) (min (chunk_size - cp) 0x400))
      (cs.cs_disasm (data.drop ((processed + cp) % 4294967296))
      (min (chunk_size - cp) 0x400) ((vaddr + (processed + cp) % 4294967296) % 4294967296)).length
        = none) :
    decode_chunk cs al data vaddr processed chunk_size (fuel + 1) st cp =
      .ok (st.log ((processed + cp) % 4294967296) (min (chunk_size - cp) 0x400), true) := by
  rw [decode_chunk]; simp only [if_pos h, if_neg hz]
  unfold decode_state.log at hg
  rw [hg]; rfl

theorem decode_chunk_step (cs : capstone) (al : allocator) (data : List Nat)
    (vaddr processed chunk_size fuel : Nat) (st st1 : decode_state) (cp count1 : Nat)
    (h : cp < chunk_size)
    (hz : (cs.cs_disasm (data.drop ((processed + cp) % 4294967296))
      (min (chunk_size - cp) 0x400) ((vaddr + (processed + cp) % 4294967296) % 4294967296)).length
        ≠ 0)
    (hg : grow_buffer al (st.log ((processed + cp) % 4294967296) (min (chunk_size - cp) 0x400))
      (cs.cs_disasm (data.drop ((processed + cp) % 4294967296))
      (min (chunk_size - cp) 0x400) ((vaddr + (processed + cp) % 4294967296) % 4294967296)).length
        = some (st1, count1)) :
    decode_chunk cs al data vaddr processed chunk_size (fuel + 1) st cp =
      decode_chunk cs al data vaddr processed chunk_size fuel
        (st1.copy (cs.cs_disasm (data.drop ((processed + cp) % 4294967296))
          (min (chunk_size - cp) 0x400) ((vaddr + (processed + cp) % 4294967296) % 4294967296))
          count1)
        ((cp + count1 * 4) % 4294967296) := by
  rw [decode_chunk]; simp only [if_pos h, if_neg hz]
  unfold decode_state.log at hg
  rw [hg]

theorem decode_chunks_done (cs : capstone) (al : allocator) (data : List Nat)
    (vaddr inner fuel : Nat) (st : decode_state) (processed : Nat) :
    decode_chunks cs al data vaddr inner (fuel + 1) st 0 processed = .ok st := by
  rw [decode_chunks]; simp

theorem decode_chunks_step (cs : capstone) (al : allocator) (data : List Nat)
    (vaddr inner fuel : Nat) (st st1 : decode_state) (remaining processed : Nat) (stopped : Bool)
    (h : remaining > 0)
    (hc : decode_chunk cs al data vaddr processed (min remaining 0x8000) inner st 0 =
      .ok (st1, stopped)) :
    decode_chunks cs al data vaddr inner (fuel + 1) st remaining processed =
      decode_chunks cs al data vaddr inner fuel st1
        (((if stopped then 0 else remaining) + 4294967296 - min remaining 0x8000) % 4294967296)
        ((processed + min remaining 0x8000) % 4294967296) := by
  rw [decode_chunks]; simp only [if_pos h, hc]

/-- The inner loop with a decoder that never returns an instruction. -/
theorem decode_chunk_zero (cs : capstone) (al : allocator) (data : List Nat)
    (vaddr processed chunk_size : Nat)
    (hz : ∀ k size, cs.cs_disasm (data.drop k) size ((vaddr + k) % 4294967296) = [])
    (hcs : chunk_size ≤ 0x8000)
    (fuel : Nat) :
    ∀ (st : decode_state) (cp : Nat), (chunk_size - cp + 3) / 4 + 1 ≤ fuel →
      ∃ st2, decode_chunk cs al data vaddr processed chunk_size fuel st cp = .ok (st2, false) ∧
        st2.instructions = st.instructions := by
  induction fuel with
  | zero => intro st cp h; omega
  | succ fuel ih =>
    intro st cp h
    by_cases h1 : cp < chunk_size
    · rw [decode_chunk_skip cs al data vaddr processed chunk_size fuel st cp h1 (by rw [hz]; rfl)]
      have h4 : (cp + 4) % 4294967296 = cp + 4 := by omega
      rw [h4]
      obtain ⟨st2, h2, h3⟩ := ih (st.log ((processed + cp) % 4294967296)
        (min (chunk_size - cp) 0x400)) (cp + 4) (by omega)
      exact ⟨st2, h2, h3⟩
    · rw [decode_chunk_done cs al data vaddr processed chunk_size fuel st cp h1]
      exact ⟨st, rfl, rfl⟩

/-- The outer loop with a decoder that never returns an instruction. -/
theorem decode_chunks_zero (cs : capstone) (al : allocator) (data : List Nat)
    (vaddr inner : Nat)
    (hz : ∀ k size, cs.cs_disasm (data.drop k) size ((vaddr + k) % 4294967296) = [])
    (hin : 8193 ≤ inner)
    (fuel : Nat) :
    ∀ (st : decode_state) (remaining processed : Nat), remaining < 4294967296 →
      (remaining + 0x7FFF) / 0x8000 + 1 ≤ fuel →
      ∃ st2, decode_chunks cs al data vaddr inner fuel st remaining processed = .ok st2 ∧
        st2.instructions = st.instructions := by
  induction fuel with
  | zero => intro st rem proc _ h; omega
  | succ fuel ih =>
    intro st rem proc hlt h
    by_cases h1 : rem > 0
    · obtain ⟨st1, hc, hi⟩ := decode_chunk_zero cs al data vaddr proc (min rem 0x8000) hz
        (by omega) inner st 0 (by omega)
      rw [decode_chunks_step cs al data vaddr inner fuel st st1 rem proc false h1 hc]
      simp only [Bool.false_eq_true, if_false]
      obtain ⟨st2, h2, h3⟩ := ih st1 ((rem + 4294967296 - min rem 0x8000) % 4294967296)
        ((proc + min rem 0x8000) % 4294967296) (by omega) (by omega)
      exact ⟨st2, h2, by rw [h3, hi]⟩
    · have : rem = 0 := by omega
      subst this
      rw [decode_chunks_done]
      exact ⟨st, rfl, rfl⟩

theorem decode_block_zero (cs : capstone) (al : allocator) (data : List Nat)
    (length vaddr fuel : Nat)
    (hz : ∀ k size, cs.cs_disasm (data.drop k) size ((vaddr + k) % 4294967296) = [])
    (hal : al.calloc_ok = true)
    (hlen : length < 4294967296) (hfuel : 0x20001 ≤ fuel) :
    ∃ st, decode_block cs al fuel data length vaddr = .ok st ∧ st.instructions = [] := by
  unfold decode_block
  rw [if_pos hal]
  obtain ⟨st2, h2, h3⟩ := decode_chunks_zero cs al data vaddr fuel hz (by omega) fuel
    { instructions := [], instruction_capacity := initial_capacity length,
      n_realloc := 0, calls := [], copies := [] } length 0 hlen (by omega)
  exact ⟨st2, h2, h3⟩

/-- C13: when every decode call on the range returns no instruction, Pass 1
returns (for every number of loop iterations from `0x20001` on, and every
length below `2^32`), the session has one more block with the given offset,
length and address and no instruction, the block's local scope is empty, and
the global scope is the sorted one of before, with the same labels. -/
theorem pass1_zero_instructions (cs : capstone) (al : allocator) (data : List Nat)
    (offset length vaddr fuel : Nat) (state : disasm_state)
    (hz : ∀ k size,
      cs.cs_disasm ((data.drop offset).drop k) size ((vaddr + k) % 4294967296) = [])
    (hal : al.calloc_ok = true) (hlen : length < 4294967296) (hfuel : 0x20001 ≤ fuel) :
    mipsdisasm_pass1 cs al fuel data offset length vaddr state =
      .ok { state with
        globals := labels_sort state.globals
        blocks := state.blocks ++
          [{ locals := labels_alloc, instructions := [], offset := offset, length := length,
             vaddr := vaddr }] } ∧
    (labels_sort state.globals).labels.Perm state.globals.labels := by
  obtain ⟨st, hd, hi⟩ := decode_block_zero cs al (data.drop offset) length vaddr fuel hz hal
    hlen hfuel
  refine ⟨?_, labels_sort_perm state.globals⟩
  rw [mipsdisasm_pass1_of_decode cs al fuel data offset length vaddr state st hd, hi]
  rfl

/-- C13 at a range of four bytes. -/
theorem pass1_zero_instructions_witness :
    mipsdisasm_pass1 (table_decoder 0 []) alloc_always 0x20001 [1, 2, 3, 4] 0 4 0x80000000
      (disasm_state_init ASM_GAS true) =
      .ok { disasm_state_init ASM_GAS true with
        globals := labels_sort (disasm_state_init ASM_GAS true).globals
        blocks := (disasm_state_init ASM_GAS true).blocks ++
          [{ locals := labels_alloc, instructions := [], offset := 0, length := 4,
             vaddr := 0x80000000 }] } ∧
    (labels_sort (disasm_state_init ASM_GAS true).globals).labels.Perm
      (disasm_state_init ASM_GAS true).globals.labels :=
  pass1_zero_instructions (table_decoder 0 []) alloc_always [1, 2, 3, 4] 0 4 0x80000000 0x20001
    (disasm_state_init ASM_GAS true) (by intro k size; simp [table_decoder]) rfl
    (by decide) (by decide)

theorem grow_buffer_aligned (al : allocator) (hal : ∀ n, al.realloc_ok n = true)
    (st : decode_state) (h : buffer_aligned st) (hroom : st.instructions.length + 256 ≤ 0x40000) :
    ∃ st1, grow_buffer al st 256 = some (st1, 256) ∧ st1.instructions = st.instructions ∧
      st1.calls = st.calls ∧ capacity_doubled st1.instruction_capacity ∧
      st.instructions.length + 256 ≤ st1.instruction_capacity := by
  obtain ⟨hc, hle, hmod⟩ := h
  by_cases hgt : (st.instructions.length + 256) % 4294967296 > st.instruction_capacity
  · have hcm : st.instruction_capacity % 256 = 0 := by
      rcases hc with hc | hc | hc | hc | hc | hc | hc <;> omega
    have hic : st.instructions.length = st.instruction_capacity := by omega
    refine ⟨{ st with n_realloc := st.n_realloc + 1,
                      instruction_capacity := new_capacity st.instruction_capacity }, ?_, rfl, rfl,
      ?_, ?_⟩
    · unfold grow_buffer
      rw [if_pos hgt]
      have hn : new_capacity st.instruction_capacity > st.instruction_capacity := by
        unfold new_capacity
        rcases hc with hc | hc | hc | hc | hc | hc | hc <;> simp [hc]
        omega
      rw [if_pos hn, if_pos (hal _)]
    · show capacity_doubled (new_capacity st.instruction_capacity)
      unfold new_capacity capacity_doubled
      rcases hc with hc | hc | hc | hc | hc | hc | hc <;> simp [hc]
    · show st.instructions.length + 256 ≤ new_capacity st.instruction_capacity
      unfold new_capacity
      rcases hc with hc | hc | hc | hc | hc | hc | hc <;> simp [hc] <;> omega
  · refine ⟨st, ?_, rfl, rfl, hc, ?_⟩
    · unfold grow_buffer
      rw [if_neg hgt]
    · omega

theorem grow_buffer_full (al : allocator) (st : decode_state) (h : buffer_full st)
    (count : Nat) (h1 : 1 ≤ count) (h2 : count ≤ 256) : grow_buffer al st count = none := by
  obtain ⟨hi, hc⟩ := h
  unfold grow_buffer new_capacity limit_to_available
  simp [hi, hc]
  omega

theorem log_instructions (st : decode_state) (a b : Nat) :
    (st.log a b).instructions = st.instructions := rfl

theorem log_capacity (st : decode_state) (a b : Nat) :
    (st.log a b).instruction_capacity = st.instruction_capacity := rfl

theorem log_calls (st : decode_state) (a b : Nat) :
    (st.log a b).calls = st.calls ++ [(a, b)] := rfl

/-- One chunk of `0x8000` bytes below the ceiling, with `t` sub-chunks left: the
loop copies `256` instructions for each of them. -/
theorem decode_chunk_fill (cs : capstone) (al : allocator) (data : List Nat)
    (vaddr processed : Nat) (hcs : decodes_every_word cs) (hal : ∀ n, al.realloc_ok n = true)
    (t : Nat) :
    ∀ (fuel : Nat) (st : decode_state) (cp : Nat), cp + 1024 * t = 0x8000 → t + 1 ≤ fuel →
      buffer_aligned st → st.instructions.length + 256 * t ≤ 0x40000 →
      ∃ st2, decode_chunk cs al data vaddr processed 0x8000 fuel st cp = .ok (st2, false) ∧
        buffer_aligned st2 ∧ st2.instructions.length = st.instructions.length + 256 * t ∧
        ∀ c ∈ st.calls, c ∈ st2.calls := by
  induction t with
  | zero =>
    intro fuel st cp hcp hf hb _
    obtain ⟨f, rfl⟩ : ∃ f, fuel = f + 1 := ⟨fuel - 1, by omega⟩
    rw [decode_chunk_done _ _ _ _ _ _ _ _ _ (by omega)]
    exact ⟨st, rfl, hb, by omega, fun c hc => hc⟩
  | succ t ih =>
    intro fuel st cp hcp hf hb hroom
    obtain ⟨f, rfl⟩ : ∃ f, fuel = f + 1 := ⟨fuel - 1, by omega⟩
    have hlt : cp < 0x8000 := by omega
    have hsub : min (0x8000 - cp) 0x400 = 0x400 := by omega
    have hlen : (cs.cs_disasm (data.drop ((processed + cp) % 4294967296))
        (min (0x8000 - cp) 0x400)
        ((vaddr + (processed + cp) % 4294967296) % 4294967296)).length = 256 := by
      rw [hcs, hsub]
    have hbl : buffer_aligned (st.log ((processed + cp) % 4294967296)
        (min (0x8000 - cp) 0x400)) := hb
    obtain ⟨st1, hg, hi1, hc1, hcap1, hroom1⟩ := grow_buffer_aligned al hal _ hbl
      (by rw [log_instructions]; omega)
    rw [decode_chunk_step cs al data vaddr processed 0x8000 f st st1 _ 256 hlt
      (by rw [hlen]; decide) (by rw [hlen]; exact hg)]
    have hcp2 : (cp + 256 * 4) % 4294967296 = cp + 1024 := by omega
    rw [hcp2]
    have hcopy : (st1.copy (cs.cs_disasm
        (data.drop ((processed + cp) % 4294967296))
        (min (0x8000 - cp) 0x400)
        ((vaddr + (processed + cp) % 4294967296) % 4294967296))
          256).instructions.length = st.instructions.length + 256 := by
      unfold decode_state.copy
      simp only [List.length_append, List.length_map, List.length_take, hlen, hi1,
        log_instructions]
      omega
    obtain ⟨st2, h2, hb2, hl2, hcalls⟩ := ih f (st1.copy (cs.cs_disasm
        (data.drop ((processed + cp) % 4294967296))
        (min (0x8000 - cp) 0x400)
        ((vaddr + (processed + cp) % 4294967296) % 4294967296)) 256) (cp + 1024)
      (by omega) (by omega)
      ⟨hcap1, by rw [hcopy]; rw [log_instructions] at hroom1; exact hroom1,
        by rw [hcopy]; have := hb.2.2; omega⟩
      (by rw [hcopy]; omega)
    refine ⟨st2, h2, hb2, by rw [hl2, hcopy]; omega, ?_⟩
    intro c hc
    apply hcalls
    show c ∈ st1.calls
    rw [hc1, log_calls]
    exact List.mem_append_left _ hc

/-- The first chunks of a long block, `n` of them: each adds `0x2000`
instructions. -/
theorem decode_chunks_fill (cs : capstone) (al : allocator) (data : List Nat)
    (vaddr inner : Nat) (hcs : decodes_every_word cs) (hal : ∀ n, al.realloc_ok n = true)
    (hin : 33 ≤ inner) (n : Nat) :
    ∀ (fuel : Nat) (st : decode_state) (remaining processed : Nat), buffer_aligned st →
      st.instructions.length + 0x2000 * n ≤ 0x40000 → 0x8000 * n ≤ remaining →
      remaining < 4294967296 → processed < 4294967296 →
      ∃ st2, decode_chunks cs al data vaddr inner (fuel + n) st remaining processed =
          decode_chunks cs al data vaddr inner fuel st2 (remaining - 0x8000 * n)
            ((processed + 0x8000 * n) % 4294967296) ∧
        buffer_aligned st2 ∧ st2.instructions.length = st.instructions.length + 0x2000 * n ∧
        ∀ c ∈ st.calls, c ∈ st2.calls := by
  induction n with
  | zero =>
    intro fuel st rem proc hb _ _ _ hp
    refine ⟨st, ?_, hb, by omega, fun c hc => hc⟩
    simp only [Nat.mul_zero, Nat.add_zero, Nat.sub_zero, Nat.mod_eq_of_lt hp]
  | succ n ih =>
    intro fuel st rem proc hb hroom hrem hlt hp
    obtain ⟨st1, hc1, hb1, hl1, hcalls1⟩ := decode_chunk_fill cs al data vaddr proc hcs hal 32
      inner st 0 (by norm_num) (by omega) hb (by omega)
    have hmin : min rem 0x8000 = 0x8000 := by omega
    have hstep := decode_chunks_step cs al data vaddr inner (fuel + n) st st1 rem proc false
      (by omega) (by rw [hmin]; exact hc1)
    rw [show fuel + (n + 1) = fuel + n + 1 by omega, hstep]
    simp only [Bool.false_eq_true, if_false, hmin]
    obtain ⟨st2, h2, hb2, hl2, hcalls2⟩ := ih fuel st1 ((rem + 4294967296 - 32768) % 4294967296)
      ((proc + 32768) % 4294967296) hb1 (by omega) (by omega) (by omega) (by omega)
    refine ⟨st2, ?_, hb2, by omega, fun c hc => hcalls2 c (hcalls1 c hc)⟩
    have e1 : (rem + 4294967296 - 32768) % 4294967296 - 0x8000 * n = rem - 0x8000 * (n + 1) := by
      omega
    have e2 : ((proc + 32768) % 4294967296 + 0x8000 * n) % 4294967296 =
        (proc + 0x8000 * (n + 1)) % 4294967296 := by omega
    rw [h2, e1, e2]

/-- One more chunk with the buffer full at the ceiling: the decode call is
made, nothing is copied, and the loop goes on with `remaining` wrapped. -/
theorem decode_chunks_full_step (cs : capstone) (al : allocator) (data : List Nat)
    (vaddr inner fuel : Nat) (hcs : decodes_every_word cs) (st : decode_state)
    (remaining processed : Nat) (hfull : buffer_full st) (hrem : 4 ≤ remaining) :
    decode_chunks cs al data vaddr (inner + 1) (fuel + 1) st remaining processed =
      decode_chunks cs al data vaddr (inner + 1) fuel
        (st.log (processed % 4294967296) (min (min remaining 0x8000) 0x400))
        (4294967296 - min remaining 0x8000) ((processed + min remaining 0x8000) % 4294967296) := by
  have hlen : (cs.cs_disasm (data.drop ((processed + 0) % 4294967296))
      (min (min remaining 0x8000 - 0) 0x400)
      ((vaddr + (processed + 0) % 4294967296) % 4294967296)).length =
        min (min remaining 0x8000 - 0) 0x400 / 4 := hcs _ _ _
  have hfl : buffer_full (st.log ((processed + 0) % 4294967296)
      (min (min remaining 0x8000 - 0) 0x400)) := hfull
  have hc := decode_chunk_stop cs al data vaddr processed (min remaining 0x8000) inner st 0
    (by omega) (by rw [hlen]; omega)
    (grow_buffer_full al _ hfl (cs.cs_disasm (data.drop ((processed + 0) % 4294967296))
      (min (min remaining 0x8000 - 0) 0x400)
      ((vaddr + (processed + 0) % 4294967296) % 4294967296)).length
      (by rw [hlen]; omega) (by rw [hlen]; omega))
  rw [decode_chunks_step cs al data vaddr (inner + 1) fuel st _ remaining processed true
    (by omega) hc]
  simp only [if_true, Nat.add_zero, Nat.sub_zero, Nat.zero_add]
  have e : (4294967296 - min remaining 0x8000) % 4294967296 = 4294967296 - min remaining 0x8000 := by
    omega
  rw [e]

/-- With the buffer full at the ceiling and a decoder that decodes every
word, the outer loop is still running after any number of iterations. -/
theorem decode_chunks_full (cs : capstone) (al : allocator) (data : List Nat)
    (vaddr inner : Nat) (hcs : decodes_every_word cs) (fuel : Nat) :
    ∀ (st : decode_state) (remaining processed : Nat), buffer_full st → 4 ≤ remaining →
      ∃ st2, decode_chunks cs al data vaddr inner fuel st remaining processed =
          .error (halt.out_of_fuel st2) ∧
        st2.instructions = st.instructions ∧ ∀ c ∈ st.calls, c ∈ st2.calls := by
  induction fuel with
  | zero =>
    intro st rem proc _ _
    exact ⟨st, rfl, rfl, fun c hc => hc⟩
  | succ fuel ih =>
    intro st rem proc hfull hrem
    cases inner with
    | zero =>
      refine ⟨st, ?_, rfl, fun c hc => hc⟩
      rw [decode_chunks]
      simp only [if_pos (show rem > 0 by omega), decode_chunk]
    | succ inner =>
      rw [decode_chunks_full_step cs al data vaddr inner fuel hcs st rem proc hfull hrem]
      obtain ⟨st2, h2, hi2, hc2⟩ := ih (st.log (proc % 4294967296) (min (min rem 0x8000) 0x400))
        (4294967296 - min rem 0x8000) ((proc + min rem 0x8000) % 4294967296) hfull (by omega)
      refine ⟨st2, h2, hi2, fun c hc => hc2 c ?_⟩
      rw [log_calls]
      exact List.mem_append_left _ hc

theorem initial_capacity_long (length : Nat) (h : 0x100000 ≤ length) :
    initial_capacity length = 4096 := by
  unfold initial_capacity
  simp only
  have : min (length / 4 + 256) 4096 = 4096 := by omega
  rw [this]
  simp

/-- A block of more than `0x40000` words and a decoder that decodes every
word: given 34 iterations or more, the loops are still running at the end,
with `0x40000` instructions in the block, and have made a decode call after
the one that found the buffer full. -/
theorem decode_block_past_ceiling (cs : capstone) (al : allocator) (data : List Nat)
    (length vaddr fuel : Nat) (hcs : decodes_every_word cs) (hc : al.calloc_ok = true)
    (hal : ∀ n, al.realloc_ok n = true)
    (hlen : 0x100004 ≤ length) (hlt : length < 4294967296) (hfuel : 34 ≤ fuel) :
    ∃ st, decode_block cs al fuel data length vaddr = .error (halt.out_of_fuel st) ∧
      st.instructions.length = 0x40000 ∧
      (0x100000, min (min (length - 0x100000) 0x8000) 0x400) ∈ st.calls ∧
      (0x100000 + min (length - 0x100000) 0x8000, 0x400) ∈ st.calls := by
  unfold decode_block
  rw [if_pos hc, initial_capacity_long length (by omega)]
  obtain ⟨f, rfl⟩ : ∃ f, fuel = f + 2 + 32 := ⟨fuel - 34, by omega⟩
  obtain ⟨st1, h1, hb1, hl1, _⟩ := decode_chunks_fill cs al data vaddr (f + 2 + 32) hcs hal
    (by omega) 32 (f + 2)
    { instructions := [], instruction_capacity := 4096, n_realloc := 0, calls := [], copies := [] } length 0
    ⟨Or.inl rfl, by simp, by simp⟩ (by simp) (by omega) hlt (by omega)
  rw [h1]
  have hfull : buffer_full st1 := by
    obtain ⟨hcap, hle, _⟩ := hb1
    simp only [List.length_nil] at hl1
    refine ⟨by omega, ?_⟩
    rcases hcap with h | h | h | h | h | h | h <;> omega
  have e1 : (0 + 0x8000 * 32) % 4294967296 = 0x100000 := by norm_num
  rw [e1, show f + 2 + 32 = (f + 33) + 1 by omega, show f + 2 = (f + 1) + 1 by omega,
    decode_chunks_full_step cs al data vaddr (f + 33) (f + 1) hcs st1 _ _ hfull (by omega)]
  have hfull2 : buffer_full (st1.log (0x100000 % 4294967296)
      (min (min (length - 0x8000 * 32) 0x8000) 0x400)) := hfull
  rw [decode_chunks_full_step cs al data vaddr (f + 33) f hcs _ _ _ hfull2 (by omega)]
  obtain ⟨st2, h2, hi2, hc2⟩ := decode_chunks_full cs al data vaddr (f + 33 + 1) hcs f
    ((st1.log (0x100000 % 4294967296) (min (min (length - 0x8000 * 32) 0x8000) 0x400)).log
      ((0x100000 + min (length - 0x8000 * 32) 0x8000) % 4294967296 % 4294967296)
      (min (min (4294967296 - min (length - 0x8000 * 32) 0x8000) 0x8000) 0x400))
    (4294967296 - min (4294967296 - min (length - 0x8000 * 32) 0x8000) 0x8000)
    (((0x100000 + min (length - 0x8000 * 32) 0x8000) % 4294967296 +
      min (4294967296 - min (length - 0x8000 * 32) 0x8000) 0x8000) % 4294967296)
    hfull (by omega)
  refine ⟨st2, h2, ?_, ?_, ?_⟩
  · rw [hi2]; exact hfull.1
  · apply hc2
    rw [log_calls, log_calls]
    apply List.mem_append_left
    apply List.mem_append_right
    have : (0x100000 % 4294967296, min (min (length - 0x8000 * 32) 0x8000) 0x400) =
        (0x100000, min (min (length - 0x100000) 0x8000) 0x400) := by norm_num
    rw [this]
    exact List.mem_singleton_self _
  · apply hc2
    rw [log_calls]
    apply List.mem_append_right
    have : ((0x100000 + min (length - 0x8000 * 32) 0x8000) % 4294967296 % 4294967296,
        min (min (4294967296 - min (length - 0x8000 * 32) 0x8000) 0x8000) 0x400) =
        (0x100000 + min (length - 0x100000) 0x8000, 0x400) := by
      rw [Prod.mk.injEq]
      constructor <;> omega
    rw [this]
    exact List.mem_singleton_self _

theorem decode_chunk_error (cs : capstone) (al : allocator) (data : List Nat)
    (vaddr processed chunk_size : Nat) (fuel : Nat) :
    ∀ (st : decode_state) (cp : Nat) (e : halt),
      decode_chunk cs al data vaddr processed chunk_size fuel st cp = .error e →
      ∃ st2, e = halt.out_of_fuel st2 := by
  induction fuel with
  | zero => intro st cp e h; simp only [decode_chunk, Except.error.injEq] at h; exact ⟨st, h.symm⟩
  | succ fuel ih =>
    intro st cp e h
    unfold decode_chunk at h
    simp only at h
    split_ifs at h with h1 h2
    · exact ih _ _ _ h
    · split at h
      · cases h
      · exact ih _ _ _ h

theorem decode_chunks_error (cs : capstone) (al : allocator) (data : List Nat)
    (vaddr inner : Nat) (fuel : Nat) :
    ∀ (st : decode_state) (remaining processed : Nat) (e : halt),
      decode_chunks cs al data vaddr inner fuel st remaining processed = .error e →
      ∃ st2, e = halt.out_of_fuel st2 := by
  induction fuel with
  | zero =>
    intro st rem proc e h
    simp only [decode_chunks, Except.error.injEq] at h; exact ⟨st, h.symm⟩
  | succ fuel ih =>
    intro st rem proc e h
    unfold decode_chunks at h
    simp only at h
    split_ifs at h with h1
    cases hc : decode_chunk cs al data vaddr proc (min rem 0x8000) inner st 0 with
    | error e2 =>
      rw [hc] at h
      simp only [Except.error.injEq] at h
      rw [← h]
      exact decode_chunk_error cs al data vaddr proc _ inner st 0 e2 hc
    | ok p =>
      obtain ⟨st1, stopped⟩ := p
      rw [hc] at h
      exact ih _ _ _ _ h

/-- C11 (code bug): the decode loop of `disassemble_block` does not end on a
range of more than `0x40000` words when the decoder returns an instruction for
every word: for every number of iterations the model is given, the loop is
still running. After the `break` of line 264 has set `remaining = 0`, line 304
subtracts `chunk_size` from it, which wraps around. -/
theorem decode_block_never_returns (cs : capstone) (al : allocator) (data : List Nat)
    (length vaddr fuel : Nat) (hcs : decodes_every_word cs) (hc : al.calloc_ok = true)
    (hal : ∀ n, al.realloc_ok n = true)
    (hlen : 0x100004 ≤ length) (hlt : length < 4294967296) :
    ∃ st, decode_block cs al fuel data length vaddr = .error (halt.out_of_fuel st) := by
  cases hd : decode_block cs al fuel data length vaddr with
  | error e =>
    unfold decode_block at hd
    rw [if_pos hc] at hd
    obtain ⟨st2, rfl⟩ := decode_chunks_error cs al data vaddr fuel fuel _ _ _ e hd
    exact ⟨st2, rfl⟩
  | ok st =>
    exfalso
    obtain ⟨st2, h2, _⟩ := decode_block_past_ceiling cs al data length vaddr (fuel + 34) hcs hc
      hal hlen hlt (by omega)
    unfold decode_block at hd h2
    rw [if_pos hc] at hd h2
    have := decode_chunks_mono cs al data vaddr fuel (fuel + 34) (by omega) fuel _ _ _ st
      (fuel + 34) (by omega) hd
    rw [this] at h2
    cases h2

/-- C11 at a range of 64 MB. -/
theorem decode_block_never_returns_witness :
    ∃ st, decode_block (word_decoder cs_nop) alloc_always
      1000000 [] 0x4000000 0x80000000 = .error (halt.out_of_fuel st) :=
  decode_block_never_returns (word_decoder cs_nop)
    alloc_always [] 0x4000000 0x80000000 1000000
    (by intro code size addr; simp [word_decoder]) rfl (fun _ => rfl) (by decide) (by decide)

/-- C12 (code bug): on a range a little longer than `0x40000` words, with a
decoder that returns an instruction for every word, the decode call at offset
`0x100000` finds the buffer full at the ceiling; the block keeps its `0x40000`
instructions, but the loop goes on and makes a decode call of `0x400` bytes at
offset `length`, past the end of the range. -/
theorem decode_block_call_outside_range (cs : capstone) (al : allocator) (data : List Nat)
    (length vaddr fuel : Nat) (hcs : decodes_every_word cs) (hc : al.calloc_ok = true)
    (hal : ∀ n, al.realloc_ok n = true)
    (hlen : 0x100004 ≤ length) (hlt : length ≤ 0x108000) (hfuel : 34 ≤ fuel) :
    ∃ st, decode_block cs al fuel data length vaddr = .error (halt.out_of_fuel st) ∧
      st.instructions.length = 0x40000 ∧
      (0x100000, min (length - 0x100000) 0x400) ∈ st.calls ∧
      (length, 0x400) ∈ st.calls := by
  obtain ⟨st, h1, h2, h3, h4⟩ := decode_block_past_ceiling cs al data length vaddr fuel hcs hc
    hal hlen (by omega) hfuel
  refine ⟨st, h1, h2, ?_, ?_⟩
  · have e : min (min (length - 0x100000) 0x8000) 0x400 = min (length - 0x100000) 0x400 := by
      omega
    rw [e] at h3
    exact h3
  · have e : 0x100000 + min (length - 0x100000) 0x8000 = length := by omega
    rw [e] at h4
    exact h4

/-- C12 at a range of `0x100004` bytes. -/
theorem decode_block_call_outside_range_witness :
    ∃ st, decode_block (word_decoder cs_nop) alloc_always
        34 [] 0x100004 0x80000000 = .error (halt.out_of_fuel st) ∧
      st.instructions.length = 0x40000 ∧
      (0x100000, min (0x100004 - 0x100000) 0x400) ∈ st.calls ∧
      (0x100004, 0x400) ∈ st.calls :=
  decode_block_call_outside_range (word_decoder cs_nop)
    alloc_always [] 0x100004 0x80000000 34
    (by intro code size addr; simp [word_decoder]) rfl (fun _ => rfl) (by decide) (by decide)
    (by decide)

/-! ## Links and labels: the invariant of the resolver loop -/

theorem link_ok_mono (g g2 : label_buf) (insn insn2 : List disasm_data) (m m2 : Nat)
    (d : disasm_data) (h : link_ok g insn m d) (hm : m ≤ m2)
    (hg : ∀ a, has_label_at g a → has_label_at g2 a)
    (hid : ∀ p < m, (insn_at insn p).id = MIPS_INS_ORI → (insn_at insn2 p).id = MIPS_INS_ORI) :
    link_ok g2 insn2 m2 d := by
  intro h0
  obtain ⟨hlt, hlab⟩ := h h0
  refine ⟨by omega, fun hu => hg _ (hlab ?_)⟩
  rcases hu with ⟨hl, hp⟩ | hu | hu
  · exact Or.inl ⟨hl, fun hori => hp (hid _ hlt hori)⟩
  · exact Or.inr (Or.inl hu)
  · exact Or.inr (Or.inr hu)

theorem link_ok_of_neg (g : label_buf) (insn : List disasm_data) (m : Nat) (d : disasm_data)
    (h : d.linked_insn = -1) : link_ok g insn m d := by
  intro h0; rw [h] at h0; omega

/-- Entries below `i` unchanged, entry `i` without a link: the links of the
first `i + 1` instructions are in order. -/
theorem links_ok_step (g g2 : label_buf) (insn insn2 : List disasm_data) (i : Nat)
    (h : links_ok g insn i) (hg : ∀ a, has_label_at g a → has_label_at g2 a)
    (hlt : ∀ j < i, insn_at insn2 j = insn_at insn j)
    (hneg : (insn_at insn2 i).linked_insn = -1) : links_ok g2 insn2 (i + 1) := by
  intro j hj
  by_cases hji : j = i
  · subst hji; exact link_ok_of_neg _ _ _ _ hneg
  · have hj2 : j < i := by omega
    rw [hlt j hj2]
    exact link_ok_mono g g2 insn insn2 i (i + 1) _ (h j hj2) (by omega) hg
      (fun p hp ho => by rw [hlt p hp]; exact ho)

theorem float_li_loop_links_ok (g : label_buf) (insn : List disasm_data) (i rt : Nat)
    (hi : i < insn.length) (h : links_ok g insn i) (hneg : (insn_at insn i).linked_insn = -1) :
    links_ok g (float_li_loop i rt insn i) (i + 1) := by
  rcases float_li_loop_cases i rt insn i with he | ⟨s, hs, hid, _, _, he⟩
  · rw [he]
    exact links_ok_step g g insn insn i h (fun _ ha => ha) (fun _ _ => rfl) hneg
  · rw [he]
    intro j hj
    by_cases hjs : j = s
    · subst hjs
      rw [insn_at_set_self _ _ _ (by omega)]
      intro _
      refine ⟨by simp, ?_⟩
      intro hu
      rcases hu with ⟨hl, _⟩ | hu | hu
      · simp at hl
      · simp at hu
      · simp at hu
    · rw [insn_at_set_ne _ _ _ _ (Ne.symm hjs)]
      by_cases hji : j = i
      · subst hji; exact link_ok_of_neg _ _ _ _ hneg
      · refine link_ok_mono g g insn _ i (i + 1) _ (h j (by omega)) (by omega) (fun _ ha => ha) ?_
        intro p _ ho
        by_cases hps : p = s
        · subst hps; rw [hid] at ho; cases ho
        · rw [insn_at_set_ne _ _ _ _ (Ne.symm hps)]; exact ho

theorem ensure_label_mono (g : label_buf) (name : String) (v a : Nat) (h : has_label_at g a) :
    has_label_at (ensure_label g name v) a := by
  have := ensure_all_has_of_has [(name, v)] g a h
  simpa [ensure_all] using this

theorem link_lui_pair_links_ok (g : label_buf) (insn : List disasm_data) (i s mem_imm : Nat)
    (hi : i < insn.length) (hs : s < i) (hid : (insn_at insn s).id = MIPS_INS_LUI)
    (h : links_ok g insn i) :
    links_ok (link_lui_pair i mem_imm s g insn).1 (link_lui_pair i mem_imm s g insn).2 (i + 1) := by
  have hne : s ≠ i := by omega
  have hgl := link_lui_pair_globals_ensure i mem_imm s g insn hne
  have hmono : ∀ a, has_label_at g a → has_label_at (link_lui_pair i mem_imm s g insn).1 a := by
    intro a ha
    rw [hgl]
    split_ifs
    · exact ensure_label_mono _ _ _ _ ha
    · exact ha
  have hnew : (insn_at insn i).id ≠ MIPS_INS_ORI →
      has_label_at (link_lui_pair i mem_imm s g insn).1 (hilo_addr (insn_at insn s) mem_imm) := by
    intro hno
    rw [hgl, if_pos hno]
    exact ensure_label_has _ _ _
  intro j hj
  by_cases hjs : j = s
  · subst hjs
    rw [link_lui_pair_at_search i mem_imm j g insn (by omega) hne]
    intro _
    refine ⟨by simp, ?_⟩
    intro hu
    apply hnew
    rcases hu with ⟨_, hp⟩ | hu | hu
    · simp only [Int.toNat_ofNat] at hp
      rw [link_lui_pair_id] at hp
      exact hp
    · simp only at hu; rw [hid] at hu; cases hu
    · simp only at hu; exact absurd hid hu.2.1
  · by_cases hji : j = i
    · subst hji
      rw [link_lui_pair_at_offset j mem_imm s g insn hi hne]
      intro _
      refine ⟨by simp; omega, ?_⟩
      intro hu
      apply hnew
      rcases hu with ⟨hl, _⟩ | hu | hu
      · simp only at hl; rw [hl]; decide
      · simp only at hu; rw [hu]; decide
      · simp only at hu; exact hu.2.2.2
    · have hsame : insn_at (link_lui_pair i mem_imm s g insn).2 j = insn_at insn j := by
        unfold insn_at
        simp only [List.getD_eq_getElem?_getD]
        rw [link_lui_pair_at_other i mem_imm s g insn j hjs hji]
      rw [hsame]
      exact link_ok_mono g _ insn _ i (i + 1) _ (h j (by omega)) (by omega) hmono
        (fun p _ ho => by rw [link_lui_pair_id]; exact ho)

theorem link_with_lui_body_links_ok (g : label_buf) (insn : List disasm_data) (i r m : Nat)
    (hi : i < insn.length) (h : links_ok g insn i) (hneg : (insn_at insn i).linked_insn = -1) :
    links_ok (link_with_lui_body i r m g insn).1 (link_with_lui_body i r m g insn).2 (i + 1) := by
  unfold link_with_lui_body
  by_cases hm : m ≠ 0
  · rw [if_pos hm]
    rcases link_with_lui_loop_cases i r m (i - MAX_LOOKBACK) g insn i with
      he | ⟨s, hs, _, hid, _, _, he⟩
    · rw [he]
      exact links_ok_step g g insn insn i h (fun _ ha => ha) (fun _ _ => rfl) hneg
    · rw [he]
      exact link_lui_pair_links_ok g insn i s m hi hs hid h
  · rw [if_neg hm]
    exact links_ok_step g g insn insn i h (fun _ ha => ha) (fun _ _ => rfl) hneg

theorem merge_pseudo_insn_links_ok (cs : capstone) (rs : resolve_state) (i : Nat)
    (hi : i < rs.insn.length) (h : links_ok rs.globals rs.insn i)
    (hneg : (insn_at rs.insn i).linked_insn = -1) :
    links_ok (merge_pseudo_insn cs rs i).globals (merge_pseudo_insn cs rs i).insn (i + 1) := by
  have hsame : links_ok rs.globals rs.insn (i + 1) :=
    links_ok_step _ _ _ _ i h (fun _ ha => ha) (fun _ _ => rfl) hneg
  unfold merge_pseudo_insn
  by_cases h1 : (insn_at rs.insn i).id = MIPS_INS_MTC1
  · simp only [h1, if_true]
    exact float_li_loop_links_ok _ _ _ _ hi h hneg
  · by_cases h2 : is_load_store (insn_at rs.insn i).id = true
    · simp only [h1, h2, if_true, if_false]
      exact link_with_lui_body_links_ok _ _ _ _ _ hi h hneg
    · by_cases h3 : (insn_at rs.insn i).id = MIPS_INS_ADDIU ∨ (insn_at rs.insn i).id = MIPS_INS_ORI
      · by_cases h4 : ((insn_at rs.insn i).op 1).reg = MIPS_REG_ZERO
        · simp only [h1, h2, h3, h4, if_true, if_false, Bool.false_eq_true]
          refine links_ok_step _ _ _ _ i h (fun _ ha => ha) ?_ ?_
          · intro j hj
            rw [insn_at_set_ne _ _ _ _ (by omega)]
          · rw [insn_at_set_self _ _ _ hi]
            exact hneg
        · by_cases h5 : ((insn_at rs.insn i).op 0).reg = ((insn_at rs.insn i).op 1).reg
          · simp only [h1, h2, h3, h4, h5, if_true, if_false, Bool.false_eq_true]
            exact link_with_lui_body_links_ok _ _ _ _ _ hi h hneg
          · simp only [h1, h2, h3, h4, h5, if_true, if_false, Bool.false_eq_true]
            exact hsame
      · simp only [h1, h2, h3, if_false, Bool.false_eq_true]
        exact hsame

theorem disassemble_block_insn_links_ok (cs : capstone) (sx : asm_syntax) (mp : Bool)
    (rs : resolve_state) (i : Nat) (hi : i < rs.insn.length)
    (h : links_ok rs.globals rs.insn i) :
    links_ok (disassemble_block_insn cs sx mp rs i).globals
      (disassemble_block_insn cs sx mp rs i).insn (i + 1) := by
  have hstep := disassemble_block_insn_eq cs sx mp rs.globals rs.locals rs.insn i
  rw [resolve_state_eta] at hstep
  rw [hstep]
  have hlen : (reset_link rs.insn i).length = rs.insn.length := reset_link_length _ _
  have hr1 : ∀ j, j ≠ i → insn_at (reset_link rs.insn i) j = insn_at rs.insn j := by
    intro j hj
    unfold reset_link
    rw [insn_at_set_ne _ _ _ _ (Ne.symm hj)]
  have hr2 : (insn_at (reset_link rs.insn i) i).linked_insn = -1 := by
    unfold reset_link
    rw [insn_at_set_self _ _ _ hi]
  have h2 : ∀ rs2 : resolve_state,
      rs2 = (if (insn_at (reset_link rs.insn i) i).is_jump = true then
          label_targets sx ⟨rs.globals, rs.locals, reset_link rs.insn i⟩ i
        else ⟨rs.globals, rs.locals, reset_link rs.insn i⟩) →
      rs2.insn.length = rs.insn.length ∧
      (∀ j < i, insn_at rs2.insn j = insn_at rs.insn j) ∧
      (insn_at rs2.insn i).linked_insn = -1 ∧
      (∀ a, has_label_at rs.globals a → has_label_at rs2.globals a) := by
    intro rs2 he
    by_cases hj : (insn_at (reset_link rs.insn i) i).is_jump = true
    · rw [if_pos hj] at he
      obtain ⟨greqs, lreqs, _, _, hf⟩ := label_targets_form sx (reset_link rs.insn i) i
      rw [hf] at he
      subst he
      refine ⟨by simp only [flag_newline_length, hlen], ?_, ?_, ?_⟩
      · intro j hj2
        show insn_at (flag_newline (reset_link rs.insn i) i) j = _
        rw [flag_newline_at_lt _ _ _ (by omega), hr1 j (by omega)]
      · show (insn_at (flag_newline (reset_link rs.insn i) i) i).linked_insn = -1
        rw [flag_newline_at_self, hr2]
      · intro a ha
        exact ensure_all_has_of_has _ _ _ ha
    · rw [if_neg hj] at he
      subst he
      exact ⟨hlen, fun j hj2 => hr1 j (by omega), hr2, fun _ ha => ha⟩
  obtain ⟨h2a, h2b, h2c, h2g⟩ := h2 _ rfl
  by_cases hmp : mp = true
  · rw [if_pos hmp]
    apply merge_pseudo_insn_links_ok cs _ i (by rw [h2a]; exact hi) _ h2c
    intro j hj
    rw [h2b j hj]
    exact link_ok_mono _ _ _ _ i i _ (h j hj) (le_refl _) h2g
      (fun p hp ho => by rw [h2b p hp]; exact ho)
  · rw [if_neg hmp]
    exact links_ok_step _ _ _ _ i h h2g h2b h2c

theorem resolve_upto_links_ok (cs : capstone) (sx : asm_syntax) (mp : Bool)
    (rs : resolve_state) (m : Nat) (hm : m ≤ rs.insn.length) :
    links_ok (resolve_upto cs sx mp rs m).globals (resolve_upto cs sx mp rs m).insn m := by
  induction m with
  | zero => intro j hj; omega
  | succ m ih =>
    rw [resolve_upto_succ]
    exact disassemble_block_insn_links_ok cs sx mp _ m
      (by rw [resolve_upto_length]; omega) (ih (by omega))

theorem links_ok_globals (g g2 : label_buf) (insn : List disasm_data) (m : Nat)
    (h : links_ok g insn m) (hg : ∀ a, has_label_at g a → has_label_at g2 a) :
    links_ok g2 insn m :=
  fun j hj => link_ok_mono g g2 insn insn m m _ (h j hj) (le_refl _) hg (fun _ _ ho => ho)

theorem reachable_links_ok (s : disasm_state) (h : reachable s) : session_links_ok s := by
  induction h with
  | init sx mp => intro b hb; simp [disasm_state_init] at hb
  | label_add s name v _ ih =>
    intro b hb
    refine links_ok_globals _ _ _ _ (ih b hb) ?_
    intro a ⟨l, hl, ha⟩
    refine ⟨l, ?_, ha⟩
    show l ∈ (labels_add s.globals name v).labels
    rw [labels_add_labels]
    exact List.mem_append_left _ hl
  | pass1 s s2 cs al fuel data offset length vaddr _ hp ih =>
    obtain ⟨st, _, rfl⟩ := mipsdisasm_pass1_ok cs al fuel data offset length vaddr s s2 hp
    have hb2 := pass1_result_block cs offset length vaddr s st.instructions
    have hmono : ∀ a, has_label_at s.globals a →
        has_label_at (pass1_result cs offset length vaddr s st.instructions).globals a := by
      intro a ha
      rw [hb2.2.2, labels_sort_has]
      exact resolve_upto_has_global cs s.syntax_ s.merge_pseudo _ 0 _ a (Nat.zero_le _) ha
    intro b hb
    have hmem : b ∈ s.blocks ∨ b = (pass1_result cs offset length vaddr s st.instructions).block
        s.blocks.length := by
      have hbl : (pass1_result cs offset length vaddr s st.instructions).blocks =
          s.blocks ++ [(pass1_result cs offset length vaddr s st.instructions).block
            s.blocks.length] := by
        simp [pass1_result, disasm_state.block, List.getD]
      rw [hbl] at hb
      rcases List.mem_append.mp hb with hb | hb
      · exact Or.inl hb
      · exact Or.inr (List.mem_singleton.mp hb)
    rcases hmem with hb | rfl
    · exact links_ok_globals _ _ _ _ (ih b hb) hmono
    · rw [hb2.1, hb2.2.2]
      have hl := resolve_upto_links_ok cs s.syntax_ s.merge_pseudo
        ⟨s.globals, labels_alloc, st.instructions⟩ st.instructions.length (le_refl _)
      rw [resolve_upto_length]
      exact links_ok_globals _ _ _ _ hl (fun a ha => (labels_sort_has _ a).mpr ha)

theorem labels_find_of_has (buf : label_buf) (a : Nat) (h : has_label_at buf a) :
    ∃ l, 0 ≤ labels_find buf a ∧ buf.labels[(labels_find buf a).toNat]? = some l ∧
      l.vaddr = a := by
  unfold labels_find
  rcases labels_find_from_spec a buf.labels 0 with ⟨hno, _⟩ | ⟨i, l, hi, hl, hv, _⟩
  · obtain ⟨l, hl, hv⟩ := h
    exact absurd hv (hno l hl)
  · rw [hi]
    refine ⟨l, by omega, ?_, hv⟩
    simpa using hl

/-- The text of a linked instruction for which `uses_label` fails does not
depend on the global scope. -/
theorem emit_plain_without_label (cs : capstone) (fmt_g : Nat → String) (sx : asm_syntax)
    (g g2 : label_buf) (insns : List disasm_data) (d : disasm_data) (hl : 0 ≤ d.linked_insn)
    (hu : ¬ uses_label insns d) :
    emit_plain cs fmt_g sx g2 insns d = emit_plain cs fmt_g sx g insns d := by
  unfold emit_plain
  simp only [ge_iff_le, hl, if_true]
  by_cases h1 : d.id = MIPS_INS_LI
  · simp only [h1, if_true]
  · simp only [h1, if_false]
    by_cases h2 : d.id = MIPS_INS_LUI
    · simp only [h2, if_true]
      have hp : (insn_at insns d.linked_insn.toNat).id = MIPS_INS_ORI := by
        by_contra hp
        exact hu (Or.inl ⟨h2, hp⟩)
      unfold emit_linked_lui
      cases sx <;> simp [hp]
    · simp only [h2, if_false]
      by_cases h3 : d.id = MIPS_INS_ADDIU
      · exact absurd (Or.inr (Or.inl h3)) hu
      · simp only [h3, if_false]
        by_cases h4 : d.id = MIPS_INS_ORI
        · simp only [h4, if_true]
        · exact absurd (Or.inr (Or.inr ⟨h1, h2, h3, h4⟩)) hu

/-- C16: in every session a caller can reach, for every instruction of every
block that has a link, `linked_insn` is an index of the same block, and when
Pass 2 writes a label name for it (`uses_label`: a LUI whose partner is no
ORI, an ADDIU, a load or store) `labels_find` on the global scope finds a
label at its `linked_value`, at a valid index. For the other linked
instructions the text of lines 695-823 does not depend on the global scope. -/
theorem pass1_links_have_labels (state : disasm_state) (h : reachable state) (b : asm_block)
    (hb : b ∈ state.blocks) (k : Nat) (hk : k < b.instructions.length)
    (hl : 0 ≤ (insn_at b.instructions k).linked_insn) :
    (insn_at b.instructions k).linked_insn.toNat < b.instructions.length ∧
    (uses_label b.instructions (insn_at b.instructions k) →
      0 ≤ labels_find state.globals (insn_at b.instructions k).linked_value ∧
      ∃ l, state.globals.labels[(labels_find state.globals
          (insn_at b.instructions k).linked_value).toNat]? = some l ∧
        l.vaddr = (insn_at b.instructions k).linked_value) ∧
    (¬ uses_label b.instructions (insn_at b.instructions k) →
      ∀ (cs : capstone) (fmt_g : Nat → String) (g2 : label_buf),
        emit_plain cs fmt_g state.syntax_ g2 b.instructions (insn_at b.instructions k) =
          emit_plain cs fmt_g state.syntax_ state.globals b.instructions
            (insn_at b.instructions k)) := by
  obtain ⟨h1, h2⟩ := reachable_links_ok state h b hb k hk hl
  refine ⟨h1, fun hu => ?_, fun hu cs fmt_g g2 => emit_plain_without_label cs fmt_g _ _ g2 _ _ hl hu⟩
  obtain ⟨l, h0, hl2, hv⟩ := labels_find_of_has _ _ (h2 hu)
  exact ⟨h0, l, hl2, hv⟩

/-! ## Float load-immediate -/

/-- The search for the LUI of a MTC1 rewrites the first LUI of `rt` it reaches
without stopping before. -/
theorem float_li_loop_hit (i rt : Nat) (insn : List disasm_data) (n s : Nat) (hs : s < n)
    (hid : (insn_at insn s).id = MIPS_INS_LUI) (hrd : ((insn_at insn s).op 0).reg = rt)
    (hno : ∀ j, s < j → j < n → ¬ float_scan_stops rt (insn_at insn j)) :
    float_li_loop i rt insn n = insn.set s { insn_at insn s with
      linked_insn := (i : Int),
      linked_value := to_u32 (((insn_at insn s).op 1).imm * 65536),
      id := MIPS_INS_LI, mnemonic := "li" } := by
  induction n with
  | zero => omega
  | succ m ih =>
    unfold float_li_loop
    by_cases hms : m = s
    · subst hms
      rw [if_pos ⟨hid, hrd⟩]
    · have hlt : s < m := by omega
      have hns := hno m hlt (by omega)
      have h1 : ¬ ((insn_at insn m).id = MIPS_INS_LUI ∧ ((insn_at insn m).op 0).reg = rt) :=
        fun h => hns (Or.inl h)
      rw [if_neg h1]
      have hrec := ih hlt (fun j hj hj2 => hno j hj (by omega))
      by_cases h2 : is_float_scan_redefinition (insn_at insn m).id = true
      · rw [if_pos h2]
        have h3 : ¬ rt = ((insn_at insn m).op 0).reg := fun h => hns (Or.inr (Or.inl ⟨h2, h.symm⟩))
        simp only [h3, if_false]
        exact hrec
      · rw [if_neg h2]
        have h4 : ¬ ((insn_at insn m).id = MIPS_INS_JR ∧
            ((insn_at insn m).op 0).reg = MIPS_REG_RA) := fun h => hns (Or.inr (Or.inr h))
        rw [if_neg h4]
        exact hrec

/-- Step `i` of the resolver loop leaves an entry below `i` that is no LUI as
it is. -/
theorem merge_pseudo_insn_below (cs : capstone) (rs : resolve_state) (i s : Nat) (hs : s < i)
    (hid : (insn_at rs.insn s).id ≠ MIPS_INS_LUI) :
    insn_at (merge_pseudo_insn cs rs i).insn s = insn_at rs.insn s := by
  have hbody : ∀ r m, insn_at (link_with_lui_body i r m rs.globals rs.insn).2 s
      = insn_at rs.insn s := by
    intro r m
    unfold link_with_lui_body
    by_cases hm : m ≠ 0
    · rw [if_pos hm]
      rcases link_with_lui_loop_cases i r m (i - MAX_LOOKBACK) rs.globals rs.insn i with
        he | ⟨s2, hs2, _, hid2, _, _, he⟩
      · rw [he]
      · rw [he]
        have hne : s ≠ s2 := fun h => hid (h ▸ hid2)
        unfold insn_at
        simp only [List.getD_eq_getElem?_getD]
        rw [link_lui_pair_at_other i m s2 rs.globals rs.insn s hne (by omega)]
    · rw [if_neg hm]
  unfold merge_pseudo_insn
  by_cases h1 : (insn_at rs.insn i).id = MIPS_INS_MTC1
  · simp only [h1, if_true]
    rcases float_li_loop_cases i ((insn_at rs.insn i).op 0).reg rs.insn i with
      he | ⟨s2, _, hid2, _, _, he⟩
    · rw [he]
    · rw [he]
      have hne : s2 ≠ s := fun h => hid (h ▸ hid2)
      rw [insn_at_set_ne _ _ _ _ hne]
  · by_cases h2 : is_load_store (insn_at rs.insn i).id = true
    · simp only [h1, h2, if_true, if_false]
      exact hbody _ _
    · by_cases h3 : (insn_at rs.insn i).id = MIPS_INS_ADDIU ∨ (insn_at rs.insn i).id = MIPS_INS_ORI
      · by_cases h4 : ((insn_at rs.insn i).op 1).reg = MIPS_REG_ZERO
        · simp only [h1, h2, h3, h4, if_true, if_false, Bool.false_eq_true]
          rw [insn_at_set_ne _ _ _ _ (by omega)]
        · by_cases h5 : ((insn_at rs.insn i).op 0).reg = ((insn_at rs.insn i).op 1).reg
          · simp only [h1, h2, h3, h4, h5, if_true, if_false, Bool.false_eq_true]
            exact hbody _ _
          · simp only [h1, h2, h3, h4, h5, if_true, if_false, Bool.false_eq_true]
      · simp only [h1, h2, h3, if_false, Bool.false_eq_true]

/-- The state on which the `switch` of step `i` runs: after the reset of the
link and the labels of a jump. -/
theorem disassemble_block_insn_pre (cs : capstone) (sx : asm_syntax) (mp : Bool)
    (rs : resolve_state) (i : Nat) :
    ∃ rs2 : resolve_state,
      disassemble_block_insn cs sx mp rs i = (if mp = true then merge_pseudo_insn cs rs2 i else rs2) ∧
      rs2.insn.length = rs.insn.length ∧
      (∀ j, j < i → insn_at rs2.insn j = insn_at rs.insn j) ∧
      (insn_at rs2.insn i).id = (insn_at rs.insn i).id ∧
      (insn_at rs2.insn i).operands = (insn_at rs.insn i).operands := by
  have hstep := disassemble_block_insn_eq cs sx mp rs.globals rs.locals rs.insn i
  rw [resolve_state_eta] at hstep
  refine ⟨_, hstep, ?_, ?_, ?_, ?_⟩
  · by_cases hj : (insn_at (reset_link rs.insn i) i).is_jump = true
    · rw [if_pos hj, label_targets_insn, flag_newline_length, reset_link_length]
    · rw [if_neg hj]; exact reset_link_length _ _
  · intro j hj2
    have hr : insn_at (reset_link rs.insn i) j = insn_at rs.insn j := by
      unfold reset_link
      rw [insn_at_set_ne _ _ _ _ (by omega)]
    by_cases hj : (insn_at (reset_link rs.insn i) i).is_jump = true
    · rw [if_pos hj, label_targets_insn, flag_newline_at_lt _ _ _ (by omega), hr]
    · rw [if_neg hj]; exact hr
  · by_cases hj : (insn_at (reset_link rs.insn i) i).is_jump = true
    · rw [if_pos hj, label_targets_insn, flag_newline_id, reset_link_id]
    · rw [if_neg hj, reset_link_id]
  · have hr := (reset_link_at_same rs.insn i).2.1
    by_cases hj : (insn_at (reset_link rs.insn i) i).is_jump = true
    · rw [if_pos hj, label_targets_insn, flag_newline_at_self, hr]
    · rw [if_neg hj]; exact hr

theorem disassemble_block_insn_below (cs : capstone) (sx : asm_syntax) (mp : Bool)
    (rs : resolve_state) (i s : Nat) (hs : s < i) (hid : (insn_at rs.insn s).id ≠ MIPS_INS_LUI) :
    insn_at (disassemble_block_insn cs sx mp rs i).insn s = insn_at rs.insn s := by
  obtain ⟨rs2, he, _, hlt, _, _⟩ := disassemble_block_insn_pre cs sx mp rs i
  rw [he]
  by_cases hmp : mp = true
  · rw [if_pos hmp, merge_pseudo_insn_below cs rs2 i s hs (by rw [hlt s hs]; exact hid), hlt s hs]
  · rw [if_neg hmp, hlt s hs]

theorem resolve_upto_below (cs : capstone) (sx : asm_syntax) (mp : Bool) (rs : resolve_state)
    (m s k : Nat) (hs : s < m)
    (hid : (insn_at (resolve_upto cs sx mp rs m).insn s).id ≠ MIPS_INS_LUI) :
    insn_at (resolve_upto cs sx mp rs (m + k)).insn s
      = insn_at (resolve_upto cs sx mp rs m).insn s := by
  induction k with
  | zero => rfl
  | succ k ih =>
    rw [show m + (k + 1) = (m + k) + 1 by omega, resolve_upto_succ,
      disassemble_block_insn_below cs sx mp _ (m + k) s (by omega) (by rw [ih]; exact hid), ih]

/-- Step `i` on a MTC1 whose search reaches the LUI at `s`. -/
theorem disassemble_block_insn_float (cs : capstone) (sx : asm_syntax) (rs : resolve_state)
    (i s r : Nat) (hi : i < rs.insn.length) (hs : s < i)
    (hmtc : (insn_at rs.insn i).id = MIPS_INS_MTC1) (hr : ((insn_at rs.insn i).op 0).reg = r)
    (hlui : (insn_at rs.insn s).id = MIPS_INS_LUI) (hrd : ((insn_at rs.insn s).op 0).reg = r)
    (hno : ∀ j, s < j → j < i → ¬ float_scan_stops r (insn_at rs.insn j)) :
    insn_at (disassemble_block_insn cs sx true rs i).insn s = { insn_at rs.insn s with
      linked_insn := (i : Int),
      linked_value := to_u32 (((insn_at rs.insn s).op 1).imm * 65536),
      id := MIPS_INS_LI, mnemonic := "li" } := by
  obtain ⟨rs2, he, hlen, hlt, hid2, hops⟩ := disassemble_block_insn_pre cs sx true rs i
  rw [he, if_pos rfl]
  unfold merge_pseudo_insn
  simp only [hid2, hmtc, if_true]
  have hreg : ((insn_at rs2.insn i).op 0).reg = r := by
    unfold disasm_data.op at hr ⊢
    rw [hops]; exact hr
  rw [hreg, float_li_loop_hit i r rs2.insn i s hs (by rw [hlt s hs]; exact hlui)
    (by rw [hlt s hs]; exact hrd) (fun j hj hj2 => by rw [hlt j hj2]; exact hno j hj hj2),
    insn_at_set_self _ _ _ (by omega), hlt s hs]

theorem render_insn_float_li (cs : capstone) (fmt_g : Nat → String) (sx : asm_syntax)
    (globals locals : label_buf) (insns : List disasm_data) (d : disasm_data) (prev : String)
    (hid : d.id = MIPS_INS_LI) (hm : d.mnemonic = "li") (hl : 0 ≤ d.linked_insn)
    (hj : d.is_jump = false) (hp : strncmp_eq prev ".byte" 4 = false) :
    (render_insn cs fmt_g sx globals locals insns d prev).text =
      [fmt_5s "li" ++ " ",
       "$" ++ cs.cs_reg_name (union_reg (d.op 0)) ++ ", " ++ float_text fmt_g d.linked_value ++
         float_comment sx ++ fmt_08X d.linked_value ++ "\n"] := by
  have hu : is_unsupported_mnemonic d.mnemonic = false := by rw [hm]; decide
  unfold render_insn
  simp only [hu, hp, hj, hid, Bool.false_eq_true, if_false]
  have h1 : ¬ (MIPS_INS_LI = MIPS_INS_MTC0 ∨ MIPS_INS_LI = MIPS_INS_MFC0) := by decide
  rw [if_neg h1]
  unfold emit_plain
  simp only [hid, if_pos hl, if_true]
  unfold emit_float_li float_comment
  rw [hm]
  cases sx <;> simp [String.append_assoc]

/-- C14 as amended: with pseudo-op fusion on, when step `i` of Pass 1 is a
MTC1 of register `r` and its backward search reaches a LUI of `r` at `s`
without stopping before (the instructions being those the loop has left when
step `i` runs), then after Pass 1 instruction `s` has id LI, mnemonic `li`,
`linked_insn = i`, and carries the 32 bits `(lui_imm << 16) mod 2^32`. When
Pass 2 renders it, that is when the text of the instruction before it does
not begin like `.byte`, it writes `li`, the register, the decimal text and
that pattern as 8 hex digits after the comment sign of the dialect, the LUI
not being flagged as a jump by the decoder. -/
theorem pass1_float_li (cs : capstone) (offset length vaddr : Nat) (state : disasm_state)
    (decoded : List disasm_data) (i s r : Nat)
    (hmp : state.merge_pseudo = true) (hi : i < decoded.length) (hs : s < i)
    (hmtc : (insn_at decoded i).id = MIPS_INS_MTC1) (hr : ((insn_at decoded i).op 0).reg = r)
    (hlui : (insn_at (resolve_upto cs state.syntax_ true
      ⟨state.globals, labels_alloc, decoded⟩ i).insn s).id = MIPS_INS_LUI)
    (hrd : ((insn_at decoded s).op 0).reg = r)
    (hno : ∀ j, s < j → j < i → ¬ float_scan_stops r (insn_at (resolve_upto cs state.syntax_ true
      ⟨state.globals, labels_alloc, decoded⟩ i).insn j)) :
    ∃ d, d = insn_at ((pass1_result cs offset length vaddr state decoded).block
        state.blocks.length).instructions s ∧
      d.id = MIPS_INS_LI ∧ d.mnemonic = "li" ∧ d.linked_insn = (i : Int) ∧
      d.linked_value = to_u32 (((insn_at decoded s).op 1).imm * 65536) ∧
      (d.linked_value : Int) = (((insn_at decoded s).op 1).imm * 65536) % 4294967296 ∧
      ∀ (fmt_g : Nat → String) (globals locals : label_buf) (insns : List disasm_data)
        (prev : String), (insn_at decoded s).is_jump = false →
        strncmp_eq prev ".byte" 4 = false →
        (render_insn cs fmt_g state.syntax_ globals locals insns d prev).text =
          [fmt_5s "li" ++ " ",
           "$" ++ cs.cs_reg_name (union_reg (d.op 0)) ++ ", " ++
             float_text fmt_g d.linked_value ++ float_comment state.syntax_ ++
             fmt_08X d.linked_value ++ "\n"] := by
  have hb := (pass1_result_block cs offset length vaddr state decoded).1
  rw [hmp] at hb
  have hR_i : (insn_at (resolve_upto cs state.syntax_ true
      ⟨state.globals, labels_alloc, decoded⟩ i).insn i).id = MIPS_INS_MTC1 := by
    rw [resolve_upto_id cs _ _ _ i i (le_refl _)]; exact hmtc
  have hsame := fun j => resolve_upto_same cs state.syntax_ true
    ⟨state.globals, labels_alloc, decoded⟩ i j
  have hop : ∀ j o, ((insn_at (resolve_upto cs state.syntax_ true
      ⟨state.globals, labels_alloc, decoded⟩ i).insn j).op o) = (insn_at decoded j).op o := by
    intro j o
    unfold disasm_data.op
    rw [(hsame j).2.1]
  have hstep := disassemble_block_insn_float cs state.syntax_ (resolve_upto cs state.syntax_ true
      ⟨state.globals, labels_alloc, decoded⟩ i) i s r
    (by rw [resolve_upto_length]; exact hi) hs hR_i (by rw [hop]; exact hr) hlui
    (by rw [hop]; exact hrd) hno
  rw [← resolve_upto_succ] at hstep
  have hkeep := resolve_upto_below cs state.syntax_ true ⟨state.globals, labels_alloc, decoded⟩
    (i + 1) s (decoded.length - (i + 1)) (by omega) (by rw [hstep]; simp)
  rw [show i + 1 + (decoded.length - (i + 1)) = decoded.length by omega, hstep] at hkeep
  refine ⟨_, rfl, ?_⟩
  rw [hb, hkeep]
  refine ⟨rfl, rfl, rfl, ?_, ?_, ?_⟩
  · simp only [hop]
  · simp only [hop, to_u32]
    exact Int.toNat_of_nonneg (Int.emod_nonneg _ (by decide))
  · intro fmt_g globals locals insns prev hnj hp
    apply render_insn_float_li
    · rfl
    · rfl
    · simp
    · simp only [(hsame s).2.2.2.1]; exact hnj
    · exact hp

/-! ## Calls and their labels -/

/-- C14 fails as stated: in `sync; lui $t0, 0x4049; mtc1 $t0, $f0` Pass 1
rewrites the LUI to LI with the bits `0x40490000`, but Pass 2 writes the
`sync` as raw bytes and then nothing for the LI but the bytes comment: no
pattern is printed. -/
theorem pass2_drops_li_after_byte :
    mipsdisasm_pass1 (table_decoder 0x80000000 [cs_sync, cs_lui_float, cs_mtc1_t0]) alloc_always
      10 [] 0 12 0x80000000 (disasm_state_init ASM_GAS true) = .ok sample_sync_float_after ∧
    (insn_at (sample_sync_float_after.block 0).instructions 1).id = MIPS_INS_LI ∧
    (insn_at (sample_sync_float_after.block 0).instructions 1).linked_insn = 2 ∧
    (insn_at (sample_sync_float_after.block 0).instructions 1).linked_value = 0x40490000 ∧
    ∃ state2, mipsdisasm_pass2 (table_decoder 0x80000000 []) fmt_g_sample ""
      sample_sync_float_after 0 =
        .ok (["/* 000000 80000000 00000000 */  ",
              ".byte 0x00,0x00,0x00,0x00 /* Because of invalid n64 opcode sync */\n",
              "/* 000004 80000004 00000000 */  ",
              "/* 000008 80000008 00000000 */  ", "mtc1  $t0, $f0\n"], state2) := by
  refine ⟨rfl, by decide, by decide, by decide, _, rfl⟩

/-- C14 at `lui $t0, 0x4049; mtc1 $t0, $f0`: the bits are `0x40490000` and
the line ends in the comment `# 0x40490000`. -/
theorem pass1_float_li_witness :
    (∃ d, d = insn_at ((pass1_result (table_decoder 0x80000000 [cs_lui_float, cs_mtc1_t0]) 0 8
          0x80000000 (disasm_state_init ASM_GAS true)
          [copy_insn cs_lui_float, copy_insn cs_mtc1_t0]).block
          (disasm_state_init ASM_GAS true).blocks.length).instructions 0 ∧
      d.id = MIPS_INS_LI ∧ d.mnemonic = "li" ∧ d.linked_insn = ((1 : Nat) : Int) ∧
      d.linked_value = to_u32 (((insn_at [copy_insn cs_lui_float, copy_insn cs_mtc1_t0] 0).op
        1).imm * 65536) ∧
      (d.linked_value : Int) = (((insn_at [copy_insn cs_lui_float, copy_insn cs_mtc1_t0] 0).op
        1).imm * 65536) % 4294967296 ∧
      ∀ (fmt_g : Nat → String) (globals locals : label_buf) (insns : List disasm_data)
        (prev : String),
        (insn_at [copy_insn cs_lui_float, copy_insn cs_mtc1_t0] 0).is_jump = false →
        strncmp_eq prev ".byte" 4 = false →
        (render_insn (table_decoder 0x80000000 [cs_lui_float, cs_mtc1_t0]) fmt_g
          (disasm_state_init ASM_GAS true).syntax_ globals locals insns d prev).text =
          [fmt_5s "li" ++ " ",
           "$" ++ (table_decoder 0x80000000 [cs_lui_float, cs_mtc1_t0]).cs_reg_name
               (union_reg (d.op 0)) ++ ", " ++
             float_text fmt_g d.linked_value ++
             float_comment (disasm_state_init ASM_GAS true).syntax_ ++
             fmt_08X d.linked_value ++ "\n"]) ∧
    to_u32 (((insn_at [copy_insn cs_lui_float, copy_insn cs_mtc1_t0] 0).op 1).imm * 65536)
      = 0x40490000 ∧
    mipsdisasm_pass1 (table_decoder 0x80000000 [cs_lui_float, cs_mtc1_t0]) alloc_always 10 [] 0 8
      0x80000000 (disasm_state_init ASM_GAS true) = .ok sample_float_after ∧
    mipsdisasm_pass2 (table_decoder 0x80000000 []) fmt_g_sample "" sample_float_after 0 =
      .ok (["/* 000000 80000000 00000000 */  ", "li    ", "$r10, 3.14062 # 0x40490000\n",
            "/* 000004 80000004 00000000 */  ", "mtc1  $t0, $f0\n"], sample_float_after) :=
  ⟨pass1_float_li (table_decoder 0x80000000 [cs_lui_float, cs_mtc1_t0]) 0 8 0x80000000
      (disasm_state_init ASM_GAS true) [copy_insn cs_lui_float, copy_insn cs_mtc1_t0] 1 0
      MIPS_REG_T0 rfl (by decide) (by decide) rfl rfl rfl rfl (fun j h1 h2 => by omega),
    by decide, rfl, rfl⟩

theorem sample_reachable : reachable sample_after :=
  reachable.pass1 _ _ _ _ _ _ _ _ _ (reachable.init ASM_GAS true) sample_pass1

/-- C16 at the LUI of the sample program, linked to the ADDIU. -/
theorem pass1_links_have_labels_witness :
    (insn_at (sample_after.block 0).instructions 2).linked_insn.toNat <
      (sample_after.block 0).instructions.length ∧
    (uses_label (sample_after.block 0).instructions
        (insn_at (sample_after.block 0).instructions 2) →
      0 ≤ labels_find sample_after.globals
        (insn_at (sample_after.block 0).instructions 2).linked_value ∧
      ∃ l, sample_after.globals.labels[(labels_find sample_after.globals
          (insn_at (sample_after.block 0).instructions 2).linked_value).toNat]? = some l ∧
        l.vaddr = (insn_at (sample_after.block 0).instructions 2).linked_value) ∧
    (¬ uses_label (sample_after.block 0).instructions
        (insn_at (sample_after.block 0).instructions 2) →
      ∀ (cs : capstone) (fmt_g : Nat → String) (g2 : label_buf),
        emit_plain cs fmt_g sample_after.syntax_ g2 (sample_after.block 0).instructions
            (insn_at (sample_after.block 0).instructions 2) =
          emit_plain cs fmt_g sample_after.syntax_ sample_after.globals
            (sample_after.block 0).instructions
            (insn_at (sample_after.block 0).instructions 2)) :=
  pass1_links_have_labels sample_after sample_reachable (sample_after.block 0) (by decide) 2
    (by decide) (by decide)

/-! ## Pass 2: the coprocessor-0 register, the address split, the line after raw bytes -/

theorem and_F8_shift (b : Nat) : (b &&& 0xF8) >>> 3 = b / 8 % 32 := by
  apply Nat.eq_of_testBit_eq
  intro i
  rw [Nat.testBit_shiftRight, Nat.testBit_and]
  have h32 : b / 8 % 32 = (b >>> 3) % 2 ^ 5 := by
    rw [Nat.shiftRight_eq_div_pow]; norm_num
  rw [h32, Nat.testBit_mod_two_pow, Nat.testBit_shiftRight]
  by_cases hi : i < 5
  · have : (0xF8 : Nat).testBit (3 + i) = true := by
      interval_cases i <;> decide
    simp [hi, this]
  · have : (0xF8 : Nat).testBit (3 + i) = false := by
      apply Nat.testBit_lt_two_pow
      calc (0xF8 : Nat) < 2 ^ 8 := by norm_num
        _ ≤ 2 ^ (3 + i) := Nat.pow_le_pow_right (by norm_num) (by omega)
    simp [hi, this]

theorem shift_or_eq (a b i : Nat) (h : b < 2 ^ i) : a <<< i ||| b = a * 2 ^ i + b := by
  rw [Nat.shiftLeft_eq, Nat.mul_comm, Nat.mul_add_lt_is_or h]

theorem be_word_eq (b0 b1 b2 b3 : Nat) (h1 : b1 < 256) (h2 : b2 < 256) (h3 : b3 < 256) :
    b0 <<< 24 ||| b1 <<< 16 ||| b2 <<< 8 ||| b3 = b0 * 16777216 + b1 * 65536 + b2 * 256 + b3 := by
  have e3 : b2 <<< 8 ||| b3 = b2 * 256 + b3 := by
    rw [shift_or_eq _ _ _ (by norm_num; omega)]; norm_num
  have e2 : b1 <<< 16 ||| (b2 * 256 + b3) = b1 * 65536 + (b2 * 256 + b3) := by
    rw [shift_or_eq _ _ _ (by norm_num; omega)]; norm_num
  have e1 : b0 <<< 24 ||| (b1 * 65536 + (b2 * 256 + b3)) =
      b0 * 16777216 + (b1 * 65536 + (b2 * 256 + b3)) := by
    rw [shift_or_eq _ _ _ (by norm_num; omega)]; norm_num
  rw [Nat.or_assoc, Nat.or_assoc, e3, e2, e1]
  omega

theorem render_insn_cop0 (cs : capstone) (fmt_g : Nat → String) (sx : asm_syntax)
    (g l : label_buf) (insns : List disasm_data) (d : disasm_data) (prev : String)
    (hid : d.id = MIPS_INS_MTC0 ∨ d.id = MIPS_INS_MFC0)
    (hsup : is_unsupported_mnemonic d.mnemonic = false)
    (hprev : strncmp_eq prev ".byte" 4 = false) (hj : d.is_jump = false) :
    (render_insn cs fmt_g sx g l insns d prev).text = [emit_cop0 cs d] := by
  unfold render_insn
  simp [hsup, hprev, hj, hid]

/-- C27 (corrected coprocessor-0 register field): when Pass 2 renders an MTC0
or MFC0 with the bytes `b0 b1 b2 b3` (its mnemonic is not on the unsupported
list, the text in `previous_instruction` does not begin with `.byt`, the
instruction is no jump), the line is the mnemonic, the first operand's
register and `$` with the number `(b2 & 0xF8) >> 3`; that number is bits
15..11 of the big-endian word `b0<<24 | b1<<16 | b2<<8 | b3`, it is below 32,
and the line is the same whatever the operand list holds after its first
entry. -/
theorem cop0_register_field (cs : capstone) (fmt_g : Nat → String) (sx : asm_syntax)
    (g l : label_buf) (insns : List disasm_data) (d : disasm_data) (prev : String)
    (b0 b1 b2 b3 : Nat)
    (hid : d.id = MIPS_INS_MTC0 ∨ d.id = MIPS_INS_MFC0)
    (hbytes : d.bytes = [b0, b1, b2, b3])
    (h1 : b1 < 256) (h2 : b2 < 256) (h3 : b3 < 256)
    (hsup : is_unsupported_mnemonic d.mnemonic = false)
    (hprev : strncmp_eq prev ".byte" 4 = false) (hj : d.is_jump = false) :
    (render_insn cs fmt_g sx g l insns d prev).text =
      [fmt_5s d.mnemonic ++ " $" ++ cs.cs_reg_name (union_reg (d.op 0)) ++ ", $" ++
        toString ((b2 &&& 0xF8) >>> 3) ++ "\n"] ∧
    (b2 &&& 0xF8) >>> 3 = (b0 <<< 24 ||| b1 <<< 16 ||| b2 <<< 8 ||| b3) >>> 11 % 32 ∧
    (b2 &&& 0xF8) >>> 3 < 32 ∧
    ∀ ops count, (render_insn cs fmt_g sx g l insns
        { d with operands := d.op 0 :: ops, op_count := count } prev).text =
      (render_insn cs fmt_g sx g l insns d prev).text := by
  have hr := render_insn_cop0 cs fmt_g sx g l insns d prev hid hsup hprev hj
  refine ⟨?_, ?_, ?_, ?_⟩
  · rw [hr]; simp [emit_cop0, hbytes]
  · rw [and_F8_shift, be_word_eq b0 b1 b2 b3 h1 h2 h3, Nat.shiftRight_eq_div_pow]
    omega
  · rw [and_F8_shift]; omega
  · intro ops count
    have hr2 := render_insn_cop0 cs fmt_g sx g l insns
      { d with operands := d.op 0 :: ops, op_count := count } prev hid hsup hprev hj
    rw [hr, hr2]
    simp [emit_cop0, disasm_data.op]

/-- C27 at `mtc0 $t0, $12` (word `0x40886000`): the second operand printed is
`$12`, bits 15..11 of the word. -/
theorem cop0_register_field_witness :
    (render_insn (table_decoder 0 []) fmt_g_none ASM_GAS labels_alloc labels_alloc []
      (copy_insn cs_mtc0) "").text = ["mtc0  $r10, $12\n"] ∧
    (0x60 &&& 0xF8) >>> 3 = (0x40 <<< 24 ||| 0x88 <<< 16 ||| 0x60 <<< 8 ||| 0x00) >>> 11 % 32 :=
  ⟨(cop0_register_field (table_decoder 0 []) fmt_g_none ASM_GAS labels_alloc labels_alloc []
      (copy_insn cs_mtc0) "" 0x40 0x88 0x60 0x00 (Or.inl rfl) rfl (by decide) (by decide)
      (by decide) (by decide) (by decide) rfl).1.trans (by decide),
   (cop0_register_field (table_decoder 0 []) fmt_g_none ASM_GAS labels_alloc labels_alloc []
      (copy_insn cs_mtc0) "" 0x40 0x88 0x60 0x00 (Or.inl rfl) rfl (by decide) (by decide)
      (by decide) (by decide) (by decide) rfl).2.1⟩

theorem to_u32_of_nonneg (x : Int) (h0 : 0 ≤ x) (h1 : x < 4294967296) :
    ((to_u32 x : Nat) : Int) = x := by
  unfold to_u32
  rw [Int.toNat_of_nonneg (Int.emod_nonneg _ (by norm_num)), Int.emod_eq_of_lt h0 h1]

theorem to_u32_cast (x : Int) : ((to_u32 x : Nat) : Int) = x % 4294967296 := by
  unfold to_u32
  rw [Int.toNat_of_nonneg (Int.emod_nonneg _ (by norm_num))]

theorem hilo_addr_ori (d : disasm_data) (hi lo : Int) (himm : (d.op 1).imm = hi)
    (hhi0 : 0 ≤ hi) (hhi1 : hi < 65536) (hlo0 : 0 < lo) (hlo1 : lo < 65536) :
    ((hilo_addr d (to_u32 lo) >>> 16 : Nat) : Int) = hi ∧
    ((hilo_addr d (to_u32 lo) &&& 0xFFFF : Nat) : Int) = lo := by
  have e1 := to_u32_of_nonneg hi hhi0 (by omega)
  have e2 := to_u32_of_nonneg lo (by omega) (by omega)
  have e3 : (0xFFFF : Nat) = 2 ^ 16 - 1 := by norm_num
  rw [Nat.shiftRight_eq_div_pow, e3, Nat.and_pow_two_sub_one_eq_mod]
  unfold hilo_addr
  rw [himm]
  constructor <;> omega

theorem hilo_addr_signed (d : disasm_data) (hi lo : Int) (himm : (d.op 1).imm = hi)
    (hhi0 : 0 ≤ hi) (hhi1 : hi < 65536) (hlo0 : -32768 ≤ lo) (hlo1 : lo < 32768) :
    ((((hilo_addr d (to_u32 lo) + 0x8000) >>> 16) &&& 0xFFFF : Nat) : Int) = hi ∧
    sign_extend16 (hilo_addr d (to_u32 lo) &&& 0xFFFF) = lo := by
  have e1 := to_u32_of_nonneg hi hhi0 (by omega)
  have e2 := to_u32_cast lo
  have e3 : (0xFFFF : Nat) = 2 ^ 16 - 1 := by norm_num
  rw [Nat.shiftRight_eq_div_pow, e3, Nat.and_pow_two_sub_one_eq_mod,
    Nat.and_pow_two_sub_one_eq_mod]
  unfold hilo_addr sign_extend16
  rw [himm]
  constructor
  · omega
  · split_ifs <;> omega

/-- C30 (the resolved address splits back into the immediates): when
`link_with_lui` links the instruction at `offset` with the LUI at `search`
whose immediate is `hi` (16 bits), both get the address
`addr = ((hi << 16) + lo) mod 2^32`, `lo` cast to 32 bits. For a zero-extended
`lo` (ORI, `0 < lo < 2^16`) `addr >> 16 = hi` and `addr & 0xFFFF = lo`; for a
sign-extended `lo` (ADDIU, loads and stores, `-2^15 <= lo < 2^15`, `lo != 0`)
`((addr + 0x8000) >> 16) & 0xFFFF = hi` and the low 16 bits of `addr` read as
signed are `lo`. -/
theorem hilo_pair_splits_back (offset search : Nat) (globals : label_buf)
    (insn : List disasm_data) (hi lo : Int)
    (ho : offset < insn.length) (hs : search < insn.length) (hne : search ≠ offset)
    (himm : ((insn_at insn search).op 1).imm = hi) (hhi0 : 0 ≤ hi) (hhi1 : hi < 65536) :
    ∃ addr, addr = ((to_u32 hi * 65536) % 4294967296 + to_u32 lo) % 4294967296 ∧
      (insn_at (link_lui_pair offset (to_u32 lo) search globals insn).2 search).linked_value
        = addr ∧
      (insn_at (link_lui_pair offset (to_u32 lo) search globals insn).2 offset).linked_value
        = addr ∧
      (0 < lo → lo < 65536 →
        ((addr >>> 16 : Nat) : Int) = hi ∧ ((addr &&& 0xFFFF : Nat) : Int) = lo) ∧
      (-32768 ≤ lo → lo < 32768 → lo ≠ 0 →
        ((((addr + 0x8000) >>> 16) &&& 0xFFFF : Nat) : Int) = hi ∧
        sign_extend16 (addr &&& 0xFFFF) = lo) := by
  refine ⟨hilo_addr (insn_at insn search) (to_u32 lo), ?_, ?_, ?_, ?_, ?_⟩
  · unfold hilo_addr; rw [himm]; omega
  · rw [link_lui_pair_at_search _ _ _ _ _ hs hne]
  · rw [link_lui_pair_at_offset _ _ _ _ _ ho hne]
  · intro h0 h1
    exact hilo_addr_ori _ hi lo himm hhi0 hhi1 h0 h1
  · intro h0 h1 _
    exact hilo_addr_signed _ hi lo himm hhi0 hhi1 h0 h1

/-- C30 at `lui $t0, 0x8000; lw $t1, -4($t0)`: the address is `0x7FFFFFFC`,
whose `%hi` is `0x8000` and whose `%lo` is `-4`. -/
theorem hilo_pair_splits_back_witness :
    (insn_at (link_lui_pair 1 (to_u32 (-4)) 0 labels_alloc
      [copy_insn cs_lui_hi, copy_insn cs_lw_neg]).2 1).linked_value = 0x7FFFFFFC ∧
    ((((0x7FFFFFFC + 0x8000) >>> 16) &&& 0xFFFF : Nat) : Int) = 0x8000 ∧
    sign_extend16 (0x7FFFFFFC &&& 0xFFFF) = -4 := by
  obtain ⟨addr, h1, _, h3, _, h5⟩ := hilo_pair_splits_back 1 0 labels_alloc
    [copy_insn cs_lui_hi, copy_insn cs_lw_neg] 0x8000 (-4) (by decide) (by decide) (by decide)
    rfl (by decide) (by decide)
  have ha : addr = 0x7FFFFFFC := by rw [h1]; decide
  rw [ha] at h3 h5
  exact ⟨h3, h5 (by decide) (by decide) (by decide)⟩

theorem render_insn_not_byte (cs : capstone) (fmt_g : Nat → String) (sx : asm_syntax)
    (g l : label_buf) (insns : List disasm_data) (d : disasm_data) (prev : String)
    (hprev : strncmp_eq prev ".byte" 4 = false) :
    render_insn cs fmt_g sx g l insns d prev = render_insn cs fmt_g sx g l insns d "" := by
  unfold render_insn
  have h0 : strncmp_eq "" ".byte" 4 = false := by decide
  simp [hprev, h0]

theorem render_insn_unsupported (cs : capstone) (fmt_g : Nat → String) (sx : asm_syntax)
    (g l : label_buf) (insns : List disasm_data) (d : disasm_data) (prev : String)
    (h : is_unsupported_mnemonic d.mnemonic = true) :
    render_insn cs fmt_g sx g l insns d prev =
      { text := [emit_byte_fallback d], mnemonic := ".byte", indent := false } := by
  unfold render_insn
  simp [h]

theorem render_insn_after_byte (cs : capstone) (fmt_g : Nat → String) (sx : asm_syntax)
    (g l : label_buf) (insns : List disasm_data) (d : disasm_data) (prev : String)
    (h : is_unsupported_mnemonic d.mnemonic = false)
    (hprev : strncmp_eq prev ".byte" 4 = true) :
    render_insn cs fmt_g sx g l insns d prev =
      { text := [], mnemonic := d.mnemonic, indent := false } := by
  unfold render_insn
  simp [h, hprev]

/-- C28 (line after a raw-byte fallback, amended): when Pass 2 has written
instruction `k - 1` as raw bytes and the mnemonic of instruction `k` is not on
the unsupported list, then for instruction `k` it writes the blank line (if
flagged), the labels at its address and the bytes comment, and after the
comment nothing: no indent, mnemonic, operands or end of line, whatever the
kind of the instruction. The instruction keeps its mnemonic, which becomes
`previous_instruction`; unless that mnemonic begins with `.byt`, instruction
`k + 1` gets its blank line, labels, comment and the text of its own
rendering. -/
theorem pass2_line_after_byte_fallback (cs : capstone) (fmt_g : Nat → String)
    (sx : asm_syntax) (g l : label_buf) (es : emit_state) (k : Nat) (hk : 1 ≤ k)
    (hprev : is_unsupported_mnemonic (insn_at es.instructions (k - 1)).mnemonic = true)
    (hown : is_unsupported_mnemonic (insn_at es.instructions k).mnemonic = false) :
    let es1 := emit_insn cs fmt_g sx g l es (k - 1)
    let es2 := emit_insn cs fmt_g sx g l es1 k
    let es3 := emit_insn cs fmt_g sx g l es2 (k + 1)
    es2.out = es1.out ++ (if (insn_at es.instructions k).newline then ["\n"] else []) ++
      (emit_labels g es1.vaddr es1.global_idx).1 ++ (emit_labels l es1.vaddr es1.local_idx).1 ++
      [emit_comment es1.offset es1.vaddr (insn_at es.instructions k)] ∧
    es2.previous_instruction = (insn_at es.instructions k).mnemonic ∧
    insn_at es2.instructions k = insn_at es.instructions k ∧
    (strncmp_eq (insn_at es.instructions k).mnemonic ".byte" 4 = false →
      es3.out = es2.out ++ (if (insn_at es.instructions (k + 1)).newline then ["\n"] else []) ++
        (emit_labels g es2.vaddr es2.global_idx).1 ++
        (emit_labels l es2.vaddr es2.local_idx).1 ++
        [emit_comment es2.offset es2.vaddr (insn_at es.instructions (k + 1))] ++
        (render_insn cs fmt_g sx g l es2.instructions (insn_at es.instructions (k + 1)) "").text) := by
  intro es1 es2 es3
  have hk1 : insn_at es1.instructions k = insn_at es.instructions k := by
    show insn_at (emit_insn cs fmt_g sx g l es (k - 1)).instructions k = _
    rw [emit_insn_instructions, insn_at_set_ne _ _ _ _ (by omega)]
  have hp1 : es1.previous_instruction = ".byte" := by
    show (emit_insn cs fmt_g sx g l es (k - 1)).previous_instruction = _
    unfold emit_insn
    simp only
    rw [render_insn_unsupported _ _ _ _ _ _ _ _ hprev]
  have hi1 : es1.indent = false := by
    show (emit_insn cs fmt_g sx g l es (k - 1)).indent = _
    unfold emit_insn
    simp only
    rw [render_insn_unsupported _ _ _ _ _ _ _ _ hprev]
  have hr2 : render_insn cs fmt_g sx g l es1.instructions (insn_at es1.instructions k)
      es1.previous_instruction =
      { text := [], mnemonic := (insn_at es.instructions k).mnemonic, indent := false } := by
    rw [hk1, hp1, render_insn_after_byte _ _ _ _ _ _ _ _ hown (by decide)]
  have hk2 : insn_at es2.instructions (k + 1) = insn_at es.instructions (k + 1) := by
    show insn_at (emit_insn cs fmt_g sx g l es1 k).instructions (k + 1) = _
    rw [emit_insn_instructions, insn_at_set_ne _ _ _ _ (by omega)]
    show insn_at (emit_insn cs fmt_g sx g l es (k - 1)).instructions (k + 1) = _
    rw [emit_insn_instructions, insn_at_set_ne _ _ _ _ (by omega)]
  have hp2 : es2.previous_instruction = (insn_at es.instructions k).mnemonic := by
    show (emit_insn cs fmt_g sx g l es1 k).previous_instruction = _
    unfold emit_insn
    simp only
    rw [hr2]
  have hi2 : es2.indent = false := by
    show (emit_insn cs fmt_g sx g l es1 k).indent = _
    unfold emit_insn
    simp only
    rw [hr2]
  refine ⟨?_, hp2, ?_, ?_⟩
  · show (emit_insn cs fmt_g sx g l es1 k).out = _
    unfold emit_insn
    simp only
    rw [hr2, hk1, hi1]
    simp
  · show insn_at (emit_insn cs fmt_g sx g l es1 k).instructions k = _
    rw [emit_insn_instructions, hk1]
    by_cases hlt : k < es1.instructions.length
    · rw [insn_at_set_self _ _ _ hlt]
      unfold pass2_insn
      simp [hown]
    · rw [List.set_eq_of_length_le (by omega), hk1]
  · intro hnb
    show (emit_insn cs fmt_g sx g l es2 (k + 1)).out = _
    unfold emit_insn
    simp only
    rw [hk2, hp2, hi2, render_insn_not_byte _ _ _ _ _ _ _ _ hnb]
    simp

/-- C28 fails as stated: in `sync; jr $ra; nop` Pass 2 writes the `sync` as raw
bytes and for the `jr $ra` after it still writes the comment with the file
offset, the address and the raw bytes `03E00008`, without an end of line, so
the comment of the `nop` follows on the same line. -/
theorem pass2_writes_comment_after_byte :
    mipsdisasm_pass1 (table_decoder 0x80000000 [cs_sync_raw, cs_jr_ra, cs_nop]) alloc_always
      10 [] 0 12 0x80000000 (disasm_state_init ASM_GAS true) = .ok sample_byte_state ∧
    is_unsupported_mnemonic (insn_at (sample_byte_state.block 0).instructions 0).mnemonic = true ∧
    is_unsupported_mnemonic (insn_at (sample_byte_state.block 0).instructions 1).mnemonic = false ∧
    ∃ state2, mipsdisasm_pass2 (table_decoder 0x80000000 []) fmt_g_none "" sample_byte_state 0 =
        .ok (["/* 000000 80000000 0000000F */  ",
              ".byte 0x00,0x00,0x00,0x0F /* Because of invalid n64 opcode sync */\n",
              "/* 000004 80000004 03E00008 */  ",
              "/* 000008 80000008 00000000 */  ", "nop   \n"], state2) := by
  refine ⟨rfl, by decide, by decide, _, rfl⟩

/-- C28 at `sync; jr $ra; nop`: after the raw bytes of `sync` the `jr $ra` gets
its bytes comment and nothing else. -/
theorem pass2_line_after_byte_fallback_witness :
    (emit_insn (table_decoder 0x80000000 []) fmt_g_none ASM_GAS labels_alloc labels_alloc
      (emit_insn (table_decoder 0x80000000 []) fmt_g_none ASM_GAS labels_alloc labels_alloc
        (emit_start "" sample_byte_state (sample_byte_state.block 0) 0) 0) 1).out =
      ["/* 000000 80000000 0000000F */  ",
       ".byte 0x00,0x00,0x00,0x0F /* Because of invalid n64 opcode sync */\n",
       "/* 000004 80000004 03E00008 */  "] :=
  (pass2_line_after_byte_fallback (table_decoder 0x80000000 []) fmt_g_none ASM_GAS labels_alloc
    labels_alloc (emit_start "" sample_byte_state (sample_byte_state.block 0) 0) 1
    (by decide) (by decide) (by decide)).1.trans (by decide)

/-! ## The resolver loop case by case: pairs, load-immediate, skipped scans, blank lines -/

theorem merge_pseudo_insn_cases (cs : capstone) (rs : resolve_state) (i : Nat) :
    merge_pseudo_insn cs rs i = rs ∨
    (∃ s, s < i ∧ (insn_at rs.insn s).id = MIPS_INS_LUI ∧
      (insn_at rs.insn i).id = MIPS_INS_MTC1 ∧
      merge_pseudo_insn cs rs i = { rs with insn := rs.insn.set s { insn_at rs.insn s with
        linked_insn := (i : Int),
        linked_value := to_u32 (((insn_at rs.insn s).op 1).imm * 65536),
        id := MIPS_INS_LI, mnemonic := "li" } }) ∨
    (∃ s mem_imm, s < i ∧ (insn_at rs.insn s).id = MIPS_INS_LUI ∧
      is_low_half (insn_at rs.insn i).id = true ∧ mem_imm ≠ 0 ∧
      merge_pseudo_insn cs rs i = { rs with
        globals := (link_lui_pair i mem_imm s rs.globals rs.insn).1,
        insn := (link_lui_pair i mem_imm s rs.globals rs.insn).2 }) ∨
    (((insn_at rs.insn i).id = MIPS_INS_ADDIU ∨ (insn_at rs.insn i).id = MIPS_INS_ORI) ∧
      ((insn_at rs.insn i).op 1).reg = MIPS_REG_ZERO ∧
      merge_pseudo_insn cs rs i = { rs with insn := rs.insn.set i { insn_at rs.insn i with
        id := MIPS_INS_LI, mnemonic := "li",
        op_str := "$" ++ cs.cs_reg_name ((insn_at rs.insn i).op 0).reg ++ ", " ++
          toString ((insn_at rs.insn i).op 2).imm } }) := by
  have hbody : ∀ r m, is_low_half (insn_at rs.insn i).id = true →
      ({ rs with globals := (link_with_lui_body i r m rs.globals rs.insn).1,
                 insn := (link_with_lui_body i r m rs.globals rs.insn).2 } : resolve_state) = rs ∨
      ∃ s mem_imm, s < i ∧ (insn_at rs.insn s).id = MIPS_INS_LUI ∧
        is_low_half (insn_at rs.insn i).id = true ∧ mem_imm ≠ 0 ∧
        ({ rs with globals := (link_with_lui_body i r m rs.globals rs.insn).1,
                   insn := (link_with_lui_body i r m rs.globals rs.insn).2 } : resolve_state) =
          { rs with
            globals := (link_lui_pair i mem_imm s rs.globals rs.insn).1,
            insn := (link_lui_pair i mem_imm s rs.globals rs.insn).2 } := by
    intro r m hlow
    unfold link_with_lui_body
    by_cases hm : m ≠ 0
    · rw [if_pos hm]
      rcases link_with_lui_loop_cases i r m (i - MAX_LOOKBACK) rs.globals rs.insn i with
        he | ⟨s, hs, _, hid, _, _, he⟩
      · left; rw [he]
      · right; exact ⟨s, m, hs, hid, hlow, hm, by rw [he]⟩
    · left; rw [if_neg hm]
  unfold merge_pseudo_insn
  by_cases h1 : (insn_at rs.insn i).id = MIPS_INS_MTC1
  · simp only [h1, if_true]
    rcases float_li_loop_cases i ((insn_at rs.insn i).op 0).reg rs.insn i with
      he | ⟨s, hs, hid, _, _, he⟩
    · left; rw [he]
    · right; left; exact ⟨s, hs, hid, trivial, by rw [he]⟩
  · by_cases h2 : is_load_store (insn_at rs.insn i).id = true
    · simp only [h1, h2, if_true, if_false]
      rcases hbody ((insn_at rs.insn i).op 1).mem_base (to_u32 ((insn_at rs.insn i).op 1).mem_disp)
        (by simp [is_low_half, h2]) with h | h
      · left; exact h
      · right; right; left; exact h
    · by_cases h3 : (insn_at rs.insn i).id = MIPS_INS_ADDIU ∨ (insn_at rs.insn i).id = MIPS_INS_ORI
      · have hlow : is_low_half (insn_at rs.insn i).id = true := by
          rcases h3 with h | h <;> simp [is_low_half, h]
        by_cases h4 : ((insn_at rs.insn i).op 1).reg = MIPS_REG_ZERO
        · simp only [h1, h2, h3, h4, if_true, if_false, Bool.false_eq_true]
          right; right; right; exact ⟨trivial, trivial, trivial⟩
        · by_cases h5 : ((insn_at rs.insn i).op 0).reg = ((insn_at rs.insn i).op 1).reg
          · simp only [h1, h2, h3, h4, h5, if_true, if_false, Bool.false_eq_true]
            rcases hbody ((insn_at rs.insn i).op 1).reg (to_u32 ((insn_at rs.insn i).op 2).imm)
              hlow with h | h
            · left; exact h
            · right; right; left; exact h
          · simp only [h1, h2, h3, h4, h5, if_true, if_false, Bool.false_eq_true]
            left; trivial
      · simp only [h1, h2, h3, if_false, Bool.false_eq_true]
        left; trivial

theorem flag_newline_at (insn : List disasm_data) (i j : Nat) :
    insn_at (flag_newline insn i) j =
      if j = i + 2 ∧ j < insn.length ∧
          ((((insn_at insn i).id = MIPS_INS_JR ∨ (insn_at insn i).id = MIPS_INS_JALR) ∧
            ((insn_at insn i).op 0).reg = MIPS_REG_RA) ∨ (insn_at insn i).id = MIPS_INS_J) then
        { insn_at insn j with newline := true }
      else insn_at insn j := by
  unfold flag_newline
  by_cases hc : (((insn_at insn i).id = MIPS_INS_JR ∨ (insn_at insn i).id = MIPS_INS_JALR) ∧
      ((insn_at insn i).op 0).reg = MIPS_REG_RA) ∨ (insn_at insn i).id = MIPS_INS_J
  · rw [if_pos hc]
    by_cases hl : i + 2 < insn.length
    · rw [if_pos hl]
      by_cases hj : j = i + 2
      · subst hj
        rw [insn_at_set_self _ _ _ hl, if_pos ⟨rfl, hl, hc⟩]
      · rw [insn_at_set_ne _ _ _ _ (Ne.symm hj), if_neg]
        rintro ⟨h1, _, _⟩
        exact hj h1
    · rw [if_neg hl, if_neg]
      rintro ⟨h1, h2, _⟩
      omega
  · rw [if_neg hc, if_neg]
    rintro ⟨_, _, h3⟩
    exact hc h3

theorem disassemble_block_insn_mid (cs : capstone) (sx : asm_syntax) (mp : Bool)
    (rs : resolve_state) (i : Nat) (hi : i < rs.insn.length) :
    ∃ rs2 : resolve_state,
      disassemble_block_insn cs sx mp rs i =
        (if mp = true then merge_pseudo_insn cs rs2 i else rs2) ∧
      rs2.insn.length = rs.insn.length ∧
      insn_at rs2.insn i = { insn_at rs.insn i with linked_insn := -1 } ∧
      (∀ j, j ≠ i → insn_at rs2.insn j =
        if j = i + 2 ∧ j < rs.insn.length ∧ ends_function (insn_at rs.insn i) then
          { insn_at rs.insn j with newline := true }
        else insn_at rs.insn j) ∧
      (¬ ((insn_at rs.insn i).is_jump = true ∧ is_call_id (insn_at rs.insn i).id) →
        rs2.globals = rs.globals) := by
  have hstep := disassemble_block_insn_eq cs sx mp rs.globals rs.locals rs.insn i
  rw [resolve_state_eta] at hstep
  have hri : insn_at (reset_link rs.insn i) i = { insn_at rs.insn i with linked_insn := -1 } := by
    unfold reset_link
    rw [insn_at_set_self _ _ _ hi]
  have hrj : ∀ j, j ≠ i → insn_at (reset_link rs.insn i) j = insn_at rs.insn j := by
    intro j hj
    unfold reset_link
    rw [insn_at_set_ne _ _ _ _ (Ne.symm hj)]
  refine ⟨_, hstep, ?_, ?_, ?_, ?_⟩
  · by_cases hj : (insn_at (reset_link rs.insn i) i).is_jump = true
    · rw [if_pos hj, label_targets_insn, flag_newline_length, reset_link_length]
    · rw [if_neg hj]; exact reset_link_length _ _
  · by_cases hj : (insn_at (reset_link rs.insn i) i).is_jump = true
    · rw [if_pos hj, label_targets_insn, flag_newline_at_self, hri]
    · rw [if_neg hj]; exact hri
  · intro j hji
    by_cases hj : (insn_at (reset_link rs.insn i) i).is_jump = true
    · rw [if_pos hj, label_targets_insn, flag_newline_at, hrj j hji, reset_link_length, hri]
      have hj2 : (insn_at rs.insn i).is_jump = true := by rw [hri] at hj; exact hj
      simp only [ends_function, hj2, true_and, disasm_data.op]
    · rw [if_neg hj]
      have hj2 : ¬ (insn_at rs.insn i).is_jump = true := by rw [hri] at hj; exact hj
      show insn_at (reset_link rs.insn i) j = _
      rw [hrj j hji, if_neg]
      intro h
      exact hj2 h.2.2.1
  · intro hnc
    by_cases hj : (insn_at (reset_link rs.insn i) i).is_jump = true
    · rw [if_pos hj]
      have hj2 : (insn_at rs.insn i).is_jump = true := by rw [hri] at hj; exact hj
      unfold label_targets
      have hid : (insn_at (flag_newline (reset_link rs.insn i) i) i).id = (insn_at rs.insn i).id := by
        rw [flag_newline_at_self, hri]
      have hn : ¬ ((insn_at (flag_newline (reset_link rs.insn i) i) i).id = MIPS_INS_JAL ∨
          (insn_at (flag_newline (reset_link rs.insn i) i) i).id = MIPS_INS_BAL ∨
          (insn_at (flag_newline (reset_link rs.insn i) i) i).id = MIPS_INS_J) := by
        rw [hid]
        intro h
        exact hnc ⟨hj2, h⟩
      simp only [hn, if_false]
    · rw [if_neg hj]

theorem pairs_ok_extend (L L2 : List disasm_data) (i : Nat) (h : pairs_ok L i)
    (hlt : ∀ j, j < i → insn_at L2 j = insn_at L j)
    (hneg : (insn_at L2 i).linked_insn = -1) : pairs_ok L2 (i + 1) := by
  obtain ⟨h1, h2⟩ := h
  constructor
  · intro s hs hid hl
    by_cases hsi : s = i
    · subst hsi; rw [hneg] at hl; omega
    · have hs2 : s < i := by omega
      rw [hlt s hs2] at hid hl ⊢
      obtain ⟨p, e1, e2, e3, e4, e5, e6⟩ := h1 s hs2 hid hl
      exact ⟨p, e1, e2, by omega, by rw [hlt p e3]; exact e4, by rw [hlt p e3]; exact e5,
        by rw [hlt p e3]; exact e6⟩
  · intro j hj hlow hl
    by_cases hji : j = i
    · subst hji; rw [hneg] at hl; omega
    · have hj2 : j < i := by omega
      rw [hlt j hj2] at hlow hl ⊢
      obtain ⟨s, e1, e2, e3, e4⟩ := h2 j hj2 hlow hl
      exact ⟨s, e1, e2, by rw [hlt s (by omega)]; exact e3, by rw [hlt s (by omega)]; exact e4⟩

theorem is_low_half_ne_lui (id : mips_insn) (h : is_low_half id = true) :
    id ≠ MIPS_INS_LUI ∧ id ≠ MIPS_INS_LI := by
  constructor <;> (intro he; subst he; revert h; decide)

theorem pairs_ok_relink (L L2 : List disasm_data) (s0 i0 : Nat) (h : pairs_ok L (i0 + 1))
    (hs0 : s0 < i0) (hlui : (insn_at L s0).id = MIPS_INS_LUI)
    (hneg : (insn_at L i0).linked_insn = -1)
    (hother : ∀ j, j ≠ s0 → j ≠ i0 → insn_at L2 j = insn_at L j)
    (hl0 : (insn_at L2 s0).linked_insn = (i0 : Int))
    (hid0 : (insn_at L2 s0).id = MIPS_INS_LI ∨ (insn_at L2 s0).id = MIPS_INS_LUI)
    (hnew : (insn_at L2 i0 = insn_at L i0 ∧ (insn_at L2 s0).id = MIPS_INS_LI) ∨
      (is_low_half (insn_at L2 i0).id = true ∧ (insn_at L2 i0).linked_insn = (s0 : Int) ∧
        (insn_at L2 i0).linked_value = (insn_at L2 s0).linked_value)) :
    pairs_ok L2 (i0 + 1) := by
  obtain ⟨h1, h2⟩ := h
  have hnotlow : ∀ p, is_low_half (insn_at L p).id = true → p ≠ s0 := by
    intro p hp he
    subst he
    exact (is_low_half_ne_lui _ hp).1 hlui
  constructor
  · intro s hs hid hl
    by_cases hss : s = s0
    · subst hss
      rcases hnew with ⟨_, hli⟩ | ⟨e1, e2, e3⟩
      · rw [hli] at hid; exact absurd hid (by decide)
      · exact ⟨i0, hl0, hs0, by omega, e1, e2, e3⟩
    · by_cases hsi : s = i0
      · subst hsi
        rcases hnew with ⟨e, _⟩ | ⟨e1, _, _⟩
        · rw [e, hneg] at hl; omega
        · exact absurd hid (is_low_half_ne_lui _ e1).1
      · rw [hother s hss hsi] at hid hl ⊢
        obtain ⟨p, e1, e2, e3, e4, e5, e6⟩ := h1 s hs hid hl
        have hp0 : p ≠ s0 := hnotlow p e4
        have hpi : p ≠ i0 := by
          intro he; subst he; rw [hneg] at e5; omega
        exact ⟨p, e1, e2, e3, by rw [hother p hp0 hpi]; exact e4,
          by rw [hother p hp0 hpi]; exact e5, by rw [hother p hp0 hpi]; exact e6⟩
  · intro j hj hlow hl
    by_cases hjs : j = s0
    · subst hjs
      rcases hid0 with e | e <;> rw [e] at hlow <;> exact absurd hlow (by decide)
    · by_cases hji : j = i0
      · subst hji
        rcases hnew with ⟨e, _⟩ | ⟨_, e2, _⟩
        · rw [e, hneg] at hl; omega
        · exact ⟨s0, e2, hs0, hid0.symm, by rw [hl0]⟩
      · rw [hother j hjs hji] at hlow hl ⊢
        obtain ⟨s, e1, e2, e3, e4⟩ := h2 j hj hlow hl
        have hsi : s ≠ i0 := by
          intro he; subst he; rw [hneg] at e4; omega
        by_cases hss : s = s0
        · subst hss
          refine ⟨s, e1, e2, hid0.symm, ?_⟩
          rw [hl0]
          omega
        · exact ⟨s, e1, e2, by rw [hother s hss hsi]; exact e3, by rw [hother s hss hsi]; exact e4⟩

theorem link_lui_pair_at_other_insn (offset mem_imm search : Nat) (globals : label_buf)
    (insn : List disasm_data) (j : Nat) (h1 : j ≠ search) (h2 : j ≠ offset) :
    insn_at (link_lui_pair offset mem_imm search globals insn).2 j = insn_at insn j := by
  unfold insn_at
  simp only [List.getD_eq_getElem?_getD]
  rw [link_lui_pair_at_other offset mem_imm search globals insn j h1 h2]

theorem disassemble_block_insn_pairs_ok (cs : capstone) (sx : asm_syntax) (mp : Bool)
    (rs : resolve_state) (i : Nat) (hi : i < rs.insn.length) (h : pairs_ok rs.insn i) :
    pairs_ok (disassemble_block_insn cs sx mp rs i).insn (i + 1) := by
  obtain ⟨rs2, hstep, hlen, hself, hrest, _⟩ := disassemble_block_insn_mid cs sx mp rs i hi
  have hlt : ∀ j, j < i → insn_at rs2.insn j = insn_at rs.insn j := by
    intro j hj
    rw [hrest j (by omega), if_neg]
    rintro ⟨h1, _, _⟩
    omega
  have hneg : (insn_at rs2.insn i).linked_insn = -1 := by rw [hself]
  have hA : pairs_ok rs2.insn (i + 1) := pairs_ok_extend _ _ i h hlt hneg
  have hi2 : i < rs2.insn.length := by rw [hlen]; exact hi
  rw [hstep]
  by_cases hmp : mp = true
  · rw [if_pos hmp]
    rcases merge_pseudo_insn_cases cs rs2 i with he | ⟨s, hs, hid, _, he⟩ |
        ⟨s, m, hs, hid, hlow, _, he⟩ | ⟨_, _, he⟩
    · rw [he]; exact hA
    · rw [he]
      have hs2 : s < rs2.insn.length := by omega
      refine pairs_ok_relink rs2.insn _ s i hA hs hid hneg ?_ ?_ ?_ ?_
      · intro j hj _
        show insn_at (rs2.insn.set s _) j = _
        rw [insn_at_set_ne _ _ _ _ (Ne.symm hj)]
      · show (insn_at (rs2.insn.set s _) s).linked_insn = _
        rw [insn_at_set_self _ _ _ hs2]
      · left
        show (insn_at (rs2.insn.set s _) s).id = _
        rw [insn_at_set_self _ _ _ hs2]
      · left
        constructor
        · show insn_at (rs2.insn.set s _) i = _
          rw [insn_at_set_ne _ _ _ _ (by omega)]
        · show (insn_at (rs2.insn.set s _) s).id = _
          rw [insn_at_set_self _ _ _ hs2]
    · rw [he]
      have hs2 : s < rs2.insn.length := by omega
      have hne : s ≠ i := by omega
      refine pairs_ok_relink rs2.insn _ s i hA hs hid hneg ?_ ?_ ?_ ?_
      · intro j hj1 hj2
        exact link_lui_pair_at_other_insn _ _ _ _ _ _ hj1 hj2
      · show (insn_at (link_lui_pair i m s rs2.globals rs2.insn).2 s).linked_insn = _
        rw [link_lui_pair_at_search _ _ _ _ _ hs2 hne]
      · right
        show (insn_at (link_lui_pair i m s rs2.globals rs2.insn).2 s).id = _
        rw [link_lui_pair_id, hid]
      · right
        refine ⟨?_, ?_, ?_⟩
        · show is_low_half (insn_at (link_lui_pair i m s rs2.globals rs2.insn).2 i).id = true
          rw [link_lui_pair_id]; exact hlow
        · show (insn_at (link_lui_pair i m s rs2.globals rs2.insn).2 i).linked_insn = _
          rw [link_lui_pair_at_offset _ _ _ _ _ hi2 hne]
        · show (insn_at (link_lui_pair i m s rs2.globals rs2.insn).2 i).linked_value =
            (insn_at (link_lui_pair i m s rs2.globals rs2.insn).2 s).linked_value
          rw [link_lui_pair_at_offset _ _ _ _ _ hi2 hne, link_lui_pair_at_search _ _ _ _ _ hs2 hne]
    · rw [he]
      refine pairs_ok_extend rs.insn _ i h ?_ ?_
      · intro j hj
        show insn_at (rs2.insn.set i _) j = _
        rw [insn_at_set_ne _ _ _ _ (by omega), hlt j hj]
      · show (insn_at (rs2.insn.set i _) i).linked_insn = _
        rw [insn_at_set_self _ _ _ hi2]
        exact hneg
  · rw [if_neg hmp]; exact hA

theorem resolve_upto_pairs_ok (cs : capstone) (sx : asm_syntax) (mp : Bool)
    (rs : resolve_state) (m : Nat) (hm : m ≤ rs.insn.length) :
    pairs_ok (resolve_upto cs sx mp rs m).insn m := by
  induction m with
  | zero =>
    constructor <;> (intro s hs; omega)
  | succ m ih =>
    rw [resolve_upto_succ]
    exact disassemble_block_insn_pairs_ok cs sx mp _ m
      (by rw [resolve_upto_length]; omega) (ih (by omega))

theorem reachable_pairs_ok (s : disasm_state) (h : reachable s) :
    ∀ b ∈ s.blocks, pairs_ok b.instructions b.instructions.length := by
  induction h with
  | init sx mp => intro b hb; simp [disasm_state_init] at hb
  | label_add s name v _ ih => exact ih
  | pass1 s s2 cs al fuel data offset length vaddr _ hp ih =>
    obtain ⟨st, _, rfl⟩ := mipsdisasm_pass1_ok cs al fuel data offset length vaddr s s2 hp
    have hb2 := pass1_result_block cs offset length vaddr s st.instructions
    intro b hb
    have hmem : b ∈ s.blocks ∨ b = (pass1_result cs offset length vaddr s st.instructions).block
        s.blocks.length := by
      have hbl : (pass1_result cs offset length vaddr s st.instructions).blocks =
          s.blocks ++ [(pass1_result cs offset length vaddr s st.instructions).block
            s.blocks.length] := by
        simp [pass1_result, disasm_state.block, List.getD]
      rw [hbl] at hb
      rcases List.mem_append.mp hb with hb | hb
      · exact Or.inl hb
      · exact Or.inr (List.mem_singleton.mp hb)
    rcases hmem with hb | rfl
    · exact ih b hb
    · rw [hb2.1]
      have hl := resolve_upto_pairs_ok cs s.syntax_ s.merge_pseudo
        ⟨s.globals, labels_alloc, st.instructions⟩ st.instructions.length (le_refl _)
      rw [resolve_upto_length]
      exact hl

/-- C22 (hi/lo links in the final state, amended): in every block of a session
reached by Pass 1, a LUI that carries a link to `i` is answered: `i` is a
later low-half instruction (load, store, ADDIU or ORI) linked back to the LUI
with the same resolved address. A low-half instruction `i` linked to `s` finds
at `s` a LUI, or the LI a later MTC1 made of it, whose own link is `i` or a
later instruction: the LUI keeps only the last instruction linked to it, and
carries the address of `i` when that last instruction is `i`. -/
theorem pass1_links_answered (state : disasm_state) (h : reachable state) (b : asm_block)
    (hb : b ∈ state.blocks) :
    (∀ s i : Nat, s < b.instructions.length → (insn_at b.instructions s).id = MIPS_INS_LUI →
      (insn_at b.instructions s).linked_insn = (i : Int) →
      s < i ∧ i < b.instructions.length ∧ is_low_half (insn_at b.instructions i).id = true ∧
      (insn_at b.instructions i).linked_insn = (s : Int) ∧
      (insn_at b.instructions i).linked_value = (insn_at b.instructions s).linked_value) ∧
    (∀ i s : Nat, i < b.instructions.length → is_low_half (insn_at b.instructions i).id = true →
      (insn_at b.instructions i).linked_insn = (s : Int) →
      s < i ∧
      ((insn_at b.instructions s).id = MIPS_INS_LUI ∨ (insn_at b.instructions s).id = MIPS_INS_LI) ∧
      (i : Int) ≤ (insn_at b.instructions s).linked_insn ∧
      ((insn_at b.instructions s).id = MIPS_INS_LUI →
        (insn_at b.instructions s).linked_insn = (i : Int) →
        (insn_at b.instructions s).linked_value = (insn_at b.instructions i).linked_value)) := by
  obtain ⟨h1, h2⟩ := reachable_pairs_ok state h b hb
  constructor
  · intro s i hs hid hl
    obtain ⟨p, e1, e2, e3, e4, e5, e6⟩ := h1 s hs hid (by rw [hl]; omega)
    have hp : p = i := by rw [hl] at e1; omega
    subst hp
    exact ⟨e2, e3, e4, e5, e6⟩
  · intro i s hi hlow hl
    obtain ⟨p, e1, e2, e3, e4⟩ := h2 i hi hlow (by rw [hl]; omega)
    have hp : p = s := by rw [hl] at e1; omega
    subst hp
    refine ⟨e2, e3, e4, ?_⟩
    intro hid hback
    obtain ⟨q, f1, _, _, _, _, f6⟩ := h1 p (by omega) hid (by rw [hback]; omega)
    have hq : q = i := by rw [hback] at f1; omega
    subst hq
    exact f6.symm

/-- C22 on the sample program: the ADDIU at 3 answers the LUI at 2 with the
same address. -/
theorem pass1_links_answered_witness :
    (insn_at (sample_after.block 0).instructions 3).linked_insn = ((2 : Nat) : Int) ∧
    (insn_at (sample_after.block 0).instructions 3).linked_value =
      (insn_at (sample_after.block 0).instructions 2).linked_value :=
  ⟨((pass1_links_answered sample_after sample_reachable (sample_after.block 0) (by decide)).1
      2 3 (by decide) (by decide) (by decide)).2.2.2.1,
   ((pass1_links_answered sample_after sample_reachable (sample_after.block 0) (by decide)).1
      2 3 (by decide) (by decide) (by decide)).2.2.2.2⟩

/-- C22 fails as stated: in `lui $t0, 0x8000; lb $t1, 2($t0); lw $t2, 8($t0)`
both loads are linked to the LUI at 0, the LUI is linked to the second load
only and carries its address `0x80000008`, not the `0x80000002` of the first
load. -/
theorem pass1_shared_lui_links_last :
    mipsdisasm_pass1 (table_decoder 0x80000000 [cs_lui_hi, cs_lb_t1, cs_lw_t2]) alloc_always
      10 [] 0 12 0x80000000 (disasm_state_init ASM_GAS true) = .ok sample_shared_after ∧
    (insn_at (sample_shared_after.block 0).instructions 1).linked_insn = 0 ∧
    (insn_at (sample_shared_after.block 0).instructions 0).linked_insn = 2 ∧
    (insn_at (sample_shared_after.block 0).instructions 1).linked_value = 0x80000002 ∧
    (insn_at (sample_shared_after.block 0).instructions 0).linked_value = 0x80000008 := by
  refine ⟨rfl, by decide, by decide, by decide, by decide⟩

theorem merge_pseudo_insn_skip (cs : capstone) (rs : resolve_state) (i : Nat)
    (h : skips_lui_scan (insn_at rs.insn i)) : merge_pseudo_insn cs rs i = rs := by
  unfold merge_pseudo_insn
  rcases h with ⟨h1, h2⟩ | ⟨h1, h2, h3⟩
  · have hm : (insn_at rs.insn i).id ≠ MIPS_INS_MTC1 := by
      intro he; rw [he] at h1; revert h1; decide
    simp [hm, h1, h2, link_with_lui_body, to_u32]
  · have hm : (insn_at rs.insn i).id ≠ MIPS_INS_MTC1 := by
      rcases h1 with h | h <;> rw [h] <;> decide
    have hl : is_load_store (insn_at rs.insn i).id = false := by
      rcases h1 with h | h <;> rw [h] <;> decide
    rcases h3 with ⟨h3, h4⟩ | h3
    · simp [hm, hl, h1, h2, h3, h4, link_with_lui_body, to_u32]
    · simp [hm, hl, h1, h2, h3]

theorem skips_lui_scan_not_call (d : disasm_data) (h : skips_lui_scan d) :
    ¬ is_call_id d.id ∧ ¬ ends_function d ∧ d.id ≠ MIPS_INS_LUI := by
  rcases h with ⟨h1, _⟩ | ⟨h1, _, _⟩
  · refine ⟨?_, ?_, ?_⟩
    · rintro (he | he | he) <;> (rw [he] at h1; revert h1; decide)
    · rintro ⟨_, (⟨he | he, _⟩ | he)⟩ <;> (rw [he] at h1; revert h1; decide)
    · intro he; rw [he] at h1; revert h1; decide
  · refine ⟨?_, ?_, ?_⟩
    · rintro (he | he | he) <;> rcases h1 with h | h <;> (rw [he] at h; exact absurd h (by decide))
    · rintro ⟨_, (⟨he | he, _⟩ | he)⟩ <;> rcases h1 with h | h <;>
        (rw [he] at h; exact absurd h (by decide))
    · intro he; rcases h1 with h | h <;> (rw [he] at h; exact absurd h (by decide))

theorem disassemble_block_insn_skip (cs : capstone) (sx : asm_syntax) (mp : Bool)
    (rs : resolve_state) (i : Nat) (hi : i < rs.insn.length)
    (h : skips_lui_scan (insn_at rs.insn i)) :
    (disassemble_block_insn cs sx mp rs i).globals = rs.globals ∧
    insn_at (disassemble_block_insn cs sx mp rs i).insn i =
      { insn_at rs.insn i with linked_insn := -1 } ∧
    ∀ j, j ≠ i → insn_at (disassemble_block_insn cs sx mp rs i).insn j = insn_at rs.insn j := by
  obtain ⟨rs2, hstep, hlen, hself, hrest, hg⟩ := disassemble_block_insn_mid cs sx mp rs i hi
  obtain ⟨hnc, hne, _⟩ := skips_lui_scan_not_call _ h
  have h2 : skips_lui_scan (insn_at rs2.insn i) := by rw [hself]; exact h
  have he : disassemble_block_insn cs sx mp rs i = rs2 := by
    rw [hstep]
    by_cases hmp : mp = true
    · rw [if_pos hmp, merge_pseudo_insn_skip cs rs2 i h2]
    · rw [if_neg hmp]
  rw [he]
  refine ⟨hg (fun hc => hnc hc.2), hself, ?_⟩
  intro j hj
  rw [hrest j hj, if_neg]
  rintro ⟨_, _, h3⟩
  exact hne h3

theorem resolve_upto_entry (cs : capstone) (sx : asm_syntax) (mp : Bool) (rs : resolve_state)
    (i : Nat) :
    (insn_at (resolve_upto cs sx mp rs i).insn i).id = (insn_at rs.insn i).id ∧
    (insn_at (resolve_upto cs sx mp rs i).insn i).operands = (insn_at rs.insn i).operands ∧
    (insn_at (resolve_upto cs sx mp rs i).insn i).is_jump = (insn_at rs.insn i).is_jump :=
  ⟨resolve_upto_id cs sx mp rs i i (le_refl _), (resolve_upto_same cs sx mp rs i i).2.1,
    (resolve_upto_same cs sx mp rs i i).2.2.2.1⟩

theorem resolve_upto_final (cs : capstone) (sx : asm_syntax) (mp : Bool) (rs : resolve_state)
    (i : Nat) (hi : i < rs.insn.length)
    (hid : (insn_at (resolve_upto cs sx mp rs (i + 1)).insn i).id ≠ MIPS_INS_LUI) :
    insn_at (resolve_upto cs sx mp rs rs.insn.length).insn i =
      insn_at (resolve_upto cs sx mp rs (i + 1)).insn i := by
  have e : rs.insn.length = (i + 1) + (rs.insn.length - (i + 1)) := by omega
  rw [e]
  exact resolve_upto_below cs sx mp rs (i + 1) i _ (by omega) hid

theorem resolve_upto_unlinked (cs : capstone) (sx : asm_syntax) (mp : Bool) (rs : resolve_state)
    (i : Nat) (hi : i < rs.insn.length)
    (hneg : (insn_at (resolve_upto cs sx mp rs rs.insn.length).insn i).linked_insn = -1) :
    ∀ s, s < rs.insn.length →
      (insn_at (resolve_upto cs sx mp rs rs.insn.length).insn s).id = MIPS_INS_LUI →
      (insn_at (resolve_upto cs sx mp rs rs.insn.length).insn s).linked_insn ≠ (i : Int) := by
  intro s hs hid hl
  obtain ⟨h1, _⟩ := resolve_upto_pairs_ok cs sx mp rs rs.insn.length (le_refl _)
  obtain ⟨p, e1, _, _, _, e5, _⟩ := h1 s hs hid (by rw [hl]; omega)
  have hp : p = i := by rw [hl] at e1; omega
  subst hp
  rw [hneg] at e5
  omega

theorem disassemble_block_insn_li (cs : capstone) (sx : asm_syntax) (rs : resolve_state)
    (i : Nat) (hi : i < rs.insn.length)
    (hid : (insn_at rs.insn i).id = MIPS_INS_ADDIU ∨ (insn_at rs.insn i).id = MIPS_INS_ORI)
    (hz : ((insn_at rs.insn i).op 1).reg = MIPS_REG_ZERO) :
    (disassemble_block_insn cs sx true rs i).globals = rs.globals ∧
    insn_at (disassemble_block_insn cs sx true rs i).insn i =
      { insn_at rs.insn i with
        linked_insn := -1, id := MIPS_INS_LI, mnemonic := "li",
        op_str := "$" ++ cs.cs_reg_name ((insn_at rs.insn i).op 0).reg ++ ", " ++
          toString ((insn_at rs.insn i).op 2).imm } := by
  obtain ⟨rs2, hstep, hlen, hself, _, hg⟩ := disassemble_block_insn_mid cs sx true rs i hi
  have h1 : ¬ (insn_at rs2.insn i).id = MIPS_INS_MTC1 := by
    rw [hself]; rcases hid with h | h <;> simp [h]
  have h2 : ¬ is_load_store (insn_at rs2.insn i).id = true := by
    rw [hself]; rcases hid with h | h <;> simp [h, is_load_store]
  have h3 : (insn_at rs2.insn i).id = MIPS_INS_ADDIU ∨ (insn_at rs2.insn i).id = MIPS_INS_ORI := by
    rw [hself]; exact hid
  have h4 : ((insn_at rs2.insn i).op 1).reg = MIPS_REG_ZERO := by
    rw [hself]; exact hz
  have hm : merge_pseudo_insn cs rs2 i = { rs2 with insn := rs2.insn.set i { insn_at rs2.insn i with
      id := MIPS_INS_LI, mnemonic := "li",
      op_str := "$" ++ cs.cs_reg_name ((insn_at rs2.insn i).op 0).reg ++ ", " ++
        toString ((insn_at rs2.insn i).op 2).imm } } := by
    unfold merge_pseudo_insn
    simp only [h1, h2, h3, h4, if_true, if_false, Bool.false_eq_true]
  rw [hstep, if_pos rfl, hm]
  constructor
  · apply hg
    rintro ⟨_, (he | he | he)⟩ <;> rcases hid with h | h <;>
      (rw [he] at h; exact absurd h (by decide))
  · show insn_at (rs2.insn.set i _) i = _
    rw [insn_at_set_self _ _ _ (by rw [hlen]; exact hi), hself]
    rfl

/-- C24 (zero-source ADDIU/ORI becomes load-immediate): with pseudo-op handling
on, an ADDIU or ORI decoded at `i` whose source register is `$zero` has after
Pass 1 the id LI, the mnemonic `li`, the operand text `$` with the name of the
destination register, `, ` and the immediate in decimal, and `linked_insn`
-1; no LUI of the block is linked to `i`, and the loop body for `i` leaves the
global scope as it finds it. -/
theorem pass1_zero_source_li (cs : capstone) (offset length vaddr : Nat) (state : disasm_state)
    (decoded : List disasm_data) (i : Nat)
    (hmp : state.merge_pseudo = true) (hi : i < decoded.length)
    (hid : (insn_at decoded i).id = MIPS_INS_ADDIU ∨ (insn_at decoded i).id = MIPS_INS_ORI)
    (hz : ((insn_at decoded i).op 1).reg = MIPS_REG_ZERO) :
    ∃ d, d = insn_at ((pass1_result cs offset length vaddr state decoded).block
        state.blocks.length).instructions i ∧
      d.id = MIPS_INS_LI ∧ d.mnemonic = "li" ∧
      d.op_str = "$" ++ cs.cs_reg_name ((insn_at decoded i).op 0).reg ++ ", " ++
        toString ((insn_at decoded i).op 2).imm ∧
      d.linked_insn = -1 ∧
      (∀ s, s < decoded.length →
        (insn_at ((pass1_result cs offset length vaddr state decoded).block
          state.blocks.length).instructions s).id = MIPS_INS_LUI →
        (insn_at ((pass1_result cs offset length vaddr state decoded).block
          state.blocks.length).instructions s).linked_insn ≠ (i : Int)) ∧
      (resolve_upto cs state.syntax_ true ⟨state.globals, labels_alloc, decoded⟩ (i + 1)).globals =
        (resolve_upto cs state.syntax_ true ⟨state.globals, labels_alloc, decoded⟩ i).globals := by
  have hb := (pass1_result_block cs offset length vaddr state decoded).1
  rw [hmp] at hb
  rw [hb]
  have he := resolve_upto_entry cs state.syntax_ true ⟨state.globals, labels_alloc, decoded⟩ i
  have hop : ∀ o, (insn_at (resolve_upto cs state.syntax_ true
      ⟨state.globals, labels_alloc, decoded⟩ i).insn i).op o = (insn_at decoded i).op o := by
    intro o
    unfold disasm_data.op
    rw [he.2.1]
  have hstep := disassemble_block_insn_li cs state.syntax_
    (resolve_upto cs state.syntax_ true ⟨state.globals, labels_alloc, decoded⟩ i) i
    (by rw [resolve_upto_length]; exact hi) (by rw [he.1]; exact hid) (by rw [hop]; exact hz)
  rw [← resolve_upto_succ] at hstep
  have hfin := resolve_upto_final cs state.syntax_ true ⟨state.globals, labels_alloc, decoded⟩ i hi
    (by rw [hstep.2]; simp)
  have hent : insn_at (resolve_upto cs state.syntax_ true ⟨state.globals, labels_alloc, decoded⟩
      decoded.length).insn i = _ := hfin.trans hstep.2
  refine ⟨_, rfl, ?_, ?_, ?_, ?_, ?_, hstep.1⟩
  · rw [hent]
  · rw [hent]
  · rw [hent, hop, hop]
  · rw [hent]
  · exact resolve_upto_unlinked cs state.syntax_ true ⟨state.globals, labels_alloc, decoded⟩ i hi
      (by rw [hent])

/-- C24 at `addiu $a0, $zero, -5`: the instruction becomes `li` with the
operand text `$r6, -5` (the sample decoder names register 6 `r6`). -/
theorem pass1_zero_source_li_witness :
    (insn_at ((pass1_result (table_decoder 0x80000000 []) 0 4 0x80000000
      (disasm_state_init ASM_GAS true) [copy_insn cs_addiu_zero]).block 0).instructions 0).id
        = MIPS_INS_LI ∧
    (insn_at ((pass1_result (table_decoder 0x80000000 []) 0 4 0x80000000
      (disasm_state_init ASM_GAS true) [copy_insn cs_addiu_zero]).block 0).instructions 0).op_str
        = "$r6, -5" := by
  obtain ⟨d, hd, h1, _, h3, _⟩ := pass1_zero_source_li (table_decoder 0x80000000 []) 0 4 0x80000000
    (disasm_state_init ASM_GAS true) [copy_insn cs_addiu_zero] 0 rfl (by decide)
    (Or.inl rfl) rfl
  have e : (disasm_state_init ASM_GAS true).blocks.length = 0 := rfl
  rw [e] at hd
  rw [← hd]
  exact ⟨h1, h3.trans (by decide)⟩

/-- C25 (cases in which the hi/lo scan is skipped): for a load or store decoded
at `i` with displacement 0, an ADDIU or ORI of a register other than `$zero`
onto itself with immediate 0, or an ADDIU or ORI whose destination differs
from its source (not `$zero`), with pseudo-op handling on or off, the loop
body for `i` leaves the global scope and every other instruction as it finds
them and changes of instruction `i` only `linked_insn`, which line 316 sets to
-1; after Pass 1 instruction `i` has no link and no LUI is linked to it,
whatever precedes it. -/
theorem pass1_skipped_scan_frame (cs : capstone) (offset length vaddr : Nat)
    (state : disasm_state) (decoded : List disasm_data) (i : Nat) (hi : i < decoded.length)
    (hskip : skips_lui_scan (insn_at decoded i)) :
    (resolve_upto cs state.syntax_ state.merge_pseudo ⟨state.globals, labels_alloc, decoded⟩
        (i + 1)).globals =
      (resolve_upto cs state.syntax_ state.merge_pseudo ⟨state.globals, labels_alloc, decoded⟩
        i).globals ∧
    (∀ j, j ≠ i →
      insn_at (resolve_upto cs state.syntax_ state.merge_pseudo
          ⟨state.globals, labels_alloc, decoded⟩ (i + 1)).insn j =
        insn_at (resolve_upto cs state.syntax_ state.merge_pseudo
          ⟨state.globals, labels_alloc, decoded⟩ i).insn j) ∧
    insn_at (resolve_upto cs state.syntax_ state.merge_pseudo
        ⟨state.globals, labels_alloc, decoded⟩ (i + 1)).insn i =
      { insn_at (resolve_upto cs state.syntax_ state.merge_pseudo
          ⟨state.globals, labels_alloc, decoded⟩ i).insn i with linked_insn := -1 } ∧
    (insn_at ((pass1_result cs offset length vaddr state decoded).block
      state.blocks.length).instructions i).linked_insn = -1 ∧
    ∀ s, s < decoded.length →
      (insn_at ((pass1_result cs offset length vaddr state decoded).block
        state.blocks.length).instructions s).id = MIPS_INS_LUI →
      (insn_at ((pass1_result cs offset length vaddr state decoded).block
        state.blocks.length).instructions s).linked_insn ≠ (i : Int) := by
  have hb := (pass1_result_block cs offset length vaddr state decoded).1
  rw [hb]
  have he := resolve_upto_entry cs state.syntax_ state.merge_pseudo
    ⟨state.globals, labels_alloc, decoded⟩ i
  have hsk : skips_lui_scan (insn_at (resolve_upto cs state.syntax_ state.merge_pseudo
      ⟨state.globals, labels_alloc, decoded⟩ i).insn i) := by
    unfold skips_lui_scan disasm_data.op
    rw [he.1, he.2.1]
    exact hskip
  have hstep := disassemble_block_insn_skip cs state.syntax_ state.merge_pseudo
    (resolve_upto cs state.syntax_ state.merge_pseudo ⟨state.globals, labels_alloc, decoded⟩ i) i
    (by rw [resolve_upto_length]; exact hi) hsk
  rw [← resolve_upto_succ] at hstep
  have hfin := resolve_upto_final cs state.syntax_ state.merge_pseudo
    ⟨state.globals, labels_alloc, decoded⟩ i hi
    (by rw [hstep.2.1]; exact (skips_lui_scan_not_call _ hsk).2.2)
  have hneg : (insn_at (resolve_upto cs state.syntax_ state.merge_pseudo
      ⟨state.globals, labels_alloc, decoded⟩ decoded.length).insn i).linked_insn = -1 := by
    have := hfin
    simp only at this
    rw [this, hstep.2.1]
  refine ⟨hstep.1, hstep.2.2, hstep.2.1, hneg, ?_⟩
  exact resolve_upto_unlinked cs state.syntax_ state.merge_pseudo
    ⟨state.globals, labels_alloc, decoded⟩ i hi hneg

/-- C25 at `lui $t0, 0x1234; lw $t1, 0($t0)`: the load right after the LUI of
its base register gets no link and no label is created. -/
theorem pass1_skipped_scan_frame_witness :
    (insn_at ((pass1_result (table_decoder 0x80000000 []) 0 8 0x80000000
      (disasm_state_init ASM_GAS true) [copy_insn cs_lui_t0, copy_insn cs_lw_zero]).block
      0).instructions 1).linked_insn = -1 ∧
    (resolve_upto (table_decoder 0x80000000 []) ASM_GAS true
      ⟨labels_alloc, labels_alloc, [copy_insn cs_lui_t0, copy_insn cs_lw_zero]⟩ 2).globals =
      labels_alloc :=
  ⟨(pass1_skipped_scan_frame (table_decoder 0x80000000 []) 0 8 0x80000000
      (disasm_state_init ASM_GAS true) [copy_insn cs_lui_t0, copy_insn cs_lw_zero] 1 (by decide)
      (Or.inl ⟨rfl, rfl⟩)).2.2.2.1,
   (pass1_skipped_scan_frame (table_decoder 0x80000000 []) 0 8 0x80000000
      (disasm_state_init ASM_GAS true) [copy_insn cs_lui_t0, copy_insn cs_lw_zero] 1 (by decide)
      (Or.inl ⟨rfl, rfl⟩)).1.trans (by decide)⟩

theorem insn_at_set_newline (l : List disasm_data) (s k : Nat) (x : disasm_data)
    (h : x.newline = (insn_at l s).newline) :
    (insn_at (l.set s x) k).newline = (insn_at l k).newline := by
  by_cases hs : s < l.length
  · by_cases hk : k = s
    · subst hk; rw [insn_at_set_self _ _ _ hs, h]
    · rw [insn_at_set_ne _ _ _ _ (Ne.symm hk)]
  · rw [List.set_eq_of_length_le (by omega)]

theorem link_lui_pair_newline (offset mem_imm search : Nat) (g : label_buf)
    (insn : List disasm_data) (k : Nat) :
    (insn_at (link_lui_pair offset mem_imm search g insn).2 k).newline
      = (insn_at insn k).newline := by
  rw [link_lui_pair_insn]
  refine (insn_at_set_newline _ _ _ _ ?_).trans (insn_at_set_newline _ _ _ _ ?_) <;> rfl

theorem merge_pseudo_insn_newline (cs : capstone) (rs : resolve_state) (i k : Nat) :
    (insn_at (merge_pseudo_insn cs rs i).insn k).newline = (insn_at rs.insn k).newline := by
  rcases merge_pseudo_insn_cases cs rs i with he | ⟨s, _, _, _, he⟩ | ⟨s, m, _, _, _, _, he⟩ |
      ⟨_, _, he⟩
  · rw [he]
  · rw [he]; exact insn_at_set_newline _ _ _ _ rfl
  · rw [he]; exact link_lui_pair_newline _ _ _ _ _ _
  · rw [he]; exact insn_at_set_newline _ _ _ _ rfl

theorem disassemble_block_insn_newline (cs : capstone) (sx : asm_syntax) (mp : Bool)
    (rs : resolve_state) (i k : Nat) (hi : i < rs.insn.length) :
    (insn_at (disassemble_block_insn cs sx mp rs i).insn k).newline = true ↔
      ((insn_at rs.insn k).newline = true ∨
        (k = i + 2 ∧ k < rs.insn.length ∧ ends_function (insn_at rs.insn i))) := by
  obtain ⟨rs2, hstep, _, hself, hrest, _⟩ := disassemble_block_insn_mid cs sx mp rs i hi
  have h2 : (insn_at rs2.insn k).newline = true ↔
      ((insn_at rs.insn k).newline = true ∨
        (k = i + 2 ∧ k < rs.insn.length ∧ ends_function (insn_at rs.insn i))) := by
    by_cases hk : k = i
    · subst hk
      rw [hself]
      constructor
      · intro h; exact Or.inl h
      · rintro (h | ⟨h, _, _⟩)
        · exact h
        · omega
    · rw [hrest k hk]
      by_cases hc : k = i + 2 ∧ k < rs.insn.length ∧ ends_function (insn_at rs.insn i)
      · rw [if_pos hc]
        exact ⟨fun _ => Or.inr hc, fun _ => rfl⟩
      · rw [if_neg hc]
        exact ⟨fun h => Or.inl h, fun h => h.resolve_right hc⟩
  rw [hstep]
  by_cases hmp : mp = true
  · rw [if_pos hmp, merge_pseudo_insn_newline]; exact h2
  · rw [if_neg hmp]; exact h2

theorem ends_function_same (d0 d : disasm_data) (h : same_decoded d0 d) :
    ends_function d ↔ ends_function d0 := by
  obtain ⟨_, hop, _, hj, hid⟩ := h
  unfold ends_function disasm_data.op
  rw [hop, hj]
  rcases hid with hid | ⟨hli, hid⟩
  · rw [hid]
  · have e1 : d.id ≠ MIPS_INS_JR ∧ d.id ≠ MIPS_INS_JALR ∧ d.id ≠ MIPS_INS_J := by
      rw [hli]; decide
    have e2 : d0.id ≠ MIPS_INS_JR ∧ d0.id ≠ MIPS_INS_JALR ∧ d0.id ≠ MIPS_INS_J := by
      rcases hid with h | h | h <;> rw [h] <;> decide
    simp [e1.1, e1.2.1, e1.2.2, e2.1, e2.2.1, e2.2.2]

theorem resolve_upto_newline (cs : capstone) (sx : asm_syntax) (mp : Bool) (rs : resolve_state)
    (m k : Nat) (hm : m ≤ rs.insn.length) :
    (insn_at (resolve_upto cs sx mp rs m).insn k).newline = true ↔
      ((insn_at rs.insn k).newline = true ∨
        (2 ≤ k ∧ k - 2 < m ∧ k < rs.insn.length ∧ ends_function (insn_at rs.insn (k - 2)))) := by
  induction m with
  | zero =>
    have : resolve_upto cs sx mp rs 0 = rs := rfl
    rw [this]
    constructor
    · intro h; exact Or.inl h
    · rintro (h | ⟨_, h, _⟩)
      · exact h
      · omega
  | succ m ih =>
    rw [resolve_upto_succ, disassemble_block_insn_newline cs sx mp _ m k
      (by rw [resolve_upto_length]; omega), ih (by omega), resolve_upto_length,
      ends_function_same _ _ (resolve_upto_same cs sx mp rs m m)]
    constructor
    · rintro ((h | ⟨h1, h2, h3, h4⟩) | ⟨h1, h2, h3⟩)
      · exact Or.inl h
      · exact Or.inr ⟨h1, by omega, h3, h4⟩
      · refine Or.inr ⟨by omega, by omega, h2, ?_⟩
        have e : k - 2 = m := by omega
        rw [e]; exact h3
    · rintro (h | ⟨h1, h2, h3, h4⟩)
      · exact Or.inl (Or.inl h)
      · by_cases hkm : k - 2 < m
        · exact Or.inl (Or.inr ⟨h1, hkm, h3, h4⟩)
        · have e : k - 2 = m := by omega
          rw [e] at h4
          exact Or.inr ⟨by omega, h3, h4⟩

theorem all_copied_newline (insn : List disasm_data) (h : all_copied insn) (k : Nat) :
    (insn_at insn k).newline = false := by
  by_cases hk : k < insn.length
  · have hm : insn_at insn k ∈ insn := by
      unfold insn_at
      rw [List.getD_eq_getElem _ _ hk]
      exact List.getElem_mem _
    obtain ⟨ci, hci⟩ := h _ hm
    rw [hci]; rfl
  · unfold insn_at
    rw [List.getD_eq_default _ _ (by omega)]
    rfl

/-- C26 (function-boundary blank line): the loop of Pass 1, run on any
instructions with any flags, leaves instruction `j` flagged exactly when `j`
was flagged before the loop or `j >= 2` and instruction `j - 2` is flagged as
a jump and is a J, or a JR or JALR whose first operand is `$ra`: the loop sets
the flag under that condition only, and has no entry past the count to flag.
Before the loop the flag is what the slot held, the copy loop not writing it.
For a slot `k` of the buffer of the first allocation
(`k < initial_capacity length`), which `calloc` zeroes and `realloc` carries
over, instruction `k` of the block Pass 1 returns is therefore flagged exactly
under the condition. Pass 2 writes for instruction `k` first one end of line
if and only if the flag is set, then the labels, the bytes comment and the
instruction. -/
theorem pass1_flags_function_boundary (cs : capstone) (al : allocator) (fuel : Nat)
    (data : List Nat) (offset length vaddr : Nat) (state state2 : disasm_state) (k : Nat)
    (h : mipsdisasm_pass1 cs al fuel data offset length vaddr state = .ok state2)
    (hk : k < (state2.block state.blocks.length).instructions.length) :
    (k < initial_capacity length →
      ((insn_at (state2.block state.blocks.length).instructions k).newline = true ↔
        (2 ≤ k ∧
          ends_function (insn_at (state2.block state.blocks.length).instructions (k - 2))))) ∧
    (∀ (decoded : List disasm_data) (j : Nat), j < decoded.length →
      ((insn_at (resolve_block cs state.syntax_ state.merge_pseudo
          ⟨state.globals, labels_alloc, decoded⟩).insn j).newline = true ↔
        ((insn_at decoded j).newline = true ∨
          (2 ≤ j ∧ ends_function (insn_at decoded (j - 2)))))) ∧
    ∀ (fmt_g : Nat → String) (globals locals : label_buf) (es : emit_state),
      (emit_insn cs fmt_g state.syntax_ globals locals es k).out =
        es.out ++ (if (insn_at es.instructions k).newline = true then ["\n"] else []) ++
          (emit_labels globals es.vaddr es.global_idx).1 ++
          (emit_labels locals es.vaddr es.local_idx).1 ++
          [emit_comment es.offset es.vaddr (insn_at es.instructions k)] ++
          (if es.indent = true then [" "] else []) ++
          (render_insn cs fmt_g state.syntax_ globals locals es.instructions
            (insn_at es.instructions k) es.previous_instruction).text := by
  have hgen : ∀ (decoded : List disasm_data) (j : Nat), j < decoded.length →
      ((insn_at (resolve_block cs state.syntax_ state.merge_pseudo
          ⟨state.globals, labels_alloc, decoded⟩).insn j).newline = true ↔
        ((insn_at decoded j).newline = true ∨
          (2 ≤ j ∧ ends_function (insn_at decoded (j - 2))))) := by
    intro decoded j hj
    rw [resolve_block_eq_upto, resolve_upto_newline _ _ _ _ _ _ (le_refl _)]
    constructor
    · rintro (h | ⟨h1, _, _, h4⟩)
      · exact Or.inl h
      · exact Or.inr ⟨h1, h4⟩
    · rintro (h | ⟨h1, h4⟩)
      · exact Or.inl h
      · exact Or.inr ⟨h1, by show j - 2 < decoded.length; omega, hj, h4⟩
  obtain ⟨st, hdec, rfl⟩ := mipsdisasm_pass1_ok cs al fuel data offset length vaddr state state2 h
  have hb := (pass1_result_block cs offset length vaddr state st.instructions).1
  refine ⟨?_, hgen, ?_⟩
  · intro _
    rw [hb] at hk ⊢
    rw [resolve_upto_length] at hk
    have hk2 : k < st.instructions.length := hk
    rw [resolve_upto_newline _ _ _ _ _ _ (le_refl _),
      ends_function_same _ _ (resolve_upto_same cs state.syntax_ state.merge_pseudo _ _ _)]
    have hz := all_copied_newline _ (decode_block_copied _ _ _ _ _ _ _ hdec) k
    constructor
    · rintro (h | ⟨h1, _, _, h4⟩)
      · rw [hz] at h; exact absurd h (by decide)
      · exact ⟨h1, h4⟩
    · rintro ⟨h1, h4⟩
      exact Or.inr ⟨h1, by show k - 2 < st.instructions.length; omega, hk2, h4⟩
  · intro fmt_g globals locals es
    unfold emit_insn
    simp only [List.append_assoc]

/-- Pass 1 over `jr $ra; nop; nop`, evaluated. -/
theorem sample_return_pass1 :
    mipsdisasm_pass1 (table_decoder 0x80000000 [cs_jr_ra, cs_nop, cs_nop]) alloc_always
      10 [] 0 12 0x80000000 (disasm_state_init ASM_GAS true) = .ok sample_return_after := rfl

/-- C26 at `jr $ra; nop; nop`: the third instruction is flagged and Pass 2
writes one empty line before it. -/
theorem pass1_flags_function_boundary_witness :
    2 < initial_capacity 12 ∧
    (insn_at (sample_return_after.block 0).instructions 2).newline = true ∧
    ∃ state2, mipsdisasm_pass2 (table_decoder 0x80000000 []) fmt_g_none "" sample_return_after 0 =
      .ok (["/* 000000 80000000 03E00008 */  ", "jr    ", "$r33", "\n",
            "/* 000004 80000004 00000000 */  ", " ", "nop   \n", "\n",
            "/* 000008 80000008 00000000 */  ", "nop   \n"], state2) :=
  ⟨by decide,
   ((pass1_flags_function_boundary (table_decoder 0x80000000 [cs_jr_ra, cs_nop, cs_nop])
      alloc_always 10 [] 0 12 0x80000000 (disasm_state_init ASM_GAS true) sample_return_after 2
      sample_return_pass1 (by decide)).1 (by decide)).mpr
        ⟨le_refl _, rfl, Or.inl ⟨Or.inl rfl, rfl⟩⟩,
   _, rfl⟩

/-! ## The float scan and the hi/lo scan compared -/

theorem float_li_loop_eq_scan (i rt : Nat) (insn : List disasm_data) (n : Nat) :
    float_li_loop i rt insn n =
      match float_scan rt insn n with
      | scan_stop.lui s => insn.set s { insn_at insn s with
          linked_insn := (i : Int),
          linked_value := to_u32 (((insn_at insn s).op 1).imm * 65536),
          id := MIPS_INS_LI, mnemonic := "li" }
      | _ => insn := by
  induction n with
  | zero => rfl
  | succ n ih =>
    unfold float_li_loop float_scan
    simp only
    split_ifs <;> first | rfl | exact ih

theorem link_with_lui_loop_eq_scan (offset reg mem_imm end_search : Nat) (globals : label_buf)
    (insn : List disasm_data) (n : Nat) :
    link_with_lui_loop offset reg mem_imm end_search globals insn n =
      match lui_scan reg end_search insn n with
      | scan_stop.lui s => link_lui_pair offset mem_imm s globals insn
      | _ => (globals, insn) := by
  induction n with
  | zero => rfl
  | succ n ih =>
    unfold link_with_lui_loop lui_scan
    simp only
    split_ifs <;> first | rfl | exact ih

/-- The two scans end at the same index for the same reason on every block in
which no LH, LHU, LB, LBU or ADDU writes the register below the start of the
scan, the window of `link_with_lui` starting at index 0. -/
theorem scans_agree_without_mixed_ids (rt : Nat) (insn : List disasm_data) (n : Nat)
    (h : ∀ s, s < n → ((insn_at insn s).op 0).reg = rt →
      (insn_at insn s).id ≠ MIPS_INS_LH ∧ (insn_at insn s).id ≠ MIPS_INS_LHU ∧
      (insn_at insn s).id ≠ MIPS_INS_LB ∧ (insn_at insn s).id ≠ MIPS_INS_LBU ∧
      (insn_at insn s).id ≠ MIPS_INS_ADDU) :
    float_scan rt insn n = lui_scan rt 0 insn n := by
  induction n with
  | zero => rfl
  | succ n ih =>
    have ih2 := ih (fun s hs => h s (by omega))
    have hn := h n (by omega)
    unfold float_scan lui_scan
    simp only [Nat.not_lt_zero, if_false]
    by_cases hr : ((insn_at insn n).op 0).reg = rt
    · obtain ⟨h1, h2, h3, h4, h5⟩ := hn hr
      have hfl : is_float_scan_redefinition (insn_at insn n).id =
          is_lui_scan_redefinition (insn_at insn n).id := by
        unfold is_float_scan_redefinition is_lui_scan_redefinition
        simp only [h1, h2, h3, h4, h5, decide_False, Bool.or_false]
      have hlr : is_lui_scan_redefinition MIPS_INS_LUI = false := by decide
      by_cases hl : (insn_at insn n).id = MIPS_INS_LUI
      · simp [hl, hr]
      · simp only [hl, false_and, if_false, hfl, hr]
        rw [ih2]
    · have hr2 : ¬ rt = ((insn_at insn n).op 0).reg := fun e => hr e.symm
      by_cases hl : (insn_at insn n).id = MIPS_INS_LUI
      · have hfr : is_float_scan_redefinition (insn_at insn n).id = false := by rw [hl]; decide
        have hjr : ¬ ((insn_at insn n).id = MIPS_INS_JR ∧
            ((insn_at insn n).op 0).reg = MIPS_REG_RA) := by rw [hl]; simp
        simp only [hl, hr, hr2, and_false, if_false, if_true]
        rw [hl] at hfr hjr
        simp only [hfr, hjr, if_false, Bool.false_eq_true]
        exact ih2
      · simp only [hl, false_and, if_false, hr2]
        by_cases hjr : (insn_at insn n).id = MIPS_INS_JR ∧
            ((insn_at insn n).op 0).reg = MIPS_REG_RA
        · have hf : is_float_scan_redefinition (insn_at insn n).id = false := by
            rw [hjr.1]; decide
          have hg : is_lui_scan_redefinition (insn_at insn n).id = false := by
            rw [hjr.1]; decide
          rw [hjr.1] at hf hg
          simp only [hf, hg, hjr, and_self, if_true, if_false, Bool.false_eq_true]
        · by_cases hf : is_float_scan_redefinition (insn_at insn n).id = true <;>
            by_cases hg : is_lui_scan_redefinition (insn_at insn n).id = true <;>
            simp only [hf, hg, hjr, if_true, if_false] <;> exact ih2

/-- C23 fails: the two scans do not end alike. In `lui $t0, 0x4049;
addu $t0, $t1, $t2; mtc1 $t0, $f0` the scan for the MTC1 at 2 passes the ADDU
of `$t0` and ends at the LUI at 0, which it rewrites to LI, while the scan of
`link_with_lui` at 2 for `$t0` ends at the ADDU without a link. In
`lui $t0, 0x4049; lb $t0, 4($a0); ...` the scan for a MTC1 ends at the LB of
`$t0`, while the scan of `link_with_lui` passes it and links the LUI at 0. -/
theorem scans_stop_differently :
    float_scan MIPS_REG_T0 sample_addu_block 2 = scan_stop.lui 0 ∧
    lui_scan MIPS_REG_T0 (2 - MAX_LOOKBACK) sample_addu_block 2 = scan_stop.redefined 1 ∧
    float_scan MIPS_REG_T0 sample_lb_block 2 = scan_stop.redefined 1 ∧
    lui_scan MIPS_REG_T0 (2 - MAX_LOOKBACK) sample_lb_block 2 = scan_stop.lui 0 ∧
    (insn_at (float_li_loop 2 MIPS_REG_T0 sample_addu_block 2) 0).id = MIPS_INS_LI ∧
    (∀ mem_imm g, link_with_lui_loop 2 MIPS_REG_T0 mem_imm (2 - MAX_LOOKBACK) g
      sample_addu_block 2 = (g, sample_addu_block)) ∧
    float_li_loop 2 MIPS_REG_T0 sample_lb_block 2 = sample_lb_block ∧
    (∀ mem_imm g, link_with_lui_loop 2 MIPS_REG_T0 mem_imm (2 - MAX_LOOKBACK) g
      sample_lb_block 2 = link_lui_pair 2 mem_imm 0 g sample_lb_block) := by
  refine ⟨by decide, by decide, by decide, by decide, by decide, ?_, by decide, ?_⟩
  · intro mem_imm g
    rw [link_with_lui_loop_eq_scan]
    have : lui_scan MIPS_REG_T0 (2 - MAX_LOOKBACK) sample_addu_block 2 = scan_stop.redefined 1 := by
      decide
    rw [this]
  · intro mem_imm g
    rw [link_with_lui_loop_eq_scan]
    have : lui_scan MIPS_REG_T0 (2 - MAX_LOOKBACK) sample_lb_block 2 = scan_stop.lui 0 := by
      decide
    rw [this]

/-! ## The decode loop: invariants of the buffer -/

theorem decode_chunk_invariant (cs : capstone) (al : allocator) (data : List Nat)
    (vaddr processed chunk_size : Nat) (P : decode_state → Nat → Prop) (Q : decode_state → Prop)
    (hskip : ∀ st cp, P st cp → cp < chunk_size →
      (decode_call cs data vaddr processed chunk_size cp).length = 0 →
      P (st.log ((processed + cp) % 4294967296) (min (chunk_size - cp) 0x400))
        ((cp + 4) % 4294967296))
    (hstop : ∀ st cp, P st cp → cp < chunk_size →
      (decode_call cs data vaddr processed chunk_size cp).length ≠ 0 →
      grow_buffer al (st.log ((processed + cp) % 4294967296) (min (chunk_size - cp) 0x400))
        (decode_call cs data vaddr processed chunk_size cp).length = none →
      Q (st.log ((processed + cp) % 4294967296) (min (chunk_size - cp) 0x400)))
    (hcopy : ∀ st cp st1 c1, P st cp → cp < chunk_size →
      (decode_call cs data vaddr processed chunk_size cp).length ≠ 0 →
      grow_buffer al (st.log ((processed + cp) % 4294967296) (min (chunk_size - cp) 0x400))
        (decode_call cs data vaddr processed chunk_size cp).length = some (st1, c1) →
      P (st1.copy (decode_call cs data vaddr processed chunk_size cp) c1)
        ((cp + c1 * 4) % 4294967296))
    (fuel : Nat) :
    ∀ (st : decode_state) (cp : Nat), P st cp →
      (∀ st2, decode_chunk cs al data vaddr processed chunk_size fuel st cp = .ok (st2, false) →
        ∃ cp2, chunk_size ≤ cp2 ∧ P st2 cp2) ∧
      (∀ st2, decode_chunk cs al data vaddr processed chunk_size fuel st cp = .ok (st2, true) →
        Q st2) ∧
      (∀ e, decode_chunk cs al data vaddr processed chunk_size fuel st cp = .error e →
        ∃ st2 cp2, e = halt.out_of_fuel st2 ∧ P st2 cp2) := by
  induction fuel with
  | zero =>
    intro st cp hP
    have e : decode_chunk cs al data vaddr processed chunk_size 0 st cp
        = .error (halt.out_of_fuel st) := rfl
    rw [e]
    refine ⟨?_, ?_, ?_⟩
    · intro _ h; cases h
    · intro _ h; cases h
    · intro e2 h
      cases h
      exact ⟨st, cp, rfl, hP⟩
  | succ fuel ih =>
    intro st cp hP
    by_cases hc : cp < chunk_size
    · by_cases hz : (decode_call cs data vaddr processed chunk_size cp).length = 0
      · rw [decode_chunk_skip cs al data vaddr processed chunk_size fuel st cp hc hz]
        exact ih _ _ (hskip st cp hP hc hz)
      · cases hg : grow_buffer al
            (st.log ((processed + cp) % 4294967296) (min (chunk_size - cp) 0x400))
            (decode_call cs data vaddr processed chunk_size cp).length with
        | none =>
          rw [decode_chunk_stop cs al data vaddr processed chunk_size fuel st cp hc hz hg]
          refine ⟨?_, ?_, ?_⟩
          · intro _ h; cases h
          · intro st2 h
            cases h
            exact hstop st cp hP hc hz hg
          · intro _ h; cases h
        | some r =>
          obtain ⟨st1, c1⟩ := r
          rw [decode_chunk_step cs al data vaddr processed chunk_size fuel st st1 cp c1 hc hz hg]
          exact ih _ _ (hcopy st cp st1 c1 hP hc hz hg)
    · rw [decode_chunk_done cs al data vaddr processed chunk_size fuel st cp hc]
      refine ⟨?_, ?_, ?_⟩
      · intro st2 h
        cases h
        exact ⟨cp, by omega, hP⟩
      · intro _ h; cases h
      · intro _ h; cases h

theorem grow_buffer_some (al : allocator) (st st1 : decode_state) (count c1 : Nat)
    (hsmall : st.instructions.length + count < 4294967296)
    (h : grow_buffer al st count = some (st1, c1)) :
    st1.instructions = st.instructions ∧ st1.calls = st.calls ∧ st1.copies = st.copies ∧
    c1 ≤ count ∧
    ((st1.instruction_capacity = st.instruction_capacity ∧
        st.instructions.length + c1 ≤ st.instruction_capacity) ∨
      (st1.instruction_capacity = new_capacity st.instruction_capacity ∧
        st.instruction_capacity < new_capacity st.instruction_capacity ∧ c1 = count ∧
        al.realloc_ok st.n_realloc = true)) := by
  have hlim : ∀ c, limit_to_available st.instruction_capacity st.instructions.length count
      = some c → c ≤ count ∧ st.instructions.length + c ≤ st.instruction_capacity := by
    intro c hc
    unfold limit_to_available at hc
    simp only at hc
    split_ifs at hc with h1 h2
    · have := Option.some.inj hc
      omega
    · have := Option.some.inj hc
      omega
  unfold grow_buffer at h
  rw [Nat.mod_eq_of_lt hsmall] at h
  split_ifs at h with h1 h2 h3
  · cases h
    exact ⟨rfl, rfl, rfl, le_refl _, Or.inr ⟨rfl, h2, rfl, h3⟩⟩
  · obtain ⟨c, hc, he⟩ := Option.map_eq_some'.mp h
    cases he
    obtain ⟨e1, e2⟩ := hlim _ hc
    exact ⟨rfl, rfl, rfl, e1, Or.inl ⟨rfl, e2⟩⟩
  · obtain ⟨c, hc, he⟩ := Option.map_eq_some'.mp h
    cases he
    obtain ⟨e1, e2⟩ := hlim _ hc
    exact ⟨rfl, rfl, rfl, e1, Or.inl ⟨rfl, e2⟩⟩
  · cases h
    exact ⟨rfl, rfl, rfl, le_refl _, Or.inl ⟨rfl, by omega⟩⟩

theorem decode_call_le (cs : capstone) (hle : decodes_at_most_words cs) (data : List Nat)
    (vaddr processed chunk_size cp : Nat) :
    (decode_call cs data vaddr processed chunk_size cp).length ≤ 256 ∧
    4 * (decode_call cs data vaddr processed chunk_size cp).length ≤ chunk_size - cp := by
  have := hle (data.drop ((processed + cp) % 4294967296)) (min (chunk_size - cp) 0x400)
    ((vaddr + (processed + cp) % 4294967296) % 4294967296)
  unfold decode_call
  omega

theorem copy_length (st : decode_state) (insn : List cs_insn) (c : Nat) (hc : c ≤ insn.length) :
    (st.copy insn c).instructions.length = st.instructions.length + c := by
  unfold decode_state.copy
  simp [List.length_take, Nat.min_eq_left hc]

theorem copy_fields (st : decode_state) (insn : List cs_insn) (c : Nat) :
    (st.copy insn c).instruction_capacity = st.instruction_capacity ∧
    (st.copy insn c).calls = st.calls ∧
    (st.copy insn c).copies = st.copies ++
      [{ current_offset := (st.calls.getLast?.getD (0, 0)).1
         sub_chunk_size := (st.calls.getLast?.getD (0, 0)).2
         instruction_count := st.instructions.length
         count := c
         instruction_capacity := st.instruction_capacity }] := ⟨rfl, rfl, rfl⟩

theorem new_capacity_doubled (c : Nat) (h : capacity_doubled c) (hgt : c < new_capacity c) :
    new_capacity c = 2 * c ∧ capacity_doubled (new_capacity c) := by
  unfold capacity_doubled at h ⊢
  unfold new_capacity at hgt ⊢
  rcases h with h | h | h | h | h | h | h <;> subst h <;> norm_num at hgt ⊢

theorem buffer_doubled_copy (al : allocator) (st st1 : decode_state) (insn : List cs_insn)
    (c1 : Nat) (h : buffer_doubled st) (h1 : 1 ≤ insn.length) (h2 : insn.length ≤ 256)
    (hg : grow_buffer al st insn.length = some (st1, c1)) :
    buffer_doubled (st1.copy insn c1) := by
  obtain ⟨hc, hle, hcp⟩ := h
  have hcap : st.instruction_capacity ≤ 0x40000 := by
    rcases hc with h | h | h | h | h | h | h <;> omega
  have hcap2 : 4096 ≤ st.instruction_capacity := by
    rcases hc with h | h | h | h | h | h | h <;> omega
  obtain ⟨e1, _, e3, e4, e5⟩ := grow_buffer_some al st st1 insn.length c1 (by omega) hg
  obtain ⟨f1, _, f3⟩ := copy_fields st1 insn c1
  have hlen := copy_length st1 insn c1 e4
  have hfit : capacity_doubled st1.instruction_capacity ∧
      st1.instructions.length + c1 ≤ st1.instruction_capacity := by
    rcases e5 with ⟨e5, e6⟩ | ⟨e5, e6, e7, _⟩
    · rw [e5, e1]; exact ⟨hc, e6⟩
    · obtain ⟨g1, g2⟩ := new_capacity_doubled _ hc e6
      rw [e5, e1]
      refine ⟨g2, ?_⟩
      omega
  refine ⟨by rw [f1]; exact hfit.1, by rw [hlen, f1]; exact hfit.2, ?_⟩
  intro b hb
  rw [f3, e3] at hb
  rcases List.mem_append.mp hb with hb | hb
  · exact hcp b hb
  · rw [List.mem_singleton] at hb
    subst hb
    exact ⟨hfit.2, hfit.1⟩

theorem decode_chunk_doubled (cs : capstone) (al : allocator) (data : List Nat)
    (vaddr processed chunk_size : Nat) (hle : decodes_at_most_words cs) (fuel : Nat)
    (st : decode_state) (cp : Nat) (h : buffer_doubled st) :
    (∀ st2 b, decode_chunk cs al data vaddr processed chunk_size fuel st cp = .ok (st2, b) →
      buffer_doubled st2) ∧
    (∀ e, decode_chunk cs al data vaddr processed chunk_size fuel st cp = .error e →
      ∃ st2, e = halt.out_of_fuel st2 ∧ buffer_doubled st2) := by
  have hinv := decode_chunk_invariant cs al data vaddr processed chunk_size
    (fun st _ => buffer_doubled st) buffer_doubled
    (fun st cp hP _ _ => hP) (fun st cp hP _ _ _ => hP)
    (fun st cp st1 c1 hP _ hz hg =>
      buffer_doubled_copy al
        (st.log ((processed + cp) % 4294967296) (min (chunk_size - cp) 0x400)) st1 _ c1 hP
        (by omega)
        (decode_call_le cs hle data vaddr processed chunk_size cp).1 hg)
    fuel st cp h
  refine ⟨?_, ?_⟩
  · intro st2 b hr
    cases b
    · obtain ⟨_, _, hp⟩ := hinv.1 st2 hr
      exact hp
    · exact hinv.2.1 st2 hr
  · intro e hr
    obtain ⟨st2, _, he, hp⟩ := hinv.2.2 e hr
    exact ⟨st2, he, hp⟩

theorem decode_chunks_doubled (cs : capstone) (al : allocator) (data : List Nat)
    (vaddr inner : Nat) (hle : decodes_at_most_words cs) (fuel : Nat) :
    ∀ (st : decode_state) (remaining processed : Nat), buffer_doubled st →
      (∀ st2, decode_chunks cs al data vaddr inner fuel st remaining processed = .ok st2 →
        buffer_doubled st2) ∧
      (∀ e, decode_chunks cs al data vaddr inner fuel st remaining processed = .error e →
        ∃ st2, e = halt.out_of_fuel st2 ∧ buffer_doubled st2) := by
  induction fuel with
  | zero =>
    intro st remaining processed h
    have e : decode_chunks cs al data vaddr inner 0 st remaining processed
        = .error (halt.out_of_fuel st) := rfl
    rw [e]
    refine ⟨?_, ?_⟩
    · intro _ hr; cases hr
    · intro e2 hr
      cases hr
      exact ⟨st, rfl, h⟩
  | succ fuel ih =>
    intro st remaining processed h
    by_cases hr : remaining > 0
    · obtain ⟨hok, herr⟩ := decode_chunk_doubled cs al data vaddr processed
        (min remaining 0x8000) hle inner st 0 h
      cases hc : decode_chunk cs al data vaddr processed (min remaining 0x8000) inner st 0 with
      | error e =>
        have e1 : decode_chunks cs al data vaddr inner (fuel + 1) st remaining processed
            = .error e := by
          unfold decode_chunks
          simp only [hr, if_true, hc]
        rw [e1]
        refine ⟨?_, ?_⟩
        · intro _ h2; cases h2
        · intro e2 h2
          cases h2
          exact herr e hc
      | ok r =>
        obtain ⟨st1, stopped⟩ := r
        rw [decode_chunks_step cs al data vaddr inner fuel st st1 remaining processed stopped hr hc]
        exact ih _ _ _ (hok st1 stopped hc)
    · have e0 : remaining = 0 := by omega
      subst e0
      rw [decode_chunks_done]
      refine ⟨?_, ?_⟩
      · intro st2 h2; cases h2; exact h
      · intro _ h2; cases h2

theorem grow_buffer_fits (al : allocator) (st : decode_state) (count : Nat)
    (h : st.instructions.length + count ≤ st.instruction_capacity)
    (hsmall : st.instructions.length + count < 4294967296) :
    grow_buffer al st count = some (st, count) := by
  unfold grow_buffer
  rw [Nat.mod_eq_of_lt hsmall, if_neg (by omega)]

theorem decode_chunk_initial (cs : capstone) (al : allocator) (data : List Nat)
    (vaddr length c0 : Nat) (hle : decodes_at_most_words cs) (hc0 : length / 4 < c0)
    (hL : length < 0x8000) (fuel : Nat) (st : decode_state) (cp : Nat)
    (h : buffer_initial c0 length st cp) :
    (∀ st2 b, decode_chunk cs al data vaddr 0 length fuel st cp = .ok (st2, b) →
      b = false ∧ ∃ cp2, buffer_initial c0 length st2 cp2) ∧
    (∀ e, decode_chunk cs al data vaddr 0 length fuel st cp = .error e →
      ∃ st2 cp2, e = halt.out_of_fuel st2 ∧ buffer_initial c0 length st2 cp2) := by
  have hfit : ∀ (st : decode_state) (cp : Nat), buffer_initial c0 length st cp → cp < length →
      grow_buffer al (st.log ((0 + cp) % 4294967296) (min (length - cp) 0x400))
        (decode_call cs data vaddr 0 length cp).length =
      some (st.log ((0 + cp) % 4294967296) (min (length - cp) 0x400),
        (decode_call cs data vaddr 0 length cp).length) := by
    intro st cp hP hc
    obtain ⟨h1, h2, h3, _⟩ := hP
    have hd := (decode_call_le cs hle data vaddr 0 length cp).2
    apply grow_buffer_fits
    · show st.instructions.length + _ ≤ st.instruction_capacity
      omega
    · show st.instructions.length + _ < 4294967296
      omega
  have hinv := decode_chunk_invariant cs al data vaddr 0 length
    (fun st cp => buffer_initial c0 length st cp) (fun _ => False)
    (fun st cp hP hc _ => ?_) (fun st cp hP hc _ hg => ?_)
    (fun st cp st1 c1 hP hc hz hg => ?_) fuel st cp h
  · refine ⟨?_, ?_⟩
    · intro st2 b hr
      cases b
      · obtain ⟨cp2, _, hp⟩ := hinv.1 st2 hr
        exact ⟨rfl, cp2, hp⟩
      · exact (hinv.2.1 st2 hr).elim
    · exact hinv.2.2
  · obtain ⟨h1, h2, h3, h4⟩ := hP
    exact ⟨h1, by show 4 * st.instructions.length ≤ _; omega, h3, h4⟩
  · rw [hfit st cp hP hc] at hg
    cases hg
  · rw [hfit st cp hP hc] at hg
    obtain ⟨rfl, rfl⟩ := Prod.mk.inj (Option.some.inj hg)
    obtain ⟨h1, h2, h3, h4⟩ := hP
    have hd := (decode_call_le cs hle data vaddr 0 length cp).2
    have hlen := copy_length (st.log ((0 + cp) % 4294967296) (min (length - cp) 0x400))
      (decode_call cs data vaddr 0 length cp) _ (le_refl _)
    obtain ⟨f1, _, f3⟩ := copy_fields (st.log ((0 + cp) % 4294967296) (min (length - cp) 0x400))
      (decode_call cs data vaddr 0 length cp) (decode_call cs data vaddr 0 length cp).length
    have hl0 : (st.log ((0 + cp) % 4294967296) (min (length - cp) 0x400)).instructions.length
        = st.instructions.length := rfl
    refine ⟨by rw [f1]; exact h1, by rw [hlen, hl0]; omega, by rw [hlen, hl0]; omega, ?_⟩
    intro b hb
    rw [f3] at hb
    rcases List.mem_append.mp hb with hb | hb
    · exact h4 b hb
    · rw [List.mem_singleton] at hb
      subst hb
      refine ⟨?_, h1⟩
      show st.instructions.length + (decode_call cs data vaddr 0 length cp).length
        ≤ st.instruction_capacity
      omega

theorem capacity_doubled_pow (c : Nat) (h : capacity_doubled c) :
    c ≤ 0x40000 ∧ ∃ j, c = 4096 * 2 ^ j := by
  rcases h with h | h | h | h | h | h | h <;> subst h
  · exact ⟨by norm_num, 0, by norm_num⟩
  · exact ⟨by norm_num, 1, by norm_num⟩
  · exact ⟨by norm_num, 2, by norm_num⟩
  · exact ⟨by norm_num, 3, by norm_num⟩
  · exact ⟨by norm_num, 4, by norm_num⟩
  · exact ⟨by norm_num, 5, by norm_num⟩
  · exact ⟨by norm_num, 6, by norm_num⟩

theorem initial_capacity_eq (length : Nat) :
    initial_capacity length = min (length / 4 + 256) 4096 := by
  unfold initial_capacity
  simp only
  rw [if_neg (by omega)]

theorem buffer_doubled_within (length : Nat) (st : decode_state) (h : buffer_doubled st)
    (hc : initial_capacity length = 4096) : buffer_within length st := by
  obtain ⟨h1, h2, h3⟩ := h
  obtain ⟨e1, e2⟩ := capacity_doubled_pow _ h1
  rw [buffer_within, hc]
  refine ⟨h2, e1, e2, ?_⟩
  intro b hb
  obtain ⟨f1, f2⟩ := h3 b hb
  obtain ⟨g1, g2⟩ := capacity_doubled_pow _ f2
  exact ⟨f1, g1, g2⟩

theorem buffer_initial_within (length : Nat) (st : decode_state) (cp : Nat)
    (hc : initial_capacity length = length / 4 + 256) (hlt : length / 4 + 256 < 4096)
    (h : buffer_initial (length / 4 + 256) length st cp) : buffer_within length st := by
  obtain ⟨h1, h2, h3, h4⟩ := h
  rw [buffer_within, hc]
  refine ⟨by omega, by omega, ⟨0, by rw [h1]; norm_num⟩, ?_⟩
  intro b hb
  obtain ⟨f1, f2⟩ := h4 b hb
  exact ⟨f1, by omega, 0, by rw [f2]; norm_num⟩

theorem decode_block_eq (cs : capstone) (al : allocator) (fuel : Nat) (data : List Nat)
    (length vaddr : Nat) :
    decode_block cs al fuel data length vaddr =
      if al.calloc_ok = true then
        decode_chunks cs al data vaddr fuel fuel (decode_start (initial_capacity length)) length 0
      else .error halt.exit_failure := rfl

theorem decode_block_buffer (cs : capstone) (al : allocator) (fuel : Nat) (data : List Nat)
    (length vaddr : Nat) (hle : decodes_at_most_words cs) :
    (∀ st, decode_block cs al fuel data length vaddr = .ok st → buffer_within length st) ∧
    (∀ st, decode_block cs al fuel data length vaddr = .error (halt.out_of_fuel st) →
      buffer_within length st) := by
  have hic := initial_capacity_eq length
  rw [decode_block_eq]
  by_cases hal : al.calloc_ok = true
  · rw [if_pos hal]
    by_cases hbig : 4096 ≤ length / 4 + 256
    · have hc : initial_capacity length = 4096 := by rw [hic]; omega
      rw [hc]
      have h0 : buffer_doubled (decode_start 4096) := by
        refine ⟨Or.inl rfl, by simp [decode_start], ?_⟩
        intro b hb
        cases hb
      obtain ⟨hok, herr⟩ := decode_chunks_doubled cs al data vaddr fuel hle fuel _ length 0 h0
      refine ⟨fun st h => buffer_doubled_within length st (hok st h) hc, ?_⟩
      intro st h
      obtain ⟨st2, he, hp⟩ := herr _ h
      cases he
      exact buffer_doubled_within length st hp hc
    · have hc : initial_capacity length = length / 4 + 256 := by rw [hic]; omega
      rw [hc]
      have h0 : buffer_initial (length / 4 + 256) length (decode_start (length / 4 + 256)) 0 := by
        refine ⟨rfl, by simp [decode_start], by simp [decode_start], ?_⟩
        intro b hb
        cases hb
      have hfin : ∀ (f : Nat) (st1 : decode_state) (p cp2 : Nat),
          buffer_initial (length / 4 + 256) length st1 cp2 →
          (∀ st, decode_chunks cs al data vaddr (fuel) f st1 0 p = .ok st →
            buffer_within length st) ∧
          (∀ st, decode_chunks cs al data vaddr (fuel) f st1 0 p = .error (halt.out_of_fuel st) →
            buffer_within length st) := by
        intro f st1 p cp2 hp
        have hw := buffer_initial_within length _ cp2 hc (by omega) hp
        cases f with
        | zero =>
          refine ⟨?_, ?_⟩
          · intro st h; cases h
          · intro st h
            have : st1 = st := halt.out_of_fuel.inj (Except.error.inj h)
            subst this
            exact hw
        | succ f =>
          rw [decode_chunks_done]
          refine ⟨?_, ?_⟩
          · intro st h; cases h; exact hw
          · intro st h; cases h
      cases hf : fuel with
      | zero =>
        exact hfin 0 _ 0 0 h0 |>.imp (fun h => by rw [hf] at h; exact h)
          (fun h => by rw [hf] at h; exact h)
      | succ f =>
        by_cases hr : length > 0
        · have hm : min length 0x8000 = length := by omega
          obtain ⟨hok, herr⟩ := decode_chunk_initial cs al data vaddr length (length / 4 + 256)
            hle (by omega) (by omega) (f + 1) _ 0 h0
          cases hd : decode_chunk cs al data vaddr 0 (min length 0x8000) (f + 1)
              (decode_start (length / 4 + 256)) 0 with
          | error e =>
            have e1 : decode_chunks cs al data vaddr (f + 1) (f + 1)
                (decode_start (length / 4 + 256)) length 0 = .error e := by
              unfold decode_chunks
              simp only [hr, if_true, hd]
            rw [e1]
            rw [hm] at hd
            obtain ⟨st2, cp2, he, hp⟩ := herr e hd
            refine ⟨?_, ?_⟩
            · intro st h; cases h
            · intro st h
              rw [he] at h
              have : st2 = st := halt.out_of_fuel.inj (Except.error.inj h)
              subst this
              exact buffer_initial_within length _ cp2 hc (by omega) hp
          | ok r =>
            obtain ⟨st1, stopped⟩ := r
            rw [decode_chunks_step cs al data vaddr (f + 1) f _ st1 length 0 stopped hr hd]
            rw [hm] at hd
            obtain ⟨hs, cp2, hp⟩ := hok st1 stopped hd
            subst hs
            have e0 : ((if false = true then 0 else length) + 4294967296 - min length 0x8000)
                % 4294967296 = 0 := by
              rw [if_neg (by decide), hm]
              omega
            rw [e0]
            have := hfin f st1 ((0 + min length 0x8000) % 4294967296) cp2 hp
            rw [hf] at this
            exact this
        · have e0 : length = 0 := by omega
          subst e0
          rw [decode_chunks_done]
          refine ⟨?_, ?_⟩
          · intro st h
            cases h
            exact buffer_initial_within 0 _ 0 hc (by omega) h0
          · intro st h; cases h
  · rw [if_neg hal]
    refine ⟨?_, ?_⟩
    · intro st h; cases h
    · intro st h; cases h

/-- C29 (instruction buffer capacity invariant): for a decoder that returns at
most `code_size / 4` instructions per call and any allocator, in every state
the decode loops of `disassemble_block` end or are observed in (after any
number of iterations), the initial capacity is `min(length/4 + 256, 4096)`
(the clamp to 16384 does not fire), `instruction_count <= instruction_capacity`,
the capacity is the initial one times a power of two and at most `0x40000`,
and every run of the copy loop had `instruction_count + count` within the
capacity it ran with, itself of that form. -/
theorem decode_buffer_invariant (cs : capstone) (al : allocator) (fuel : Nat) (data : List Nat)
    (length vaddr : Nat) (hle : decodes_at_most_words cs) (st : decode_state)
    (h : decode_block cs al fuel data length vaddr = .ok st ∨
      decode_block cs al fuel data length vaddr = .error (halt.out_of_fuel st)) :
    initial_capacity length = min (length / 4 + 256) 4096 ∧
    st.instructions.length ≤ st.instruction_capacity ∧
    st.instruction_capacity ≤ 0x40000 ∧
    (∃ j, st.instruction_capacity = initial_capacity length * 2 ^ j) ∧
    ∀ b ∈ st.copies, b.instruction_count + b.count ≤ b.instruction_capacity ∧
      b.instruction_capacity ≤ 0x40000 ∧
      ∃ j, b.instruction_capacity = initial_capacity length * 2 ^ j := by
  obtain ⟨hok, herr⟩ := decode_block_buffer cs al fuel data length vaddr hle
  have hw : buffer_within length st := by
    rcases h with h | h
    · exact hok st h
    · exact herr st h
  exact ⟨initial_capacity_eq length, hw⟩

theorem table_decoder_words (base : Nat) (prog : List cs_insn) :
    decodes_at_most_words (table_decoder base prog) := by
  intro code size addr
  simp only [table_decoder, List.length_take]
  omega

/-- C29 on the sample program: 4 instructions copied at once into a buffer of
260. -/
theorem decode_buffer_invariant_witness :
    initial_capacity 16 = min (16 / 4 + 256) 4096 ∧
    sample_decoded.instructions.length ≤ sample_decoded.instruction_capacity ∧
    ∀ b ∈ sample_decoded.copies, b.instruction_count + b.count ≤ b.instruction_capacity ∧
      b.instruction_capacity ≤ 0x40000 ∧
      ∃ j, b.instruction_capacity = initial_capacity 16 * 2 ^ j :=
  ⟨(decode_buffer_invariant (table_decoder 0x80000000 sample_prog) alloc_always 4
      (List.replicate 16 0) 16 0x80000000 (table_decoder_words _ _) sample_decoded
      (Or.inl rfl)).1,
   (decode_buffer_invariant (table_decoder 0x80000000 sample_prog) alloc_always 4
      (List.replicate 16 0) 16 0x80000000 (table_decoder_words _ _) sample_decoded
      (Or.inl rfl)).2.1,
   (decode_buffer_invariant (table_decoder 0x80000000 sample_prog) alloc_always 4
      (List.replicate 16 0) 16 0x80000000 (table_decoder_words _ _) sample_decoded
      (Or.inl rfl)).2.2.2.2⟩

/-! ## The decode loop: where each instruction was decoded -/

theorem grow_buffer_exact (al : allocator) (hal : ∀ n, al.realloc_ok n = true)
    (st st1 : decode_state) (count c1 : Nat)
    (hcap : 0 < st.instruction_capacity) (hcap2 : st.instruction_capacity ≤ 0x40000)
    (hroom : st.instructions.length + count ≤ 0x40000)
    (h : grow_buffer al st count = some (st1, c1)) :
    c1 = count ∧ st1.instructions = st.instructions ∧ st1.calls = st.calls ∧
    st1.copies = st.copies ∧ 0 < st1.instruction_capacity ∧
    st1.instruction_capacity ≤ 0x40000 := by
  obtain ⟨e1, e2, e3, e4, e5⟩ := grow_buffer_some al st st1 count c1 (by omega) h
  have hnew : new_capacity st.instruction_capacity ≤ 0x40000 := by
    unfold new_capacity
    split_ifs <;> omega
  have hc1 : c1 = count := by
    rcases e5 with ⟨_, _⟩ | ⟨_, _, e7, _⟩
    · unfold grow_buffer at h
      rw [Nat.mod_eq_of_lt (by omega)] at h
      split_ifs at h with h1 h2 h3
      · cases h; rfl
      · exact absurd (hal _) h3
      · exfalso
        unfold new_capacity at h2
        split_ifs at h2 <;> omega
      · cases h; rfl
    · exact e7
  refine ⟨hc1, e1, e2, e3, ?_, ?_⟩
  · rcases e5 with ⟨e5, _⟩ | ⟨e5, e6, _, _⟩ <;> omega
  · rcases e5 with ⟨e5, _⟩ | ⟨e5, e6, _, _⟩ <;> omega

theorem grow_buffer_not_none (al : allocator) (hal : ∀ n, al.realloc_ok n = true)
    (st : decode_state) (count : Nat)
    (hcap : 0 < st.instruction_capacity) (hcap2 : st.instruction_capacity ≤ 0x40000)
    (hroom : st.instructions.length + count ≤ 0x40000) :
    grow_buffer al st count ≠ none := by
  unfold grow_buffer
  rw [Nat.mod_eq_of_lt (by omega)]
  split_ifs with h1 h2 h3
  · simp
  · exact absurd (hal _) h3
  · exfalso
    unfold new_capacity at h2
    split_ifs at h2 <;> omega
  · simp

theorem insn_at_append_left (a b : List disasm_data) (k : Nat) (h : k < a.length) :
    insn_at (a ++ b) k = insn_at a k := by
  unfold insn_at
  rw [List.getD_eq_getElem?_getD, List.getD_eq_getElem?_getD, List.getElem?_append_left h]

theorem insn_at_append_copy (a : List disasm_data) (batch : List cs_insn) (c k : Nat)
    (hc : c ≤ batch.length) (h1 : a.length ≤ k) (h2 : k < a.length + c) :
    ∃ ci, batch[k - a.length]? = some ci ∧
      insn_at (a ++ (batch.take c).map copy_insn) k = copy_insn ci := by
  have hk : k - a.length < batch.length := by omega
  refine ⟨batch[k - a.length], List.getElem?_eq_getElem hk, ?_⟩
  unfold insn_at
  rw [List.getD_eq_getElem?_getD, List.getElem?_append_right h1, List.getElem?_map,
    List.getElem?_take_of_lt (by omega), List.getElem?_eq_getElem hk]
  rfl

theorem positions_ok_copy (cs : capstone) (data : List Nat) (vaddr : Nat)
    (st st1 : decode_state) (off size c : Nat) (h : positions_ok cs data vaddr st)
    (hi : st1.instructions = st.instructions) (hcp : st1.copies = st.copies)
    (hcalls : st1.calls = st.calls ++ [(off, size)])
    (hoff : off = 4 * st.instructions.length)
    (hc : c ≤ (cs.cs_disasm (data.drop off) size ((vaddr + off) % 4294967296)).length) :
    positions_ok cs data vaddr
      (st1.copy (cs.cs_disasm (data.drop off) size ((vaddr + off) % 4294967296)) c) := by
  obtain ⟨h1, h2⟩ := h
  have hlast : st1.calls.getLast?.getD (0, 0) = (off, size) := by
    rw [hcalls, List.getLast?_concat]
    rfl
  have hcopies : (st1.copy (cs.cs_disasm (data.drop off) size ((vaddr + off) % 4294967296))
      c).copies = st.copies ++
        [batch_copy.mk off size st.instructions.length c st1.instruction_capacity] := by
    rw [(copy_fields _ _ _).2.2, hlast, hcp, hi]
  have hins : (st1.copy (cs.cs_disasm (data.drop off) size ((vaddr + off) % 4294967296))
      c).instructions = st.instructions ++
        ((cs.cs_disasm (data.drop off) size ((vaddr + off) % 4294967296)).take c).map
          copy_insn := by
    unfold decode_state.copy
    simp only
    rw [hi]
  constructor
  · intro b hb
    rw [hcopies] at hb
    rcases List.mem_append.mp hb with hb | hb
    · exact h1 b hb
    · rw [List.mem_singleton] at hb
      subst hb
      exact hoff
  · intro k hk
    rw [hins] at hk ⊢
    rw [hcopies]
    by_cases hlt : k < st.instructions.length
    · obtain ⟨b, hb, ci, e1, e2, e3⟩ := h2 k hlt
      exact ⟨b, List.mem_append_left _ hb, ci, e1, e2, by rw [insn_at_append_left _ _ _ hlt, e3]⟩
    · simp only [List.length_append, List.length_map, List.length_take] at hk
      obtain ⟨ci, f1, f2⟩ := insn_at_append_copy st.instructions
        (cs.cs_disasm (data.drop off) size ((vaddr + off) % 4294967296)) c k hc (by omega)
        (by omega)
      refine ⟨_, List.mem_append_right _ (List.mem_singleton.mpr rfl), ci, ?_, f1, f2⟩
      show st.instructions.length ≤ k
      omega

theorem decode_chunk_positions (cs : capstone) (al : allocator) (data : List Nat)
    (vaddr processed chunk_size length : Nat) (hdec : decodes_some_word cs)
    (hle : decodes_at_most_words cs) (hal : ∀ n, al.realloc_ok n = true)
    (hp4 : processed % 4 = 0) (hin : processed + chunk_size ≤ length)
    (hL : length ≤ 0x100003) (fuel : Nat) (st : decode_state) (cp : Nat)
    (h : chunk_positions cs data vaddr processed chunk_size st cp) :
    (∀ st2 b, decode_chunk cs al data vaddr processed chunk_size fuel st cp = .ok (st2, b) →
      b = false ∧ ∃ cp2, chunk_size ≤ cp2 ∧
        chunk_positions cs data vaddr processed chunk_size st2 cp2) ∧
    (∀ e, decode_chunk cs al data vaddr processed chunk_size fuel st cp = .error e →
      ∃ st2, e = halt.out_of_fuel st2 ∧ positions_ok cs data vaddr st2) := by
  have hroom : ∀ (st : decode_state) (cp : Nat),
      chunk_positions cs data vaddr processed chunk_size st cp → cp < chunk_size →
      4 * st.instructions.length = processed + cp ∧
      st.instructions.length + (decode_call cs data vaddr processed chunk_size cp).length
        ≤ 0x40000 ∧
      cp + (decode_call cs data vaddr processed chunk_size cp).length * 4 ≤ chunk_size := by
    intro st cp hP hc
    obtain ⟨_, _, _, hpos⟩ := hP
    have hd := (decode_call_le cs hle data vaddr processed chunk_size cp).2
    rcases hpos with ⟨e1, _⟩ | ⟨e1, _⟩
    · exact ⟨e1, by omega, by omega⟩
    · omega
  have hinv := decode_chunk_invariant cs al data vaddr processed chunk_size
    (fun st cp => chunk_positions cs data vaddr processed chunk_size st cp) (fun _ => False)
    (fun st cp hP hc hz => ?_) (fun st cp hP hc hz hg => ?_)
    (fun st cp st1 c1 hP hc hz hg => ?_) fuel st cp h
  · refine ⟨?_, ?_⟩
    · intro st2 b hr
      cases b
      · obtain ⟨cp2, e1, hp⟩ := hinv.1 st2 hr
        exact ⟨rfl, cp2, e1, hp⟩
      · exact (hinv.2.1 st2 hr).elim
    · intro e hr
      obtain ⟨st2, _, he, hp⟩ := hinv.2.2 e hr
      exact ⟨st2, he, hp.1⟩
  · -- a decode call without a result: fewer than four bytes were left
    obtain ⟨e1, _, _⟩ := hroom st cp hP hc
    obtain ⟨h1, h2, h3, _⟩ := hP
    have hsz : min (chunk_size - cp) 0x400 < 4 := by
      by_contra hge
      have := hdec (data.drop ((processed + cp) % 4294967296)) (min (chunk_size - cp) 0x400)
        ((vaddr + (processed + cp) % 4294967296) % 4294967296) (by omega)
      unfold decode_call at hz
      omega
    refine ⟨h1, h2, h3, Or.inr ⟨?_, ?_⟩⟩
    · omega
    · omega
  · obtain ⟨_, e2, _⟩ := hroom st cp hP hc
    obtain ⟨_, h2, h3, _⟩ := hP
    exact grow_buffer_not_none al hal
      (st.log ((processed + cp) % 4294967296) (min (chunk_size - cp) 0x400)) _ h2 h3 e2 hg
  · obtain ⟨e1, e2, e3⟩ := hroom st cp hP hc
    obtain ⟨h1, h2, h3, _⟩ := hP
    obtain ⟨f1, f2, f3, f4, f5, f6⟩ := grow_buffer_exact al hal
      (st.log ((processed + cp) % 4294967296) (min (chunk_size - cp) 0x400)) st1 _ c1 h2 h3 e2 hg
    subst f1
    have hoff : (processed + cp) % 4294967296 = 4 * st.instructions.length := by omega
    have hpos := positions_ok_copy cs data vaddr st st1 ((processed + cp) % 4294967296)
      (min (chunk_size - cp) 0x400) (decode_call cs data vaddr processed chunk_size cp).length
      h1 f2 f4 f3 hoff (le_refl _)
    have hlen := copy_length st1 (decode_call cs data vaddr processed chunk_size cp) _ (le_refl _)
    refine ⟨hpos, ?_, ?_, Or.inl ⟨?_, ?_⟩⟩
    · rw [(copy_fields _ _ _).1]; exact f5
    · rw [(copy_fields _ _ _).1]; exact f6
    · rw [hlen, f2]
      show 4 * (st.instructions.length + _) = _
      omega
    · omega

theorem decode_chunks_positions (cs : capstone) (al : allocator) (data : List Nat)
    (vaddr inner length : Nat) (hdec : decodes_some_word cs)
    (hle : decodes_at_most_words cs) (hal : ∀ n, al.realloc_ok n = true)
    (hL : length ≤ 0x100003) (fuel : Nat) :
    ∀ (st : decode_state) (remaining processed : Nat),
      range_positions cs data vaddr length st remaining processed →
      (∀ st2, decode_chunks cs al data vaddr inner fuel st remaining processed = .ok st2 →
        positions_ok cs data vaddr st2) ∧
      (∀ e, decode_chunks cs al data vaddr inner fuel st remaining processed = .error e →
        ∃ st2, e = halt.out_of_fuel st2 ∧ positions_ok cs data vaddr st2) := by
  induction fuel with
  | zero =>
    intro st remaining processed h
    have e : decode_chunks cs al data vaddr inner 0 st remaining processed
        = .error (halt.out_of_fuel st) := rfl
    rw [e]
    refine ⟨?_, ?_⟩
    · intro _ hr; cases hr
    · intro e2 hr
      cases hr
      exact ⟨st, rfl, h.1⟩
  | succ fuel ih =>
    intro st remaining processed h
    by_cases hr : remaining > 0
    · obtain ⟨h1, h2, h3, h4⟩ := h
      have h5 : 4 * st.instructions.length = processed ∧ processed + remaining = length := by
        rcases h4 with h4 | h4
        · omega
        · exact h4
      obtain ⟨hok, herr⟩ := decode_chunk_positions cs al data vaddr processed
        (min remaining 0x8000) length hdec hle hal (by omega) (by omega) hL inner st 0
        ⟨h1, h2, h3, Or.inl ⟨by omega, by omega⟩⟩
      cases hc : decode_chunk cs al data vaddr processed (min remaining 0x8000) inner st 0 with
      | error e =>
        have e1 : decode_chunks cs al data vaddr inner (fuel + 1) st remaining processed
            = .error e := by
          unfold decode_chunks
          simp only [hr, if_true, hc]
        rw [e1]
        refine ⟨?_, ?_⟩
        · intro _ h2; cases h2
        · intro e2 h2
          cases h2
          exact herr e hc
      | ok r =>
        obtain ⟨st1, stopped⟩ := r
        rw [decode_chunks_step cs al data vaddr inner fuel st st1 remaining processed stopped hr hc]
        obtain ⟨hs, cp2, hcp, g1, g2, g3, g4⟩ := hok st1 stopped hc
        subst hs
        apply ih
        refine ⟨g1, g2, g3, ?_⟩
        rw [if_neg (by decide)]
        rcases g4 with ⟨g4, g5⟩ | ⟨_, g5⟩
        · right
          constructor <;> omega
        · left
          omega
    · have e0 : remaining = 0 := by omega
      subst e0
      rw [decode_chunks_done]
      refine ⟨?_, ?_⟩
      · intro st2 h2; cases h2; exact h.1
      · intro _ h2; cases h2

theorem decode_block_positions (cs : capstone) (al : allocator) (fuel : Nat) (data : List Nat)
    (length vaddr : Nat) (hdec : decodes_some_word cs) (hle : decodes_at_most_words cs)
    (hal : ∀ n, al.realloc_ok n = true) (hL : length ≤ 0x100003) :
    (∀ st, decode_block cs al fuel data length vaddr = .ok st → positions_ok cs data vaddr st) ∧
    (∀ st, decode_block cs al fuel data length vaddr = .error (halt.out_of_fuel st) →
      positions_ok cs data vaddr st) := by
  rw [decode_block_eq]
  by_cases hc : al.calloc_ok = true
  · rw [if_pos hc]
    have hic := initial_capacity_eq length
    have h0 : range_positions cs data vaddr length (decode_start (initial_capacity length))
        length 0 := by
      refine ⟨⟨?_, ?_⟩, ?_, ?_, Or.inr ⟨rfl, by omega⟩⟩
      · intro b hb; cases hb
      · intro k hk; simp [decode_start] at hk
      · show 0 < initial_capacity length
        omega
      · show initial_capacity length ≤ 0x40000
        omega
    obtain ⟨hok, herr⟩ := decode_chunks_positions cs al data vaddr fuel length hdec hle hal hL
      fuel _ length 0 h0
    refine ⟨hok, ?_⟩
    intro st h
    obtain ⟨st2, he, hp⟩ := herr _ h
    cases he
    exact hp
  · rw [if_neg hc]
    refine ⟨?_, ?_⟩
    · intro st h; cases h
    · intro st h; cases h

theorem emit_upto_position (cs : capstone) (fmt_g : Nat → String) (sx : asm_syntax)
    (g l : label_buf) (es : emit_state) (m : Nat) (ho : es.offset < 4294967296)
    (hv : es.vaddr < 4294967296) :
    (emit_upto cs fmt_g sx g l es m).offset = (es.offset + 4 * m) % 4294967296 ∧
    (emit_upto cs fmt_g sx g l es m).vaddr = (es.vaddr + 4 * m) % 4294967296 := by
  induction m with
  | zero =>
    have e : emit_upto cs fmt_g sx g l es 0 = es := rfl
    rw [e]
    constructor <;> omega
  | succ m ih =>
    rw [emit_upto_succ]
    have e1 : (emit_insn cs fmt_g sx g l (emit_upto cs fmt_g sx g l es m) m).offset =
        ((emit_upto cs fmt_g sx g l es m).offset + 4) % 4294967296 := rfl
    have e2 : (emit_insn cs fmt_g sx g l (emit_upto cs fmt_g sx g l es m) m).vaddr =
        ((emit_upto cs fmt_g sx g l es m).vaddr + 4) % 4294967296 := rfl
    rw [e1, e2, ih.1, ih.2]
    constructor <;> omega

theorem pass1_result_new_block (cs : capstone) (offset length vaddr : Nat)
    (state : disasm_state) (decoded : List disasm_data) :
    ((pass1_result cs offset length vaddr state decoded).block state.blocks.length).vaddr
      = vaddr ∧
    ((pass1_result cs offset length vaddr state decoded).block state.blocks.length).offset
      = offset := by
  simp [pass1_result, disasm_state.block, List.getD]

/-- C21 (instruction addresses advance by 4, amended): for a range of at most
`0x100003` bytes, a decoder that returns between one and `code_size / 4`
instructions whenever it is handed four bytes or more, and an allocator that
denies no `realloc`, the instruction at index `k` of the block Pass 1 returns
is the copy (up to the rewriting of Pass 1) of element `k - instruction_count`
of the batch of a recorded decode call, which was decoded at byte offset
`current_offset + 4 * (k - instruction_count) = 4 * k` of the range; Pass 2
reaches instruction `k` with the file offset `offset + 4 * k` and the address
`vaddr + 4 * k` (in 32 bits). -/
theorem pass1_positions (cs : capstone) (al : allocator) (fuel : Nat) (data : List Nat)
    (offset length vaddr : Nat) (state state2 : disasm_state) (k : Nat)
    (hdec : decodes_some_word cs) (hle : decodes_at_most_words cs)
    (hal : ∀ n, al.realloc_ok n = true) (hL : length ≤ 0x100003)
    (hoff : offset < 4294967296) (hva : vaddr < 4294967296)
    (h : mipsdisasm_pass1 cs al fuel data offset length vaddr state = .ok state2)
    (hk : k < (state2.block state.blocks.length).instructions.length) :
    ∃ st, decode_block cs al fuel (data.drop offset) length vaddr = .ok st ∧
      (∃ b ∈ st.copies, ∃ ci, b.instruction_count ≤ k ∧
        (cs.cs_disasm ((data.drop offset).drop b.current_offset) b.sub_chunk_size
          ((vaddr + b.current_offset) % 4294967296))[k - b.instruction_count]? = some ci ∧
        b.current_offset + 4 * (k - b.instruction_count) = 4 * k ∧
        same_decoded (copy_insn ci)
          (insn_at (state2.block state.blocks.length).instructions k)) ∧
      ∀ (fmt_g : Nat → String) (stack : String),
        (emit_upto cs fmt_g state2.syntax_ state2.globals
          (state2.block state.blocks.length).locals
          (emit_start stack state2 (state2.block state.blocks.length) offset) k).offset
          = (offset + 4 * k) % 4294967296 ∧
        (emit_upto cs fmt_g state2.syntax_ state2.globals
          (state2.block state.blocks.length).locals
          (emit_start stack state2 (state2.block state.blocks.length) offset) k).vaddr
          = (vaddr + 4 * k) % 4294967296 := by
  obtain ⟨st, hd, rfl⟩ := mipsdisasm_pass1_ok cs al fuel data offset length vaddr state state2 h
  have hb := (pass1_result_block cs offset length vaddr state st.instructions).1
  have hv := pass1_result_new_block cs offset length vaddr state st.instructions
  rw [hb, resolve_upto_length] at hk
  have hk2 : k < st.instructions.length := hk
  obtain ⟨hp1, hp2⟩ := (decode_block_positions cs al fuel (data.drop offset) length vaddr hdec hle
    hal hL).1 st hd
  obtain ⟨b, hbm, ci, e1, e2, e3⟩ := hp2 k hk2
  refine ⟨st, hd, ⟨b, hbm, ci, e1, e2, ?_, ?_⟩, ?_⟩
  · have := hp1 b hbm
    omega
  · rw [hb, ← e3]
    exact resolve_upto_same cs state.syntax_ state.merge_pseudo _ _ k
  · intro fmt_g stack
    have := emit_upto_position cs fmt_g
      (pass1_result cs offset length vaddr state st.instructions).syntax_
      (pass1_result cs offset length vaddr state st.instructions).globals
      ((pass1_result cs offset length vaddr state st.instructions).block
        state.blocks.length).locals
      (emit_start stack (pass1_result cs offset length vaddr state st.instructions)
        ((pass1_result cs offset length vaddr state st.instructions).block state.blocks.length)
        offset) k hoff (by show _ < 4294967296; rw [show (emit_start stack _ _ offset).vaddr
          = ((pass1_result cs offset length vaddr state st.instructions).block
              state.blocks.length).vaddr from rfl, hv.1]; exact hva)
    rw [show (emit_start stack (pass1_result cs offset length vaddr state st.instructions)
        ((pass1_result cs offset length vaddr state st.instructions).block state.blocks.length)
        offset).vaddr = ((pass1_result cs offset length vaddr state st.instructions).block
          state.blocks.length).vaddr from rfl, hv.1] at this
    exact this

theorem word_decoder_words (ci : cs_insn) :
    decodes_some_word (word_decoder ci) ∧ decodes_at_most_words (word_decoder ci) := by
  constructor
  · intro code size addr h
    simp only [word_decoder, List.length_replicate]
    omega
  · intro code size addr
    simp only [word_decoder, List.length_replicate]
    exact le_refl _

/-- Pass 1 over 8 bytes decoded as two `nop`, evaluated. -/
theorem sample_nops_pass1 :
    mipsdisasm_pass1 (word_decoder cs_nop) alloc_always 10 [] 0 8 0x80000000
      (disasm_state_init ASM_GAS true) = .ok sample_nops_after := rfl

/-- C21 with a decoder that returns one `nop` for every four bytes, over 8
bytes: instruction 1 was decoded at byte offset 4. -/
theorem pass1_positions_witness :
    ∃ st, decode_block (word_decoder cs_nop) alloc_always 10 ([].drop 0) 8 0x80000000 = .ok st ∧
      ∃ b ∈ st.copies, b.current_offset + 4 * (1 - b.instruction_count) = 4 * 1 := by
  obtain ⟨st, h1, ⟨b, hb, ci, _, _, h3, _⟩, _⟩ := pass1_positions (word_decoder cs_nop)
    alloc_always 10 [] 0 8 0x80000000 (disasm_state_init ASM_GAS true) sample_nops_after 1
    (word_decoder_words cs_nop).1 (word_decoder_words cs_nop).2 (fun _ => rfl) (by decide)
    (by decide) (by decide) sample_nops_pass1 (by decide)
  exact ⟨st, h1, b, hb, h3⟩

/-- C21 fails as stated: when the decode call at offset 0 of the 8 bytes
`nop; jr $ra` returns nothing, the loop skips 4 bytes and stores no
instruction for them; the `jr $ra` decoded at byte offset 4 becomes instruction
0 (the record of the copy has `current_offset = 4`, `instruction_count = 0`),
and Pass 2 writes it with the file offset `000000` and the address
`80000000`. -/
theorem pass1_gap_shifts_addresses :
    decode_block (gap_decoder 0x80000000 [cs_nop, cs_jr_ra]) alloc_always 10 [] 8 0x80000000
      = .ok sample_gap_decoded ∧
    sample_gap_decoded.copies = [batch_copy.mk 4 4 0 1 258] ∧
    mipsdisasm_pass1 (gap_decoder 0x80000000 [cs_nop, cs_jr_ra]) alloc_always 10 [] 0 8
      0x80000000 (disasm_state_init ASM_GAS true) = .ok sample_gap_after ∧
    ∃ state2, mipsdisasm_pass2 (gap_decoder 0x80000000 [cs_nop, cs_jr_ra]) fmt_g_none ""
      sample_gap_after 0 =
        .ok (["/* 000000 80000000 03E00008 */  ", "jr    ", "$r33", "\n"], state2) := by
  refine ⟨rfl, rfl, rfl, _, rfl⟩

/-! ## Hi/lo linking and the pseudo-op setting -/

/-- With pseudo-op handling off, the step for instruction `i` leaves it
unlinked, does not touch the link of any other instruction, and adds to the
global scope at most the `func_` label of a call target. -/
theorem disassemble_block_insn_unfused (cs : capstone) (sx : asm_syntax)
    (rs : resolve_state) (i : Nat) (hi : i < rs.insn.length) :
    (insn_at (disassemble_block_insn cs sx false rs i).insn i).linked_insn = -1 ∧
    (∀ j, j ≠ i → (insn_at (disassemble_block_insn cs sx false rs i).insn j).linked_insn
      = (insn_at rs.insn j).linked_insn) ∧
    ∀ l ∈ (disassemble_block_insn cs sx false rs i).globals.labels,
      l ∈ rs.globals.labels ∨ l.name = "func_" ++ fmt_08X l.vaddr := by
  obtain ⟨rs2, hstep, _, hself, hother, _⟩ := disassemble_block_insn_mid cs sx false rs i hi
  rw [if_neg (by simp)] at hstep
  refine ⟨?_, ?_, ?_⟩
  · rw [hstep, hself]
  · intro j hj
    rw [hstep, hother j hj]
    split_ifs <;> rfl
  · intro l hl
    have he := disassemble_block_insn_eq cs sx false rs.globals rs.locals rs.insn i
    rw [resolve_state_eta, if_neg (by simp)] at he
    rw [he] at hl
    by_cases hj : (insn_at (reset_link rs.insn i) i).is_jump = true
    · rw [if_pos hj] at hl
      unfold label_targets at hl
      simp only at hl
      split_ifs at hl
      · simp only [label_jal_target_eq] at hl
        rcases ensure_label_mem_inv _ _ _ _ hl with h | ⟨h, _⟩
        · exact Or.inl h
        · right; rw [h]
      · exact Or.inl hl
    · rw [if_neg hj] at hl
      exact Or.inl hl

/-- With pseudo-op handling off, after the steps for the instructions below
`m` each of them is unlinked, and the global scope holds the labels it had
and `func_` labels. -/
theorem resolve_upto_unfused (cs : capstone) (sx : asm_syntax) (rs : resolve_state) (m : Nat)
    (hm : m ≤ rs.insn.length) :
    (∀ j, j < m → (insn_at (resolve_upto cs sx false rs m).insn j).linked_insn = -1) ∧
    ∀ l ∈ (resolve_upto cs sx false rs m).globals.labels,
      l ∈ rs.globals.labels ∨ l.name = "func_" ++ fmt_08X l.vaddr := by
  induction m with
  | zero =>
    refine ⟨fun j hj => absurd hj (Nat.not_lt_zero _), fun l hl => Or.inl hl⟩
  | succ m ih =>
    obtain ⟨ih1, ih2⟩ := ih (by omega)
    obtain ⟨h1, h2, h3⟩ := disassemble_block_insn_unfused cs sx (resolve_upto cs sx false rs m) m
      (by rw [resolve_upto_length]; omega)
    rw [resolve_upto_succ]
    refine ⟨?_, ?_⟩
    · intro j hj
      by_cases hjm : j = m
      · rw [hjm]; exact h1
      · rw [h2 j hjm]; exact ih1 j (by omega)
    · intro l hl
      rcases h3 l hl with h | h
      · exact ih2 l h
      · exact Or.inr h

/-- Pass 1 over the pair with pseudo-op handling off, evaluated. -/
theorem sample_pair_unfused_pass1 :
    mipsdisasm_pass1 (table_decoder 0x80000000 [cs_lui_t0, cs_addiu_t0]) alloc_always 4
      (List.replicate 8 0) 0 8 0x80000000 (disasm_state_init ASM_GAS false)
      = .ok sample_pair_unfused := by
  rfl

/-- The decode part of Pass 1 over the pair, evaluated. -/
theorem sample_pair_decode_block :
    decode_block (table_decoder 0x80000000 [cs_lui_t0, cs_addiu_t0]) alloc_always 4
      ((List.replicate 8 0).drop 0) 8 0x80000000 = .ok sample_pair_decoded := by
  rfl

/-- The decode part of Pass 1 over the sample program, evaluated. -/
theorem sample_decode_block :
    decode_block (table_decoder 0x80000000 sample_prog) alloc_always 4
      ((List.replicate 16 0).drop 0) 16 0x80000000 = .ok sample_decoded := by
  rfl

/-- C2 (amended): Pass 1 over a block whose decoded instructions hold
`lui $t0, 0x1234` at `k` and `addiu $t0, $t0, 0x5678` at `k + 1`, in either
dialect. With pseudo-op handling enabled (`merge_pseudo` set) the two are left
linked to each other with resolved value `0x12345678`, the global scope holds
a label at `0x12345678`, and that label is `D_12345678` when the global scope
had no label at `0x12345678` before and no JAL, BAL or J before the ADDIU
targets that address. With pseudo-op handling disabled no hi/lo linking is
done: every instruction of the block is left unlinked (`linked_insn = -1`) and
every global label is one the scope had before or a `func_` label. -/
theorem pass1_links_lui_addiu (cs : capstone) (al : allocator) (fuel : Nat) (data : List Nat)
    (offset length vaddr : Nat) (state state2 : disasm_state) (st : decode_state) (k : Nat)
    (lui addiu : disasm_data)
    (h : mipsdisasm_pass1 cs al fuel data offset length vaddr state = .ok state2)
    (hd : decode_block cs al fuel (data.drop offset) length vaddr = .ok st)
    (hk : st.instructions[k]? = some lui) (hk1 : st.instructions[k + 1]? = some addiu)
    (hlui : lui.id = MIPS_INS_LUI ∧ (lui.op 0).reg = MIPS_REG_T0 ∧ (lui.op 1).imm = 0x1234)
    (haddiu : addiu.id = MIPS_INS_ADDIU ∧ (addiu.op 0).reg = MIPS_REG_T0 ∧
      (addiu.op 1).reg = MIPS_REG_T0 ∧ (addiu.op 2).imm = 0x5678) :
    (state.merge_pseudo = true →
      (insn_at (state2.block state.blocks.length).instructions k).linked_insn
        = ((k + 1 : Nat) : Int) ∧
      (insn_at (state2.block state.blocks.length).instructions (k + 1)).linked_insn = (k : Int) ∧
      (insn_at (state2.block state.blocks.length).instructions k).linked_value = 0x12345678 ∧
      (insn_at (state2.block state.blocks.length).instructions (k + 1)).linked_value
        = 0x12345678 ∧
      has_label_at state2.globals 0x12345678 ∧
      (¬ has_label_at state.globals 0x12345678 →
        (∀ (j : Nat) (d : disasm_data), j ≤ k → st.instructions[j]? = some d →
          ¬ (d.is_jump = true ∧ is_call_id d.id ∧ to_u32 (d.op 0).imm = 0x12345678)) →
        { name := "D_12345678", vaddr := 0x12345678 } ∈ state2.globals.labels)) ∧
    (state.merge_pseudo = false →
      (∀ j, j < (state2.block state.blocks.length).instructions.length →
        (insn_at (state2.block state.blocks.length).instructions j).linked_insn = -1) ∧
      ∀ l ∈ state2.globals.labels,
        l ∈ state.globals.labels ∨ l.name = "func_" ++ fmt_08X l.vaddr) := by
  obtain ⟨st2, hd2, rfl⟩ := mipsdisasm_pass1_ok cs al fuel data offset length vaddr state state2 h
  have hst : st2 = st := by
    rw [hd] at hd2; exact (Except.ok.inj hd2).symm
  subst hst
  obtain ⟨hinsn, _, hglob⟩ := pass1_result_block cs offset length vaddr state st2.instructions
  rw [hinsn, hglob]
  refine ⟨fun hmp => ?_, fun hmp => ?_⟩
  swap
  · rw [hmp]
    obtain ⟨u1, u2⟩ := resolve_upto_unfused cs state.syntax_
      ⟨state.globals, labels_alloc, st2.instructions⟩ st2.instructions.length (le_refl _)
    refine ⟨fun j hj => u1 j (by rw [resolve_upto_length] at hj; exact hj), fun l hl => ?_⟩
    exact u2 l ((labels_sort_perm _).mem_iff.mp hl)
  rw [hmp]
  have hlen : k + 1 < st2.instructions.length := (List.getElem?_eq_some.mp hk1).1
  have hdk : insn_at st2.instructions k = lui := insn_at_of_getElem? _ _ _ hk
  have hdk1 : insn_at st2.instructions (k + 1) = addiu := insn_at_of_getElem? _ _ _ hk1
  -- the state before the step for the ADDIU
  have hsk := resolve_upto_same cs state.syntax_ true
    ⟨state.globals, labels_alloc, st2.instructions⟩ (k + 1) k
  have hsk1 := resolve_upto_same cs state.syntax_ true
    ⟨state.globals, labels_alloc, st2.instructions⟩ (k + 1) (k + 1)
  have hidk := resolve_upto_id_succ cs state.syntax_ true
    ⟨state.globals, labels_alloc, st2.instructions⟩ k
    (by show (insn_at st2.instructions k).id ≠ _ ∧ (insn_at st2.instructions k).id ≠ _
        rw [hdk, hlui.1]; simp)
  have hidk1 := resolve_upto_id cs state.syntax_ true
    ⟨state.globals, labels_alloc, st2.instructions⟩ (k + 1) (k + 1) (le_refl _)
  have hguard : lui_addiu_at MIPS_REG_T0 k (resolve_upto cs state.syntax_ true
      ⟨state.globals, labels_alloc, st2.instructions⟩ (k + 1)).insn := by
    refine ⟨?_, ?_, ?_, ?_⟩
    · rw [hidk]; show (insn_at st2.instructions k).id = _; rw [hdk]; exact hlui.1
    · rw [same_decoded_op _ _ hsk 0]
      show ((insn_at st2.instructions k).op 0).reg = _; rw [hdk]; exact hlui.2.1
    · rw [hidk1]; show (insn_at st2.instructions (k + 1)).id = _; rw [hdk1]; exact haddiu.1
    · rw [same_decoded_op _ _ hsk1 0]
      show ((insn_at st2.instructions (k + 1)).op 0).reg = _; rw [hdk1]; exact haddiu.2.1
  have hop1 : ((insn_at (resolve_upto cs state.syntax_ true
      ⟨state.globals, labels_alloc, st2.instructions⟩ (k + 1)).insn (k + 1)).op 1).reg
      = MIPS_REG_T0 := by
    rw [same_decoded_op _ _ hsk1 1]
    show ((insn_at st2.instructions (k + 1)).op 1).reg = _; rw [hdk1]; exact haddiu.2.2.1
  have hop2 : to_u32 ((insn_at (resolve_upto cs state.syntax_ true
      ⟨state.globals, labels_alloc, st2.instructions⟩ (k + 1)).insn (k + 1)).op 2).imm
      = 0x5678 := by
    rw [same_decoded_op _ _ hsk1 2]
    show to_u32 ((insn_at st2.instructions (k + 1)).op 2).imm = _
    rw [hdk1, haddiu.2.2.2]; decide
  have haddr : hilo_addr (insn_at (resolve_upto cs state.syntax_ true
      ⟨state.globals, labels_alloc, st2.instructions⟩ (k + 1)).insn k) 0x5678 = 0x12345678 := by
    unfold hilo_addr
    rw [same_decoded_op _ _ hsk 1]
    show (to_u32 ((insn_at st2.instructions k).op 1).imm * 65536 + 22136) % 4294967296 = _
    rw [hdk, hlui.2.2]; decide
  obtain ⟨l1, l2, l3, l4, hg2, hglobals⟩ := disassemble_block_insn_links_pair cs state.syntax_
    MIPS_REG_T0 k _ (by rw [resolve_upto_length]; exact hlen) hguard hop1 (by decide)
    (by rw [hop2]; decide)
  rw [hop2, haddr] at l2 l4 hglobals
  rw [← resolve_upto_succ] at l1 l2 l3 l4 hg2 hglobals
  -- the later steps keep the pair
  have hkeep := resolve_upto_keeps cs state.syntax_ true MIPS_REG_T0 k
    ⟨state.globals, labels_alloc, st2.instructions⟩ (k + 1 + 1) st2.instructions.length
    (by omega) (by omega) hg2
  refine ⟨by rw [hkeep.1]; exact l1, by rw [hkeep.2]; exact l3, by rw [hkeep.1]; exact l2,
    by rw [hkeep.2]; exact l4, ?_, ?_⟩
  -- a label at the address
  · have h1 : has_label_at (resolve_upto cs state.syntax_ true
        ⟨state.globals, labels_alloc, st2.instructions⟩ (k + 1 + 1)).globals 0x12345678 := by
      rw [hglobals]; exact ensure_label_has _ _ _
    obtain ⟨l, hl, hv⟩ := h1
    exact ⟨l, (labels_sort_perm _).mem_iff.mpr
      (resolve_upto_mem_global cs state.syntax_ true _ (k + 1 + 1) _ _ (by omega) hl), hv⟩
  -- its name
  intro hnone hnocall
  refine (labels_sort_perm _).mem_iff.mpr ?_
  refine resolve_upto_mem_global cs state.syntax_ true _ (k + 1 + 1) _ _ (by omega) ?_
  rw [hglobals]
  have hnames := resolve_upto_names_at cs state.syntax_ true
    ⟨state.globals, labels_alloc, st2.instructions⟩ 0x12345678 (k + 1) hnone
    (fun j hj hc => hnocall j (insn_at st2.instructions j) (by omega)
      (getElem?_of_lt _ _ (by omega)) hc)
  by_cases hhas : has_label_at (resolve_upto cs state.syntax_ true
      ⟨state.globals, labels_alloc, st2.instructions⟩ (k + 1)).globals 0x12345678
  · rw [ensure_label_of_has _ _ _ hhas]
    obtain ⟨l, hl, hv⟩ := hhas
    have hn := hnames l hl hv
    have : l = { name := "D_12345678", vaddr := 0x12345678 } := by
      cases l
      simp only at hn hv
      rw [hn, hv]
      rfl
    rw [← this]; exact hl
  · rw [ensure_label_of_not_has _ _ _ hhas]
    exact List.mem_append_right _ (List.mem_singleton.mpr rfl)

/-- C2 (amended) at the sample program, with the LUI at 2 and the ADDIU at 3
(pseudo-op handling on), and at the pair alone with pseudo-op handling off. -/
theorem pass1_links_lui_addiu_witness :
    ((insn_at (sample_after.block 0).instructions 2).linked_insn = 3 ∧
      (insn_at (sample_after.block 0).instructions 3).linked_insn = 2 ∧
      (insn_at (sample_after.block 0).instructions 2).linked_value = 0x12345678 ∧
      (insn_at (sample_after.block 0).instructions 3).linked_value = 0x12345678 ∧
      has_label_at sample_after.globals 0x12345678 ∧
      { name := "D_12345678", vaddr := 0x12345678 } ∈ sample_after.globals.labels) ∧
    ((∀ j, j < (sample_pair_unfused.block 0).instructions.length →
        (insn_at (sample_pair_unfused.block 0).instructions j).linked_insn = -1) ∧
      ∀ l ∈ sample_pair_unfused.globals.labels,
        l ∈ (disasm_state_init ASM_GAS false).globals.labels ∨
          l.name = "func_" ++ fmt_08X l.vaddr) :=
  ⟨by
    have p := (pass1_links_lui_addiu (table_decoder 0x80000000 sample_prog) alloc_always 4
      (List.replicate 16 0) 0 16 0x80000000 (disasm_state_init ASM_GAS true) sample_after
      sample_decoded 2 (copy_insn cs_lui_t0) (copy_insn cs_addiu_t0) sample_pass1
      sample_decode_block rfl rfl (by decide) (by decide)).1 rfl
    refine ⟨p.1, p.2.1, p.2.2.1, p.2.2.2.1, p.2.2.2.2.1, p.2.2.2.2.2 ?_ ?_⟩
    · rintro ⟨l, hl, _⟩
      cases hl
    · intro j d hj hjd hc
      have hcases : j = 0 ∨ j = 1 ∨ j = 2 := by omega
      rcases hcases with rfl | rfl | rfl
      · obtain rfl : copy_insn cs_jal = d := Option.some.inj hjd
        exact absurd hc (by decide)
      · obtain rfl : copy_insn cs_beq = d := Option.some.inj hjd
        exact absurd hc (by decide)
      · obtain rfl : copy_insn cs_lui_t0 = d := Option.some.inj hjd
        exact absurd hc (by decide),
   (pass1_links_lui_addiu (table_decoder 0x80000000 [cs_lui_t0, cs_addiu_t0]) alloc_always 4
      (List.replicate 8 0) 0 8 0x80000000 (disasm_state_init ASM_GAS false) sample_pair_unfused
      sample_pair_decoded 0 (copy_insn cs_lui_t0) (copy_insn cs_addiu_t0)
      sample_pair_unfused_pass1 sample_pair_decode_block rfl rfl (by decide) (by decide)).2 rfl⟩

/-- C2 fails as stated: (a) with pseudo-op handling off, Pass 1 over
`lui $t0, 0x1234; addiu $t0, $t0, 0x5678` links nothing and creates no label;
(b) with it on, after a `jal 0x12345678` earlier in the block the label at
`0x12345678` is `func_12345678` and no `D_12345678` is created. -/
theorem pass1_hilo_needs_merge_pseudo :
    (∃ s, mipsdisasm_pass1 (table_decoder 0x80000000 [cs_lui_t0, cs_addiu_t0]) alloc_always 4
        (List.replicate 8 0) 0 8 0x80000000 (disasm_state_init ASM_GAS false) = .ok s ∧
      (insn_at (s.block 0).instructions 0).linked_insn = -1 ∧
      (insn_at (s.block 0).instructions 1).linked_insn = -1 ∧
      s.globals.labels = []) ∧
    (∃ s, mipsdisasm_pass1 (table_decoder 0x10000000 [cs_jal_data, cs_lui_t0, cs_addiu_t0])
        alloc_always 4 (List.replicate 12 0) 0 12 0x10000000 (disasm_state_init ASM_GAS true)
        = .ok s ∧
      s.globals.labels = [{ name := "func_12345678", vaddr := 0x12345678 }]) := by
  refine ⟨⟨_, rfl, ?_, ?_, ?_⟩, ⟨_, rfl, ?_⟩⟩ <;> decide

end MipsDisasm
